import Mathlib

/-!
# ProcessScheduling.c: growable buffers and the record parser

A shallow embedding of `src/ProcessScheduling/ProcessScheduling.c`.

Modelling conventions.

* `Status` is the C enum as its integer value (the parser adds status codes with `+=`).
* A `char` is its value after promotion to `int` (`CChar := Int`), so nothing depends on
  whether `char` is signed.
* A buffer is the list of its allocated slots. A read outside the allocation has no defined
  value in C; here it yields the indeterminate value carried by `Mem`, and a write outside the
  allocation is dropped. Theorems quantify over every `Mem`.
* `malloc`/`realloc` are calls that may fail: `Mem.sched` lists the outcomes of the coming
  requests, oldest first, and every request after the list is used up succeeds. Storage obtained
  from the allocator holds the indeterminate value of `Mem`.
* `String *` and `DynamicArray *` parameters are modelled by the object pointed to: every such
  function starts with a guard that returns `DS_ERR_NULL_POINTER` (or `false`) on `NULL` before
  touching any state. Table elements (`Process *`) and `Process.name` keep their `NULL` case as
  `none`.
* `size_t` values are natural numbers; the wrap-around modulo `2^64` is modelled where the code
  relies on it (the index of `dar_remove_keys`).
* Loops are structurally recursive on an iteration budget; unbounded loops return `none` when the
  budget runs out.
-/

namespace ProcessScheduling

/-! ## Core.h -/

abbrev Status := Nat

abbrev DS_OK : Status := 0
abbrev DS_ERR_INVALID_POSITION : Status := 1
abbrev DS_ERR_INVALID_OPERATION : Status := 2
abbrev DS_ERR_INVALID_SIZE : Status := 3
abbrev DS_ERR_NOT_FOUND : Status := 4
abbrev DS_ERR_ALLOC : Status := 5
abbrev DS_ERR_UNEXPECTED_RESULT : Status := 6
abbrev DS_ERR_ITER : Status := 7
abbrev DS_ERR_NULL_POINTER : Status := 8
abbrev DS_ERR_FULL : Status := 9
abbrev DS_ERR_INVALID_ARGUMENT : Status := 10

/-- A C `char`, as the value it has after integer promotion. -/
abbrev CChar := Int

/-- Largest `size_t` plus one. -/
abbrev SIZE_MOD : Nat := 2 ^ 64

abbrev STRING_INIT_SIZE : Nat := 8
abbrev STRING_GROW_RATE : Nat := 2
abbrev DYNAMIC_ARRAY_INIT_SIZE : Nat := 8
abbrev DYNAMIC_ARRAY_GROW_RATE : Nat := 2

/-! ## Data model -/

/-- The `String` struct: `buffer` lists the allocated slots. -/
structure CString where
  buffer : List CChar
  len : Nat
  capacity : Nat
  growth_rate : Nat
deriving DecidableEq

/-- The `Process` struct; `name` is a `String *`. -/
structure Process where
  name : Option CString
  pid : Nat
  cpu : Nat
  io : Nat
  pri : Nat
deriving DecidableEq

/-- The `DynamicArray` struct with `DS_DAR_T = Process *`. -/
structure DynamicArray where
  buffer : List (Option Process)
  size : Nat
  capacity : Nat
  growth_rate : Nat
deriving DecidableEq

/-- The `QueueArray` struct with `QUEUE_T = Process *`. -/
structure QueueArray where
  buffer : List (Option Process)
  length : Nat
  capacity : Nat
  growth_rate : Nat
deriving DecidableEq

/-- What the program cannot control: the outcomes of the coming allocation requests and the
indeterminate values found in storage the program has not written. -/
structure Mem where
  sched : List Bool
  junkc : CChar
  junkp : Option Process
  junkn : Nat
deriving DecidableEq

/-- One `malloc`/`realloc` request: its outcome and the allocator afterwards. -/
def Mem.request (m : Mem) : Bool × Mem :=
  match m.sched with
  | [] => (true, m)
  | b :: rest => (b, { m with sched := rest })

/-- An allocator none of whose coming requests fails. -/
def Mem.NeverFails (m : Mem) : Prop := ∀ b ∈ m.sched, b = true

/-- The storage after `realloc(buffer, new_capacity)` succeeded: the old slots that still fit,
followed by indeterminate new slots. -/
def realloc_slots {α : Type} (junk : α) (buffer : List α) (new_capacity : Nat) : List α :=
  (buffer ++ List.replicate (new_capacity - buffer.length) junk).take new_capacity

/-- The loop `for (i = start; i > stop; i--) buf[i] = buf[i - 1];`, recursive on `start`. -/
def shift_up_loop {α : Type} (junk : α) (stop : Nat) : Nat → List α → List α
  | 0, buf => buf
  | i + 1, buf =>
    if stop < i + 1 then shift_up_loop junk stop i (buf.set (i + 1) (buf.getD i junk))
    else buf

/-- The loop `for (i = start; i < n; i++) buf[i] = buf[i + 1];` with `k` iterations left to
try and `i` the current index. -/
def shift_down_loop {α : Type} (junk : α) (n : Nat) : Nat → Nat → List α → List α
  | 0, _, buf => buf
  | k + 1, i, buf =>
    if i < n then shift_down_loop junk n k (i + 1) (buf.set i (buf.getD (i + 1) junk))
    else buf

/-! ## String.c -/

/-- The stored bytes `buffer[0 .. len)`. -/
def CString.bytes (s : CString) : List CChar := s.buffer.take s.len

def str_buffer_full (str : CString) : Bool := decide (str.len + 1 ≥ str.capacity)

def str_buffer_empty (str : CString) : Bool := decide (str.len = 0)

def str_buffer_fits (str : CString) (str_len : Nat) : Bool :=
  decide (str.len + str_len < str.capacity)

/-- Function `str_init`: two `malloc` calls; when the second one fails the struct exists with
indeterminate fields and no buffer. -/
def str_init (mem : Mem) : Status × Option CString × Mem :=
  match mem.request with
  | (false, mem1) => (DS_ERR_ALLOC, none, mem1)
  | (true, mem1) =>
    match mem1.request with
    | (false, mem2) =>
      (DS_ERR_ALLOC,
        some { buffer := [], len := mem.junkn, capacity := mem.junkn, growth_rate := mem.junkn },
        mem2)
    | (true, mem2) =>
      (DS_OK,
        some { buffer := (List.replicate STRING_INIT_SIZE mem.junkc).set 0 0,
               len := 0, capacity := STRING_INIT_SIZE, growth_rate := STRING_GROW_RATE },
        mem2)

def str_realloc (str : CString) (mem : Mem) : Status × CString × Mem :=
  let capacity := str.capacity * str.growth_rate
  match mem.request with
  | (false, mem1) => (DS_ERR_ALLOC, { str with capacity := capacity / str.growth_rate }, mem1)
  | (true, mem1) =>
    let buffer := realloc_slots mem.junkc str.buffer capacity
    (DS_OK, { str with capacity := capacity, buffer := buffer.set str.len 0 }, mem1)

def str_push_char_front (str : CString) (ch : CChar) (mem : Mem) : Status × CString × Mem :=
  let grown : Status × CString × Mem :=
    if str_buffer_full str then str_realloc str mem else (DS_OK, str, mem)
  match grown with
  | (st, str1, mem1) =>
    if st ≠ DS_OK then (st, str1, mem1)
    else
      let buffer := shift_up_loop mem.junkc 0 str1.len str1.buffer
      let buffer := buffer.set 0 ch
      let len := str1.len + 1
      (DS_OK, { str1 with buffer := buffer.set len 0, len := len }, mem1)

def str_push_char_back (str : CString) (ch : CChar) (mem : Mem) : Status × CString × Mem :=
  let grown : Status × CString × Mem :=
    if str_buffer_full str then str_realloc str mem else (DS_OK, str, mem)
  match grown with
  | (st, str1, mem1) =>
    if st ≠ DS_OK then (st, str1, mem1)
    else
      let buffer := str1.buffer.set str1.len ch
      let len := str1.len + 1
      (DS_OK, { str1 with buffer := buffer.set len 0, len := len }, mem1)

def str_push_char_at (str : CString) (ch : CChar) (index : Nat) (mem : Mem) :
    Status × CString × Mem :=
  if index > str.len then (DS_ERR_INVALID_POSITION, str, mem)
  else if index = 0 then
    match str_push_char_front str ch mem with
    | (st, str1, mem1) => if st ≠ DS_OK then (st, str1, mem1) else (DS_OK, str1, mem1)
  else if index = str.len then
    match str_push_char_front str ch mem with
    | (st, str1, mem1) => if st ≠ DS_OK then (st, str1, mem1) else (DS_OK, str1, mem1)
  else
    let grown : Status × CString × Mem :=
      if str_buffer_full str then str_realloc str mem else (DS_OK, str, mem)
    match grown with
    | (st, str1, mem1) =>
      if st ≠ DS_OK then (st, str1, mem1)
      else
        let buffer := shift_up_loop mem.junkc index str1.len str1.buffer
        let buffer := buffer.set index ch
        let len := str1.len + 1
        (DS_OK, { str1 with buffer := buffer.set len 0, len := len }, mem1)

def str_pop_char_front (str : CString) (mem : Mem) : Status × CString :=
  if str_buffer_empty str then (DS_ERR_INVALID_OPERATION, str)
  else
    let buffer := shift_down_loop mem.junkc str.len str.len 0 str.buffer
    let len := str.len - 1
    (DS_OK, { str with buffer := buffer.set len 0, len := len })

/-- Function `str_delete`: frees the string and sets the pointer to `NULL`. -/
def str_delete (str : Option CString) : Status × Option CString :=
  match str with
  | none => (DS_ERR_NULL_POINTER, none)
  | some _ => (DS_OK, none)

/-- The scan of `str_greater`, `i` the current index and `k` the iterations left to try;
`none` when the loop ends without returning. -/
def str_greater_loop (mem : Mem) (b1 b2 : List CChar) (len : Nat) : Nat → Nat → Option Bool
  | 0, _ => none
  | k + 1, i =>
    if i < len then
      if b1.getD i mem.junkc - b2.getD i mem.junkc < 0 then some true
      else if b1.getD i mem.junkc - b2.getD i mem.junkc > 0 then some false
      else str_greater_loop mem b1 b2 len k (i + 1)
    else none

def str_greater (str1 str2 : CString) (mem : Mem) : Bool :=
  let len := if str1.len > str2.len then str2.len else str1.len
  match str_greater_loop mem str1.buffer str2.buffer len len 0 with
  | some r => r
  | none => if str1.len > str2.len then true else false

/-- The scan of `str_equals`; `none` when the loop ends without returning. -/
def str_equals_loop (mem : Mem) (b1 b2 : List CChar) (len : Nat) : Nat → Nat → Option Bool
  | 0, _ => none
  | k + 1, i =>
    if i < len then
      if b1.getD i mem.junkc ≠ b2.getD i mem.junkc then some false
      else str_equals_loop mem b1 b2 len k (i + 1)
    else none

def str_equals (str1 str2 : CString) (mem : Mem) : Bool :=
  if str1.len ≠ str2.len then false
  else
    match str_equals_loop mem str1.buffer str2.buffer str1.len str1.len 0 with
    | some r => r
    | none => true

/-- The scan of `str_lesser`; `none` when the loop ends without returning. -/
def str_lesser_loop (mem : Mem) (b1 b2 : List CChar) (len : Nat) : Nat → Nat → Option Bool
  | 0, _ => none
  | k + 1, i =>
    if i < len then
      if b1.getD i mem.junkc - b2.getD i mem.junkc > 0 then some true
      else if b1.getD i mem.junkc - b2.getD i mem.junkc < 0 then some false
      else str_lesser_loop mem b1 b2 len k (i + 1)
    else none

def str_lesser (str1 str2 : CString) (mem : Mem) : Bool :=
  let len := if str1.len > str2.len then str2.len else str1.len
  match str_lesser_loop mem str1.buffer str2.buffer len len 0 with
  | some r => r
  | none => if str1.len < str2.len then false else true

/-- Function `str_compare`: the status and the value stored in `*result`. -/
def str_compare (str1 str2 : CString) (mem : Mem) : Status × Int :=
  if str_greater str1 str2 mem then (DS_OK, 1)
  else if str_lesser str1 str2 mem then (DS_OK, -1)
  else (DS_OK, 0)

/-- Function `str_len` on a `char *` argument, modelled by the list of characters found at the
pointer: the text stops at the first `'\0'` (or where the list ends). -/
def str_len (ch : List CChar) : Nat := (ch.takeWhile (fun c => c ≠ 0)).length

/-- The loop `while (!str_buffer_fits(str, len)) { st = str_realloc(str); if (st != DS_OK)
return st; }` that precedes every substring insertion. `none`: the budget ran out. -/
def str_fit_loop (len : Nat) : Nat → CString → Mem → Option (Status × CString × Mem)
  | 0, _, _ => none
  | fuel + 1, str, mem =>
    if !str_buffer_fits str len then
      match str_realloc str mem with
      | (st, str1, mem1) =>
        if st ≠ DS_OK then some (st, str1, mem1)
        else str_fit_loop len fuel str1 mem1
    else some (DS_OK, str, mem)

/-- The loop `for (i = start; i > 0; i--) buf[i + len - 1] = buf[i - 1];`, recursive on
`start`. -/
def move_up_loop (junk : CChar) (len : Nat) : Nat → List CChar → List CChar
  | 0, buf => buf
  | i + 1, buf => move_up_loop junk len i (buf.set (i + 1 + len - 1) (buf.getD i junk))

/-- The loop `for (i = start; i >= stop; i--) buf[i + len] = buf[i];`, recursive on `start`.
`i` is a `size_t`: with `stop = 0` the test never fails and the loop has no result (`none`). -/
def move_up_incl_loop (junk : CChar) (len stop : Nat) : Nat → List CChar → Option (List CChar)
  | 0, buf => if 0 ≥ stop then none else some buf
  | i + 1, buf =>
    if i + 1 ≥ stop then
      move_up_incl_loop junk len stop i (buf.set (i + 1 + len) (buf.getD (i + 1) junk))
    else some buf

/-- The loop `for (i = start, j = 0; i < stop; i++, j++) buf[i] = ch[j];` with `k` iterations
left to try. -/
def copy_loop (junk : CChar) (ch : List CChar) (stop : Nat) :
    Nat → Nat → Nat → List CChar → List CChar
  | 0, _, _, buf => buf
  | k + 1, i, j, buf =>
    if i < stop then copy_loop junk ch stop k (i + 1) (j + 1) (buf.set i (ch.getD j junk))
    else buf

/-- Function `str_push_front` with a budget for its growth loop. -/
def str_push_front (fuel : Nat) (str : CString) (ch : List CChar) (mem : Mem) :
    Option (Status × CString × Mem) :=
  let len := str_len ch
  if len = 0 then some (DS_ERR_INVALID_ARGUMENT, str, mem)
  else
    match str_fit_loop len fuel str mem with
    | none => none
    | some (st, str1, mem1) =>
      if st ≠ DS_OK then some (st, str1, mem1)
      else
        let buffer := move_up_loop mem.junkc len str1.len str1.buffer
        let buffer := copy_loop mem.junkc ch len len 0 0 buffer
        let len1 := str1.len + len
        some (DS_OK, { str1 with buffer := buffer.set len1 0, len := len1 }, mem1)

/-- Function `str_push_back` with a budget for its growth loop. -/
def str_push_back (fuel : Nat) (str : CString) (ch : List CChar) (mem : Mem) :
    Option (Status × CString × Mem) :=
  let len := str_len ch
  if len = 0 then some (DS_ERR_INVALID_ARGUMENT, str, mem)
  else
    match str_fit_loop len fuel str mem with
    | none => none
    | some (st, str1, mem1) =>
      if st ≠ DS_OK then some (st, str1, mem1)
      else
        let buffer := copy_loop mem.junkc ch (len + str1.len) len str1.len 0 str1.buffer
        let len1 := str1.len + len
        some (DS_OK, { str1 with buffer := buffer.set len1 0, len := len1 }, mem1)

/-- Function `str_push_at` with a budget for its growth loop; it has no check of `index`
against the length. -/
def str_push_at (fuel : Nat) (str : CString) (ch : List CChar) (index : Nat) (mem : Mem) :
    Option (Status × CString × Mem) :=
  if index = 0 then
    match str_push_front fuel str ch mem with
    | none => none
    | some (st, str1, mem1) =>
      if st ≠ DS_OK then some (st, str1, mem1) else some (DS_OK, str1, mem1)
  else if index = str.len then
    match str_push_back fuel str ch mem with
    | none => none
    | some (st, str1, mem1) =>
      if st ≠ DS_OK then some (st, str1, mem1) else some (DS_OK, str1, mem1)
  else
    let len := str_len ch
    if len = 0 then some (DS_ERR_INVALID_ARGUMENT, str, mem)
    else
      match str_fit_loop len fuel str mem with
      | none => none
      | some (st, str1, mem1) =>
        if st ≠ DS_OK then some (st, str1, mem1)
        else
          match move_up_incl_loop mem.junkc len index str1.len str1.buffer with
          | none => none
          | some buffer =>
            let buffer := copy_loop mem.junkc ch (index + len) len index 0 buffer
            let len1 := str1.len + len
            some (DS_OK, { str1 with buffer := buffer.set len1 0, len := len1 }, mem1)

def str_pop_char_back (str : CString) : Status × CString :=
  if str_buffer_empty str then (DS_ERR_INVALID_OPERATION, str)
  else
    let len := str.len - 1
    (DS_OK, { str with buffer := str.buffer.set len 0, len := len })

def str_pop_char_at (str : CString) (index : Nat) (mem : Mem) : Status × CString :=
  if str_buffer_empty str then (DS_ERR_INVALID_OPERATION, str)
  else if index ≥ str.len then (DS_ERR_INVALID_POSITION, str)
  else if index = 0 then
    match str_pop_char_front str mem with
    | (st, str1) => if st ≠ DS_OK then (st, str1) else (DS_OK, str1)
  else if index = str.len - 1 then
    match str_pop_char_back str with
    | (st, str1) => if st ≠ DS_OK then (st, str1) else (DS_OK, str1)
  else
    let buffer := shift_down_loop mem.junkc str.len (str.len - index) index str.buffer
    let len := str.len - 1
    (DS_OK, { str with buffer := buffer.set len 0, len := len })

/-- The loop `while (*s2++ = *s1++);` of `str_copy`: `src` is what is left of the source
buffer and `j` the index written in `dst`. A read past the source buffer yields the
indeterminate byte; unless that byte is `'\0'` the loop has no result (`none`). -/
def c_copy_loop (junk : CChar) : List CChar → Nat → List CChar → Option (List CChar)
  | [], j, dst => if junk = 0 then some (dst.set j 0) else none
  | c :: rest, j, dst =>
    if c = 0 then some (dst.set j 0)
    else c_copy_loop junk rest (j + 1) (dst.set j c)

/-- Function `str_copy` with a budget for its growth loop: the status, `*result` and the
allocator afterwards. -/
def str_copy (fuel : Nat) (str : CString) (mem : Mem) :
    Option (Status × Option CString × Mem) :=
  match str_init mem with
  | (st, result, mem1) =>
    if st ≠ DS_OK then some (st, result, mem1)
    else
      match result with
      | none => none
      | some result =>
        match str_fit_loop str.len fuel result mem1 with
        | none => none
        | some (st, result1, mem2) =>
          if st ≠ DS_OK then some (st, some result1, mem2)
          else
            match c_copy_loop mem.junkc str.buffer 0 result1.buffer with
            | none => none
            | some buffer =>
              some (DS_OK, some { result1 with buffer := buffer, len := str.len }, mem2)

/-- The loop `while (new_capacity <= length) new_capacity *= STRING_GROW_RATE;` of `str_make`:
the value of `new_capacity` afterwards. `none`: the budget ran out. -/
def str_make_capacity (length : Nat) : Nat → Nat → Option Nat
  | 0, _ => none
  | fuel + 1, new_capacity =>
    if new_capacity ≤ length then
      str_make_capacity length fuel (new_capacity * STRING_GROW_RATE)
    else some new_capacity

/-- Function `str_make` with a budget for its capacity loop: the status, `*str` (`none` when
it has not been assigned) and the allocator afterwards. -/
def str_make (fuel : Nat) (string : List CChar) (mem : Mem) :
    Option (Status × Option CString × Mem) :=
  let length := str_len string
  if length = 0 then some (DS_ERR_INVALID_ARGUMENT, none, mem)
  else
    match str_init mem with
    | (st, str, mem1) =>
      if st ≠ DS_OK then some (st, str, mem1)
      else
        match str with
        | none => none
        | some str =>
          let grown : Option (Status × CString × Mem) :=
            if str.capacity ≤ length then
              match str_make_capacity length fuel STRING_INIT_SIZE with
              | none => none
              | some new_capacity =>
                match mem1.request with
                | (false, mem2) =>
                  some (DS_ERR_ALLOC, { str with capacity := STRING_INIT_SIZE }, mem2)
                | (true, mem2) =>
                  some (DS_OK,
                    { str with buffer := realloc_slots mem.junkc str.buffer new_capacity,
                               capacity := new_capacity }, mem2)
            else some (DS_OK, str, mem1)
          match grown with
          | none => none
          | some (st, str1, mem2) =>
            if st ≠ DS_OK then some (st, some str1, mem2)
            else
              let buffer := copy_loop mem.junkc string length length 0 0 str1.buffer
              some (DS_OK, some { str1 with len := length, buffer := buffer.set length 0 }, mem2)

/-- Function `str_prepend` with a budget for its growth loop. `str2` is a `String` other than
`str1`: its length and bytes are those from before the call throughout. -/
def str_prepend (fuel : Nat) (str1 str2 : CString) (mem : Mem) :
    Option (Status × CString × Mem) :=
  if str_buffer_empty str2 then some (DS_OK, str1, mem)
  else
    match str_fit_loop str2.len fuel str1 mem with
    | none => none
    | some (st, str, mem1) =>
      if st ≠ DS_OK then some (st, str, mem1)
      else
        let buffer := move_up_loop mem.junkc str2.len str.len str.buffer
        let buffer := copy_loop mem.junkc str2.buffer str2.len str2.len 0 0 buffer
        let len := str.len + str2.len
        some (DS_OK, { str with buffer := buffer.set len 0, len := len }, mem1)

/-- Function `str_append` with a budget for its growth loop. `str2` is a `String` other than
`str1`, as in `str_prepend`. -/
def str_append (fuel : Nat) (str1 str2 : CString) (mem : Mem) :
    Option (Status × CString × Mem) :=
  if str_buffer_empty str2 then some (DS_OK, str1, mem)
  else
    match str_fit_loop str2.len fuel str1 mem with
    | none => none
    | some (st, str, mem1) =>
      if st ≠ DS_OK then some (st, str, mem1)
      else
        let buffer :=
          copy_loop mem.junkc str2.buffer (str.len + str2.len) str2.len str.len 0 str.buffer
        let len := str.len + str2.len
        some (DS_OK, { str with buffer := buffer.set len 0, len := len }, mem1)

/-- Function `str_add` with a budget for its growth loop; it has no check of `index` against
the length. `str2` is a `String` other than `str1`, as in `str_prepend`. -/
def str_add (fuel : Nat) (str1 str2 : CString) (index : Nat) (mem : Mem) :
    Option (Status × CString × Mem) :=
  if index = 0 then
    match str_prepend fuel str1 str2 mem with
    | none => none
    | some (st, str, mem1) =>
      if st ≠ DS_OK then some (st, str, mem1) else some (DS_OK, str, mem1)
  else if index = str1.len then
    match str_append fuel str1 str2 mem with
    | none => none
    | some (st, str, mem1) =>
      if st ≠ DS_OK then some (st, str, mem1) else some (DS_OK, str, mem1)
  else
    match str_fit_loop str2.len fuel str1 mem with
    | none => none
    | some (st, str, mem1) =>
      if st ≠ DS_OK then some (st, str, mem1)
      else
        match move_up_incl_loop mem.junkc str2.len index str.len str.buffer with
        | none => none
        | some buffer =>
          let buffer :=
            copy_loop mem.junkc str2.buffer (index + str2.len) str2.len index 0 buffer
          let len := str.len + str2.len
          some (DS_OK, { str with buffer := buffer.set len 0, len := len }, mem1)

def str_clear (str : CString) : Status × CString :=
  (DS_OK, { str with len := 0, buffer := str.buffer.set 0 0 })

/-! ## Process.c -/

/-- Function `prc_init`: one `malloc`, then the fields are stored. -/
def prc_init (name : Option CString) (pid cpu io pri : Nat) (mem : Mem) :
    Status × Option Process × Mem :=
  match mem.request with
  | (false, mem1) => (DS_ERR_ALLOC, none, mem1)
  | (true, mem1) =>
    (DS_OK, some { name := name, pid := pid, cpu := cpu, io := io, pri := pri }, mem1)

/-- Function `prc_delete`: the status and the pointer afterwards. -/
def prc_delete (prc : Option Process) : Status × Option Process :=
  match prc with
  | none => (DS_ERR_NULL_POINTER, none)
  | some p =>
    match str_delete p.name with
    | (st, name1) =>
      if st ≠ DS_OK then (st, some { p with name := name1 })
      else (DS_OK, none)

def prc_compare (prc1 prc2 : Option Process) : Int :=
  match prc1, prc2 with
  | some p1, some p2 =>
    if p1.pid > p2.pid then 1
    else if p1.pid < p2.pid then -1
    else 0
  | _, _ => 0

/-! ## QueueArray.c -/

def qua_is_empty (qua : QueueArray) : Bool := decide (qua.length = 0)

def qua_is_full (qua : QueueArray) : Bool := decide (qua.length = qua.capacity)

def qua_realloc (qua : QueueArray) (mem : Mem) : Status × QueueArray × Mem :=
  let capacity := qua.capacity * qua.growth_rate
  match mem.request with
  | (false, mem1) => (DS_ERR_ALLOC, { qua with capacity := capacity / qua.growth_rate }, mem1)
  | (true, mem1) =>
    (DS_OK, { qua with capacity := capacity,
                       buffer := realloc_slots mem.junkp qua.buffer capacity }, mem1)

def qua_enqueue (qua : QueueArray) (value : Option Process) (mem : Mem) :
    Status × QueueArray × Mem :=
  let grown : Status × QueueArray × Mem :=
    if qua_is_full qua then qua_realloc qua mem else (DS_OK, qua, mem)
  match grown with
  | (st, qua1, mem1) =>
    if st ≠ DS_OK then (st, qua1, mem1)
    else
      (DS_OK, { qua1 with buffer := qua1.buffer.set qua1.length value,
                          length := qua1.length + 1 }, mem1)

/-- Function `qua_dequeue`: the status, the queue and `*value` afterwards (`*value` is set to 0
first). The shift loop runs over `i < length - 1`; the length is not written. -/
def qua_dequeue (qua : QueueArray) (mem : Mem) : Status × QueueArray × Option Process :=
  if qua_is_empty qua then (DS_ERR_INVALID_OPERATION, qua, none)
  else
    let value := qua.buffer.getD 0 mem.junkp
    let buffer := shift_down_loop mem.junkp (qua.length - 1) (qua.length - 1) 0 qua.buffer
    (DS_OK, { qua with buffer := buffer }, value)

/-! ## DynamicArray.c -/

/-- The live elements `buffer[0 .. size)`. -/
def DynamicArray.live (dar : DynamicArray) : List (Option Process) := dar.buffer.take dar.size

def dar_is_empty (dar : DynamicArray) : Bool := decide (dar.size = 0)

def dar_is_full (dar : DynamicArray) : Bool := decide (dar.size = dar.capacity)

/-- Function `dar_init`: `malloc` of the struct, `calloc` of the zero-filled buffer. -/
def dar_init (mem : Mem) : Status × Option DynamicArray × Mem :=
  match mem.request with
  | (false, mem1) => (DS_ERR_ALLOC, none, mem1)
  | (true, mem1) =>
    match mem1.request with
    | (false, mem2) =>
      (DS_ERR_ALLOC,
        some { buffer := [], size := mem.junkn, capacity := mem.junkn, growth_rate := mem.junkn },
        mem2)
    | (true, mem2) =>
      (DS_OK,
        some { buffer := List.replicate DYNAMIC_ARRAY_INIT_SIZE none, size := 0,
               capacity := DYNAMIC_ARRAY_INIT_SIZE, growth_rate := DYNAMIC_ARRAY_GROW_RATE },
        mem2)

def dar_realloc (dar : DynamicArray) (mem : Mem) : Status × DynamicArray × Mem :=
  let capacity := dar.capacity * dar.growth_rate
  match mem.request with
  | (false, mem1) => (DS_ERR_ALLOC, { dar with capacity := capacity / dar.growth_rate }, mem1)
  | (true, mem1) =>
    (DS_OK, { dar with capacity := capacity,
                       buffer := realloc_slots mem.junkp dar.buffer capacity }, mem1)

def dar_insert_front (dar : DynamicArray) (value : Option Process) (mem : Mem) :
    Status × DynamicArray × Mem :=
  let grown : Status × DynamicArray × Mem :=
    if dar_is_full dar then dar_realloc dar mem else (DS_OK, dar, mem)
  match grown with
  | (st, dar1, mem1) =>
    if st ≠ DS_OK then (st, dar1, mem1)
    else
      let buffer := shift_up_loop mem.junkp 0 dar1.size dar1.buffer
      (DS_OK, { dar1 with buffer := buffer.set 0 value, size := dar1.size + 1 }, mem1)

def dar_insert_back (dar : DynamicArray) (value : Option Process) (mem : Mem) :
    Status × DynamicArray × Mem :=
  let grown : Status × DynamicArray × Mem :=
    if dar_is_full dar then dar_realloc dar mem else (DS_OK, dar, mem)
  match grown with
  | (st, dar1, mem1) =>
    if st ≠ DS_OK then (st, dar1, mem1)
    else
      (DS_OK, { dar1 with buffer := dar1.buffer.set dar1.size value, size := dar1.size + 1 }, mem1)

def dar_insert_at (dar : DynamicArray) (value : Option Process) (index : Nat) (mem : Mem) :
    Status × DynamicArray × Mem :=
  if index > dar.size then (DS_ERR_INVALID_POSITION, dar, mem)
  else if index = 0 then
    match dar_insert_front dar value mem with
    | (st, dar1, mem1) => if st ≠ DS_OK then (st, dar1, mem1) else (DS_OK, dar1, mem1)
  else if index = dar.size then
    match dar_insert_back dar value mem with
    | (st, dar1, mem1) => if st ≠ DS_OK then (st, dar1, mem1) else (DS_OK, dar1, mem1)
  else
    let grown : Status × DynamicArray × Mem :=
      if dar_is_full dar then dar_realloc dar mem else (DS_OK, dar, mem)
    match grown with
    | (st, dar1, mem1) =>
      if st ≠ DS_OK then (st, dar1, mem1)
      else
        let buffer := shift_up_loop mem.junkp index dar1.size dar1.buffer
        (DS_OK, { dar1 with buffer := buffer.set index value, size := dar1.size + 1 }, mem1)

/-- Function `dar_remove_front`; the last component is `*result` afterwards, `result` being its value
before the call. -/
def dar_remove_front (dar : DynamicArray) (result : Option Process) (mem : Mem) :
    Status × DynamicArray × Option Process :=
  if dar_is_empty dar then (DS_ERR_INVALID_OPERATION, dar, result)
  else
    let result1 := dar.buffer.getD 0 mem.junkp
    let buffer := shift_down_loop mem.junkp dar.size dar.size 0 dar.buffer
    (DS_OK, { dar with buffer := buffer, size := dar.size - 1 }, result1)

def dar_remove_back (dar : DynamicArray) (result : Option Process) (mem : Mem) :
    Status × DynamicArray × Option Process :=
  if dar_is_empty dar then (DS_ERR_INVALID_OPERATION, dar, result)
  else
    let result1 := dar.buffer.getD (dar.size - 1) mem.junkp
    (DS_OK, { dar with size := dar.size - 1 }, result1)

def dar_remove_at (dar : DynamicArray) (index : Nat) (result : Option Process) (mem : Mem) :
    Status × DynamicArray × Option Process :=
  if dar_is_empty dar then (DS_ERR_INVALID_OPERATION, dar, result)
  else if index ≥ dar.size then (DS_ERR_INVALID_POSITION, dar, result)
  else if index = 0 then
    match dar_remove_front dar result mem with
    | (st, dar1, result1) => if st ≠ DS_OK then (st, dar1, result1) else (DS_OK, dar1, result1)
  else if index = dar.size - 1 then
    match dar_remove_back dar result mem with
    | (st, dar1, result1) => if st ≠ DS_OK then (st, dar1, result1) else (DS_OK, dar1, result1)
  else
    let result1 := dar.buffer.getD index mem.junkp
    let buffer := shift_down_loop mem.junkp dar.size (dar.size - index) index dar.buffer
    (DS_OK, { dar with buffer := buffer, size := dar.size - 1 }, result1)

/-- The indices of the slots that the loop `for (i = start; i < n; i++) buf[i] = buf[i + 1];`
reads, in the order of the reads; `k` iterations are left to try and `i` is the current
index. -/
def shift_down_reads (n : Nat) : Nat → Nat → List Nat
  | 0, _ => []
  | k + 1, i => if i < n then (i + 1) :: shift_down_reads n k (i + 1) else []

/-- The indices of the buffer slots that a call of `dar_remove_front` reads. -/
def dar_remove_front_reads (dar : DynamicArray) : List Nat :=
  if dar_is_empty dar then []
  else 0 :: shift_down_reads dar.size dar.size 0

/-- The indices of the buffer slots that a call of `dar_remove_back` reads. -/
def dar_remove_back_reads (dar : DynamicArray) : List Nat :=
  if dar_is_empty dar then []
  else [dar.size - 1]

/-- The indices of the buffer slots that a call of `dar_remove_at` reads. -/
def dar_remove_at_reads (dar : DynamicArray) (index : Nat) : List Nat :=
  if dar_is_empty dar then []
  else if index ≥ dar.size then []
  else if index = 0 then dar_remove_front_reads dar
  else if index = dar.size - 1 then dar_remove_back_reads dar
  else index :: shift_down_reads dar.size (dar.size - index) index

/-- The loop of `dar_remove_keys`: `i` is a `size_t`, so the `i--` taken at `i = 0` wraps to
`SIZE_MAX` and the `i++` of the loop header wraps back to `0`. `none`: the budget ran out. -/
def dar_remove_keys_loop (value : Option Process) (mem : Mem) :
    Nat → Nat → DynamicArray → Option Process → Option (Status × DynamicArray)
  | 0, _, _, _ => none
  | fuel + 1, i, dar, result =>
    if i < dar.size then
      if prc_compare (dar.buffer.getD i mem.junkp) value = 0 then
        match dar_remove_at dar i result mem with
        | (st, dar1, result1) =>
          if st ≠ DS_OK then some (st, dar1)
          else
            match prc_delete result1 with
            | (st2, result2) =>
              if st2 ≠ DS_OK then some (st2, dar1)
              else
                let i1 := (i + (SIZE_MOD - 1)) % SIZE_MOD
                dar_remove_keys_loop value mem fuel ((i1 + 1) % SIZE_MOD) dar1 result2
      else dar_remove_keys_loop value mem fuel ((i + 1) % SIZE_MOD) dar result
    else some (DS_OK, dar)

/-- Function `dar_remove_keys` with a budget of loop iterations; the local `result` starts
indeterminate. -/
def dar_remove_keys (fuel : Nat) (dar : DynamicArray) (value : Option Process) (mem : Mem) :
    Option (Status × DynamicArray) :=
  if dar_is_empty dar then some (DS_ERR_INVALID_OPERATION, dar)
  else dar_remove_keys_loop value mem fuel 0 dar mem.junkp

/-- The loop of `dar_find_max_pos`, with `k` iterations left to try, `i` the current index
and `result` the position found so far. -/
def dar_find_max_pos_loop (dar : DynamicArray) (mem : Mem) : Nat → Nat → Nat → Nat
  | 0, _, result => result
  | k + 1, i, result =>
    if i < dar.size then
      if prc_compare (dar.buffer.getD i mem.junkp) (dar.buffer.getD result mem.junkp) > 0 then
        dar_find_max_pos_loop dar mem k (i + 1) i
      else dar_find_max_pos_loop dar mem k (i + 1) result
    else result

/-- Function `dar_find_max_pos`: the status and `*result` afterwards (set to 0 first). -/
def dar_find_max_pos (dar : DynamicArray) (mem : Mem) : Status × Nat :=
  if dar_is_empty dar then (DS_ERR_INVALID_OPERATION, 0)
  else (DS_OK, dar_find_max_pos_loop dar mem dar.size 0 0)

/-- The loop of `dar_find_min_pos`. -/
def dar_find_min_pos_loop (dar : DynamicArray) (mem : Mem) : Nat → Nat → Nat → Nat
  | 0, _, result => result
  | k + 1, i, result =>
    if i < dar.size then
      if prc_compare (dar.buffer.getD i mem.junkp) (dar.buffer.getD result mem.junkp) < 0 then
        dar_find_min_pos_loop dar mem k (i + 1) i
      else dar_find_min_pos_loop dar mem k (i + 1) result
    else result

/-- Function `dar_find_min_pos`: the status and `*result` afterwards (set to 0 first). -/
def dar_find_min_pos (dar : DynamicArray) (mem : Mem) : Status × Nat :=
  if dar_is_empty dar then (DS_ERR_INVALID_OPERATION, 0)
  else (DS_OK, dar_find_min_pos_loop dar mem dar.size 0 0)

/-- The loop of `dar_find_max`, with `k` iterations left to try, `i` the current index and
`result` the element found so far. -/
def dar_find_max_loop (dar : DynamicArray) (mem : Mem) :
    Nat → Nat → Option Process → Option Process
  | 0, _, result => result
  | k + 1, i, result =>
    if i < dar.size then
      if prc_compare (dar.buffer.getD i mem.junkp) result > 0 then
        dar_find_max_loop dar mem k (i + 1) (dar.buffer.getD i mem.junkp)
      else dar_find_max_loop dar mem k (i + 1) result
    else result

/-- Function `dar_find_max`: the status and `*result` afterwards (set to 0 first). -/
def dar_find_max (dar : DynamicArray) (mem : Mem) : Status × Option Process :=
  if dar_is_empty dar then (DS_ERR_INVALID_OPERATION, none)
  else (DS_OK, dar_find_max_loop dar mem dar.size 0 (dar.buffer.getD 0 mem.junkp))

/-- The loop of `dar_find_min`. -/
def dar_find_min_loop (dar : DynamicArray) (mem : Mem) :
    Nat → Nat → Option Process → Option Process
  | 0, _, result => result
  | k + 1, i, result =>
    if i < dar.size then
      if prc_compare (dar.buffer.getD i mem.junkp) result < 0 then
        dar_find_min_loop dar mem k (i + 1) (dar.buffer.getD i mem.junkp)
      else dar_find_min_loop dar mem k (i + 1) result
    else result

/-- Function `dar_find_min`: the status and `*result` afterwards (set to 0 first). -/
def dar_find_min (dar : DynamicArray) (mem : Mem) : Status × Option Process :=
  if dar_is_empty dar then (DS_ERR_INVALID_OPERATION, none)
  else (DS_OK, dar_find_min_loop dar mem dar.size 0 (dar.buffer.getD 0 mem.junkp))

/-- The loop of `dar_exists`, with `k` iterations left to try and `i` the current index. -/
def dar_exists_loop (dar : DynamicArray) (value : Option Process) (mem : Mem) :
    Nat → Nat → Bool
  | 0, _ => false
  | k + 1, i =>
    if i < dar.size then
      if prc_compare (dar.buffer.getD i mem.junkp) value = 0 then true
      else dar_exists_loop dar value mem k (i + 1)
    else false

def dar_exists (dar : DynamicArray) (value : Option Process) (mem : Mem) : Bool :=
  if dar_is_empty dar then false
  else dar_exists_loop dar value mem dar.size 0

/-- The inner loop of `sort_selection_array_dar`
(`for (j = i + 1; j < arr_size; j++) if (compare(array[j], array[min]) > 0) min = j;`), with
`k` iterations left to try: the value of `min` afterwards. -/
def sort_selection_inner (junk : Option Process) (array : List (Option Process))
    (arr_size : Nat) : Nat → Nat → Nat → Nat
  | 0, _, min => min
  | k + 1, j, min =>
    if j < arr_size then
      if prc_compare (array.getD j junk) (array.getD min junk) > 0 then
        sort_selection_inner junk array arr_size k (j + 1) j
      else sort_selection_inner junk array arr_size k (j + 1) min
    else min

/-- The outer loop of `sort_selection_array_dar` (`for (i = 0; i < arr_size - 1; i++)`), with
`k` iterations left to try. -/
def sort_selection_outer (junk : Option Process) (arr_size : Nat) :
    Nat → Nat → List (Option Process) → List (Option Process)
  | 0, _, array => array
  | k + 1, i, array =>
    if i < arr_size - 1 then
      let min := sort_selection_inner junk array arr_size (arr_size - (i + 1)) (i + 1) i
      let tmp := array.getD min junk
      let array := array.set min (array.getD i junk)
      let array := array.set i tmp
      sort_selection_outer junk arr_size k (i + 1) array
    else array

/-- Function `sort_selection_array_dar` on the array found at the pointer `array`: the status
and the array afterwards. -/
def sort_selection_array_dar (array : List (Option Process)) (arr_size : Nat) (mem : Mem) :
    Status × List (Option Process) :=
  if arr_size < 2 then (DS_ERR_INVALID_SIZE, array)
  else (DS_OK, sort_selection_outer mem.junkp arr_size (arr_size - 1) 0 array)

/-! ## C library text conversions used by the file functions

These describe `<stdio.h>`, not code of the repository. -/

/-- The C string found at the start of `buf`: the characters before the first `'\0'`. -/
def c_str (buf : List CChar) : List CChar := buf.takeWhile (fun c => c ≠ 0)

def isspace (c : CChar) : Bool := decide (c = 32) || (decide (9 ≤ c) && decide (c ≤ 13))

def isdigit (c : CChar) : Bool := decide (48 ≤ c) && decide (c ≤ 57)

/-- The decimal digits of `n`, most significant first, put in front of `acc`; the budget
bounds the number of digits. -/
def fmt_digits : Nat → Nat → List CChar → List CChar
  | 0, _, acc => acc
  | fuel + 1, n, acc =>
    if n < 10 then (48 + (n : Int)) :: acc
    else fmt_digits fuel (n / 10) ((48 + ((n % 10 : Nat) : Int)) :: acc)

/-- What `%zu` prints for `n`. -/
def fmt_zu (n : Nat) : List CChar := fmt_digits (n + 1) n []

/-- The value of the longest run of decimal digits at the start of `s`, continuing from `acc`,
and the number of digits read. -/
def scan_digits : List CChar → Nat → Nat → Nat × Nat
  | [], acc, cnt => (acc, cnt)
  | c :: rest, acc, cnt =>
    if isdigit c then scan_digits rest (acc * 10 + (c - 48).toNat) (cnt + 1)
    else (acc, cnt)

/-- The optional sign in front of the digits: whether it is `'-'`, and the text after it. -/
def scan_sign (body : List CChar) : Bool × List CChar :=
  match body with
  | [] => (false, body)
  | c :: rest =>
    if c = 45 then (true, rest)
    else if c = 43 then (false, rest)
    else (false, body)

/-- What `sscanf(s, "%zu", &v)` stores in `v`: white space is skipped, a sign is accepted, at
least one digit is needed; `none` is a matching failure, which leaves `v` as it was. A value
that does not fit is stored as `SIZE_MAX`, with or without a `'-'` in front; one that fits
and has a `'-'` in front is negated modulo `2^64`. -/
def sscanf_zu (s : List CChar) : Option Nat :=
  let body := (c_str s).dropWhile isspace
  let signed : Bool × List CChar := scan_sign body
  match scan_digits signed.2 0 0 with
  | (_, 0) => none
  | (v, _ + 1) =>
    if v < SIZE_MOD then some (if signed.1 then (SIZE_MOD - v) % SIZE_MOD else v)
    else some (SIZE_MOD - 1)

/-- The macro `EOF` of `<stdio.h>` as it compares with a `char`. Here `char` is signed, as
`CChar` is: the byte 0xFF that `fgetc` delivers becomes `-1` once stored in a `char`, and
`c == EOF` holds for it as it does for the end of the file. -/
abbrev EOF : CChar := -1

/-! ## File IO functions -/

/-- One of the five field loops of `file_load` (`while (1)` popping the front character of
`text` into `field` until `delim` is popped). `none`: the budget ran out. -/
def file_load_field (delim : CChar) :
    Nat → CString → CString → Mem → Option (Status × CString × CString × Mem)
  | 0, _, _, _ => none
  | fuel + 1, text, field, mem =>
    let c := text.buffer.getD 0 mem.junkc
    match str_pop_char_front text mem with
    | (st, text1) =>
      if st ≠ DS_OK then some (st, text1, field, mem)
      else if c = delim then some (DS_OK, text1, field, mem)
      else
        match str_push_char_back field c mem with
        | (st2, field1, mem1) =>
          if st2 ≠ DS_OK then some (st2, text1, field1, mem1)
          else file_load_field delim fuel text1 field1 mem1

/-- The locals `pid, cpu, io, pri` of `file_load`. -/
structure Fields where
  pid : Nat
  cpu : Nat
  io : Nat
  pri : Nat
deriving DecidableEq

/-- The record loop of `file_load` (`while (text->len > 1)`): the status returned and the table
afterwards. `st` is the local status on entry and `vars` the four numeric locals, which keep
their value when a conversion fails. `none`: the budget ran out, or a `NULL` scratch buffer was
dereferenced. -/
def file_load_records :
    Nat → Status → CString → DynamicArray → Fields → Mem → Option (Status × DynamicArray × Mem)
  | 0, _, _, _, _, _ => none
  | fuel + 1, st, text, process_table, vars, mem =>
    if text.len > 1 then
      match str_init mem with
      | (s1, name, mem1) =>
      match str_init mem1 with
      | (s2, pid_s, mem2) =>
      match str_init mem2 with
      | (s3, cpu_s, mem3) =>
      match str_init mem3 with
      | (s4, io_s, mem4) =>
      match str_init mem4 with
      | (s5, pri_s, mem5) =>
      let st := st + s1 + s2 + s3 + s4 + s5
      if st ≠ DS_OK then some (st, process_table, mem5)
      else
        match name, pid_s, cpu_s, io_s, pri_s with
        | some name, some pid_s, some cpu_s, some io_s, some pri_s =>
          match file_load_field 44 fuel text name mem5 with
          | none => none
          | some (st, text, name, mem) =>
          if st ≠ DS_OK then some (st, process_table, mem)
          else
          match file_load_field 44 fuel text pid_s mem with
          | none => none
          | some (st, text, pid_s, mem) =>
          if st ≠ DS_OK then some (st, process_table, mem)
          else
          match file_load_field 44 fuel text cpu_s mem with
          | none => none
          | some (st, text, cpu_s, mem) =>
          if st ≠ DS_OK then some (st, process_table, mem)
          else
          match file_load_field 44 fuel text io_s mem with
          | none => none
          | some (st, text, io_s, mem) =>
          if st ≠ DS_OK then some (st, process_table, mem)
          else
          match file_load_field 10 fuel text pri_s mem with
          | none => none
          | some (st, text, pri_s, mem) =>
          if st ≠ DS_OK then some (st, process_table, mem)
          else
            let pid := (sscanf_zu pid_s.buffer).getD vars.pid
            let cpu := (sscanf_zu cpu_s.buffer).getD vars.cpu
            let io := (sscanf_zu io_s.buffer).getD vars.io
            let pri := (sscanf_zu pri_s.buffer).getD vars.pri
            match prc_init (some name) pid cpu io pri mem with
            | (st, process, mem) =>
            if st ≠ DS_OK then some (st, process_table, mem)
            else
            match dar_insert_back process_table process mem with
            | (st, process_table, mem) =>
            if st ≠ DS_OK then some (st, process_table, mem)
            else
              file_load_records fuel st text process_table
                { pid := pid, cpu := cpu, io := io, pri := pri } mem
        | _, _, _, _, _ => none
    else some (DS_OK, process_table, mem)

/-- The loop of `file_load` that reads the file
(`c = fgetc(file); if (c == EOF) break; st = str_push_char_back(text, c);`), on the bytes of
the file as `char` values. `c` is a `char`, so the loop ends where the file ends and also at
the first byte that equals `EOF` as a `char`; the bytes behind it are not read. -/
def file_load_fill : List CChar → CString → Mem → Status × CString × Mem
  | [], text, mem => (DS_OK, text, mem)
  | c :: rest, text, mem =>
    if c = EOF then (DS_OK, text, mem)
    else
      match str_push_char_back text c mem with
      | (st, text1, mem1) =>
        if st ≠ DS_OK then (st, text1, mem1)
        else file_load_fill rest text1 mem1

/-- Function `file_load`. `file` is `none` when `fopen` fails and otherwise the bytes of the
file, as `char` values; `vars` holds the indeterminate initial values of the numeric
locals. -/
def file_load (fuel : Nat) (file : Option (List CChar)) (process_table : DynamicArray)
    (vars : Fields) (mem : Mem) : Option (Status × DynamicArray × Mem) :=
  match str_init mem with
  | (st, text, mem1) =>
    if st ≠ DS_OK then some (st, process_table, mem1)
    else
      match file with
      | none => some (DS_ERR_UNEXPECTED_RESULT, process_table, mem1)
      | some content =>
        match text with
        | none => none
        | some text =>
          match file_load_fill content text mem1 with
          | (st, text, mem2) =>
            if st ≠ DS_OK then some (st, process_table, mem2)
            else if text.len = 0 then some (DS_OK, process_table, mem2)
            else file_load_records fuel st text process_table vars mem2

/-- The loop of `file_save`, appending one line per element to `out`. `none`: a `NULL` element
or a `NULL` name was dereferenced. -/
def file_save_loop (content : DynamicArray) (mem : Mem) :
    Nat → Nat → List CChar → Option (List CChar)
  | 0, _, out => some out
  | k + 1, i, out =>
    if i < content.size then
      match content.buffer.getD i mem.junkp with
      | none => none
      | some p =>
        match p.name with
        | none => none
        | some name =>
          file_save_loop content mem k (i + 1)
            (out ++ (c_str name.buffer ++ [44] ++ fmt_zu p.pid ++ [44] ++ fmt_zu p.cpu ++ [44]
              ++ fmt_zu p.io ++ [44] ++ fmt_zu p.pri ++ [10]))
    else some out

/-- Function `file_save`: the status and the characters written; `opened` tells whether `fopen`
succeeded. -/
def file_save (opened : Bool) (content : DynamicArray) (mem : Mem) :
    Option (Status × List CChar) :=
  if opened = false then some (DS_ERR_UNEXPECTED_RESULT, [])
  else
    match file_save_loop content mem content.size 0 [] with
    | none => none
    | some out => some (DS_OK, out)

/-! ## Helpers to state the theorems -/

/-- The characters of a text as C `char` values. -/
def chars (s : List Char) : List CChar := s.map (fun c => (c.toNat : Int))

/-- A well-formed `String`: the buffer has `capacity` slots, `len` leaves room for the end
marker, the end marker is in place and the growth rate is the one `str_init` sets. -/
structure CString.WF (s : CString) : Prop where
  cap : s.buffer.length = s.capacity
  room : s.len < s.capacity
  marker : s.buffer[s.len]? = some 0
  rate : s.growth_rate = STRING_GROW_RATE

/-- A well-formed `DynamicArray`: the buffer has `capacity` slots, at least one, the live
elements fit and the growth rate is the one `dar_init` sets. -/
structure DynamicArray.WF (dar : DynamicArray) : Prop where
  cap : dar.buffer.length = dar.capacity
  fits : dar.size ≤ dar.capacity
  pos : 0 < dar.capacity
  rate : dar.growth_rate = DYNAMIC_ARRAY_GROW_RATE

/-- The text of one record in the file format, without the record delimiter:
`name,id,cpu,io,priority` with the numbers as `%zu` prints them. -/
def record_text (r : List CChar × Nat × Nat × Nat × Nat) : List CChar :=
  r.1 ++ 44 :: (fmt_zu r.2.1 ++ 44 :: (fmt_zu r.2.2.1 ++ 44 :: (fmt_zu r.2.2.2.1 ++
    44 :: fmt_zu r.2.2.2.2)))

/-- The text of a sequence of complete records, each followed by the record delimiter. -/
def records_text : List (List CChar × Nat × Nat × Nat × Nat) → List CChar
  | [] => []
  | r :: rs => record_text r ++ 10 :: records_text rs

/-- A record whose four numbers are `size_t` values. -/
def fields_fit (r : List CChar × Nat × Nat × Nat × Nat) : Prop :=
  r.2.1 < SIZE_MOD ∧ r.2.2.1 < SIZE_MOD ∧ r.2.2.2.1 < SIZE_MOD ∧ r.2.2.2.2 < SIZE_MOD

/-- The part of a file that the read loop of `file_load` stores in its text: the bytes in
front of the first one that equals `EOF` as a `char`. -/
def file_read (content : List CChar) : List CChar := content.takeWhile (fun c => c ≠ EOF)

/-- A table element that `file_save` prints as one well-formed line: a record that owns a
well-formed name free of the field delimiter, the record delimiter and the end marker, with
four `size_t` numbers. -/
def printable (e : Option Process) : Prop :=
  ∃ p s, e = some p ∧ p.name = some s ∧ s.WF ∧
    (∀ c ∈ s.bytes, c ≠ 44 ∧ c ≠ 10 ∧ c ≠ 0) ∧
    p.pid < SIZE_MOD ∧ p.cpu < SIZE_MOD ∧ p.io < SIZE_MOD ∧ p.pri < SIZE_MOD

/-- The pid of the record in a table slot (0 for a `NULL` element). -/
def slot_pid (e : Option Process) : Nat :=
  match e with
  | some p => p.pid
  | none => 0

/-- The pid of the live element at index `j`. -/
def DynamicArray.pid_at (dar : DynamicArray) (j : Nat) : Nat := slot_pid (dar.live.getD j none)

/-- The capacity `cap` has the form `8 * 2^k` and no value of that form that is at least `n`
lies below it. -/
def cap_below (cap n : Nat) : Prop :=
  (∃ k, cap = 8 * 2 ^ k) ∧ ∀ j, n ≤ 8 * 2 ^ j → cap ≤ 8 * 2 ^ j

/-- The capacity `cap` is the smallest value of the form `8 * 2^k` that is at least `n`. -/
def least_cap (cap n : Nat) : Prop := cap_below cap n ∧ n ≤ cap

/-- An insertion call on a table. -/
inductive DarInsert where
  | front (value : Option Process)
  | at_index (value : Option Process) (index : Nat)
  | back (value : Option Process)

/-- The insertion call made on a table. -/
def DarInsert.call : DarInsert → DynamicArray → Mem → Status × DynamicArray × Mem
  | .front value, dar, mem => dar_insert_front dar value mem
  | .at_index value index, dar, mem => dar_insert_at dar value index mem
  | .back value, dar, mem => dar_insert_back dar value mem

/-- A sequence of insertion calls, each made on the table the previous one left; `none` as
soon as a call does not return `DS_OK`. -/
def dar_insert_calls : List DarInsert → DynamicArray → Mem → Option (DynamicArray × Mem)
  | [], dar, mem => some (dar, mem)
  | c :: cs, dar, mem =>
    match c.call dar mem with
    | (st, dar1, mem1) => if st = DS_OK then dar_insert_calls cs dar1 mem1 else none

/-- An insertion call on a String: a single character or a substring, at the front, at an
index or at the back. -/
inductive StrInsert where
  | char_front (ch : CChar)
  | char_at (ch : CChar) (index : Nat)
  | char_back (ch : CChar)
  | front (ch : List CChar)
  | at_index (ch : List CChar) (index : Nat)
  | back (ch : List CChar)

/-- Whether the index of an insertion call lies within `[0, len]`. -/
def StrInsert.valid : StrInsert → CString → Bool
  | .char_at _ index, str => decide (index ≤ str.len)
  | .at_index _ index, str => decide (index ≤ str.len)
  | _, _ => true

/-- The insertion call made on a String, with a budget for the growth loop of the substring
calls. -/
def StrInsert.call (fuel : Nat) : StrInsert → CString → Mem → Option (Status × CString × Mem)
  | .char_front ch, str, mem => some (str_push_char_front str ch mem)
  | .char_at ch index, str, mem => some (str_push_char_at str ch index mem)
  | .char_back ch, str, mem => some (str_push_char_back str ch mem)
  | .front ch, str, mem => str_push_front fuel str ch mem
  | .at_index ch index, str, mem => str_push_at fuel str ch index mem
  | .back ch, str, mem => str_push_back fuel str ch mem

/-- A sequence of insertion calls with valid indices, each made on the String the previous one
left; `none` as soon as an index is not valid or a call does not return `DS_OK`. -/
def str_insert_calls (fuel : Nat) : List StrInsert → CString → Mem → Option (CString × Mem)
  | [], str, mem => some (str, mem)
  | c :: cs, str, mem =>
    if c.valid str then
      match c.call fuel str mem with
      | some (st, str1, mem1) => if st = DS_OK then str_insert_calls fuel cs str1 mem1 else none
      | none => none
    else none

/-- Whether a table slot holds a record with the given pid. -/
def has_pid (pid : Nat) (e : Option Process) : Bool :=
  match e with
  | some p => decide (p.pid = pid)
  | none => false

/-- Whether a table slot holds a record that owns a name: neither the element nor its name is
`NULL`. -/
def is_record (e : Option Process) : Bool :=
  match e with
  | some p => p.name.isSome
  | none => false

/-- The record seen in a table slot: name bytes, pid, cpu, io, pri; `none` for a `NULL`
element or a `NULL` name. -/
def record_view (e : Option Process) : Option (List CChar × Nat × Nat × Nat × Nat) :=
  match e with
  | some p =>
    match p.name with
    | some s => some (s.bytes, p.pid, p.cpu, p.io, p.pri)
    | none => none
  | none => none

/-- The records of a table, in table order. -/
def DynamicArray.records (dar : DynamicArray) :
    List (Option (List CChar × Nat × Nat × Nat × Nat)) :=
  dar.live.map record_view

/-! ## Sample inputs -/

/-- An allocator that never fails, with zero-filled fresh storage. -/
def mem_ok : Mem := { sched := [], junkc := 0, junkp := none, junkn := 0 }

/-- The `String` "a" as `str_init` and one `str_push_char_back` leave it. -/
def str_a : CString :=
  { buffer := [97, 0, 0, 0, 0, 0, 0, 0], len := 1, capacity := 8, growth_rate := 2 }

/-- The `String` "b". -/
def str_b : CString :=
  { buffer := [98, 0, 0, 0, 0, 0, 0, 0], len := 1, capacity := 8, growth_rate := 2 }

/-- The `String` "ab". -/
def str_ab : CString :=
  { buffer := [97, 98, 0, 0, 0, 0, 0, 0], len := 2, capacity := 8, growth_rate := 2 }

/-- The `String` "ab" in a larger buffer with other bytes behind the end marker. -/
def str_ab_wide : CString :=
  { buffer := [97, 98, 0, 120, 121, 122, 0, 0, 0, 0, 0, 0, 0, 0, 0, 0], len := 2, capacity := 16,
    growth_rate := 2 }

/-- A record named "a" with the given pid. -/
def prc_a (pid : Nat) : Option Process :=
  some { name := some str_a, pid := pid, cpu := 0, io := 0, pri := 0 }

/-- A table exactly full at rest: eight records in eight slots. -/
def dar_full : DynamicArray :=
  { buffer := [prc_a 1, prc_a 2, prc_a 3, prc_a 4, prc_a 5, prc_a 6, prc_a 7, prc_a 8],
    size := 8, capacity := 8, growth_rate := 2 }

/-- A table with pids 7, 7, 1, 7, 2 in eight slots. -/
def dar_77172 : DynamicArray :=
  { buffer := [prc_a 7, prc_a 7, prc_a 1, prc_a 7, prc_a 2, none, none, none],
    size := 5, capacity := 8, growth_rate := 2 }

/-- The table as `dar_init` leaves it. -/
def dar_empty : DynamicArray :=
  { buffer := [none, none, none, none, none, none, none, none], size := 0, capacity := 8,
    growth_rate := 2 }

/-- The `String` "alpha". -/
def str_alpha : CString :=
  { buffer := [97, 108, 112, 104, 97, 0, 0, 0], len := 5, capacity := 8, growth_rate := 2 }

/-- The `String` "beta". -/
def str_beta : CString :=
  { buffer := [98, 101, 116, 97, 0, 0, 0, 0], len := 4, capacity := 8, growth_rate := 2 }

/-- The `String` of length 3 holding `'a'`, `'\0'`, `'b'`, as three `str_push_char_back` calls
leave it. -/
def str_a_nul_b : CString :=
  { buffer := [97, 0, 98, 0, 0, 0, 0, 0], len := 3, capacity := 8, growth_rate := 2 }

/-- The table holding {alpha,1,2,3,4} and {beta,5,6,7,8}. -/
def dar_alpha_beta : DynamicArray :=
  { buffer := [some { name := some str_alpha, pid := 1, cpu := 2, io := 3, pri := 4 },
               some { name := some str_beta, pid := 5, cpu := 6, io := 7, pri := 8 },
               none, none, none, none, none, none],
    size := 2, capacity := 8, growth_rate := 2 }

/-- The table holding one record whose name has a `'\0'` in the middle. -/
def dar_nul_name : DynamicArray :=
  { buffer := [some { name := some str_a_nul_b, pid := 1, cpu := 2, io := 3, pri := 4 },
               none, none, none, none, none, none, none],
    size := 1, capacity := 8, growth_rate := 2 }

/-- Initial values of the numeric locals of `file_load`. -/
def vars_zero : Fields := { pid := 0, cpu := 0, io := 0, pri := 0 }

/-- An allocator whose next request fails. -/
def mem_fail : Mem := { sched := [false], junkc := 0, junkp := none, junkn := 0 }

/-- Eight insertions at the back, of records with pids 1 to 8. -/
def eight_inserts : List DarInsert :=
  [.back (prc_a 1), .back (prc_a 2), .back (prc_a 3), .back (prc_a 4), .back (prc_a 5),
   .back (prc_a 6), .back (prc_a 7), .back (prc_a 8)]

/-- The `String` as `str_init` leaves it, with zero-filled fresh storage. -/
def str_fresh : CString :=
  { buffer := [0, 0, 0, 0, 0, 0, 0, 0], len := 0, capacity := 8, growth_rate := 2 }

/-- Five insertion calls: 'a' at the back, "bcdefg" at the back, 'x' at the front,
"0123456789" at index 3 and 'y' at index 2. -/
def five_pushes : List StrInsert :=
  [.char_back 97, .back [98, 99, 100, 101, 102, 103], .char_front 120,
   .at_index [48, 49, 50, 51, 52, 53, 54, 55, 56, 57] 3, .char_at 121 2]

/-- The `String` that `five_pushes` builds on a fresh String: length 19, capacity 32. -/
def str_five_pushes : CString :=
  { buffer := [120, 97, 121, 98, 48, 49, 50, 51, 52, 53, 54, 55, 56, 57, 99, 100, 101, 102, 103,
               0, 0, 0, 0, 0, 0, 0, 0, 0, 0, 0, 0, 0],
    len := 19, capacity := 32, growth_rate := 2 }

/-- The `String` "ab" in a buffer of 16 slots, as eight `str_push_char_back` calls followed by
six `str_pop_char_back` calls leave it. -/
def str_ab_popped : CString :=
  { buffer := [97, 98, 0, 0, 0, 0, 0, 0, 0, 0, 0, 0, 0, 0, 0, 0], len := 2, capacity := 16,
    growth_rate := 2 }

/-- Eight `str_push_char_back` calls, with the characters of "abcdefgh". -/
def eight_char_pushes : List StrInsert :=
  [.char_back 97, .char_back 98, .char_back 99, .char_back 100, .char_back 101, .char_back 102,
   .char_back 103, .char_back 104]

/-- The `String` "abcdefgh" as `eight_char_pushes` leave it: the buffer has grown to 16 slots. -/
def str_abcdefgh : CString :=
  { buffer := [97, 98, 99, 100, 101, 102, 103, 104, 0, 0, 0, 0, 0, 0, 0, 0], len := 8,
    capacity := 16, growth_rate := 2 }

/-- What `str_copy` leaves for `str_a_nul_b`: the copy loop has stopped at the first `'\0'`. -/
def str_a_nul_b_copy : CString :=
  { buffer := [97, 0, 0, 0, 0, 0, 0, 0], len := 3, capacity := 8, growth_rate := 2 }

/-- A table of four records in which the greatest pid (9) and the least pid (3) are each
held by two records that differ in their other fields. -/
def dar_ties : DynamicArray :=
  { buffer := [some { name := some str_alpha, pid := 3, cpu := 1, io := 0, pri := 0 },
               some { name := some str_beta, pid := 9, cpu := 2, io := 0, pri := 0 },
               some { name := some str_alpha, pid := 9, cpu := 3, io := 0, pri := 0 },
               some { name := some str_beta, pid := 3, cpu := 4, io := 0, pri := 0 },
               none, none, none, none],
    size := 4, capacity := 8, growth_rate := 2 }

/-- A queue holding the records with pids 1, 2, 3 in eight slots. -/
def qua_123 : QueueArray :=
  { buffer := [prc_a 1, prc_a 2, prc_a 3, none, none, none, none, none], length := 3,
    capacity := 8, growth_rate := 2 }

/-- An allocator state in which the indeterminate record is one with pid 999. -/
def mem_junk : Mem := { sched := [], junkc := 0, junkp := prc_a 999, junkn := 0 }

/-- An allocator that grants the first `n` requests, refuses the next `k` and grants all
later ones. -/
def mem_refusing (n k : Nat) : Mem :=
  { sched := List.replicate n true ++ List.replicate k false, junkc := 0, junkp := none,
    junkn := 0 }

/-- The length/capacity invariant of a table: the live elements fit, the capacity has the
form `8 * 2^k` and the growth rate is 2. -/
def DynamicArray.Inv (dar : DynamicArray) : Prop :=
  dar.size ≤ dar.capacity ∧ (∃ k, dar.capacity = 8 * 2 ^ k) ∧ dar.growth_rate = 2

/-- A call that changes a table: an insertion, a removal (with the value that `*result` holds
before the call), `dar_remove_keys` or `dar_realloc`. -/
inductive DarCall where
  | insert_front (value : Option Process)
  | insert_at (value : Option Process) (index : Nat)
  | insert_back (value : Option Process)
  | remove_front (result : Option Process)
  | remove_at (index : Nat) (result : Option Process)
  | remove_back (result : Option Process)
  | remove_keys (value : Option Process)
  | realloc

/-- The status of the call, the table and the allocator after it; `fuel` is the budget of the
loop of `dar_remove_keys`. -/
def DarCall.run (fuel : Nat) : DarCall → DynamicArray → Mem → Option (Status × DynamicArray × Mem)
  | .insert_front value, dar, mem => some (dar_insert_front dar value mem)
  | .insert_at value index, dar, mem => some (dar_insert_at dar value index mem)
  | .insert_back value, dar, mem => some (dar_insert_back dar value mem)
  | .remove_front result, dar, mem =>
    match dar_remove_front dar result mem with
    | (st, dar1, _) => some (st, dar1, mem)
  | .remove_at index result, dar, mem =>
    match dar_remove_at dar index result mem with
    | (st, dar1, _) => some (st, dar1, mem)
  | .remove_back result, dar, mem =>
    match dar_remove_back dar result mem with
    | (st, dar1, _) => some (st, dar1, mem)
  | .remove_keys value, dar, mem =>
    match dar_remove_keys fuel dar value mem with
    | none => none
    | some (st, dar1) => some (st, dar1, mem)
  | .realloc, dar, mem => some (dar_realloc dar mem)

/-- A sequence of calls, each made on the table the previous one left, whatever status it
returned. `none`: a call ran out of budget. -/
def dar_calls (fuel : Nat) : List DarCall → DynamicArray → Mem → Option (DynamicArray × Mem)
  | [], dar, mem => some (dar, mem)
  | c :: cs, dar, mem =>
    match c.run fuel dar mem with
    | none => none
    | some (_, dar1, mem1) => dar_calls fuel cs dar1 mem1

/-- Nine calls on a fresh table: four insertions (pids 3, 4, 1, 2 in table order), a
`dar_realloc`, three removals and a second `dar_realloc`. -/
def nine_calls : List DarCall :=
  [.insert_back (prc_a 1), .insert_back (prc_a 2), .insert_front (prc_a 3),
   .insert_at (prc_a 4) 1, .realloc, .remove_front none, .remove_at 1 none,
   .remove_keys (prc_a 2), .realloc]

/-- The table that `nine_calls` leave when the first `dar_realloc` is refused and the second
one granted: the record with pid 4 in 16 slots. -/
def dar_nine_calls : DynamicArray :=
  { buffer := [prc_a 4, prc_a 2] ++ List.replicate 14 none, size := 1, capacity := 16,
    growth_rate := 2 }

/-- Four more calls: three `dar_remove_back` (two of them on the emptied table) and an
insertion. -/
def four_calls : List DarCall :=
  [.remove_back none, .remove_back none, .remove_back none, .insert_back (prc_a 5)]

/-- The table that `four_calls` leave from `dar_nine_calls`. -/
def dar_four_calls : DynamicArray :=
  { buffer := [prc_a 5, prc_a 2] ++ List.replicate 14 none, size := 1, capacity := 16,
    growth_rate := 2 }

/-- A call that changes a String: the insertions of a character, of a text and of another
String, the removals, `str_clear` and `str_realloc`. -/
inductive StrCall where
  | push_char_front (ch : CChar)
  | push_char_at (ch : CChar) (index : Nat)
  | push_char_back (ch : CChar)
  | push_front (ch : List CChar)
  | push_at (ch : List CChar) (index : Nat)
  | push_back (ch : List CChar)
  | prepend (str2 : CString)
  | add (str2 : CString) (index : Nat)
  | append (str2 : CString)
  | pop_char_front
  | pop_char_at (index : Nat)
  | pop_char_back
  | clear
  | realloc

/-- The index of an indexed insertion is within `[0, len]`. -/
def StrCall.valid : StrCall → CString → Bool
  | .push_char_at _ index, str => decide (index ≤ str.len)
  | .push_at _ index, str => decide (index ≤ str.len)
  | .add _ index, str => decide (index ≤ str.len)
  | _, _ => true

/-- The status of the call, the String and the allocator after it; `fuel` is the budget of
the growth loops. -/
def StrCall.run (fuel : Nat) : StrCall → CString → Mem → Option (Status × CString × Mem)
  | .push_char_front ch, str, mem => some (str_push_char_front str ch mem)
  | .push_char_at ch index, str, mem => some (str_push_char_at str ch index mem)
  | .push_char_back ch, str, mem => some (str_push_char_back str ch mem)
  | .push_front ch, str, mem => str_push_front fuel str ch mem
  | .push_at ch index, str, mem => str_push_at fuel str ch index mem
  | .push_back ch, str, mem => str_push_back fuel str ch mem
  | .prepend str2, str, mem => str_prepend fuel str str2 mem
  | .add str2 index, str, mem => str_add fuel str str2 index mem
  | .append str2, str, mem => str_append fuel str str2 mem
  | .pop_char_front, str, mem =>
    match str_pop_char_front str mem with
    | (st, str1) => some (st, str1, mem)
  | .pop_char_at index, str, mem =>
    match str_pop_char_at str index mem with
    | (st, str1) => some (st, str1, mem)
  | .pop_char_back, str, mem =>
    match str_pop_char_back str with
    | (st, str1) => some (st, str1, mem)
  | .clear, str, mem =>
    match str_clear str with
    | (st, str1) => some (st, str1, mem)
  | .realloc, str, mem => some (str_realloc str mem)

/-- A sequence of calls with valid indices, each made on the String the previous one left,
whatever status it returned. `none`: an index was not valid or a call ran out of budget. -/
def str_calls (fuel : Nat) : List StrCall → CString → Mem → Option (CString × Mem)
  | [], str, mem => some (str, mem)
  | c :: cs, str, mem =>
    if c.valid str then
      match c.run fuel str mem with
      | none => none
      | some (_, str1, mem1) => str_calls fuel cs str1 mem1
    else none

/-- The `String` "hello world!" as `str_make` leaves it: 12 characters in 16 slots. -/
def str_hello : CString :=
  { buffer := chars "hello world!".toList ++ [0, 0, 0, 0], len := 12, capacity := 16,
    growth_rate := 2 }

/-- Eight calls: two insertions, a `str_prepend` whose growth is refused, a `str_add`, two
removals, `str_clear` and an insertion. -/
def eight_calls : List StrCall :=
  [.push_char_front 120, .push_back (chars "ab".toList), .prepend str_ab, .add str_alpha 3,
   .pop_char_at 2, .pop_char_back, .clear, .push_char_back 33]

/-- The `String` that `eight_calls` leave from `str_hello`: "!" in 32 slots, with older bytes
behind the end marker. -/
def str_eight_calls : CString :=
  { buffer := [33, 0] ++ chars "alphallo world!a".toList ++ List.replicate 14 0, len := 1,
    capacity := 32, growth_rate := 2 }

/-- The number of characters that an insertion call adds to the String. -/
def StrCall.extent : StrCall → Nat
  | .push_front ch => str_len ch
  | .push_at ch _ => str_len ch
  | .push_back ch => str_len ch
  | .prepend str2 => str2.len
  | .add str2 _ => str2.len
  | .append str2 => str2.len
  | _ => 0

/-! ## Lemmas: string comparison -/

theorem str_equals_loop_spec (mem : Mem) (b1 b2 : List CChar) (len : Nat) :
    ∀ k i, len ≤ i + k →
      (str_equals_loop mem b1 b2 len k i = none ∧
          ∀ j, i ≤ j → j < len → b1.getD j mem.junkc = b2.getD j mem.junkc) ∨
      (str_equals_loop mem b1 b2 len k i = some false ∧
          ∃ j, i ≤ j ∧ j < len ∧ b1.getD j mem.junkc ≠ b2.getD j mem.junkc) := by
  intro k
  induction k with
  | zero =>
    intro i h
    left
    refine ⟨rfl, ?_⟩
    intro j h1 h2
    omega
  | succ k ih =>
    intro i h
    unfold str_equals_loop
    by_cases hi : i < len
    · by_cases hc : b1.getD i mem.junkc = b2.getD i mem.junkc
      · rcases ih (i + 1) (by omega) with ⟨h1, h2⟩ | ⟨h1, j, h2, h3, h4⟩
        · left
          refine ⟨by rw [if_pos hi, if_neg (not_not.mpr hc), h1], ?_⟩
          intro j hj1 hj2
          rcases Nat.eq_or_lt_of_le hj1 with rfl | hlt
          · exact hc
          · exact h2 j hlt hj2
        · right
          exact ⟨by rw [if_pos hi, if_neg (not_not.mpr hc), h1], j, by omega, h3, h4⟩
      · right
        exact ⟨by rw [if_pos hi, if_pos hc], i, le_refl _, hi, hc⟩
    · left
      refine ⟨by rw [if_neg hi], ?_⟩
      intro j h1 h2
      omega

theorem str_equals_true_iff (a b : CString) (mem : Mem) :
    str_equals a b mem = true ↔
      a.len = b.len ∧ ∀ j, j < a.len → a.buffer.getD j mem.junkc = b.buffer.getD j mem.junkc := by
  unfold str_equals
  by_cases hl : a.len = b.len
  · rcases str_equals_loop_spec mem a.buffer b.buffer a.len a.len 0 (by omega) with
      ⟨h1, h2⟩ | ⟨h1, j, _, h3, h4⟩
    · simp only [hl, ne_eq, not_true_eq_false, if_false, true_and]
      rw [hl] at h1
      simp only [h1, true_iff]
      intro j hj
      exact h2 j (Nat.zero_le _) (by omega)
    · simp only [hl, ne_eq, not_true_eq_false, if_false, true_and]
      rw [hl] at h1
      simp only [h1, Bool.false_eq_true, false_iff, not_forall]
      exact ⟨j, by omega, h4⟩
  · simp [hl]

theorem getD_eq_iff_getElem? (l1 l2 : List CChar) (d : CChar) (j : Nat)
    (h1 : j < l1.length) (h2 : j < l2.length) :
    l1.getD j d = l2.getD j d ↔ l1[j]? = l2[j]? := by
  simp [List.getD, List.getElem?_eq_getElem h1, List.getElem?_eq_getElem h2]

/-! ## Claims C8, C9, C10, C4 -/

/-- C8 (code defect, evaluated): `str_compare` does not order by byte value. It stores `1` for
"a" against "b" and `-1` for "b" against "a" (both inverted), `-1` for "a" against itself
(where `0` is due) and `0` for "a" against "ab" (where `-1` is due). -/
theorem str_compare_not_lexicographic :
    str_compare str_a str_b mem_ok = (DS_OK, 1) ∧
    str_compare str_b str_a mem_ok = (DS_OK, -1) ∧
    str_compare str_a str_a mem_ok = (DS_OK, -1) ∧
    str_compare str_a str_ab mem_ok = (DS_OK, 0) := by
  decide

/-- C9 (code defect, evaluated): the three comparisons are not mutually exclusive and not
exhaustive. For "a" against itself both `str_equals` and `str_lesser` hold; for "a" against
"ab" none of `str_equals`, `str_greater`, `str_lesser` holds. -/
theorem str_comparisons_not_total :
    (str_equals str_a str_a mem_ok = true ∧ str_greater str_a str_a mem_ok = false ∧
      str_lesser str_a str_a mem_ok = true) ∧
    (str_equals str_a str_ab mem_ok = false ∧ str_greater str_a str_ab mem_ok = false ∧
      str_lesser str_a str_ab mem_ok = false) := by
  decide

/-- C10: for Strings whose length fits their buffer, `str_equals` is true exactly when the
lengths are equal and the bytes at every index below the length are equal; and the result is
the same for any other pair of Strings with the same lengths and the same bytes below the
length, whatever their capacity, growth rate, bytes from index `len` on, or the allocator. -/
theorem str_equals_iff (a b : CString) (mem : Mem)
    (ha : a.len ≤ a.buffer.length) (hb : b.len ≤ b.buffer.length) :
    (str_equals a b mem = true ↔
      a.len = b.len ∧ ∀ i, i < a.len → a.buffer[i]? = b.buffer[i]?) ∧
    (∀ (a' b' : CString) (mem' : Mem), a'.len = a.len → b'.len = b.len →
      a'.buffer.take a.len = a.buffer.take a.len →
      b'.buffer.take b.len = b.buffer.take b.len →
      str_equals a' b' mem' = str_equals a b mem) := by
  have key : ∀ (x y : CString) (m : Mem), x.len ≤ x.buffer.length → y.len ≤ y.buffer.length →
      (str_equals x y m = true ↔
        x.len = y.len ∧ ∀ i, i < x.len → x.buffer[i]? = y.buffer[i]?) := by
    intro x y m hx hy
    rw [str_equals_true_iff]
    constructor
    · rintro ⟨h1, h2⟩
      refine ⟨h1, fun i hi => ?_⟩
      exact (getD_eq_iff_getElem? _ _ _ _ (by omega) (by omega)).mp (h2 i hi)
    · rintro ⟨h1, h2⟩
      refine ⟨h1, fun i hi => ?_⟩
      exact (getD_eq_iff_getElem? _ _ _ _ (by omega) (by omega)).mpr (h2 i hi)
  refine ⟨key a b mem ha hb, ?_⟩
  intro a' b' mem' hla hlb hta htb
  have ha' : a'.len ≤ a'.buffer.length := by
    have := congrArg List.length hta
    simp only [List.length_take] at this
    omega
  have hb' : b'.len ≤ b'.buffer.length := by
    have := congrArg List.length htb
    simp only [List.length_take] at this
    omega
  have hga : ∀ i, i < a.len → a'.buffer[i]? = a.buffer[i]? := by
    intro i hi
    have := congrArg (fun l => l[i]?) hta
    simpa [List.getElem?_take, hi] using this
  have hgb : ∀ i, i < b.len → b'.buffer[i]? = b.buffer[i]? := by
    intro i hi
    have := congrArg (fun l => l[i]?) htb
    simpa [List.getElem?_take, hi] using this
  rw [Bool.eq_iff_iff, key a' b' mem' ha' hb', key a b mem ha hb, hla, hlb]
  constructor
  · rintro ⟨h1, h2⟩
    refine ⟨h1, fun i hi => ?_⟩
    rw [← hga i hi, ← hgb i (by omega)]
    exact h2 i hi
  · rintro ⟨h1, h2⟩
    refine ⟨h1, fun i hi => ?_⟩
    rw [hga i hi, hgb i (by omega)]
    exact h2 i hi

/-- C10 at "ab" against "ab" stored in a wider buffer with other bytes behind the end
marker. -/
theorem str_equals_iff_witness :
    str_equals str_ab str_ab_wide mem_ok = true ∧
    (str_equals str_ab str_ab_wide mem_ok = true ↔
      str_ab.len = str_ab_wide.len ∧
        ∀ i, i < str_ab.len → str_ab.buffer[i]? = str_ab_wide.buffer[i]?) :=
  ⟨by decide, (str_equals_iff str_ab str_ab_wide mem_ok (by decide) (by decide)).1⟩

/-- C4 (code defect, evaluated): `str_push_char_at` at `index == len` takes the
`str_push_char_front` path, so pushing `'c'` at index 2 of "ab" gives "cab", not "abc". -/
theorem str_push_char_at_end_goes_front :
    (str_push_char_at str_ab 99 2 mem_ok).1 = DS_OK ∧
    (str_push_char_at str_ab 99 2 mem_ok).2.1.bytes = [99, 97, 98] ∧
    (str_push_char_at str_ab 99 2 mem_ok).2.1.bytes ≠ str_ab.bytes ++ [99] ∧
    (str_push_char_at str_ab 99 2 mem_ok).2.1 = (str_push_char_front str_ab 99 mem_ok).2.1 := by
  decide

/-! ## Lemmas: the shift loops -/

theorem shift_up_loop_length {α : Type} (junk : α) (stop : Nat) :
    ∀ (start : Nat) (buf : List α), (shift_up_loop junk stop start buf).length = buf.length := by
  intro start
  induction start with
  | zero => intro buf; rfl
  | succ i ih =>
    intro buf
    unfold shift_up_loop
    split
    · rw [ih, List.length_set]
    · rfl

theorem shift_up_loop_getElem? {α : Type} (junk : α) (stop : Nat) :
    ∀ (start : Nat) (buf : List α) (j : Nat), start < buf.length →
      (shift_up_loop junk stop start buf)[j]? =
        if stop < j ∧ j ≤ start then buf[j - 1]? else buf[j]? := by
  intro start
  induction start with
  | zero =>
    intro buf j _
    have : ¬ (stop < j ∧ j ≤ 0) := by omega
    rw [if_neg this]
    rfl
  | succ i ih =>
    intro buf j hlt
    unfold shift_up_loop
    by_cases hs : stop < i + 1
    · rw [if_pos hs, ih _ j (by rw [List.length_set]; omega)]
      have hget : buf.getD i junk = buf[i] := by
        rw [List.getD_eq_getElem?_getD, List.getElem?_eq_getElem (by omega)]
        rfl
      by_cases h1 : stop < j ∧ j ≤ i
      · have h2 : stop < j ∧ j ≤ i + 1 := by omega
        rw [if_pos h1, if_pos h2, List.getElem?_set_ne (by omega)]
      · rw [if_neg h1]
        by_cases h3 : j = i + 1
        · subst h3
          have h2 : stop < i + 1 ∧ i + 1 ≤ i + 1 := by omega
          rw [if_pos h2, List.getElem?_set_self (by omega), hget]
          simp [List.getElem?_eq_getElem (show i < buf.length by omega)]
        · have h2 : ¬ (stop < j ∧ j ≤ i + 1) := by omega
          rw [if_neg h2, List.getElem?_set_ne (by omega)]
    · rw [if_neg hs]
      have h2 : ¬ (stop < j ∧ j ≤ i + 1) := by omega
      rw [if_neg h2]

theorem shift_down_loop_length {α : Type} (junk : α) (n : Nat) :
    ∀ (k i : Nat) (buf : List α), (shift_down_loop junk n k i buf).length = buf.length := by
  intro k
  induction k with
  | zero => intro i buf; rfl
  | succ k ih =>
    intro i buf
    unfold shift_down_loop
    split
    · rw [ih, List.length_set]
    · rfl

theorem shift_down_loop_getElem? {α : Type} (junk : α) (n : Nat) :
    ∀ (k i : Nat) (buf : List α) (j : Nat), n ≤ i + k → j < buf.length →
      (shift_down_loop junk n k i buf)[j]? =
        if i ≤ j ∧ j < n then some (buf.getD (j + 1) junk) else buf[j]? := by
  intro k
  induction k with
  | zero =>
    intro i buf j h _
    have : ¬ (i ≤ j ∧ j < n) := by omega
    rw [if_neg this]
    rfl
  | succ k ih =>
    intro i buf j h hj
    unfold shift_down_loop
    by_cases hi : i < n
    · rw [if_pos hi, ih _ _ j (by omega) (by rw [List.length_set]; exact hj)]
      by_cases h1 : i + 1 ≤ j ∧ j < n
      · have h2 : i ≤ j ∧ j < n := by omega
        rw [if_pos h1, if_pos h2]
        simp only [List.getD_eq_getElem?_getD]
        rw [List.getElem?_set_ne (by omega)]
      · rw [if_neg h1]
        by_cases h3 : j = i
        · subst h3
          have h2 : j ≤ j ∧ j < n := by omega
          rw [if_pos h2, List.getElem?_set_self hj]
        · have h2 : ¬ (i ≤ j ∧ j < n) := by omega
          rw [if_neg h2, List.getElem?_set_ne (by omega)]
    · rw [if_neg hi]
      have h2 : ¬ (i ≤ j ∧ j < n) := by omega
      rw [if_neg h2]

/-- Storing `v` at `idx` after shifting `[idx, n)` up by one: the first `n + 1` slots. -/
theorem insert_slots {α : Type} (junk : α) (buf : List α) (n idx : Nat) (v : α)
    (hn : n < buf.length) (hidx : idx ≤ n) :
    ((shift_up_loop junk idx n buf).set idx v).take (n + 1) =
      (buf.take n).take idx ++ v :: (buf.take n).drop idx := by
  apply List.ext_getElem?
  intro j
  rw [List.getElem?_take, List.getElem?_set, shift_up_loop_length,
    shift_up_loop_getElem? junk idx n buf j hn, List.getElem?_append, List.getElem?_cons]
  simp only [List.length_take, List.getElem?_take, List.getElem?_drop]
  have hmin : min idx (min n buf.length) = idx := by omega
  rw [hmin]
  by_cases h1 : j < idx
  · have : j < n + 1 := by omega
    have h2 : ¬ idx = j := by omega
    have h3 : ¬ (idx < j ∧ j ≤ n) := by omega
    have h4 : j < n := by omega
    simp [this, h1, h2, h3, h4]
  · by_cases h2 : j = idx
    · subst h2
      have : j < n + 1 := by omega
      have h5 : j < buf.length := by omega
      simp [this, h5]
    · have h3 : ¬ idx = j := by omega
      have h6 : ¬ (j - idx = 0) := by omega
      by_cases h4 : j < n + 1
      · have h5 : idx < j ∧ j ≤ n := by omega
        have h7 : idx + (j - idx - 1) = j - 1 := by omega
        have h8 : j - 1 < n := by omega
        simp [h1, h3, h4, h5, h6, h7, h8]
      · have h7 : idx + (j - idx - 1) = j - 1 := by omega
        have h8 : ¬ (j - 1 < n) := by omega
        simp [h1, h3, h4, h6, h7, h8]

/-- Shifting `(idx, n)` down by one: the first `n - 1` slots, whatever the slot `n` held. -/
theorem remove_slots {α : Type} (junk : α) (buf : List α) (n idx k : Nat)
    (hn : n ≤ buf.length) (hidx : idx < n) (hk : n ≤ idx + k) :
    (shift_down_loop junk n k idx buf).take (n - 1) =
      (buf.take n).take idx ++ (buf.take n).drop (idx + 1) := by
  apply List.ext_getElem?
  intro j
  rw [List.getElem?_take, List.getElem?_append]
  simp only [List.length_take, List.getElem?_take, List.getElem?_drop]
  have hmin : min idx (min n buf.length) = idx := by omega
  rw [hmin]
  by_cases h0 : j < n - 1
  · rw [if_pos h0, shift_down_loop_getElem? junk n k idx buf j hk (by omega)]
    by_cases h1 : j < idx
    · have h2 : ¬ (idx ≤ j ∧ j < n) := by omega
      have h4 : j < n := by omega
      simp [h1, h2, h4]
    · have h2 : idx ≤ j ∧ j < n := by omega
      have h3 : idx + 1 + (j - idx) = j + 1 := by omega
      have h4 : j + 1 < n := by omega
      have h5 : j + 1 < buf.length := by omega
      simp [h1, h2, h3, h4, List.getD_eq_getElem?_getD, List.getElem?_eq_getElem h5]
  · rw [if_neg h0]
    have h1 : ¬ j < idx := by omega
    have h3 : idx + 1 + (j - idx) = j + 1 := by omega
    have h4 : ¬ (j + 1 < n) := by omega
    simp [h1, h3, h4]

theorem realloc_slots_length {α : Type} (junk : α) (buf : List α) (c : Nat)
    (h : buf.length ≤ c) : (realloc_slots junk buf c).length = c := by
  simp [realloc_slots]
  omega

theorem realloc_slots_take {α : Type} (junk : α) (buf : List α) (c n : Nat)
    (h : buf.length ≤ c) (hn : n ≤ buf.length) :
    (realloc_slots junk buf c).take n = buf.take n := by
  unfold realloc_slots
  rw [List.take_take, min_eq_left (by omega), List.take_append_of_le_length hn]

/-! ## Lemmas: the allocator -/

theorem Mem.request_of_neverFails (m : Mem) (h : m.NeverFails) :
    m.request.1 = true ∧ m.request.2.NeverFails ∧ m.request.2.junkc = m.junkc ∧
      m.request.2.junkp = m.junkp := by
  unfold Mem.request
  cases hs : m.sched with
  | nil => exact ⟨rfl, h, rfl, rfl⟩
  | cons b rest =>
    have hb : b = true := h b (by rw [hs]; exact List.mem_cons_self _ _)
    refine ⟨hb, ?_, rfl, rfl⟩
    intro c hc
    exact h c (by rw [hs]; exact List.mem_cons_of_mem _ hc)

theorem Mem.request_neverFails_snd (m : Mem) (h : m.NeverFails) : m.request.2.NeverFails := by
  unfold Mem.request
  cases hs : m.sched with
  | nil => exact h
  | cons b rest =>
    intro c hc
    exact h c (by rw [hs]; exact List.mem_cons_of_mem _ hc)

theorem Mem.request_junkp (m : Mem) : m.request.2.junkp = m.junkp := by
  unfold Mem.request
  cases m.sched <;> rfl

theorem Mem.request_junkc (m : Mem) : m.request.2.junkc = m.junkc := by
  unfold Mem.request
  cases m.sched <;> rfl

/-! ## Lemmas: DynamicArray -/

theorem shift_up_loop_self {α : Type} (junk : α) (n : Nat) (buf : List α) :
    shift_up_loop junk n n buf = buf := by
  cases n with
  | zero => rfl
  | succ i =>
    unfold shift_up_loop
    rw [if_neg (by omega)]

/-- The growth step in front of every insertion. -/
theorem dar_grow_spec (dar : DynamicArray) (mem : Mem) (hwf : dar.WF)
    (hmem : dar_is_full dar = true → mem.request.1 = true) :
    ∃ dar1 mem1,
      (if dar_is_full dar then dar_realloc dar mem else (DS_OK, dar, mem)) = (DS_OK, dar1, mem1) ∧
      dar1.WF ∧ dar1.size = dar.size ∧ dar1.size < dar1.buffer.length ∧ dar1.live = dar.live ∧
      dar.capacity ≤ dar1.capacity ∧ (mem.NeverFails → mem1.NeverFails) ∧
      mem1.junkp = mem.junkp ∧ mem1.junkc = mem.junkc := by
  obtain ⟨hcap, hfits, hpos, hrate⟩ := hwf
  by_cases hfull : dar_is_full dar = true
  · have hreq := hmem hfull
    have hrate2 : dar.growth_rate = 2 := hrate
    have hsz : dar.size = dar.capacity := by simpa [dar_is_full] using hfull
    rw [if_pos hfull]
    unfold dar_realloc
    rcases hr : mem.request with ⟨ok, mem1⟩
    rw [hr] at hreq
    simp only at hreq
    subst hreq
    refine ⟨_, mem1, rfl, ?_, rfl, ?_, ?_, ?_, ?_, ?_, ?_⟩
    · refine ⟨?_, ?_, ?_, hrate⟩
      · simp only
        rw [realloc_slots_length _ _ _ (by rw [hcap, hrate2]; omega)]
      · simp only
        rw [hrate2]; omega
      · simp only
        rw [hrate2]; omega
    · simp only
      rw [realloc_slots_length _ _ _ (by rw [hcap, hrate2]; omega), hrate2]
      omega
    · unfold DynamicArray.live
      simp only
      rw [realloc_slots_take _ _ _ _ (by rw [hcap, hrate2]; omega) (by omega)]
    · simp only
      rw [hrate2]; omega
    · intro hnf
      have := Mem.request_neverFails_snd mem hnf
      rw [hr] at this
      exact this
    · have := Mem.request_junkp mem
      rw [hr] at this
      exact this
    · have := Mem.request_junkc mem
      rw [hr] at this
      exact this
  · rw [if_neg hfull]
    have hsz : dar.size ≠ dar.capacity := by simpa [dar_is_full] using hfull
    refine ⟨dar, mem, rfl, ⟨hcap, hfits, hpos, hrate⟩, rfl, by omega, rfl, le_refl _,
      fun h => h, rfl, rfl⟩

/-- What the three insertions have in common: after the growth step, `value` is stored at
`idx` behind a shift of `[idx, size)`. -/
theorem dar_store_spec (dar1 : DynamicArray) (junk : Option Process) (v : Option Process)
    (idx : Nat) (hwf : dar1.WF) (hlt : dar1.size < dar1.buffer.length) (hidx : idx ≤ dar1.size) :
    let dar2 : DynamicArray :=
      { dar1 with buffer := (shift_up_loop junk idx dar1.size dar1.buffer).set idx v,
                  size := dar1.size + 1 }
    dar2.WF ∧ dar2.live = dar1.live.take idx ++ v :: dar1.live.drop idx := by
  obtain ⟨hcap, hfits, hpos, hrate⟩ := hwf
  refine ⟨⟨?_, ?_, hpos, hrate⟩, ?_⟩
  · simp only [List.length_set, shift_up_loop_length]
    exact hcap
  · simp only
    omega
  · unfold DynamicArray.live
    simp only
    exact insert_slots junk dar1.buffer dar1.size idx v hlt hidx

theorem dar_insert_front_spec (dar : DynamicArray) (v : Option Process) (mem : Mem)
    (hwf : dar.WF) (hmem : dar_is_full dar = true → mem.request.1 = true) :
    ∃ dar' mem', dar_insert_front dar v mem = (DS_OK, dar', mem') ∧ dar'.WF ∧
      dar'.size = dar.size + 1 ∧ dar'.live = v :: dar.live ∧ dar.capacity ≤ dar'.capacity ∧
      (mem.NeverFails → mem'.NeverFails) := by
  obtain ⟨dar1, mem1, hg, hwf1, hs1, hlt1, hl1, hc1, hnf, hj, _⟩ := dar_grow_spec dar mem hwf hmem
  have hst := dar_store_spec dar1 mem.junkp v 0 hwf1 hlt1 (Nat.zero_le _)
  unfold dar_insert_front
  simp only [hg, ne_eq, not_true_eq_false, if_false]
  refine ⟨_, mem1, rfl, hst.1, by simp [hs1], ?_, hc1, hnf⟩
  rw [hst.2, hl1]
  simp

theorem dar_insert_back_spec (dar : DynamicArray) (v : Option Process) (mem : Mem)
    (hwf : dar.WF) (hmem : dar_is_full dar = true → mem.request.1 = true) :
    ∃ dar' mem', dar_insert_back dar v mem = (DS_OK, dar', mem') ∧ dar'.WF ∧
      dar'.size = dar.size + 1 ∧ dar'.live = dar.live ++ [v] ∧ dar.capacity ≤ dar'.capacity ∧
      (mem.NeverFails → mem'.NeverFails) ∧ mem'.junkc = mem.junkc := by
  obtain ⟨dar1, mem1, hg, hwf1, hs1, hlt1, hl1, hc1, hnf, hj, hjc⟩ :=
    dar_grow_spec dar mem hwf hmem
  have hst := dar_store_spec dar1 mem.junkp v dar1.size hwf1 hlt1 (le_refl _)
  rw [shift_up_loop_self] at hst
  unfold dar_insert_back
  simp only [hg, ne_eq, not_true_eq_false, if_false]
  refine ⟨_, mem1, rfl, hst.1, by simp [hs1], ?_, hc1, hnf, hjc⟩
  rw [hst.2, hl1]
  have hlen : dar.live.length = dar1.size := by
    rw [← hl1]
    unfold DynamicArray.live
    rw [List.length_take]
    omega
  rw [← hlen, List.take_length, List.drop_length]

theorem dar_insert_at_spec (dar : DynamicArray) (v : Option Process) (i : Nat) (mem : Mem)
    (hwf : dar.WF) (hi : i ≤ dar.size)
    (hmem : dar_is_full dar = true → mem.request.1 = true) :
    ∃ dar' mem', dar_insert_at dar v i mem = (DS_OK, dar', mem') ∧ dar'.WF ∧
      dar'.size = dar.size + 1 ∧ dar'.live = dar.live.take i ++ v :: dar.live.drop i ∧
      dar.capacity ≤ dar'.capacity := by
  have hlen : dar.live.length = dar.size := by
    unfold DynamicArray.live
    rw [List.length_take]
    have := hwf.cap
    have := hwf.fits
    omega
  unfold dar_insert_at
  rw [if_neg (by omega)]
  by_cases h0 : i = 0
  · subst h0
    obtain ⟨dar', mem', he, hwf', hs', hl', hc', _⟩ := dar_insert_front_spec dar v mem hwf hmem
    rw [if_pos rfl, he]
    exact ⟨dar', mem', by simp, hwf', hs', by simpa using hl', hc'⟩
  · rw [if_neg h0]
    by_cases h1 : i = dar.size
    · subst h1
      obtain ⟨dar', mem', he, hwf', hs', hl', hc', _⟩ := dar_insert_back_spec dar v mem hwf hmem
      rw [if_pos rfl, he]
      refine ⟨dar', mem', by simp, hwf', hs', ?_, hc'⟩
      rw [hl', ← hlen, List.take_length, List.drop_length]
    · rw [if_neg h1]
      obtain ⟨dar1, mem1, hg, hwf1, hs1, hlt1, hl1, hc1, _, hj, _⟩ :=
        dar_grow_spec dar mem hwf hmem
      have hst := dar_store_spec dar1 mem.junkp v i hwf1 hlt1 (by omega)
      simp only [hg, ne_eq, not_true_eq_false, if_false]
      refine ⟨_, mem1, rfl, hst.1, by simp [hs1], ?_, hc1⟩
      rw [hst.2, hl1]

theorem DynamicArray.live_length (dar : DynamicArray) (h : dar.size ≤ dar.buffer.length) :
    dar.live.length = dar.size := by
  unfold DynamicArray.live
  rw [List.length_take]
  omega

theorem DynamicArray.live_getElem? (dar : DynamicArray) (j : Nat) (h : j < dar.size) :
    dar.live[j]? = dar.buffer[j]? := by
  unfold DynamicArray.live
  rw [List.getElem?_take, if_pos h]

theorem dar_remove_at_spec (dar : DynamicArray) (i : Nat) (r0 : Option Process) (mem : Mem)
    (hlen : dar.size ≤ dar.buffer.length) (hi : i < dar.size) :
    ∃ dar' r, dar_remove_at dar i r0 mem = (DS_OK, dar', r) ∧ dar.live[i]? = some r ∧
      dar'.size = dar.size - 1 ∧ dar'.live = dar.live.take i ++ dar.live.drop (i + 1) ∧
      dar'.buffer.length = dar.buffer.length ∧ dar'.capacity = dar.capacity ∧
      dar'.growth_rate = dar.growth_rate := by
  have hne : dar_is_empty dar = false := by
    simp [dar_is_empty]; omega
  have hres : ∀ j, j < dar.size → dar.live[j]? = some (dar.buffer.getD j mem.junkp) := by
    intro j hj
    rw [DynamicArray.live_getElem? dar j hj, List.getD_eq_getElem?_getD,
      List.getElem?_eq_getElem (by omega)]
    rfl
  unfold dar_remove_at
  rw [hne]
  simp only [Bool.false_eq_true, if_false]
  rw [if_neg (by omega)]
  by_cases h0 : i = 0
  · subst h0
    rw [if_pos rfl]
    unfold dar_remove_front
    rw [hne]
    simp only [Bool.false_eq_true, if_false, ne_eq, not_true_eq_false]
    refine ⟨_, _, rfl, hres 0 hi, rfl, ?_, ?_, rfl, rfl⟩
    · unfold DynamicArray.live
      simp only
      exact remove_slots mem.junkp dar.buffer dar.size 0 dar.size hlen hi (by omega)
    · simp only [shift_down_loop_length]
  · rw [if_neg h0]
    by_cases h1 : i = dar.size - 1
    · rw [if_pos h1]
      unfold dar_remove_back
      rw [hne]
      simp only [Bool.false_eq_true, if_false, ne_eq, not_true_eq_false]
      refine ⟨_, _, rfl, ?_, rfl, ?_, rfl, rfl, rfl⟩
      · rw [← h1]; exact hres i hi
      · unfold DynamicArray.live
        simp only
        have hd : List.drop (i + 1) (List.take dar.size dar.buffer) = [] := by
          apply List.drop_eq_nil_of_le
          rw [List.length_take]
          omega
        rw [hd, List.append_nil, List.take_take, ← h1, min_eq_left (by omega)]
    · rw [if_neg h1]
      refine ⟨_, _, rfl, hres i hi, rfl, ?_, ?_, rfl, rfl⟩
      · unfold DynamicArray.live
        simp only
        exact remove_slots mem.junkp dar.buffer dar.size i (dar.size - i) hlen hi (by omega)
      · simp only [shift_down_loop_length]

/-! ## Claims C3, C5, C6 -/

/-- C3: shift correctness of `dar_insert_at`. For a well-formed table with `n = size` live
elements, a value `v` and an index `i ≤ n`, when the reallocation (made only if the table is
full) succeeds, the call returns `DS_OK`, the size becomes `n + 1`, element `i` is `v`, the
elements below `i` are the original ones and the elements at `(i, n + 1)` are the original
`[i, n)`. -/
theorem dar_insert_at_shift (dar : DynamicArray) (v : Option Process) (i : Nat) (mem : Mem)
    (hwf : dar.WF) (hi : i ≤ dar.size)
    (hmem : dar_is_full dar = true → mem.request.1 = true) :
    ∃ dar' mem', dar_insert_at dar v i mem = (DS_OK, dar', mem') ∧
      dar'.size = dar.size + 1 ∧ dar'.live.length = dar.size + 1 ∧
      dar'.live[i]? = some v ∧
      (∀ j, j < i → dar'.live[j]? = dar.live[j]?) ∧
      (∀ j, i ≤ j → j < dar.size → dar'.live[j + 1]? = dar.live[j]?) ∧
      dar'.live = dar.live.take i ++ v :: dar.live.drop i := by
  obtain ⟨dar', mem', he, hwf', hs', hl', _⟩ := dar_insert_at_spec dar v i mem hwf hi hmem
  have hlen : dar.live.length = dar.size :=
    DynamicArray.live_length dar (by rw [hwf.cap]; exact hwf.fits)
  have hlen' : dar'.live.length = dar'.size :=
    DynamicArray.live_length dar' (by rw [hwf'.cap]; exact hwf'.fits)
  have htl : (List.take i dar.live).length = i := by
    rw [List.length_take]; omega
  refine ⟨dar', mem', he, hs', by rw [hlen', hs'], ?_, ?_, ?_, hl'⟩
  · rw [hl', List.getElem?_append_right (by omega), htl]
    simp
  · intro j hj
    rw [hl', List.getElem?_append_left (by omega), List.getElem?_take, if_pos hj]
  · intro j hj1 hj2
    rw [hl', List.getElem?_append_right (by omega), htl, List.getElem?_cons,
      if_neg (by omega), List.getElem?_drop]
    congr 1
    omega

/-- C3 at the full table of eight records: inserting at index 3 grows the buffer once and
shifts the records 4 to 8. -/
theorem dar_insert_at_shift_witness :
    dar_full.WF ∧ 3 ≤ dar_full.size ∧ dar_is_full dar_full = true ∧
    ∃ dar' mem', dar_insert_at dar_full (prc_a 9) 3 mem_ok = (DS_OK, dar', mem') ∧
      dar'.size = dar_full.size + 1 ∧ dar'.live.length = dar_full.size + 1 ∧
      dar'.live[3]? = some (prc_a 9) ∧
      (∀ j, j < 3 → dar'.live[j]? = dar_full.live[j]?) ∧
      (∀ j, 3 ≤ j → j < dar_full.size → dar'.live[j + 1]? = dar_full.live[j]?) ∧
      dar'.live = dar_full.live.take 3 ++ prc_a 9 :: dar_full.live.drop 3 :=
  ⟨⟨rfl, by decide, by decide, rfl⟩, by decide, rfl,
    dar_insert_at_shift dar_full (prc_a 9) 3 mem_ok ⟨rfl, by decide, by decide, rfl⟩
      (by decide) (fun _ => rfl)⟩

/-- C5: `dar_remove_at` on a table whose `n = size ≥ 1` live elements fit its buffer, at an
index `i < n`: the call returns `DS_OK`, stores the element `i` in `*result`, and leaves size
`n - 1` with the live elements `[0, i)` followed by `[i + 1, n)`; a single-element table
becomes empty. This holds whatever value the read of slot `n` yields when the table is full. -/
theorem dar_remove_at_shift (dar : DynamicArray) (i : Nat) (r0 : Option Process) (mem : Mem)
    (hcap : dar.buffer.length = dar.capacity) (hfits : dar.size ≤ dar.capacity)
    (hi : i < dar.size) :
    ∃ dar' r, dar_remove_at dar i r0 mem = (DS_OK, dar', r) ∧ dar.live[i]? = some r ∧
      dar'.size = dar.size - 1 ∧ dar'.live.length = dar.size - 1 ∧
      dar'.live = dar.live.take i ++ dar.live.drop (i + 1) ∧
      (dar.size = 1 → dar'.size = 0 ∧ dar'.live = []) := by
  obtain ⟨dar', r, he, hr, hs', hl', hb', _, _⟩ :=
    dar_remove_at_spec dar i r0 mem (by omega) hi
  have hlen' : dar'.live.length = dar'.size :=
    DynamicArray.live_length dar' (by omega)
  refine ⟨dar', r, he, hr, hs', by rw [hlen', hs'], hl', ?_⟩
  intro h1
  refine ⟨by omega, ?_⟩
  apply List.eq_nil_of_length_eq_zero
  rw [hlen', hs', h1]

/-- C5 at the full table of eight records, index 3: the shift reads slot 8, outside the buffer,
and the seven remaining records are still right. -/
theorem dar_remove_at_shift_witness :
    dar_full.buffer.length = dar_full.capacity ∧ dar_full.size ≤ dar_full.capacity ∧
    3 < dar_full.size ∧
    ∃ dar' r, dar_remove_at dar_full 3 none mem_ok = (DS_OK, dar', r) ∧
      dar_full.live[3]? = some r ∧
      dar'.size = dar_full.size - 1 ∧ dar'.live.length = dar_full.size - 1 ∧
      dar'.live = dar_full.live.take 3 ++ dar_full.live.drop (3 + 1) ∧
      (dar_full.size = 1 → dar'.size = 0 ∧ dar'.live = []) :=
  ⟨rfl, by decide, by decide,
    dar_remove_at_shift dar_full 3 none mem_ok rfl (by decide) (by decide)⟩

/-- C6: `dar_remove_at` at `i` undoes `dar_insert_at` at `i`. For a well-formed table, a value
`v` and `i ≤ size`, when the reallocation succeeds both calls return `DS_OK`, the removed
element is `v`, and the size and the sequence of live elements are the original ones; the
capacity has not shrunk. -/
theorem dar_remove_at_inverts_insert_at (dar : DynamicArray) (v r0 : Option Process) (i : Nat)
    (mem : Mem) (hwf : dar.WF) (hi : i ≤ dar.size)
    (hmem : dar_is_full dar = true → mem.request.1 = true) :
    ∃ dar1 mem1 dar2 r, dar_insert_at dar v i mem = (DS_OK, dar1, mem1) ∧
      dar_remove_at dar1 i r0 mem1 = (DS_OK, dar2, r) ∧ r = v ∧
      dar2.size = dar.size ∧ dar2.live = dar.live ∧ dar.capacity ≤ dar2.capacity := by
  obtain ⟨dar1, mem1, he1, hwf1, hs1, hl1, hc1⟩ := dar_insert_at_spec dar v i mem hwf hi hmem
  obtain ⟨dar2, r, he2, hr2, hs2, hl2, _, hc2, _⟩ :=
    dar_remove_at_spec dar1 i r0 mem1 (by rw [hwf1.cap]; exact hwf1.fits) (by omega)
  have hlen : dar.live.length = dar.size :=
    DynamicArray.live_length dar (by rw [hwf.cap]; exact hwf.fits)
  have htl : (List.take i dar.live).length = i := by
    rw [List.length_take]; omega
  refine ⟨dar1, mem1, dar2, r, he1, he2, ?_, by omega, ?_, by omega⟩
  · rw [hl1, List.getElem?_append_right (by omega), htl] at hr2
    simpa using hr2.symm
  · rw [hl2, hl1]
    have h1 : List.take i (List.take i dar.live ++ v :: List.drop i dar.live) =
        List.take i dar.live := by
      rw [List.take_append_of_le_length (by omega), List.take_take, min_self]
    have h2 : List.drop (i + 1) (List.take i dar.live ++ v :: List.drop i dar.live) =
        List.drop i dar.live := by
      have h3 : i + 1 = (List.take i dar.live).length + 1 := by rw [htl]
      rw [h3, List.drop_append]
      rfl
    rw [h1, h2, List.take_append_drop]

/-- C6 at the full table of eight records, index 8 (insertion at the end, after a growth). -/
theorem dar_remove_at_inverts_insert_at_witness :
    dar_full.WF ∧ 8 ≤ dar_full.size ∧
    ∃ dar1 mem1 dar2 r, dar_insert_at dar_full (prc_a 9) 8 mem_ok = (DS_OK, dar1, mem1) ∧
      dar_remove_at dar1 8 none mem1 = (DS_OK, dar2, r) ∧ r = prc_a 9 ∧
      dar2.size = dar_full.size ∧ dar2.live = dar_full.live ∧
      dar_full.capacity ≤ dar2.capacity :=
  ⟨⟨rfl, by decide, by decide, rfl⟩, by decide,
    dar_remove_at_inverts_insert_at dar_full (prc_a 9) none 8 mem_ok
      ⟨rfl, by decide, by decide, rfl⟩ (by decide) (fun _ => rfl)⟩

/-! ## Lemmas: `dar_remove_keys` -/

theorem prc_compare_eq_zero_iff (p key : Process) :
    prc_compare (some p) (some key) = 0 ↔ p.pid = key.pid := by
  unfold prc_compare
  simp only
  by_cases h1 : p.pid > key.pid
  · rw [if_pos h1]
    constructor
    · intro h; exact absurd h (by decide)
    · intro h; omega
  · rw [if_neg h1]
    by_cases h2 : p.pid < key.pid
    · rw [if_pos h2]
      constructor
      · intro h; exact absurd h (by decide)
      · intro h; omega
    · rw [if_neg h2]
      constructor
      · intro _; omega
      · intro _; rfl

theorem prc_delete_record (p : Process) (h : is_record (some p) = true) :
    prc_delete (some p) = (DS_OK, none) := by
  unfold is_record at h
  simp only at h
  cases hn : p.name with
  | none => rw [hn] at h; exact absurd h (by decide)
  | some s => simp [prc_delete, str_delete, hn]

theorem size_t_dec_inc (i : Nat) (h : i < SIZE_MOD) :
    ((i + (SIZE_MOD - 1)) % SIZE_MOD + 1) % SIZE_MOD = i := by
  have hm : SIZE_MOD = 18446744073709551616 := by norm_num [SIZE_MOD]
  rw [hm] at h ⊢
  omega

theorem size_t_inc (i : Nat) (h : i + 1 < SIZE_MOD) : (i + 1) % SIZE_MOD = i + 1 :=
  Nat.mod_eq_of_lt h

theorem dar_remove_keys_loop_spec (key : Process) (mem : Mem) :
    ∀ (d fuel i : Nat) (dar : DynamicArray) (r0 : Option Process),
      dar.size ≤ dar.buffer.length → dar.size < SIZE_MOD → i ≤ dar.size → dar.size - i = d →
      d + 1 ≤ fuel → (∀ e ∈ dar.live, is_record e = true) →
      ∃ dar', dar_remove_keys_loop (some key) mem fuel i dar r0 = some (DS_OK, dar') ∧
        dar'.live = dar.live.take i ++ (dar.live.drop i).filter (fun e => !has_pid key.pid e) ∧
        dar'.size ≤ dar'.buffer.length ∧ dar'.size ≤ dar.size ∧
        dar'.capacity = dar.capacity := by
  intro d
  induction d with
  | zero =>
    intro fuel i dar r0 hlen _ hi hd hfuel _
    obtain ⟨f, rfl⟩ : ∃ f, fuel = f + 1 := ⟨fuel - 1, by omega⟩
    have hll := DynamicArray.live_length dar hlen
    unfold dar_remove_keys_loop
    rw [if_neg (by omega)]
    refine ⟨dar, rfl, ?_, hlen, le_refl _, rfl⟩
    rw [List.drop_eq_nil_of_le (by omega), List.take_of_length_le (by omega)]
    simp
  | succ d ih =>
    intro fuel i dar r0 hlen hsz hi hd hfuel hrec
    obtain ⟨f, rfl⟩ : ∃ f, fuel = f + 1 := ⟨fuel - 1, by omega⟩
    have hilt : i < dar.size := by omega
    have hll := DynamicArray.live_length dar hlen
    have hlive : dar.live[i]? = some (dar.buffer.getD i mem.junkp) := by
      rw [DynamicArray.live_getElem? dar i hilt, List.getD_eq_getElem?_getD,
        List.getElem?_eq_getElem (by omega)]
      rfl
    have hmem : dar.buffer.getD i mem.junkp ∈ dar.live := List.getElem?_mem hlive
    have hsplit : dar.live.drop i = dar.buffer.getD i mem.junkp :: dar.live.drop (i + 1) := by
      rw [List.drop_eq_getElem_cons (by omega)]
      congr 1
      have := List.getElem?_eq_getElem (show i < dar.live.length by omega)
      rw [hlive] at this
      exact (Option.some.inj this).symm
    have hrecE := hrec _ hmem
    cases he : dar.buffer.getD i mem.junkp with
    | none => rw [he] at hrecE; exact absurd hrecE (by decide)
    | some p =>
      rw [he] at hrecE hsplit hlive
      unfold dar_remove_keys_loop
      rw [if_pos hilt, he]
      by_cases hc : prc_compare (some p) (some key) = 0
      · rw [if_pos hc]
        obtain ⟨dar1, r, he1, hr1, hs1, hl1, hb1, hc1, _⟩ :=
          dar_remove_at_spec dar i r0 mem hlen hilt
        rw [hlive] at hr1
        have hr : r = some p := (Option.some.inj hr1).symm
        subst hr
        rw [he1]
        simp only [ne_eq, not_true_eq_false, if_false, prc_delete_record p hrecE]
        rw [size_t_dec_inc i (by omega)]
        have hrec1 : ∀ e ∈ dar1.live, is_record e = true := by
          intro e hmem1
          rw [hl1] at hmem1
          rcases List.mem_append.mp hmem1 with h | h
          · exact hrec e (List.mem_of_mem_take h)
          · exact hrec e (List.mem_of_mem_drop h)
        obtain ⟨dar', he', hl', hb', hs', hc'⟩ :=
          ih f i dar1 none (by omega) (by omega) (by omega) (by omega) (by omega) hrec1
        refine ⟨dar', he', ?_, hb', by omega, by rw [hc', hc1]⟩
        have hpid : has_pid key.pid (some p) = true := by
          simp [has_pid, (prc_compare_eq_zero_iff p key).mp hc]
        have htl : (List.take i dar.live).length = i := by
          rw [List.length_take]; omega
        have h1 : List.take i dar1.live = List.take i dar.live := by
          rw [hl1, List.take_left' htl]
        have h2 : List.drop i dar1.live = List.drop (i + 1) dar.live := by
          rw [hl1, List.drop_left' htl]
        rw [hl', h1, h2, hsplit, List.filter_cons, if_neg (by simp [hpid])]
      · rw [if_neg hc, size_t_inc i (by omega)]
        obtain ⟨dar', he', hl', hb', hs', hc'⟩ :=
          ih f (i + 1) dar r0 hlen hsz (by omega) (by omega) (by omega) hrec
        refine ⟨dar', he', ?_, hb', hs', hc'⟩
        have hpid : has_pid key.pid (some p) = false := by
          have : ¬ p.pid = key.pid := fun h => hc ((prc_compare_eq_zero_iff p key).mpr h)
          simp [has_pid, this]
        rw [hl', hsplit, List.filter_cons, if_pos (by simp [hpid]), List.take_succ, hlive]
        simp

/-! ## Claim C7 -/

/-- C7: on a non-empty table whose live elements are records owning their name, with a key
record that is not `NULL`, `dar_remove_keys` returns `DS_OK` (a budget of `size + 1` loop
iterations is enough) and the live sequence becomes the original one filtered to the records
whose pid differs from the key's pid, in the original order; the size is the number of those
records. -/
theorem dar_remove_keys_filters (dar : DynamicArray) (key : Process) (mem : Mem) (fuel : Nat)
    (hcap : dar.buffer.length = dar.capacity) (hfits : dar.size ≤ dar.capacity)
    (hsz : dar.size < SIZE_MOD) (hne : 0 < dar.size)
    (hrec : ∀ e ∈ dar.live, is_record e = true) (hfuel : dar.size + 1 ≤ fuel) :
    ∃ dar', dar_remove_keys fuel dar (some key) mem = some (DS_OK, dar') ∧
      dar'.live = dar.live.filter (fun e => !has_pid key.pid e) ∧
      dar'.size = (dar.live.filter (fun e => !has_pid key.pid e)).length := by
  obtain ⟨dar', he, hl, hb, _, _⟩ :=
    dar_remove_keys_loop_spec key mem dar.size fuel 0 dar mem.junkp (by omega) hsz
      (Nat.zero_le _) rfl hfuel hrec
  have hempty : dar_is_empty dar = false := by
    simp [dar_is_empty]; omega
  unfold dar_remove_keys
  rw [hempty]
  simp only [Bool.false_eq_true, if_false]
  rw [List.take_zero, List.nil_append, List.drop_zero] at hl
  refine ⟨dar', he, hl, ?_⟩
  rw [← hl, DynamicArray.live_length dar' hb]

/-- C7 at the table with pids 7, 7, 1, 7, 2 and key pid 7 (matches at index 0 and adjacent):
the records with pids 1 and 2 remain. -/
theorem dar_remove_keys_filters_witness :
    dar_77172.buffer.length = dar_77172.capacity ∧ dar_77172.size ≤ dar_77172.capacity ∧
    0 < dar_77172.size ∧ (∀ e ∈ dar_77172.live, is_record e = true) ∧
    dar_77172.live.filter (fun e => !has_pid 7 e) = [prc_a 1, prc_a 2] ∧
    ∃ dar', dar_remove_keys 6 dar_77172 (prc_a 7) mem_ok = some (DS_OK, dar') ∧
      dar'.live = dar_77172.live.filter (fun e => !has_pid 7 e) ∧
      dar'.size = (dar_77172.live.filter (fun e => !has_pid 7 e)).length :=
  ⟨rfl, by decide, by decide, by decide, by decide,
    dar_remove_keys_filters dar_77172 { name := some str_a, pid := 7, cpu := 0, io := 0, pri := 0 }
      mem_ok 6 rfl (by decide) (by decide) (by decide) (by decide) (by decide)⟩

/-! ## Lemmas: String -/

theorem take_set_of_le {α : Type} (l : List α) (m n : Nat) (a : α) (h : m ≤ n) :
    (l.set n a).take m = l.take m := by
  apply List.ext_getElem?
  intro j
  rw [List.getElem?_take, List.getElem?_take]
  by_cases hj : j < m
  · rw [if_pos hj, if_pos hj, List.getElem?_set_ne (by omega)]
  · rw [if_neg hj, if_neg hj]

theorem CString.bytes_length (s : CString) (h : s.len ≤ s.buffer.length) :
    s.bytes.length = s.len := by
  unfold CString.bytes
  rw [List.length_take]
  omega

/-- The growth step in front of every single-character push. -/
theorem str_grow_spec (s : CString) (mem : Mem) (hwf : s.WF) (hmem : mem.NeverFails) :
    ∃ s1 mem1,
      (if str_buffer_full s then str_realloc s mem else (DS_OK, s, mem)) = (DS_OK, s1, mem1) ∧
      s1.WF ∧ s1.len = s.len ∧ s1.len + 1 < s1.capacity ∧ s1.bytes = s.bytes ∧
      mem1.NeverFails ∧ mem1.junkc = mem.junkc ∧ mem1.junkp = mem.junkp := by
  obtain ⟨hcap, hroom, hmark, hrate⟩ := hwf
  have hrate2 : s.growth_rate = 2 := hrate
  by_cases hfull : str_buffer_full s = true
  · have hsz : s.len + 1 ≥ s.capacity := by simpa [str_buffer_full] using hfull
    obtain ⟨hreq, hnf, hjc, hjp⟩ := Mem.request_of_neverFails mem hmem
    rw [if_pos hfull]
    unfold str_realloc
    rcases hr : mem.request with ⟨ok, mem1⟩
    rw [hr] at hreq hnf hjc hjp
    simp only at hreq hnf hjc hjp
    subst hreq
    have hlen : (realloc_slots mem.junkc s.buffer (s.capacity * s.growth_rate)).length =
        s.capacity * s.growth_rate :=
      realloc_slots_length _ _ _ (by rw [hcap, hrate2]; omega)
    refine ⟨_, mem1, rfl, ⟨?_, ?_, ?_, hrate⟩, rfl, ?_, ?_, hnf, hjc, hjp⟩
    · simp only [List.length_set]
      exact hlen
    · simp only
      rw [hrate2]; omega
    · simp only
      rw [List.getElem?_set_self (by rw [hlen, hrate2]; omega)]
    · simp only
      rw [hrate2]; omega
    · unfold CString.bytes
      simp only
      rw [take_set_of_le _ _ _ _ (le_refl _),
        realloc_slots_take _ _ _ _ (by rw [hcap, hrate2]; omega) (by omega)]
  · rw [if_neg hfull]
    have hsz : ¬ s.len + 1 ≥ s.capacity := by simpa [str_buffer_full] using hfull
    exact ⟨s, mem, rfl, ⟨hcap, hroom, hmark, hrate⟩, rfl, by omega, rfl, hmem, rfl, rfl⟩

theorem str_push_char_back_spec (s : CString) (c : CChar) (mem : Mem) (hwf : s.WF)
    (hmem : mem.NeverFails) :
    ∃ s' mem', str_push_char_back s c mem = (DS_OK, s', mem') ∧ s'.WF ∧
      s'.bytes = s.bytes ++ [c] ∧ s'.len = s.len + 1 ∧ mem'.NeverFails ∧
      mem'.junkc = mem.junkc ∧ mem'.junkp = mem.junkp := by
  obtain ⟨s1, mem1, hg, hwf1, hl1, hroom1, hb1, hnf, hjc, hjp⟩ := str_grow_spec s mem hwf hmem
  obtain ⟨hcap, _, _, hrate⟩ := hwf1
  unfold str_push_char_back
  simp only [hg, ne_eq, not_true_eq_false, if_false]
  refine ⟨_, mem1, rfl, ⟨?_, ?_, ?_, hrate⟩, ?_, by simp [hl1], hnf, hjc, hjp⟩
  · simp only [List.length_set]
    exact hcap
  · simp only
    omega
  · simp only
    rw [List.getElem?_set_self (by rw [List.length_set]; omega)]
  · rw [← hb1]
    unfold CString.bytes
    simp only
    rw [take_set_of_le _ _ _ _ (le_refl _), List.take_succ,
      List.getElem?_set_self (by omega), take_set_of_le _ _ _ _ (le_refl _)]
    rfl

theorem str_pop_char_front_empty (s : CString) (mem : Mem) (h : s.len = 0) :
    str_pop_char_front s mem = (DS_ERR_INVALID_OPERATION, s) := by
  unfold str_pop_char_front
  simp [str_buffer_empty, h]

theorem str_pop_char_front_spec (s : CString) (mem : Mem) (c : CChar) (rest : List CChar)
    (hwf : s.WF) (hb : s.bytes = c :: rest) :
    s.buffer.getD 0 mem.junkc = c ∧
    ∃ s', str_pop_char_front s mem = (DS_OK, s') ∧ s'.WF ∧ s'.bytes = rest ∧
      s'.len + 1 = s.len := by
  obtain ⟨hcap, hroom, hmark, hrate⟩ := hwf
  have hlen : s.len = rest.length + 1 := by
    have := CString.bytes_length s (by omega)
    rw [hb] at this
    simpa using this.symm
  constructor
  · have h0 : s.bytes[0]? = some c := by rw [hb]; simp
    unfold CString.bytes at h0
    rw [List.getElem?_take, if_pos (by omega)] at h0
    rw [List.getD_eq_getElem?_getD, h0]
    rfl
  · have hne : str_buffer_empty s = false := by
      simp [str_buffer_empty]; omega
    unfold str_pop_char_front
    rw [hne]
    simp only [Bool.false_eq_true, if_false]
    refine ⟨_, rfl, ⟨?_, ?_, ?_, hrate⟩, ?_, by simp only; omega⟩
    · simp only [List.length_set, shift_down_loop_length]
      exact hcap
    · simp only
      omega
    · simp only
      rw [List.getElem?_set_self (by rw [shift_down_loop_length]; omega)]
    · unfold CString.bytes
      simp only
      rw [take_set_of_le _ _ _ _ (le_refl _),
        remove_slots mem.junkc s.buffer s.len 0 s.len (by omega) (by omega) (by omega)]
      have : List.take s.len s.buffer = c :: rest := hb
      rw [this]
      rfl

theorem str_init_spec (mem : Mem) (hmem : mem.NeverFails) :
    ∃ s mem', str_init mem = (DS_OK, some s, mem') ∧ s.WF ∧ s.bytes = [] ∧ s.len = 0 ∧
      mem'.NeverFails ∧ mem'.junkc = mem.junkc ∧ mem'.junkp = mem.junkp := by
  obtain ⟨hreq1, hnf1, hjc1, hjp1⟩ := Mem.request_of_neverFails mem hmem
  obtain ⟨hreq2, hnf2, hjc2, hjp2⟩ := Mem.request_of_neverFails _ hnf1
  unfold str_init
  rcases hr1 : mem.request with ⟨ok1, mem1⟩
  rw [hr1] at hreq1 hreq2 hnf2 hjc1 hjp1 hjc2 hjp2
  simp only at hreq1 hreq2 hnf2 hjc1 hjp1 hjc2 hjp2
  subst hreq1
  simp only
  rcases hr2 : mem1.request with ⟨ok2, mem2⟩
  rw [hr2] at hreq2 hnf2 hjc2 hjp2
  simp only at hreq2 hnf2 hjc2 hjp2
  subst hreq2
  simp only
  refine ⟨_, mem2, rfl, ⟨by simp, by simp, by simp, rfl⟩, by simp [CString.bytes], rfl, hnf2,
    by rw [hjc2, hjc1], by rw [hjp2, hjp1]⟩

theorem file_read_cons_eof (rest : List CChar) : file_read (EOF :: rest) = [] := by
  simp [file_read]

theorem file_read_cons (c : CChar) (rest : List CChar) (h : c ≠ EOF) :
    file_read (c :: rest) = c :: file_read rest := by
  simp [file_read, h]

theorem file_read_eq_self (content : List CChar) (h : EOF ∉ content) :
    file_read content = content := by
  unfold file_read
  rw [List.takeWhile_eq_self_iff]
  intro c hc
  simp only [ne_eq, decide_eq_true_eq]
  intro he
  exact h (he ▸ hc)

theorem file_read_append (pre tail : List CChar) (h : EOF ∉ pre) :
    file_read (pre ++ tail) = pre ++ file_read tail := by
  induction pre with
  | nil => rfl
  | cons c pre ih =>
    have hc : c ≠ EOF := fun he => h (he ▸ List.mem_cons_self _ _)
    rw [List.cons_append, file_read_cons _ _ hc,
      ih (fun hm => h (List.mem_cons_of_mem _ hm)), List.cons_append]

theorem file_read_length_le (content : List CChar) :
    (file_read content).length ≤ content.length := by
  unfold file_read
  exact (List.takeWhile_sublist _).length_le

theorem file_load_fill_spec :
    ∀ (content : List CChar) (text : CString) (mem : Mem), text.WF → mem.NeverFails →
      ∃ text' mem', file_load_fill content text mem = (DS_OK, text', mem') ∧ text'.WF ∧
        text'.bytes = text.bytes ++ file_read content ∧
        text'.len = text.len + (file_read content).length ∧
        mem'.NeverFails ∧ mem'.junkc = mem.junkc ∧ mem'.junkp = mem.junkp := by
  intro content
  induction content with
  | nil =>
    intro text mem hwf hmem
    exact ⟨text, mem, rfl, hwf, by simp [file_read], by simp [file_read], hmem, rfl, rfl⟩
  | cons c rest ih =>
    intro text mem hwf hmem
    by_cases hc : c = EOF
    · subst hc
      unfold file_load_fill
      rw [if_pos rfl, file_read_cons_eof]
      exact ⟨text, mem, rfl, hwf, by simp, by simp, hmem, rfl, rfl⟩
    · obtain ⟨t1, m1, he, hwf1, hb1, hl1, hnf1, hjc1, hjp1⟩ :=
        str_push_char_back_spec text c mem hwf hmem
      obtain ⟨t2, m2, he2, hwf2, hb2, hl2, hnf2, hjc2, hjp2⟩ := ih t1 m1 hwf1 hnf1
      unfold file_load_fill
      rw [if_neg hc, he, file_read_cons _ _ hc]
      simp only [ne_eq, not_true_eq_false, if_false]
      refine ⟨t2, m2, he2, hwf2, ?_, ?_, hnf2, by rw [hjc2, hjc1], by rw [hjp2, hjp1]⟩
      · rw [hb2, hb1]; simp
      · rw [hl2, hl1]; simp; omega

/-! ## Lemmas: the field loops -/

theorem file_load_field_found (delim : CChar) :
    ∀ (pre rest : List CChar) (fuel : Nat) (text field : CString) (mem : Mem),
      text.WF → field.WF → mem.NeverFails → text.bytes = pre ++ delim :: rest →
      delim ∉ pre → pre.length + 1 ≤ fuel →
      ∃ text' field' mem',
        file_load_field delim fuel text field mem = some (DS_OK, text', field', mem') ∧
        text'.WF ∧ text'.bytes = rest ∧ field'.WF ∧ field'.bytes = field.bytes ++ pre ∧
        mem'.NeverFails ∧ mem'.junkc = mem.junkc ∧ mem'.junkp = mem.junkp := by
  intro pre
  induction pre with
  | nil =>
    intro rest fuel text field mem hwt hwf hnf hb _ hfuel
    obtain ⟨f, rfl⟩ : ∃ f, fuel = f + 1 := ⟨fuel - 1, by omega⟩
    obtain ⟨hc, text1, hp, hwt1, hb1, _⟩ :=
      str_pop_char_front_spec text mem delim rest hwt (by simpa using hb)
    unfold file_load_field
    simp only [hc, hp, ne_eq, not_true_eq_false, if_false, if_true]
    exact ⟨text1, field, mem, rfl, hwt1, hb1, hwf, by simp, hnf, rfl, rfl⟩
  | cons c pre ih =>
    intro rest fuel text field mem hwt hwf hnf hb hnot hfuel
    obtain ⟨f, rfl⟩ : ∃ f, fuel = f + 1 := ⟨fuel - 1, by simp at hfuel; omega⟩
    have hcd : c ≠ delim := fun h => hnot (by rw [h]; exact List.mem_cons_self _ _)
    have hnot' : delim ∉ pre := fun h => hnot (List.mem_cons_of_mem _ h)
    obtain ⟨hc, text1, hp, hwt1, hb1, _⟩ :=
      str_pop_char_front_spec text mem c (pre ++ delim :: rest) hwt (by simpa using hb)
    obtain ⟨field1, mem1, hpb, hwf1, hfb1, _, hnf1, hjc1, hjp1⟩ :=
      str_push_char_back_spec field c mem hwf hnf
    obtain ⟨text', field', mem', he, hwt', hb', hwf', hfb', hnf', hjc', hjp'⟩ :=
      ih rest f text1 field1 mem1 hwt1 hwf1 hnf1 hb1 hnot' (by simp at hfuel; omega)
    unfold file_load_field
    simp only [hc, hp, hpb, ne_eq, not_true_eq_false, if_false, hcd]
    refine ⟨text', field', mem', he, hwt', hb', hwf', ?_, hnf', by rw [hjc', hjc1],
      by rw [hjp', hjp1]⟩
    rw [hfb', hfb1]
    simp

theorem file_load_field_missing (delim : CChar) :
    ∀ (pre : List CChar) (fuel : Nat) (text field : CString) (mem : Mem),
      text.WF → field.WF → mem.NeverFails → text.bytes = pre →
      delim ∉ pre → pre.length + 1 ≤ fuel →
      ∃ text' field' mem',
        file_load_field delim fuel text field mem =
          some (DS_ERR_INVALID_OPERATION, text', field', mem') := by
  intro pre
  induction pre with
  | nil =>
    intro fuel text field mem hwt hwf hnf hb _ hfuel
    obtain ⟨f, rfl⟩ : ∃ f, fuel = f + 1 := ⟨fuel - 1, by omega⟩
    have hlen : text.len = 0 := by
      have := CString.bytes_length text (by rw [hwt.cap]; exact le_of_lt hwt.room)
      rw [hb] at this
      simpa using this.symm
    unfold file_load_field
    simp only [str_pop_char_front_empty text mem hlen, ne_eq]
    exact ⟨text, field, mem, by simp⟩
  | cons c pre ih =>
    intro fuel text field mem hwt hwf hnf hb hnot hfuel
    obtain ⟨f, rfl⟩ : ∃ f, fuel = f + 1 := ⟨fuel - 1, by simp at hfuel; omega⟩
    have hcd : c ≠ delim := fun h => hnot (by rw [h]; exact List.mem_cons_self _ _)
    have hnot' : delim ∉ pre := fun h => hnot (List.mem_cons_of_mem _ h)
    obtain ⟨hc, text1, hp, hwt1, hb1, _⟩ :=
      str_pop_char_front_spec text mem c pre hwt hb
    obtain ⟨field1, mem1, hpb, hwf1, hfb1, _, hnf1, hjc1, hjp1⟩ :=
      str_push_char_back_spec field c mem hwf hnf
    obtain ⟨text', field', mem', he⟩ :=
      ih f text1 field1 mem1 hwt1 hwf1 hnf1 hb1 hnot' (by simp at hfuel; omega)
    unfold file_load_field
    simp only [hc, hp, hpb, ne_eq, not_true_eq_false, if_false, hcd]
    exact ⟨text', field', mem', he⟩

/-! ## Lemmas: number conversions -/

theorem isdigit_digit (d : Nat) (h : d < 10) : isdigit (48 + (d : Int)) = true := by
  have h1 : (48 : Int) ≤ 48 + (d : Int) := by omega
  have h2 : (48 : Int) + (d : Int) ≤ 57 := by omega
  simp [isdigit, h1, h2]

theorem digit_value (d : Nat) : ((48 + (d : Int)) - 48).toNat = d := by
  simp

theorem scan_digits_digit (d : Nat) (h : d < 10) (rest : List CChar) (acc cnt : Nat) :
    scan_digits ((48 + (d : Int)) :: rest) acc cnt = scan_digits rest (acc * 10 + d) (cnt + 1) := by
  rw [scan_digits, if_pos (isdigit_digit d h), digit_value]

theorem scan_fmt_digits :
    ∀ (fuel n : Nat) (acc : List CChar) (cnt : Nat), n < fuel →
      ∃ k, scan_digits (fmt_digits fuel n acc) 0 cnt = scan_digits acc n (cnt + k + 1) := by
  intro fuel
  induction fuel with
  | zero => intro n acc cnt h; omega
  | succ f ih =>
    intro n acc cnt h
    unfold fmt_digits
    by_cases h10 : n < 10
    · rw [if_pos h10, scan_digits_digit n h10]
      exact ⟨0, by simp⟩
    · rw [if_neg h10]
      obtain ⟨k, hk⟩ := ih (n / 10) ((48 + ((n % 10 : Nat) : Int)) :: acc) cnt (by omega)
      rw [hk, scan_digits_digit (n % 10) (Nat.mod_lt _ (by decide))]
      refine ⟨k + 1, ?_⟩
      have : n / 10 * 10 + n % 10 = n := by omega
      rw [this]
      rfl

theorem fmt_digits_mem :
    ∀ (fuel n : Nat) (acc : List CChar) (c : CChar), c ∈ fmt_digits fuel n acc →
      isdigit c = true ∨ c ∈ acc := by
  intro fuel
  induction fuel with
  | zero => intro n acc c h; exact Or.inr h
  | succ f ih =>
    intro n acc c h
    unfold fmt_digits at h
    by_cases h10 : n < 10
    · rw [if_pos h10] at h
      rcases List.mem_cons.mp h with rfl | h
      · exact Or.inl (isdigit_digit n h10)
      · exact Or.inr h
    · rw [if_neg h10] at h
      rcases ih _ _ _ h with h | h
      · exact Or.inl h
      · rcases List.mem_cons.mp h with rfl | h
        · exact Or.inl (isdigit_digit _ (Nat.mod_lt _ (by decide)))
        · exact Or.inr h

theorem fmt_digits_ne_nil :
    ∀ (fuel n : Nat) (acc : List CChar), n < fuel → fmt_digits fuel n acc ≠ [] := by
  intro fuel
  induction fuel with
  | zero => intro n acc h; omega
  | succ f ih =>
    intro n acc h
    unfold fmt_digits
    by_cases h10 : n < 10
    · rw [if_pos h10]; exact List.cons_ne_nil _ _
    · rw [if_neg h10]; exact ih _ _ (by omega)

theorem fmt_zu_digits (n : Nat) : ∀ c ∈ fmt_zu n, isdigit c = true := by
  intro c h
  rcases fmt_digits_mem _ _ _ _ h with h | h
  · exact h
  · exact absurd h (List.not_mem_nil _)

theorem isdigit_bounds (c : Int) (h : isdigit c = true) : (48 : Int) ≤ c ∧ c ≤ (57 : Int) := by
  simpa [isdigit] using h

theorem sscanf_zu_fmt_zu (n : Nat) (hn : n < SIZE_MOD) (buf : List CChar)
    (hbuf : c_str buf = fmt_zu n) : sscanf_zu buf = some n := by
  obtain ⟨k, hk⟩ := scan_fmt_digits (n + 1) n [] 0 (by omega)
  have hne : fmt_zu n ≠ [] := fmt_digits_ne_nil (n + 1) n [] (by omega)
  obtain ⟨d, ds, hds⟩ := List.exists_cons_of_ne_nil hne
  obtain ⟨hd1, hd2⟩ :=
    isdigit_bounds d (fmt_zu_digits n d (by rw [hds]; exact List.mem_cons_self _ _))
  have h32 : ¬ (@Eq Int d 32) := by omega
  have h13 : ¬ (@LE.le Int _ d 13) := by omega
  have hsp : isspace d = false := by
    simp [isspace, h32, h13]
  have hscan : scan_digits (d :: ds) 0 0 = (n, 0 + k + 1) := by
    rw [← hds]
    exact hk
  have h45 : ¬ (@Eq Int d 45) := by omega
  have h43 : ¬ (@Eq Int d 43) := by omega
  have hsign : scan_sign (d :: ds) = (false, d :: ds) := by
    simp [scan_sign, h45, h43]
  unfold sscanf_zu
  rw [hbuf, hds, List.dropWhile_cons, hsp]
  simp only [Bool.false_eq_true, if_false, hsign, hscan]
  simp [hn]

/-! ## Lemmas: the record loop -/

theorem c_str_of_wf (s : CString) (hwf : s.WF) (hnz : ∀ c ∈ s.bytes, c ≠ 0) :
    c_str s.buffer = s.bytes := by
  obtain ⟨hcap, hroom, hmark, _⟩ := hwf
  have hsplit : s.buffer = s.bytes ++ 0 :: s.buffer.drop (s.len + 1) := by
    unfold CString.bytes
    have h1 : s.buffer.drop s.len = 0 :: s.buffer.drop (s.len + 1) := by
      rw [List.drop_eq_getElem_cons (by omega)]
      congr 1
      have := List.getElem?_eq_getElem (show s.len < s.buffer.length by omega)
      rw [hmark] at this
      exact (Option.some.inj this).symm
    rw [← h1, List.take_append_drop]
  unfold c_str
  rw [hsplit, List.takeWhile_append_of_pos (by
    intro a ha
    simpa using hnz a ha)]
  simp

theorem fmt_zu_not_mem (n : Nat) (c : Int) (h : c < 48) : c ∉ fmt_zu n := by
  intro hmem
  have := (isdigit_bounds c (fmt_zu_digits n c hmem)).1
  omega

theorem prc_init_spec (name : Option CString) (pid cpu io pri : Nat) (mem : Mem)
    (hmem : mem.NeverFails) :
    ∃ mem', prc_init name pid cpu io pri mem =
        (DS_OK, some { name := name, pid := pid, cpu := cpu, io := io, pri := pri }, mem') ∧
      mem'.NeverFails ∧ mem'.junkc = mem.junkc ∧ mem'.junkp = mem.junkp := by
  obtain ⟨hreq, hnf, hjc, hjp⟩ := Mem.request_of_neverFails mem hmem
  unfold prc_init
  rcases hr : mem.request with ⟨ok, mem1⟩
  rw [hr] at hreq hnf hjc hjp
  simp only at hreq hnf hjc hjp
  subst hreq
  exact ⟨mem1, rfl, hnf, hjc, hjp⟩

/-- The five `str_init` calls at the start of an iteration of the record loop. -/
theorem five_str_init (mem : Mem) (hmem : mem.NeverFails) :
    ∃ s1 m1 s2 m2 s3 m3 s4 m4 s5 m5,
      str_init mem = (DS_OK, some s1, m1) ∧ str_init m1 = (DS_OK, some s2, m2) ∧
      str_init m2 = (DS_OK, some s3, m3) ∧ str_init m3 = (DS_OK, some s4, m4) ∧
      str_init m4 = (DS_OK, some s5, m5) ∧
      (s1.WF ∧ s1.bytes = []) ∧ (s2.WF ∧ s2.bytes = []) ∧ (s3.WF ∧ s3.bytes = []) ∧
      (s4.WF ∧ s4.bytes = []) ∧ (s5.WF ∧ s5.bytes = []) ∧ m5.NeverFails := by
  obtain ⟨s1, m1, h1, w1, b1, _, n1, _, _⟩ := str_init_spec mem hmem
  obtain ⟨s2, m2, h2, w2, b2, _, n2, _, _⟩ := str_init_spec m1 n1
  obtain ⟨s3, m3, h3, w3, b3, _, n3, _, _⟩ := str_init_spec m2 n2
  obtain ⟨s4, m4, h4, w4, b4, _, n4, _, _⟩ := str_init_spec m3 n3
  obtain ⟨s5, m5, h5, w5, b5, _, n5, _, _⟩ := str_init_spec m4 n4
  exact ⟨s1, m1, s2, m2, s3, m3, s4, m4, s5, m5, h1, h2, h3, h4, h5, ⟨w1, b1⟩, ⟨w2, b2⟩,
    ⟨w3, b3⟩, ⟨w4, b4⟩, ⟨w5, b5⟩, n5⟩

theorem record_text_length (r : List CChar × Nat × Nat × Nat × Nat) :
    4 ≤ (record_text r).length := by
  unfold record_text
  simp only [List.length_append, List.length_cons]
  omega

/-- One iteration of the record loop on a text that starts with a complete record. -/
theorem file_load_records_step (r : List CChar × Nat × Nat × Nat × Nat) (rest : List CChar)
    (f : Nat) (text : CString) (table : DynamicArray) (vars : Fields) (mem : Mem)
    (hwt : text.WF) (hwd : table.WF) (hnf : mem.NeverFails)
    (hb : text.bytes = record_text r ++ 10 :: rest) (hname : (44 : Int) ∉ r.1)
    (hfit : fields_fit r) (hfuel : text.len ≤ f) :
    ∃ text' table' mem',
      file_load_records (f + 1) DS_OK text table vars mem =
        file_load_records f DS_OK text' table'
          { pid := r.2.1, cpu := r.2.2.1, io := r.2.2.2.1, pri := r.2.2.2.2 } mem' ∧
      text'.WF ∧ text'.bytes = rest ∧ text'.len + 1 ≤ f ∧ table'.WF ∧
      table'.size = table.size + 1 ∧
      table'.records = table.records ++ [some r] ∧ mem'.NeverFails := by
  obtain ⟨name, pid, cpu, io, pri⟩ := r
  obtain ⟨hpid, hcpu, hio, hpri⟩ := hfit
  simp only at hpid hcpu hio hpri hname
  simp only [record_text, List.append_assoc, List.cons_append] at hb
  have hlen : text.len = text.bytes.length :=
    (CString.bytes_length text (by rw [hwt.cap]; exact le_of_lt hwt.room)).symm
  have hlen2 := hlen
  rw [hb] at hlen2
  simp only [List.length_append, List.length_cons] at hlen2
  obtain ⟨s1, m1, s2, m2, s3, m3, s4, m4, s5, m5, h1, h2, h3, h4, h5, ⟨w1, b1⟩, ⟨w2, b2⟩,
    ⟨w3, b3⟩, ⟨w4, b4⟩, ⟨w5, b5⟩, n5⟩ := five_str_init mem hnf
  obtain ⟨t1, nm, ma, e1, wt1, bt1, wnm, bnm, na, _, _⟩ :=
    file_load_field_found 44 name _ f text s1 m5 hwt w1 n5 hb hname (by omega)
  obtain ⟨t2, ps, mb, e2, wt2, bt2, wps, bps, nb, _, _⟩ :=
    file_load_field_found 44 (fmt_zu pid) _ f t1 s2 ma wt1 w2 na bt1
      (fmt_zu_not_mem pid 44 (by decide)) (by omega)
  obtain ⟨t3, cs, mc, e3, wt3, bt3, wcs, bcs, nc, _, _⟩ :=
    file_load_field_found 44 (fmt_zu cpu) _ f t2 s3 mb wt2 w3 nb bt2
      (fmt_zu_not_mem cpu 44 (by decide)) (by omega)
  obtain ⟨t4, is, md, e4, wt4, bt4, wis, bis, nd, _, _⟩ :=
    file_load_field_found 44 (fmt_zu io) _ f t3 s4 mc wt3 w4 nc bt3
      (fmt_zu_not_mem io 44 (by decide)) (by omega)
  obtain ⟨t5, rs, me, e5, wt5, bt5, wrs, brs, ne, _, _⟩ :=
    file_load_field_found 10 (fmt_zu pri) _ f t4 s5 md wt4 w5 nd bt4
      (fmt_zu_not_mem pri 10 (by decide)) (by omega)
  rw [b1, List.nil_append] at bnm
  rw [b2, List.nil_append] at bps
  rw [b3, List.nil_append] at bcs
  rw [b4, List.nil_append] at bis
  rw [b5, List.nil_append] at brs
  have hz : ∀ (s : CString) (n : Nat), s.bytes = fmt_zu n → ∀ c ∈ s.bytes, c ≠ 0 := by
    intro s n hs c hc h0
    rw [hs, h0] at hc
    exact fmt_zu_not_mem n 0 (by decide) hc
  have cpid : sscanf_zu ps.buffer = some pid :=
    sscanf_zu_fmt_zu pid hpid _ (by rw [c_str_of_wf ps wps (hz ps pid bps), bps])
  have ccpu : sscanf_zu cs.buffer = some cpu :=
    sscanf_zu_fmt_zu cpu hcpu _ (by rw [c_str_of_wf cs wcs (hz cs cpu bcs), bcs])
  have cio : sscanf_zu is.buffer = some io :=
    sscanf_zu_fmt_zu io hio _ (by rw [c_str_of_wf is wis (hz is io bis), bis])
  have cpri : sscanf_zu rs.buffer = some pri :=
    sscanf_zu_fmt_zu pri hpri _ (by rw [c_str_of_wf rs wrs (hz rs pri brs), brs])
  obtain ⟨mf, ep, nf, _, _⟩ := prc_init_spec (some nm) pid cpu io pri me ne
  obtain ⟨table', mg, ei, wd', sz', lv', _, ng, _⟩ :=
    dar_insert_back_spec table (some ⟨some nm, pid, cpu, io, pri⟩) mf hwd
      (fun _ => (Mem.request_of_neverFails mf nf).1)
  have hgt : text.len > 1 := by omega
  have hlt5 : t5.len + 1 ≤ f := by
    have := CString.bytes_length t5 (by rw [wt5.cap]; exact le_of_lt wt5.room)
    rw [bt5] at this
    omega
  refine ⟨t5, table', mg, ?_, wt5, bt5, hlt5, wd', sz', ?_, ng nf⟩
  · rw [file_load_records]
    simp only [hgt, if_true, h1, h2, h3, h4, h5, add_zero, ne_eq, not_true_eq_false, if_false,
      e1, e2, e3, e4, e5, cpid, ccpu, cio, cpri, Option.getD_some, ep, ei]
  · unfold DynamicArray.records
    rw [lv', List.map_append]
    simp [record_view, bnm]

theorem file_load_records_all :
    ∀ (rs : List (List CChar × Nat × Nat × Nat × Nat)) (rest : List CChar) (fuel : Nat)
      (text : CString) (table : DynamicArray) (vars : Fields) (mem : Mem),
      text.WF → table.WF → mem.NeverFails → text.bytes = records_text rs ++ rest →
      (∀ r ∈ rs, (44 : Int) ∉ r.1 ∧ fields_fit r) → text.len + 1 ≤ fuel →
      ∃ fuel' text' table' vars' mem',
        file_load_records fuel DS_OK text table vars mem =
          file_load_records fuel' DS_OK text' table' vars' mem' ∧
        text'.WF ∧ text'.bytes = rest ∧ text'.len + 1 ≤ fuel' ∧ table'.WF ∧
        table'.size = table.size + rs.length ∧
        table'.records = table.records ++ rs.map some ∧ mem'.NeverFails := by
  intro rs
  induction rs with
  | nil =>
    intro rest fuel text table vars mem hwt hwd hnf hb _ hfuel
    exact ⟨fuel, text, table, vars, mem, rfl, hwt, by simpa [records_text] using hb, hfuel, hwd,
      by simp, by simp, hnf⟩
  | cons r rs ih =>
    intro rest fuel text table vars mem hwt hwd hnf hb hrs hfuel
    obtain ⟨f, rfl⟩ : ∃ f, fuel = f + 1 := ⟨fuel - 1, by omega⟩
    have hr := hrs r (List.mem_cons_self _ _)
    have hb' : text.bytes = record_text r ++ 10 :: (records_text rs ++ rest) := by
      rw [hb]
      simp [records_text]
    obtain ⟨t1, d1, m1, he, wt1, bt1, hl1, wd1, sz1, rc1, nf1⟩ :=
      file_load_records_step r (records_text rs ++ rest) f text table vars mem hwt hwd hnf hb'
        hr.1 hr.2 (by omega)
    obtain ⟨f2, t2, d2, v2, m2, he2, wt2, bt2, hl2, wd2, sz2, rc2, nf2⟩ :=
      ih rest f t1 d1 _ m1 wt1 wd1 nf1 bt1
        (fun x hx => hrs x (List.mem_cons_of_mem _ hx)) hl1
    refine ⟨f2, t2, d2, v2, m2, by rw [he, he2], wt2, bt2, hl2, wd2, ?_, ?_, nf2⟩
    · rw [sz2, sz1]
      simp
      omega
    · rw [rc2, rc1]
      simp

theorem file_load_records_done (fuel : Nat) (text : CString) (table : DynamicArray)
    (vars : Fields) (mem : Mem) (hwt : text.WF) (hb : text.bytes = [])
    (hfuel : text.len + 1 ≤ fuel) :
    file_load_records fuel DS_OK text table vars mem = some (DS_OK, table, mem) := by
  obtain ⟨f, rfl⟩ : ∃ f, fuel = f + 1 := ⟨fuel - 1, by omega⟩
  have hlen : text.len = 0 := by
    have := CString.bytes_length text (by rw [hwt.cap]; exact le_of_lt hwt.room)
    rw [hb] at this
    simpa using this.symm
  rw [file_load_records, if_neg (by omega)]

theorem file_load_records_short (fuel : Nat) (text : CString) (table : DynamicArray)
    (vars : Fields) (mem : Mem) (hlen : text.len ≤ 1) (hfuel : 1 ≤ fuel) :
    file_load_records fuel DS_OK text table vars mem = some (DS_OK, table, mem) := by
  obtain ⟨f, rfl⟩ : ∃ f, fuel = f + 1 := ⟨fuel - 1, by omega⟩
  rw [file_load_records, if_neg (by omega)]

/-- An iteration of the record loop on a text that holds one record without its record
delimiter: the priority loop runs out of text. -/
theorem file_load_records_unterminated (r : List CChar × Nat × Nat × Nat × Nat)
    (fuel : Nat) (text : CString) (table : DynamicArray) (vars : Fields) (mem : Mem)
    (hwt : text.WF) (hnf : mem.NeverFails)
    (hb : text.bytes = record_text r) (hname : (44 : Int) ∉ r.1)
    (hfuel : text.len + 1 ≤ fuel) :
    ∃ mem', file_load_records fuel DS_OK text table vars mem =
      some (DS_ERR_INVALID_OPERATION, table, mem') := by
  obtain ⟨f, rfl⟩ : ∃ f, fuel = f + 1 := ⟨fuel - 1, by omega⟩
  obtain ⟨name, pid, cpu, io, pri⟩ := r
  simp only at hname
  simp only [record_text] at hb
  have hlen : text.len = text.bytes.length :=
    (CString.bytes_length text (by rw [hwt.cap]; exact le_of_lt hwt.room)).symm
  have hlen2 := hlen
  rw [hb] at hlen2
  simp only [List.length_append, List.length_cons] at hlen2
  obtain ⟨s1, m1, s2, m2, s3, m3, s4, m4, s5, m5, h1, h2, h3, h4, h5, ⟨w1, b1⟩, ⟨w2, b2⟩,
    ⟨w3, b3⟩, ⟨w4, b4⟩, ⟨w5, b5⟩, n5⟩ := five_str_init mem hnf
  obtain ⟨t1, nm, ma, e1, wt1, bt1, wnm, bnm, na, _, _⟩ :=
    file_load_field_found 44 name _ f text s1 m5 hwt w1 n5 hb hname (by omega)
  obtain ⟨t2, ps, mb, e2, wt2, bt2, wps, bps, nb, _, _⟩ :=
    file_load_field_found 44 (fmt_zu pid) _ f t1 s2 ma wt1 w2 na bt1
      (fmt_zu_not_mem pid 44 (by decide)) (by omega)
  obtain ⟨t3, cs, mc, e3, wt3, bt3, wcs, bcs, nc, _, _⟩ :=
    file_load_field_found 44 (fmt_zu cpu) _ f t2 s3 mb wt2 w3 nb bt2
      (fmt_zu_not_mem cpu 44 (by decide)) (by omega)
  obtain ⟨t4, is, md, e4, wt4, bt4, wis, bis, nd, _, _⟩ :=
    file_load_field_found 44 (fmt_zu io) _ f t3 s4 mc wt3 w4 nc bt3
      (fmt_zu_not_mem io 44 (by decide)) (by omega)
  obtain ⟨t5, rs, me, e5⟩ :=
    file_load_field_missing 10 (fmt_zu pri) f t4 s5 md wt4 w5 nd bt4
      (fmt_zu_not_mem pri 10 (by decide)) (by omega)
  have hgt : text.len > 1 := by omega
  refine ⟨me, ?_⟩
  rw [file_load_records]
  simp only [hgt, if_true, h1, h2, h3, h4, h5, add_zero, ne_eq, not_true_eq_false, if_false,
    e1, e2, e3, e4, e5]
  simp

/-! ## Lemmas: `file_load` and `file_save` as a whole -/

theorem file_load_start (fuel : Nat) (content : List CChar) (dst : DynamicArray)
    (vars : Fields) (mem : Mem) (hnf : mem.NeverFails) :
    ∃ text mem2, text.WF ∧ text.bytes = file_read content ∧
      text.len = (file_read content).length ∧ mem2.NeverFails ∧
      file_load fuel (some content) dst vars mem =
        (if text.len = 0 then some (DS_OK, dst, mem2)
         else file_load_records fuel DS_OK text dst vars mem2) := by
  obtain ⟨t0, m1, h0, w0, b0, l0, n1, _, _⟩ := str_init_spec mem hnf
  obtain ⟨t1, m2, h1, w1, b1, l1, n2, _, _⟩ := file_load_fill_spec content t0 m1 w0 n1
  refine ⟨t1, m2, w1, by rw [b1, b0]; rfl, by rw [l1, l0]; simp, n2, ?_⟩
  unfold file_load
  simp only [h0, h1, ne_eq, not_true_eq_false, if_false]

theorem records_text_length (rs : List (List CChar × Nat × Nat × Nat × Nat)) :
    rs.length ≤ (records_text rs).length := by
  induction rs with
  | nil => simp [records_text]
  | cons r rs ih =>
    simp only [records_text, List.length_append, List.length_cons]
    omega

theorem file_save_loop_spec (content : DynamicArray) (mem : Mem)
    (hsize : content.size ≤ content.buffer.length)
    (hp : ∀ e ∈ content.live, printable e) :
    ∀ (k i : Nat) (out : List CChar), i + k = content.size →
      ∃ rs, (content.live.drop i).map record_view = rs.map some ∧
        (∀ r ∈ rs, (44 : Int) ∉ r.1 ∧ fields_fit r) ∧
        file_save_loop content mem k i out = some (out ++ records_text rs) := by
  have hll := DynamicArray.live_length content hsize
  intro k
  induction k with
  | zero =>
    intro i out hi
    refine ⟨[], ?_, by simp, by simp [file_save_loop, records_text]⟩
    rw [List.drop_eq_nil_of_le (by omega)]
    rfl
  | succ k ih =>
    intro i out hi
    have hilt : i < content.size := by omega
    have hlive : content.live[i]? = some (content.buffer.getD i mem.junkp) := by
      rw [DynamicArray.live_getElem? content i hilt, List.getD_eq_getElem?_getD,
        List.getElem?_eq_getElem (by omega)]
      rfl
    have hsplit : content.live.drop i =
        content.buffer.getD i mem.junkp :: content.live.drop (i + 1) := by
      rw [List.drop_eq_getElem_cons (by omega)]
      congr 1
      have := List.getElem?_eq_getElem (show i < content.live.length by omega)
      rw [hlive] at this
      exact (Option.some.inj this).symm
    obtain ⟨p, s, hep, hname, hwf, hchars, hpid, hcpu, hio, hpri⟩ :=
      hp _ (List.getElem?_mem hlive)
    have hcs : c_str s.buffer = s.bytes :=
      c_str_of_wf s hwf (fun c hc => (hchars c hc).2.2)
    obtain ⟨rs, hrs, hok, he⟩ :=
      ih (i + 1) (out ++ (c_str s.buffer ++ [44] ++ fmt_zu p.pid ++ [44] ++ fmt_zu p.cpu ++ [44]
        ++ fmt_zu p.io ++ [44] ++ fmt_zu p.pri ++ [10])) (by omega)
    refine ⟨(s.bytes, p.pid, p.cpu, p.io, p.pri) :: rs, ?_, ?_, ?_⟩
    · rw [hsplit, hep, List.map_cons, List.map_cons, hrs]
      simp [record_view, hname]
    · intro r hr
      rcases List.mem_cons.mp hr with rfl | hr
      · exact ⟨fun h => (hchars _ h).1 rfl, hpid, hcpu, hio, hpri⟩
      · exact hok r hr
    · rw [file_save_loop, if_pos hilt, hep]
      simp only [hname]
      rw [he, hcs]
      simp [records_text, record_text]

theorem map_some_injective {α : Type} (l1 l2 : List α) (h : l1.map some = l2.map some) :
    l1 = l2 :=
  List.map_injective_iff.mpr (Option.some_injective α) h

theorem record_text_no_eof (r : List CChar × Nat × Nat × Nat × Nat) (h : EOF ∉ r.1) :
    EOF ∉ record_text r := by
  obtain ⟨name, pid, cpu, io, pri⟩ := r
  have hz : ∀ n, EOF ∉ fmt_zu n := fun n => fmt_zu_not_mem n EOF (by decide)
  simp only [record_text, List.mem_append, List.mem_cons, not_or]
  exact ⟨h, by decide, hz pid, by decide, hz cpu, by decide, hz io, by decide, hz pri⟩

theorem records_text_no_eof (rs : List (List CChar × Nat × Nat × Nat × Nat))
    (h : ∀ r ∈ rs, EOF ∉ r.1) : EOF ∉ records_text rs := by
  induction rs with
  | nil => simp [records_text]
  | cons r rs ih =>
    simp only [records_text, List.mem_append, List.mem_cons, not_or]
    exact ⟨record_text_no_eof r (h r (List.mem_cons_self _ _)), by decide,
      ih (fun x hx => h x (List.mem_cons_of_mem _ hx))⟩

/-- The record loop on a text made of complete records and a remainder of at most one
character: every record is appended and the remainder is left unparsed. -/
theorem file_load_records_complete (rs : List (List CChar × Nat × Nat × Nat × Nat))
    (tail : List CChar) (fuel : Nat) (text : CString) (table : DynamicArray) (vars : Fields)
    (mem : Mem) (hwt : text.WF) (hwd : table.WF) (hnf : mem.NeverFails)
    (hb : text.bytes = records_text rs ++ tail) (htail : tail.length ≤ 1)
    (hrs : ∀ r ∈ rs, (44 : Int) ∉ r.1 ∧ fields_fit r) (hfuel : text.len + 1 ≤ fuel) :
    ∃ table' mem', file_load_records fuel DS_OK text table vars mem =
        some (DS_OK, table', mem') ∧
      table'.size = table.size + rs.length ∧
      table'.records = table.records ++ rs.map some := by
  obtain ⟨f2, t2, d2, v2, m2, he2, wt2, bt2, hl2, wd2, sz2, rc2, nf3⟩ :=
    file_load_records_all rs tail fuel text table vars mem hwt hwd hnf hb hrs hfuel
  have hl : t2.len ≤ 1 := by
    have := CString.bytes_length t2 (by rw [wt2.cap]; exact le_of_lt wt2.room)
    rw [bt2] at this
    omega
  rw [he2, file_load_records_short f2 t2 d2 v2 m2 hl (by omega)]
  exact ⟨d2, m2, rfl, sz2, rc2⟩

/-- Function `file_load` on a file made of complete records, none with the byte 0xFF in its
name, and a remainder of at most one byte. -/
theorem file_load_complete (rs : List (List CChar × Nat × Nat × Nat × Nat))
    (tail : List CChar) (fuel : Nat) (dst : DynamicArray) (vars : Fields) (mem : Mem)
    (hwd : dst.WF) (hnf : mem.NeverFails) (htail : tail.length ≤ 1)
    (hrs : ∀ r ∈ rs, (44 : Int) ∉ r.1 ∧ fields_fit r) (heof : ∀ r ∈ rs, EOF ∉ r.1)
    (hfuel : (records_text rs ++ tail).length + 1 ≤ fuel) :
    ∃ dst' mem', file_load fuel (some (records_text rs ++ tail)) dst vars mem =
        some (DS_OK, dst', mem') ∧
      dst'.size = dst.size + rs.length ∧ dst'.records = dst.records ++ rs.map some := by
  obtain ⟨text, mem2, wt, bt, lt, nf2, hload⟩ :=
    file_load_start fuel (records_text rs ++ tail) dst vars mem hnf
  rw [file_read_append _ _ (records_text_no_eof rs heof)] at bt lt
  have htl := file_read_length_le tail
  rw [List.length_append] at lt hfuel
  rw [hload]
  by_cases h0 : text.len = 0
  · rw [if_pos h0]
    have hrs0 : rs.length = 0 := by
      have := records_text_length rs
      omega
    have hnil : rs = [] := List.eq_nil_of_length_eq_zero hrs0
    subst hnil
    exact ⟨dst, mem2, rfl, by simp, by simp⟩
  · rw [if_neg h0]
    exact file_load_records_complete rs (file_read tail) fuel text dst vars mem2 wt hwd nf2 bt
      (by omega) hrs (by omega)

/-- The read loop of `file_load` at a byte 0xFF. A file that starts with this byte is read as
an empty text: the call returns `DS_OK` and the table stays empty. With the byte in the second
name of a file with two records, in the place of the `e` of "beta", the text read is
"alpha,1,2,3,4\nb", which gives the first record only. -/
theorem file_load_eof_byte :
    (file_load 11 (some [-1, 44, 49, 44, 50, 44, 51, 44, 52, 10]) dar_empty vars_zero
        mem_ok).map (fun r => (r.1, r.2.1)) = some (DS_OK, dar_empty) ∧
    (file_load 30 (some (chars "alpha,1,2,3,4\n".toList ++ [98, -1, 116, 97] ++
        chars ",5,6,7,8\n".toList)) dar_empty vars_zero mem_ok).map
      (fun r => (r.1, r.2.1.records)) = some (DS_OK, [some (chars "alpha".toList, 1, 2, 3, 4)]) :=
  ⟨by rfl, by rfl⟩

/-- The record loop on a text made of complete records and a final record without its record
delimiter: the complete records are appended and the priority loop of the final one runs out
of text. -/
theorem file_load_records_incomplete (rs : List (List CChar × Nat × Nat × Nat × Nat))
    (last : List CChar × Nat × Nat × Nat × Nat) (fuel : Nat) (text : CString)
    (table : DynamicArray) (vars : Fields) (mem : Mem) (hwt : text.WF) (hwd : table.WF)
    (hnf : mem.NeverFails) (hb : text.bytes = records_text rs ++ record_text last)
    (hrs : ∀ r ∈ rs, (44 : Int) ∉ r.1 ∧ fields_fit r) (hlast : (44 : Int) ∉ last.1)
    (hfuel : text.len + 1 ≤ fuel) :
    ∃ table' mem', file_load_records fuel DS_OK text table vars mem =
        some (DS_ERR_INVALID_OPERATION, table', mem') ∧
      table'.size = table.size + rs.length ∧
      table'.records = table.records ++ rs.map some := by
  obtain ⟨f2, t2, d2, v2, m2, he2, wt2, bt2, hl2, wd2, sz2, rc2, nf3⟩ :=
    file_load_records_all rs (record_text last) fuel text table vars mem hwt hwd hnf hb hrs hfuel
  obtain ⟨m3, he3⟩ := file_load_records_unterminated last f2 t2 d2 v2 m2 wt2 nf3 bt2 hlast hl2
  rw [he2, he3]
  exact ⟨d2, m3, rfl, sz2, rc2⟩

theorem CString.len_of_bytes (text : CString) (hwt : text.WF) (l : List CChar)
    (hb : text.bytes = l) : text.len = l.length := by
  have := CString.bytes_length text (by rw [hwt.cap]; exact le_of_lt hwt.room)
  rw [hb] at this
  exact this.symm

/-! ## Claims C1, C2 -/

/-- C1 (as stated, refuted): a name with a `'\0'` in the middle contains neither `','` nor
`'\n'`, yet `file_save` prints it with `%s` only up to the `'\0'`. The table holding
{"a\0b",1,2,3,4}, which `file_load` itself builds from a file with these bytes, is written as
"a,1,2,3,4\n", and parsing that text into an empty table gives the record {"a",1,2,3,4}, which
differs from the original in its name bytes. -/
theorem file_round_trip_nul_name :
    (file_load 13 (some [97, 0, 98, 44, 49, 44, 50, 44, 51, 44, 52, 10]) dar_empty vars_zero
        mem_ok).map (fun r => (r.1, r.2.1)) = some (DS_OK, dar_nul_name) ∧
    str_a_nul_b.WF ∧ (∀ c ∈ str_a_nul_b.bytes, c ≠ 44 ∧ c ≠ 10) ∧
    dar_nul_name.records = [some ([97, 0, 98], 1, 2, 3, 4)] ∧
    file_save true dar_nul_name mem_ok = some (DS_OK, chars "a,1,2,3,4\n".toList) ∧
    (file_load 11 (some (chars "a,1,2,3,4\n".toList)) dar_empty vars_zero mem_ok).map
        (fun r => (r.1, r.2.1.records)) = some (DS_OK, [some ([97], 1, 2, 3, 4)]) ∧
    [some (([97] : List CChar), 1, 2, 3, 4)] ≠ [some ([97, 0, 98], 1, 2, 3, 4)] := by
  refine ⟨by rfl, ⟨rfl, by decide, rfl, rfl⟩, by decide, by rfl, by rfl, by rfl, by decide⟩

/-- C1 (amended): round trip. For every table whose live elements are records owning a
well-formed name that contains neither `','` nor `'\n'` nor `'\0'`, with `size_t` numbers,
`file_save` writes a text `out`. The record loop of `file_load`, run on a well-formed text that
holds `out`, into a well-formed empty table and with an allocator that never fails, returns
`DS_OK` (a budget of `out.length + 1` loop iterations is enough) and yields a table with the
same number of records, in the same order, each with the same name bytes, pid, cpu, io and
pri. And `file_load` as a whole, on a file with the bytes `out`, does the same when in
addition no name holds the byte 0xFF, at which its read loop stops. -/
theorem file_round_trip (tab dst : DynamicArray) (vars : Fields) (mem_s mem : Mem)
    (hcap : tab.buffer.length = tab.capacity) (hfits : tab.size ≤ tab.capacity)
    (hp : ∀ e ∈ tab.live, printable e) (hdst : dst.WF) (hempty : dst.size = 0)
    (hnf : mem.NeverFails) :
    ∃ out, file_save true tab mem_s = some (DS_OK, out) ∧
      ∀ fuel, out.length + 1 ≤ fuel →
        (∀ text : CString, text.WF → text.bytes = out →
          ∃ dst' mem', file_load_records fuel DS_OK text dst vars mem =
              some (DS_OK, dst', mem') ∧
            dst'.size = tab.size ∧ dst'.records = tab.records) ∧
        ((∀ r, some r ∈ tab.records → EOF ∉ r.1) →
          ∃ dst' mem', file_load fuel (some out) dst vars mem = some (DS_OK, dst', mem') ∧
            dst'.size = tab.size ∧ dst'.records = tab.records) := by
  have hsize : tab.size ≤ tab.buffer.length := by omega
  obtain ⟨rs, hrs, hok, he⟩ := file_save_loop_spec tab mem_s hsize hp tab.size 0 [] (by simp)
  rw [List.drop_zero, List.nil_append] at *
  have hrec : tab.records = rs.map some := hrs
  have hlen : rs.length = tab.size := by
    have := congrArg List.length hrs
    rw [List.length_map, List.length_map, DynamicArray.live_length tab hsize] at this
    exact this.symm
  have hdrec : dst.records = [] := by
    simp [DynamicArray.records, DynamicArray.live, hempty]
  refine ⟨records_text rs, by simp [file_save, he], ?_⟩
  intro fuel hfuel
  constructor
  · intro text wt bt
    have hl := CString.len_of_bytes text wt _ bt
    obtain ⟨d2, m2, he2, sz2, rc2⟩ :=
      file_load_records_complete rs [] fuel text dst vars mem wt hdst hnf (by simpa using bt)
        (by simp) hok (by omega)
    refine ⟨d2, m2, he2, by omega, ?_⟩
    rw [rc2, hdrec, hrec]
    rfl
  · intro heof
    have h := file_load_complete rs [] fuel dst vars mem hdst hnf (by simp) hok
      (fun r hr => heof r (by rw [hrec]; exact List.mem_map_of_mem some hr))
      (by simpa using hfuel)
    rw [List.append_nil] at h
    obtain ⟨d2, m2, he2, sz2, rc2⟩ := h
    refine ⟨d2, m2, he2, by omega, ?_⟩
    rw [rc2, hdrec, hrec]
    rfl

/-- C1 (amended) at the table {alpha,1,2,3,4}, {beta,5,6,7,8}, whose names hold no byte 0xFF:
the text written is "alpha,1,2,3,4\nbeta,5,6,7,8\n" and parsing it yields exactly these two
records. -/
theorem file_round_trip_witness :
    (∀ e ∈ dar_alpha_beta.live, printable e) ∧ dar_empty.WF ∧ mem_ok.NeverFails ∧
    (∀ r, some r ∈ dar_alpha_beta.records → EOF ∉ r.1) ∧
    file_save true dar_alpha_beta mem_ok =
      some (DS_OK, chars "alpha,1,2,3,4\nbeta,5,6,7,8\n".toList) ∧
    (file_load 29 (some (chars "alpha,1,2,3,4\nbeta,5,6,7,8\n".toList)) dar_empty vars_zero
        mem_ok).map (fun r => (r.1, r.2.1.records)) =
      some (DS_OK, [some (chars "alpha".toList, 1, 2, 3, 4),
        some (chars "beta".toList, 5, 6, 7, 8)]) ∧
    ∃ out, file_save true dar_alpha_beta mem_ok = some (DS_OK, out) ∧
      ∀ fuel, out.length + 1 ≤ fuel →
        (∀ text : CString, text.WF → text.bytes = out →
          ∃ dst' mem', file_load_records fuel DS_OK text dar_empty vars_zero mem_ok =
              some (DS_OK, dst', mem') ∧
            dst'.size = dar_alpha_beta.size ∧ dst'.records = dar_alpha_beta.records) ∧
        ((∀ r, some r ∈ dar_alpha_beta.records → EOF ∉ r.1) →
          ∃ dst' mem', file_load fuel (some out) dar_empty vars_zero mem_ok =
              some (DS_OK, dst', mem') ∧
            dst'.size = dar_alpha_beta.size ∧ dst'.records = dar_alpha_beta.records) := by
  have hp : ∀ e ∈ dar_alpha_beta.live, printable e := by
    intro e he
    have he' : e = some { name := some str_alpha, pid := 1, cpu := 2, io := 3, pri := 4 } ∨
        e = some { name := some str_beta, pid := 5, cpu := 6, io := 7, pri := 8 } := by
      simpa [dar_alpha_beta, DynamicArray.live] using he
    rcases he' with rfl | rfl
    · exact ⟨_, str_alpha, rfl, rfl, ⟨rfl, by decide, rfl, rfl⟩, by decide, by decide,
        by decide, by decide, by decide⟩
    · exact ⟨_, str_beta, rfl, rfl, ⟨rfl, by decide, rfl, rfl⟩, by decide, by decide,
        by decide, by decide, by decide⟩
  have hd : dar_empty.WF := ⟨rfl, by decide, by decide, rfl⟩
  have hm : mem_ok.NeverFails := fun b hb => absurd hb (List.not_mem_nil b)
  have hrec : dar_alpha_beta.records =
      [some (chars "alpha".toList, 1, 2, 3, 4), some (chars "beta".toList, 5, 6, 7, 8)] := by
    rfl
  have heof : ∀ r, some r ∈ dar_alpha_beta.records → EOF ∉ r.1 := by
    intro r hr
    rw [hrec] at hr
    simp only [List.mem_cons, Option.some.injEq, List.mem_singleton, List.not_mem_nil,
      or_false] at hr
    rcases hr with rfl | rfl <;> decide
  exact ⟨hp, hd, hm, heof, by rfl, by rfl,
    file_round_trip dar_alpha_beta dar_empty vars_zero mem_ok mem_ok rfl (by decide) hp hd rfl
      hm⟩

/-- C2 (as stated, refuted): on "alpha,1,2,3,4\nbeta,5,6,7,8" (final record without its record
delimiter) `file_load` does not return `DS_OK`: the priority loop pops from the emptied text and
the call returns `DS_ERR_INVALID_OPERATION`; the table holds the first record only. -/
theorem file_load_unterminated_not_ok :
    (file_load 28 (some (chars "alpha,1,2,3,4\nbeta,5,6,7,8".toList)) dar_empty vars_zero
        mem_ok).map (fun r => (r.1, r.2.1.records)) =
      some (DS_ERR_INVALID_OPERATION, [some (chars "alpha".toList, 1, 2, 3, 4)]) ∧
    DS_ERR_INVALID_OPERATION ≠ DS_OK := by
  refine ⟨by rfl, by decide⟩

/-- C2 (amended): take a text made of complete records `name,id,cpu,io,priority\n` (names
free of `','`, numbers printed as `size_t` decimals) followed by a final record
`name,id,cpu,io,priority` without the record delimiter. The record loop of `file_load`, run on
a well-formed text that holds it, with an allocator that never fails, returns
`DS_ERR_INVALID_OPERATION` (a budget of input length plus one loop iterations is enough), and
the table holds exactly the complete records after its previous content, without the final
one. And `file_load` as a whole, on a file with these bytes, does the same when in addition no
name holds the byte 0xFF, at which its read loop stops. -/
theorem file_load_unterminated (rs : List (List CChar × Nat × Nat × Nat × Nat))
    (last : List CChar × Nat × Nat × Nat × Nat) (dst : DynamicArray) (vars : Fields)
    (mem : Mem) (fuel : Nat)
    (hrs : ∀ r ∈ rs, (44 : Int) ∉ r.1 ∧ fields_fit r) (hlast : (44 : Int) ∉ last.1)
    (hdst : dst.WF) (hnf : mem.NeverFails)
    (hfuel : (records_text rs ++ record_text last).length + 1 ≤ fuel) :
    (∀ text : CString, text.WF → text.bytes = records_text rs ++ record_text last →
      ∃ dst' mem', file_load_records fuel DS_OK text dst vars mem =
          some (DS_ERR_INVALID_OPERATION, dst', mem') ∧
        dst'.size = dst.size + rs.length ∧ dst'.records = dst.records ++ rs.map some) ∧
    ((∀ r ∈ rs, EOF ∉ r.1) → EOF ∉ last.1 →
      ∃ dst' mem', file_load fuel (some (records_text rs ++ record_text last)) dst vars mem =
          some (DS_ERR_INVALID_OPERATION, dst', mem') ∧
        dst'.size = dst.size + rs.length ∧ dst'.records = dst.records ++ rs.map some) := by
  constructor
  · intro text wt bt
    have hl := CString.len_of_bytes text wt _ bt
    exact file_load_records_incomplete rs last fuel text dst vars mem wt hdst hnf bt hrs hlast
      (by omega)
  · intro heof hleof
    obtain ⟨text, mem2, wt, bt, lt, nf2, hload⟩ :=
      file_load_start fuel (records_text rs ++ record_text last) dst vars mem hnf
    have hno : EOF ∉ records_text rs ++ record_text last := by
      rw [List.mem_append, not_or]
      exact ⟨records_text_no_eof rs heof, record_text_no_eof last hleof⟩
    rw [file_read_eq_self _ hno] at bt lt
    have h4 := record_text_length last
    have h0 : ¬ text.len = 0 := by
      rw [lt, List.length_append]
      omega
    rw [hload, if_neg h0]
    exact file_load_records_incomplete rs last fuel text dst vars mem2 wt hdst nf2 bt hrs hlast
      (by omega)

/-- C2 (amended) at "alpha,1,2,3,4\nbeta,5,6,7,8", whose names hold no byte 0xFF: the call
returns `DS_ERR_INVALID_OPERATION` and the table holds {alpha,1,2,3,4} only. -/
theorem file_load_unterminated_witness :
    records_text [(chars "alpha".toList, 1, 2, 3, 4)] ++
        record_text (chars "beta".toList, 5, 6, 7, 8) =
      chars "alpha,1,2,3,4\nbeta,5,6,7,8".toList ∧
    (∀ r ∈ [((chars "alpha".toList, 1, 2, 3, 4) : List CChar × Nat × Nat × Nat × Nat)],
      EOF ∉ r.1) ∧
    EOF ∉ chars "beta".toList ∧
    ((∀ text : CString, text.WF →
      text.bytes = records_text [(chars "alpha".toList, 1, 2, 3, 4)] ++
        record_text (chars "beta".toList, 5, 6, 7, 8) →
      ∃ dst' mem', file_load_records 28 DS_OK text dar_empty vars_zero mem_ok =
          some (DS_ERR_INVALID_OPERATION, dst', mem') ∧
        dst'.size = dar_empty.size + [(chars "alpha".toList, 1, 2, 3, 4)].length ∧
        dst'.records = dar_empty.records ++ [(chars "alpha".toList, 1, 2, 3, 4)].map some) ∧
    ((∀ r ∈ [((chars "alpha".toList, 1, 2, 3, 4) : List CChar × Nat × Nat × Nat × Nat)],
        EOF ∉ r.1) →
      EOF ∉ (((chars "beta".toList, 5, 6, 7, 8) : List CChar × Nat × Nat × Nat × Nat)).1 →
      ∃ dst' mem',
        file_load 28 (some (records_text [(chars "alpha".toList, 1, 2, 3, 4)] ++
            record_text (chars "beta".toList, 5, 6, 7, 8))) dar_empty vars_zero mem_ok =
          some (DS_ERR_INVALID_OPERATION, dst', mem') ∧
        dst'.size = dar_empty.size + [(chars "alpha".toList, 1, 2, 3, 4)].length ∧
        dst'.records =
          dar_empty.records ++ [(chars "alpha".toList, 1, 2, 3, 4)].map some)) :=
  ⟨by rfl,
    (by
      intro r hr
      rw [List.mem_singleton] at hr
      subst hr
      decide),
    by decide,
    file_load_unterminated [(chars "alpha".toList, 1, 2, 3, 4)]
      (chars "beta".toList, 5, 6, 7, 8) dar_empty vars_zero mem_ok 28
      (by
        intro r hr
        rw [List.mem_singleton] at hr
        subst hr
        exact ⟨by decide, by decide, by decide, by decide, by decide⟩)
      (by decide) ⟨rfl, by decide, by decide, rfl⟩
      (fun b hb => absurd hb (List.not_mem_nil b)) (by decide)⟩

/-! ## Lemmas: status codes of the DynamicArray calls -/

theorem dar_realloc_status (dar : DynamicArray) (mem : Mem) :
    (dar_realloc dar mem).1 = DS_OK ∨ (dar_realloc dar mem).1 = DS_ERR_ALLOC := by
  unfold dar_realloc
  rcases mem.request with ⟨ok, m1⟩
  cases ok
  · right; rfl
  · left; rfl

theorem dar_insert_front_status (dar : DynamicArray) (v : Option Process) (mem : Mem) :
    (dar_insert_front dar v mem).1 = DS_OK ∨ (dar_insert_front dar v mem).1 = DS_ERR_ALLOC := by
  unfold dar_insert_front
  by_cases hfull : dar_is_full dar = true
  · simp only [hfull, if_true]
    rcases hr : dar_realloc dar mem with ⟨st, d1, m1⟩
    have := dar_realloc_status dar mem
    rw [hr] at this
    simp only at this
    rcases this with h | h
    · left; simp [h]
    · right; simp [h]
  · left
    simp [hfull]

theorem dar_insert_back_status (dar : DynamicArray) (v : Option Process) (mem : Mem) :
    (dar_insert_back dar v mem).1 = DS_OK ∨ (dar_insert_back dar v mem).1 = DS_ERR_ALLOC := by
  unfold dar_insert_back
  by_cases hfull : dar_is_full dar = true
  · simp only [hfull, if_true]
    rcases hr : dar_realloc dar mem with ⟨st, d1, m1⟩
    have := dar_realloc_status dar mem
    rw [hr] at this
    simp only at this
    rcases this with h | h
    · left; simp [h]
    · right; simp [h]
  · left
    simp [hfull]

theorem dar_insert_at_status (dar : DynamicArray) (v : Option Process) (i : Nat) (mem : Mem)
    (hi : i ≤ dar.size) :
    (dar_insert_at dar v i mem).1 = DS_OK ∨ (dar_insert_at dar v i mem).1 = DS_ERR_ALLOC := by
  unfold dar_insert_at
  rw [if_neg (by omega)]
  by_cases h0 : i = 0
  · rw [if_pos h0]
    rcases hr : dar_insert_front dar v mem with ⟨st, d1, m1⟩
    have := dar_insert_front_status dar v mem
    rw [hr] at this
    simp only at this
    rcases this with h | h
    · left; simp [h]
    · right; simp [h]
  · rw [if_neg h0]
    by_cases h1 : i = dar.size
    · rw [if_pos h1]
      rcases hr : dar_insert_back dar v mem with ⟨st, d1, m1⟩
      have := dar_insert_back_status dar v mem
      rw [hr] at this
      simp only at this
      rcases this with h | h
      · left; simp [h]
      · right; simp [h]
    · rw [if_neg h1]
      by_cases hfull : dar_is_full dar = true
      · simp only [hfull, if_true]
        rcases hr : dar_realloc dar mem with ⟨st, d1, m1⟩
        have := dar_realloc_status dar mem
        rw [hr] at this
        simp only at this
        rcases this with h | h
        · left; simp [h]
        · right; simp [h]
      · left
        simp [hfull]

/-! ## Claims C13, C14 -/

/-- C13: `dar_insert_at` returns `DS_ERR_INVALID_POSITION` exactly when `index > size`; in that
case the table is returned as it was and no allocation request has been made (the check comes
before any growth). -/
theorem dar_insert_at_invalid_position (dar : DynamicArray) (v : Option Process) (i : Nat)
    (mem : Mem) :
    ((dar_insert_at dar v i mem).1 = DS_ERR_INVALID_POSITION ↔ i > dar.size) ∧
    (i > dar.size → dar_insert_at dar v i mem = (DS_ERR_INVALID_POSITION, dar, mem)) := by
  have hinv : i > dar.size → dar_insert_at dar v i mem = (DS_ERR_INVALID_POSITION, dar, mem) := by
    intro h
    unfold dar_insert_at
    rw [if_pos h]
  refine ⟨⟨?_, fun h => by rw [hinv h]⟩, hinv⟩
  intro h
  by_contra hle
  rcases dar_insert_at_status dar v i mem (by omega) with h1 | h1
  · rw [h1] at h; exact absurd h (by decide)
  · rw [h1] at h; exact absurd h (by decide)

/-- C14: `dar_remove_at` returns `DS_ERR_INVALID_OPERATION` exactly when the table is empty
(whatever the index), `DS_ERR_INVALID_POSITION` exactly when it is not empty and
`index >= size`, and `DS_OK` otherwise; on either error the table and `*result` are as they
were. -/
theorem dar_remove_at_status (dar : DynamicArray) (i : Nat) (r0 : Option Process) (mem : Mem) :
    ((dar_remove_at dar i r0 mem).1 = DS_ERR_INVALID_OPERATION ↔ dar.size = 0) ∧
    ((dar_remove_at dar i r0 mem).1 = DS_ERR_INVALID_POSITION ↔ dar.size ≠ 0 ∧ i ≥ dar.size) ∧
    ((dar_remove_at dar i r0 mem).1 = DS_OK ↔ dar.size ≠ 0 ∧ i < dar.size) ∧
    ((dar_remove_at dar i r0 mem).1 ≠ DS_OK →
      (dar_remove_at dar i r0 mem).2 = (dar, r0)) := by
  by_cases hz : dar.size = 0
  · have he : dar_remove_at dar i r0 mem = (DS_ERR_INVALID_OPERATION, dar, r0) := by
      simp [dar_remove_at, dar_is_empty, hz]
    rw [he]
    simp [hz]
  · have hne : dar_is_empty dar = false := by simp [dar_is_empty, hz]
    by_cases hi : i ≥ dar.size
    · have he : dar_remove_at dar i r0 mem = (DS_ERR_INVALID_POSITION, dar, r0) := by
        unfold dar_remove_at
        rw [hne]
        simp only [Bool.false_eq_true, if_false]
        rw [if_pos hi]
      rw [he]
      simp [hz, hi]
    · have he : (dar_remove_at dar i r0 mem).1 = DS_OK := by
        unfold dar_remove_at
        rw [hne]
        simp only [Bool.false_eq_true, if_false]
        rw [if_neg hi]
        by_cases h0 : i = 0
        · rw [if_pos h0]
          simp [dar_remove_front, hne]
        · rw [if_neg h0]
          by_cases h1 : i = dar.size - 1
          · rw [if_pos h1]
            simp [dar_remove_back, hne]
          · rw [if_neg h1]
      rw [he]
      refine ⟨?_, ?_, ?_, ?_⟩
      · constructor
        · intro h; exact absurd h (by decide)
        · intro h; exact absurd h hz
      · constructor
        · intro h; exact absurd h (by decide)
        · intro h; exact absurd h.2 hi
      · constructor
        · intro _; exact ⟨hz, by omega⟩
        · intro _; rfl
      · intro h; exact absurd rfl h

/-! ## Claim C16 -/

/-- C16: grow rollback. For a table and a String with a positive growth rate whose live
elements fit their buffer of `capacity` slots: when the allocation request fails, `dar_realloc`
and `str_realloc` return `DS_ERR_ALLOC` and leave the whole struct (capacity, size or len,
growth rate, buffer) as it was; when it succeeds they return `DS_OK`, the capacity is
multiplied by the growth rate, and size or len, growth rate and the live elements are
unchanged. -/
theorem realloc_rollback (dar : DynamicArray) (str : CString) (mem : Mem)
    (hdg : 0 < dar.growth_rate) (hsg : 0 < str.growth_rate)
    (hdc : dar.buffer.length = dar.capacity) (hds : dar.size ≤ dar.capacity)
    (hsc : str.buffer.length = str.capacity) (hsl : str.len ≤ str.capacity) :
    (mem.request.1 = false →
      dar_realloc dar mem = (DS_ERR_ALLOC, dar, mem.request.2) ∧
      str_realloc str mem = (DS_ERR_ALLOC, str, mem.request.2)) ∧
    (mem.request.1 = true →
      ((dar_realloc dar mem).1 = DS_OK ∧
        (dar_realloc dar mem).2.1.capacity = dar.capacity * dar.growth_rate ∧
        (dar_realloc dar mem).2.1.size = dar.size ∧
        (dar_realloc dar mem).2.1.growth_rate = dar.growth_rate ∧
        (dar_realloc dar mem).2.1.live = dar.live) ∧
      ((str_realloc str mem).1 = DS_OK ∧
        (str_realloc str mem).2.1.capacity = str.capacity * str.growth_rate ∧
        (str_realloc str mem).2.1.len = str.len ∧
        (str_realloc str mem).2.1.growth_rate = str.growth_rate ∧
        (str_realloc str mem).2.1.bytes = str.bytes)) := by
  have hdle : dar.capacity ≤ dar.capacity * dar.growth_rate := Nat.le_mul_of_pos_right _ hdg
  have hsle : str.capacity ≤ str.capacity * str.growth_rate := Nat.le_mul_of_pos_right _ hsg
  constructor
  · intro hreq
    unfold dar_realloc str_realloc
    rcases hr : mem.request with ⟨ok, m1⟩
    rw [hr] at hreq
    simp only at hreq
    subst hreq
    simp [Nat.mul_div_cancel _ hdg, Nat.mul_div_cancel _ hsg]
  · intro hreq
    unfold dar_realloc str_realloc
    rcases hr : mem.request with ⟨ok, m1⟩
    rw [hr] at hreq
    simp only at hreq
    subst hreq
    refine ⟨⟨rfl, rfl, rfl, rfl, ?_⟩, ⟨rfl, rfl, rfl, rfl, ?_⟩⟩
    · unfold DynamicArray.live
      simp only
      exact realloc_slots_take _ _ _ _ (by omega) (by omega)
    · unfold CString.bytes
      simp only
      rw [take_set_of_le _ _ _ _ (le_refl _)]
      exact realloc_slots_take _ _ _ _ (by omega) (by omega)

/-- C16 at the full table of eight records and the String "ab": a failing request leaves both
untouched, a successful one doubles the capacities to 16. -/
theorem realloc_rollback_witness :
    (dar_realloc dar_full mem_fail).1 = DS_ERR_ALLOC ∧
    (dar_realloc dar_full mem_fail).2.1 = dar_full ∧
    (str_realloc str_ab mem_fail).1 = DS_ERR_ALLOC ∧
    (str_realloc str_ab mem_fail).2.1 = str_ab ∧
    (dar_realloc dar_full mem_ok).2.1.capacity = 16 ∧
    (str_realloc str_ab mem_ok).2.1.capacity = 16 ∧
    ((mem_fail.request.1 = false →
      dar_realloc dar_full mem_fail = (DS_ERR_ALLOC, dar_full, mem_fail.request.2) ∧
      str_realloc str_ab mem_fail = (DS_ERR_ALLOC, str_ab, mem_fail.request.2)) ∧
    (mem_fail.request.1 = true →
      ((dar_realloc dar_full mem_fail).1 = DS_OK ∧
        (dar_realloc dar_full mem_fail).2.1.capacity = dar_full.capacity * dar_full.growth_rate ∧
        (dar_realloc dar_full mem_fail).2.1.size = dar_full.size ∧
        (dar_realloc dar_full mem_fail).2.1.growth_rate = dar_full.growth_rate ∧
        (dar_realloc dar_full mem_fail).2.1.live = dar_full.live) ∧
      ((str_realloc str_ab mem_fail).1 = DS_OK ∧
        (str_realloc str_ab mem_fail).2.1.capacity = str_ab.capacity * str_ab.growth_rate ∧
        (str_realloc str_ab mem_fail).2.1.len = str_ab.len ∧
        (str_realloc str_ab mem_fail).2.1.growth_rate = str_ab.growth_rate ∧
        (str_realloc str_ab mem_fail).2.1.bytes = str_ab.bytes))) :=
  ⟨by rfl, by rfl, by rfl, by rfl, by rfl, by rfl,
    realloc_rollback dar_full str_ab mem_fail (by decide) (by decide) rfl (by decide) rfl
      (by decide)⟩

/-! ## Claim C18 -/

theorem str_pop_char_front_nonempty (s : CString) (mem : Mem) (h : s.len ≠ 0) :
    str_pop_char_front s mem =
      (DS_OK, ⟨(shift_down_loop mem.junkc s.len s.len 0 s.buffer).set (s.len - 1) 0,
        s.len - 1, s.capacity, s.growth_rate⟩) := by
  simp [str_pop_char_front, str_buffer_empty, h]

theorem str_pop_char_back_nonempty (s : CString) (h : s.len ≠ 0) :
    str_pop_char_back s =
      (DS_OK, ⟨s.buffer.set (s.len - 1) 0, s.len - 1, s.capacity, s.growth_rate⟩) := by
  simp [str_pop_char_back, str_buffer_empty, h]

theorem str_pop_char_at_zero (s : CString) (mem : Mem) (h : s.len ≠ 0) :
    str_pop_char_at s 0 mem = str_pop_char_front s mem := by
  have hne : str_buffer_empty s = false := by simp [str_buffer_empty, h]
  have hge : ¬ (0 ≥ s.len) := by omega
  rw [str_pop_char_front_nonempty s mem h]
  simp [str_pop_char_at, hne, hge, str_pop_char_front_nonempty s mem h]

theorem str_pop_char_at_last (s : CString) (mem : Mem) (h : s.len ≠ 0) (h1 : s.len - 1 ≠ 0) :
    str_pop_char_at s (s.len - 1) mem = str_pop_char_back s := by
  have hne : str_buffer_empty s = false := by simp [str_buffer_empty, h]
  have hge : ¬ (s.len - 1 ≥ s.len) := by omega
  rw [str_pop_char_back_nonempty s h]
  simp [str_pop_char_at, hne, hge, h1, str_pop_char_back_nonempty s h]

theorem str_pop_char_at_middle (s : CString) (i : Nat) (mem : Mem) (hi : i < s.len)
    (h0 : i ≠ 0) (h1 : i ≠ s.len - 1) :
    str_pop_char_at s i mem =
      (DS_OK, ⟨(shift_down_loop mem.junkc s.len (s.len - i) i s.buffer).set (s.len - 1) 0,
        s.len - 1, s.capacity, s.growth_rate⟩) := by
  have hne : str_buffer_empty s = false := by simp [str_buffer_empty]; omega
  have hge : ¬ (i ≥ s.len) := by omega
  simp [str_pop_char_at, hne, hge, h0, h1]

theorem str_pop_char_front_eq_at (s : CString) (mem : Mem) :
    str_pop_char_front s mem = str_pop_char_at s 0 mem := by
  by_cases hz : s.len = 0
  · simp [str_pop_char_at, str_pop_char_front, str_buffer_empty, hz]
  · exact (str_pop_char_at_zero s mem hz).symm

theorem str_pop_char_back_eq_at (s : CString) (mem : Mem) :
    str_pop_char_back s = str_pop_char_at s (s.len - 1) mem := by
  by_cases hz : s.len = 0
  · simp [str_pop_char_at, str_pop_char_back, str_buffer_empty, hz]
  · by_cases h1 : s.len - 1 = 0
    · have hl : s.len = 1 := by omega
      rw [h1, str_pop_char_at_zero s mem hz, str_pop_char_front_nonempty s mem hz,
        str_pop_char_back_nonempty s hz]
      simp [hl, shift_down_loop]
    · exact (str_pop_char_at_last s mem hz h1).symm

/-- C18: `str_pop_char_at` on a String whose length fits its buffer. It returns
`DS_ERR_INVALID_OPERATION` when the String is empty and `DS_ERR_INVALID_POSITION` when it is
not empty and `index >= len`, leaving the String as it was; otherwise it returns `DS_OK` and
leaves length `len - 1` with the bytes `[0, index)` followed by `[index + 1, len)`.
`str_pop_char_front` and `str_pop_char_back` give the same result as `str_pop_char_at` at
index 0 and `len - 1`. -/
theorem str_pop_char_at_cases (s : CString) (i : Nat) (mem : Mem)
    (hlen : s.len ≤ s.buffer.length) :
    (s.len = 0 → str_pop_char_at s i mem = (DS_ERR_INVALID_OPERATION, s)) ∧
    (0 < s.len → s.len ≤ i → str_pop_char_at s i mem = (DS_ERR_INVALID_POSITION, s)) ∧
    (i < s.len → ∃ s', str_pop_char_at s i mem = (DS_OK, s') ∧ s'.len = s.len - 1 ∧
      s'.bytes = s.bytes.take i ++ s.bytes.drop (i + 1) ∧ s'.capacity = s.capacity) ∧
    str_pop_char_front s mem = str_pop_char_at s 0 mem ∧
    str_pop_char_back s = str_pop_char_at s (s.len - 1) mem := by
  refine ⟨?_, ?_, ?_, str_pop_char_front_eq_at s mem, str_pop_char_back_eq_at s mem⟩
  · intro hz
    simp [str_pop_char_at, str_buffer_empty, hz]
  · intro hpos hi
    have hne : str_buffer_empty s = false := by simp [str_buffer_empty]; omega
    have hge : i ≥ s.len := hi
    simp [str_pop_char_at, hne, hge]
  · intro hi
    have hz : s.len ≠ 0 := by omega
    by_cases h0 : i = 0
    · subst h0
      rw [str_pop_char_at_zero s mem hz, str_pop_char_front_nonempty s mem hz]
      refine ⟨_, rfl, rfl, ?_, rfl⟩
      unfold CString.bytes
      simp only
      rw [take_set_of_le _ _ _ _ (le_refl _),
        remove_slots mem.junkc s.buffer s.len 0 s.len hlen hi (by omega)]
    · by_cases h1 : i = s.len - 1
      · subst h1
        rw [str_pop_char_at_last s mem hz h0, str_pop_char_back_nonempty s hz]
        refine ⟨_, rfl, rfl, ?_, rfl⟩
        unfold CString.bytes
        simp only
        have hd : List.drop (s.len - 1 + 1) (List.take s.len s.buffer) = [] := by
          apply List.drop_eq_nil_of_le
          rw [List.length_take]
          omega
        rw [take_set_of_le _ _ _ _ (le_refl _), hd, List.append_nil, List.take_take,
          min_eq_left (by omega)]
      · rw [str_pop_char_at_middle s i mem hi h0 h1]
        refine ⟨_, rfl, rfl, ?_, rfl⟩
        unfold CString.bytes
        simp only
        rw [take_set_of_le _ _ _ _ (le_refl _),
          remove_slots mem.junkc s.buffer s.len i (s.len - i) hlen hi (by omega)]

/-- C18 at "alpha", index 2: the result is "alha"; and index 5 is rejected. -/
theorem str_pop_char_at_cases_witness :
    (str_pop_char_at str_alpha 2 mem_ok).2.bytes = chars "alha".toList ∧
    str_pop_char_at str_alpha 5 mem_ok = (DS_ERR_INVALID_POSITION, str_alpha) ∧
    ((str_alpha.len = 0 → str_pop_char_at str_alpha 2 mem_ok = (DS_ERR_INVALID_OPERATION, str_alpha)) ∧
    (0 < str_alpha.len → str_alpha.len ≤ 2 →
      str_pop_char_at str_alpha 2 mem_ok = (DS_ERR_INVALID_POSITION, str_alpha)) ∧
    (2 < str_alpha.len → ∃ s', str_pop_char_at str_alpha 2 mem_ok = (DS_OK, s') ∧
      s'.len = str_alpha.len - 1 ∧
      s'.bytes = str_alpha.bytes.take 2 ++ str_alpha.bytes.drop (2 + 1) ∧
      s'.capacity = str_alpha.capacity) ∧
    str_pop_char_front str_alpha mem_ok = str_pop_char_at str_alpha 0 mem_ok ∧
    str_pop_char_back str_alpha = str_pop_char_at str_alpha (str_alpha.len - 1) mem_ok) :=
  ⟨by rfl, by rfl, str_pop_char_at_cases str_alpha 2 mem_ok (by decide)⟩

/-! ## Claim C20 -/

/-- C20: parser stop condition, with an allocator that never fails. For every input of length
at most 1, `file_load` returns `DS_OK` and leaves the table as it was, and so does its record
loop on every text of length at most 1. And on every well-formed text made of complete
records (names free of `','`, `size_t` numbers) followed by a remainder of length at most 1,
the record loop returns `DS_OK` and the table holds exactly the complete records after its
previous content: the remainder is discarded without error. So does `file_load` as a whole
on a file with these bytes when no name holds the byte 0xFF, at which its read loop stops. -/
theorem file_load_stop_condition (tail : List CChar) (dst : DynamicArray) (vars : Fields)
    (mem : Mem) (fuel : Nat) (htail : tail.length ≤ 1) (hnf : mem.NeverFails) :
    (1 ≤ fuel → ∃ mem', file_load fuel (some tail) dst vars mem = some (DS_OK, dst, mem')) ∧
    (∀ text : CString, text.len ≤ 1 → 1 ≤ fuel →
      file_load_records fuel DS_OK text dst vars mem = some (DS_OK, dst, mem)) ∧
    (∀ rs : List (List CChar × Nat × Nat × Nat × Nat),
      (∀ r ∈ rs, (44 : Int) ∉ r.1 ∧ fields_fit r) → dst.WF →
      (records_text rs ++ tail).length + 1 ≤ fuel →
      (∀ text : CString, text.WF → text.bytes = records_text rs ++ tail →
        ∃ dst' mem', file_load_records fuel DS_OK text dst vars mem =
            some (DS_OK, dst', mem') ∧
          dst'.size = dst.size + rs.length ∧ dst'.records = dst.records ++ rs.map some) ∧
      ((∀ r ∈ rs, EOF ∉ r.1) →
        ∃ dst' mem', file_load fuel (some (records_text rs ++ tail)) dst vars mem =
            some (DS_OK, dst', mem') ∧
          dst'.size = dst.size + rs.length ∧ dst'.records = dst.records ++ rs.map some)) := by
  refine ⟨?_, ?_, ?_⟩
  · intro hfuel
    obtain ⟨text, mem2, wt, bt, lt, nf2, hload⟩ := file_load_start fuel tail dst vars mem hnf
    have htl := file_read_length_le tail
    rw [hload]
    by_cases h0 : text.len = 0
    · rw [if_pos h0]
      exact ⟨mem2, rfl⟩
    · rw [if_neg h0, file_load_records_short fuel text dst vars mem2 (by omega) hfuel]
      exact ⟨mem2, rfl⟩
  · intro text hl hfuel
    exact file_load_records_short fuel text dst vars mem hl hfuel
  · intro rs hrs hdst hfuel
    constructor
    · intro text wt bt
      have hl := CString.len_of_bytes text wt _ bt
      exact file_load_records_complete rs tail fuel text dst vars mem wt hdst hnf bt htail hrs
        (by omega)
    · intro heof
      exact file_load_complete rs tail fuel dst vars mem hdst hnf htail hrs heof hfuel

/-- C20 at the inputs "", "\n" and "alpha,1,2,3,4\n\n": no record for the first two, exactly
one record and no error for the third. -/
theorem file_load_stop_condition_witness :
    (file_load 1 (some []) dar_empty vars_zero mem_ok).map (fun r => (r.1, r.2.1)) =
      some (DS_OK, dar_empty) ∧
    (file_load 16 (some (chars "alpha,1,2,3,4\n\n".toList)) dar_empty vars_zero mem_ok).map
      (fun r => (r.1, r.2.1.records)) = some (DS_OK, [some (chars "alpha".toList, 1, 2, 3, 4)]) ∧
    ((1 ≤ 16 → ∃ mem', file_load 16 (some [10]) dar_empty vars_zero mem_ok =
        some (DS_OK, dar_empty, mem')) ∧
    (∀ text : CString, text.len ≤ 1 → 1 ≤ 16 →
      file_load_records 16 DS_OK text dar_empty vars_zero mem_ok =
        some (DS_OK, dar_empty, mem_ok)) ∧
    (∀ rs : List (List CChar × Nat × Nat × Nat × Nat),
      (∀ r ∈ rs, (44 : Int) ∉ r.1 ∧ fields_fit r) → dar_empty.WF →
      (records_text rs ++ [10]).length + 1 ≤ 16 →
      (∀ text : CString, text.WF → text.bytes = records_text rs ++ [10] →
        ∃ dst' mem', file_load_records 16 DS_OK text dar_empty vars_zero mem_ok =
            some (DS_OK, dst', mem') ∧
          dst'.size = dar_empty.size + rs.length ∧
          dst'.records = dar_empty.records ++ rs.map some) ∧
      ((∀ r ∈ rs, EOF ∉ r.1) →
        ∃ dst' mem', file_load 16 (some (records_text rs ++ [10])) dar_empty vars_zero mem_ok =
            some (DS_OK, dst', mem') ∧
          dst'.size = dar_empty.size + rs.length ∧
          dst'.records = dar_empty.records ++ rs.map some))) :=
  ⟨by rfl, by rfl,
    file_load_stop_condition [10] dar_empty vars_zero mem_ok 16 (by decide)
      (fun b hb => absurd hb (List.not_mem_nil b))⟩

/-! ## Claim C15 -/

theorem prc_compare_pos_iff (p q : Process) :
    prc_compare (some p) (some q) > 0 ↔ p.pid > q.pid := by
  unfold prc_compare
  simp only
  by_cases h1 : p.pid > q.pid
  · rw [if_pos h1]
    exact ⟨fun _ => h1, fun _ => by decide⟩
  · rw [if_neg h1]
    by_cases h2 : p.pid < q.pid
    · rw [if_pos h2]
      exact ⟨fun h => absurd h (by decide), fun h => absurd h h1⟩
    · rw [if_neg h2]
      exact ⟨fun h => absurd h (by decide), fun h => absurd h h1⟩

theorem prc_compare_neg_iff (p q : Process) :
    prc_compare (some p) (some q) < 0 ↔ p.pid < q.pid := by
  unfold prc_compare
  simp only
  by_cases h1 : p.pid > q.pid
  · rw [if_pos h1]
    exact ⟨fun h => absurd h (by decide), fun h => by omega⟩
  · rw [if_neg h1]
    by_cases h2 : p.pid < q.pid
    · rw [if_pos h2]
      exact ⟨fun _ => h2, fun _ => by decide⟩
    · rw [if_neg h2]
      exact ⟨fun h => absurd h (by decide), fun h => absurd h h2⟩

theorem dar_find_max_pos_loop_spec (dar : DynamicArray) (mem : Mem) (pid : Nat → Nat)
    (hpid : ∀ j, j < dar.size → ∃ p, dar.buffer.getD j mem.junkp = some p ∧ p.pid = pid j) :
    ∀ (k i r : Nat), i + k = dar.size → r < dar.size →
      (∀ j, j < i → pid j ≤ pid r) → (∀ j, j < r → pid j < pid r) →
      dar_find_max_pos_loop dar mem k i r < dar.size ∧
      (∀ j, j < dar.size → pid j ≤ pid (dar_find_max_pos_loop dar mem k i r)) ∧
      (∀ j, j < dar_find_max_pos_loop dar mem k i r →
        pid j < pid (dar_find_max_pos_loop dar mem k i r)) := by
  intro k
  induction k with
  | zero =>
    intro i r hi hr h1 h2
    have : i = dar.size := by omega
    subst this
    exact ⟨hr, h1, h2⟩
  | succ k ih =>
    intro i r hi hr h1 h2
    have hilt : i < dar.size := by omega
    obtain ⟨p, hp, hpp⟩ := hpid i hilt
    obtain ⟨q, hq, hqq⟩ := hpid r hr
    unfold dar_find_max_pos_loop
    rw [if_pos hilt, hp, hq]
    by_cases hc : prc_compare (some p) (some q) > 0
    · rw [if_pos hc]
      have hgt : pid r < pid i := by
        have := (prc_compare_pos_iff p q).mp hc
        omega
      apply ih (i + 1) i (by omega) hilt
      · intro j hj
        rcases Nat.lt_succ_iff_lt_or_eq.mp hj with h | h
        · have := h1 j h; omega
        · subst h; exact le_refl _
      · intro j hj
        have := h1 j hj
        omega
    · rw [if_neg hc]
      have hle : pid i ≤ pid r := by
        have := (prc_compare_pos_iff p q).not.mp hc
        omega
      apply ih (i + 1) r (by omega) hr
      · intro j hj
        rcases Nat.lt_succ_iff_lt_or_eq.mp hj with h | h
        · exact h1 j h
        · subst h; exact hle
      · exact h2

theorem dar_find_min_pos_loop_spec (dar : DynamicArray) (mem : Mem) (pid : Nat → Nat)
    (hpid : ∀ j, j < dar.size → ∃ p, dar.buffer.getD j mem.junkp = some p ∧ p.pid = pid j) :
    ∀ (k i r : Nat), i + k = dar.size → r < dar.size →
      (∀ j, j < i → pid r ≤ pid j) → (∀ j, j < r → pid r < pid j) →
      dar_find_min_pos_loop dar mem k i r < dar.size ∧
      (∀ j, j < dar.size → pid (dar_find_min_pos_loop dar mem k i r) ≤ pid j) ∧
      (∀ j, j < dar_find_min_pos_loop dar mem k i r →
        pid (dar_find_min_pos_loop dar mem k i r) < pid j) := by
  intro k
  induction k with
  | zero =>
    intro i r hi hr h1 h2
    have : i = dar.size := by omega
    subst this
    exact ⟨hr, h1, h2⟩
  | succ k ih =>
    intro i r hi hr h1 h2
    have hilt : i < dar.size := by omega
    obtain ⟨p, hp, hpp⟩ := hpid i hilt
    obtain ⟨q, hq, hqq⟩ := hpid r hr
    unfold dar_find_min_pos_loop
    rw [if_pos hilt, hp, hq]
    by_cases hc : prc_compare (some p) (some q) < 0
    · rw [if_pos hc]
      have hgt : pid i < pid r := by
        have := (prc_compare_neg_iff p q).mp hc
        omega
      apply ih (i + 1) i (by omega) hilt
      · intro j hj
        rcases Nat.lt_succ_iff_lt_or_eq.mp hj with h | h
        · have := h1 j h; omega
        · subst h; exact le_refl _
      · intro j hj
        have := h1 j hj
        omega
    · rw [if_neg hc]
      have hle : pid r ≤ pid i := by
        have := (prc_compare_neg_iff p q).not.mp hc
        omega
      apply ih (i + 1) r (by omega) hr
      · intro j hj
        rcases Nat.lt_succ_iff_lt_or_eq.mp hj with h | h
        · exact h1 j h
        · subst h; exact hle
      · exact h2

/-- C15: on a table whose live elements fit its buffer and are not `NULL`: when the table is
empty `dar_find_max_pos` and `dar_find_min_pos` return `DS_ERR_INVALID_OPERATION`; otherwise
they return `DS_OK` with an index below `size` whose pid is the greatest (the least) of all
live elements, and every lower index has a strictly smaller (greater) pid, so the index is the
lowest one holding the extreme pid. -/
theorem dar_find_extremum_pos (dar : DynamicArray) (mem : Mem)
    (hcap : dar.buffer.length = dar.capacity) (hfits : dar.size ≤ dar.capacity)
    (hrec : ∀ e ∈ dar.live, e ≠ none) :
    (dar.size = 0 → dar_find_max_pos dar mem = (DS_ERR_INVALID_OPERATION, 0) ∧
      dar_find_min_pos dar mem = (DS_ERR_INVALID_OPERATION, 0)) ∧
    (0 < dar.size → ∃ imax imin, dar_find_max_pos dar mem = (DS_OK, imax) ∧
      dar_find_min_pos dar mem = (DS_OK, imin) ∧ imax < dar.size ∧ imin < dar.size ∧
      (∀ j, j < dar.size → dar.pid_at j ≤ dar.pid_at imax) ∧
      (∀ j, j < imax → dar.pid_at j < dar.pid_at imax) ∧
      (∀ j, j < dar.size → dar.pid_at imin ≤ dar.pid_at j) ∧
      (∀ j, j < imin → dar.pid_at imin < dar.pid_at j)) := by
  constructor
  · intro hz
    simp [dar_find_max_pos, dar_find_min_pos, dar_is_empty, hz]
  · intro hpos
    have hne : dar_is_empty dar = false := by simp [dar_is_empty]; omega
    have hpid : ∀ j, j < dar.size →
        ∃ p, dar.buffer.getD j mem.junkp = some p ∧ p.pid = dar.pid_at j := by
      intro j hj
      have hl : dar.live[j]? = some (dar.buffer.getD j mem.junkp) := by
        rw [DynamicArray.live_getElem? dar j hj, List.getD_eq_getElem?_getD,
          List.getElem?_eq_getElem (by omega)]
        rfl
      have hmem := List.getElem?_mem hl
      cases he : dar.buffer.getD j mem.junkp with
      | none => rw [he] at hmem; exact absurd rfl (hrec _ hmem)
      | some p =>
        refine ⟨p, rfl, ?_⟩
        unfold DynamicArray.pid_at
        rw [List.getD_eq_getElem?_getD, hl, he]
        rfl
    obtain ⟨a1, a2, a3⟩ := dar_find_max_pos_loop_spec dar mem dar.pid_at hpid dar.size 0 0
      (by omega) hpos (fun j hj => absurd hj (Nat.not_lt_zero j))
      (fun j hj => absurd hj (Nat.not_lt_zero j))
    obtain ⟨b1, b2, b3⟩ := dar_find_min_pos_loop_spec dar mem dar.pid_at hpid dar.size 0 0
      (by omega) hpos (fun j hj => absurd hj (Nat.not_lt_zero j))
      (fun j hj => absurd hj (Nat.not_lt_zero j))
    refine ⟨dar_find_max_pos_loop dar mem dar.size 0 0, dar_find_min_pos_loop dar mem dar.size 0 0,
      by simp [dar_find_max_pos, hne], by simp [dar_find_min_pos, hne], a1, b1, a2, a3, b2, b3⟩

/-- C15 at the table with pids 7, 7, 1, 7, 2: the maximum is found at index 0 (the first of
three 7s), the minimum at index 2; the empty table is rejected. -/
theorem dar_find_extremum_pos_witness :
    dar_find_max_pos dar_77172 mem_ok = (DS_OK, 0) ∧
    dar_find_min_pos dar_77172 mem_ok = (DS_OK, 2) ∧
    dar_find_max_pos dar_empty mem_ok = (DS_ERR_INVALID_OPERATION, 0) ∧
    (0 < dar_77172.size → ∃ imax imin, dar_find_max_pos dar_77172 mem_ok = (DS_OK, imax) ∧
      dar_find_min_pos dar_77172 mem_ok = (DS_OK, imin) ∧ imax < dar_77172.size ∧
      imin < dar_77172.size ∧
      (∀ j, j < dar_77172.size → dar_77172.pid_at j ≤ dar_77172.pid_at imax) ∧
      (∀ j, j < imax → dar_77172.pid_at j < dar_77172.pid_at imax) ∧
      (∀ j, j < dar_77172.size → dar_77172.pid_at imin ≤ dar_77172.pid_at j) ∧
      (∀ j, j < imin → dar_77172.pid_at imin < dar_77172.pid_at j)) :=
  ⟨by rfl, by rfl, by rfl,
    (dar_find_extremum_pos dar_77172 mem_ok rfl (by decide) (by decide)).2⟩

/-! ## Lemmas: capacities of the form `8 * 2^k` -/

theorem cap_below_mono (cap n m : Nat) (h : cap_below cap n) (hnm : n ≤ m) : cap_below cap m :=
  ⟨h.1, fun j hj => h.2 j (le_trans hnm hj)⟩

theorem cap_below_double (cap n : Nat) (h : cap_below cap n) (hlt : cap < n) :
    cap_below (cap * 2) n := by
  obtain ⟨⟨k, hk⟩, hmin⟩ := h
  refine ⟨⟨k + 1, by rw [hk, pow_succ]; ring⟩, ?_⟩
  intro j hj
  have h1 : 8 * 2 ^ k < 8 * 2 ^ j := by rw [← hk]; omega
  have h2 : 2 ^ k < 2 ^ j := by omega
  have h3 : k < j := (Nat.pow_lt_pow_iff_right (by decide)).mp h2
  have h4 : 2 ^ (k + 1) ≤ 2 ^ j := Nat.pow_le_pow_right (by decide) h3
  rw [hk]
  rw [pow_succ] at h4
  omega

theorem cap_below_pos (cap n : Nat) (h : cap_below cap n) : 8 ≤ cap := by
  obtain ⟨⟨k, hk⟩, _⟩ := h
  have : 1 ≤ 2 ^ k := Nat.one_le_two_pow
  rw [hk]
  omega

theorem least_cap_succ (cap n : Nat) (h : least_cap cap n) :
    least_cap (if n = cap then cap * 2 else cap) (n + 1) := by
  obtain ⟨hb, hle⟩ := h
  have hpos := cap_below_pos cap n hb
  by_cases he : n = cap
  · rw [if_pos he]
    exact ⟨cap_below_double cap (n + 1) (cap_below_mono cap n (n + 1) hb (by omega)) (by omega),
      by omega⟩
  · rw [if_neg he]
    exact ⟨cap_below_mono cap n (n + 1) hb (by omega), by omega⟩

theorem least_cap_init (n : Nat) (h : n ≤ 8) : least_cap 8 n := by
  refine ⟨⟨⟨0, by norm_num⟩, ?_⟩, h⟩
  intro j _
  have : 1 ≤ 2 ^ j := Nat.one_le_two_pow
  omega

theorem least_cap_eight (cap : Nat) (h : least_cap cap 8) : cap = 8 := by
  have h1 := h.1.2 0 (by norm_num)
  have h2 := h.2
  norm_num at h1
  omega

theorem least_cap_nine (cap : Nat) (h : least_cap cap 9) : cap = 16 := by
  have h1 := h.1.2 1 (by norm_num)
  have h2 := h.2
  obtain ⟨k, hk⟩ := h.1.1
  norm_num at h1
  cases k with
  | zero => norm_num at hk; omega
  | succ k =>
    have : 1 ≤ 2 ^ k := Nat.one_le_two_pow
    rw [pow_succ] at hk
    omega

/-! ## Lemmas: capacity after an insertion into a table -/

theorem dar_grown_eq (dar : DynamicArray) (mem : Mem) :
    (dar_is_full dar = false ∧
      (if dar_is_full dar then dar_realloc dar mem else (DS_OK, dar, mem)) = (DS_OK, dar, mem)) ∨
    (dar_is_full dar = true ∧ mem.request.1 = false ∧
      (if dar_is_full dar then dar_realloc dar mem else (DS_OK, dar, mem)).1 = DS_ERR_ALLOC) ∨
    (dar_is_full dar = true ∧ mem.request.1 = true ∧
      (if dar_is_full dar then dar_realloc dar mem else (DS_OK, dar, mem)) =
        (DS_OK, { dar with capacity := dar.capacity * dar.growth_rate,
                           buffer := realloc_slots mem.junkp dar.buffer
                             (dar.capacity * dar.growth_rate) }, mem.request.2)) := by
  cases hfull : dar_is_full dar with
  | false => left; simp
  | true =>
    right
    unfold dar_realloc
    rcases hr : mem.request with ⟨ok, m1⟩
    cases ok
    · left; simp
    · right; simp

theorem dar_insert_call_ok (c : DarInsert) (dar : DynamicArray) (mem : Mem)
    (h : (c.call dar mem).1 = DS_OK) :
    (c.call dar mem).2.1.size = dar.size + 1 ∧
    (c.call dar mem).2.1.growth_rate = dar.growth_rate ∧
    (c.call dar mem).2.1.capacity =
      (if dar.size = dar.capacity then dar.capacity * dar.growth_rate else dar.capacity) := by
  have hfull_iff : dar_is_full dar = true ↔ dar.size = dar.capacity := by simp [dar_is_full]
  have key : ∀ (body : DynamicArray → DynamicArray),
      (∀ d, (body d).size = d.size + 1 ∧ (body d).growth_rate = d.growth_rate ∧
        (body d).capacity = d.capacity) →
      ∀ r : Status × DynamicArray × Mem,
        r = (match (if dar_is_full dar then dar_realloc dar mem else (DS_OK, dar, mem)) with
          | (st, dar1, mem1) => if st ≠ DS_OK then (st, dar1, mem1) else (DS_OK, body dar1, mem1)) →
        r.1 = DS_OK →
        r.2.1.size = dar.size + 1 ∧ r.2.1.growth_rate = dar.growth_rate ∧
        r.2.1.capacity =
          (if dar.size = dar.capacity then dar.capacity * dar.growth_rate else dar.capacity) := by
    intro body hbody r hr hok
    rcases dar_grown_eq dar mem with ⟨hf, he⟩ | ⟨hf, _, he⟩ | ⟨hf, _, he⟩
    · have hne : ¬ dar.size = dar.capacity := by
        intro h; rw [hfull_iff.mpr h] at hf; exact absurd hf (by decide)
      rw [he] at hr
      simp only [ne_eq, not_true_eq_false, if_false] at hr
      subst hr
      obtain ⟨b1, b2, b3⟩ := hbody dar
      exact ⟨b1, b2, by rw [if_neg hne]; exact b3⟩
    · exfalso
      rcases hg : (if dar_is_full dar then dar_realloc dar mem else (DS_OK, dar, mem)) with
        ⟨st, d1, m1⟩
      rw [hg] at he hr
      simp only at he
      subst he
      simp only [ne_eq] at hr
      rw [if_pos (by decide)] at hr
      subst hr
      simp at hok
    · have heq : dar.size = dar.capacity := hfull_iff.mp hf
      rw [he] at hr
      simp only [ne_eq, not_true_eq_false, if_false] at hr
      subst hr
      obtain ⟨b1, b2, b3⟩ := hbody { dar with
        capacity := dar.capacity * dar.growth_rate,
        buffer := realloc_slots mem.junkp dar.buffer (dar.capacity * dar.growth_rate) }
      exact ⟨b1, b2, by rw [if_pos heq]; exact b3⟩
  cases c with
  | front v =>
    exact key (fun d => { d with buffer := (shift_up_loop mem.junkp 0 d.size d.buffer).set 0 v,
                                 size := d.size + 1 }) (fun d => ⟨rfl, rfl, rfl⟩) _ rfl h
  | back v =>
    exact key (fun d => { d with buffer := d.buffer.set d.size v, size := d.size + 1 })
      (fun d => ⟨rfl, rfl, rfl⟩) _ rfl h
  | at_index v i =>
    simp only [DarInsert.call] at h ⊢
    unfold dar_insert_at at h ⊢
    by_cases hgt : i > dar.size
    · rw [if_pos hgt] at h
      simp at h
    · rw [if_neg hgt] at h ⊢
      by_cases h0 : i = 0
      · rw [if_pos h0] at h ⊢
        have hf : (dar_insert_front dar v mem).1 = DS_OK := by
          rcases hr : dar_insert_front dar v mem with ⟨st, d1, m1⟩
          rw [hr] at h
          by_cases hs : st = DS_OK
          · exact hs
          · simp [hs] at h
        have := key (fun d => { d with
          buffer := (shift_up_loop mem.junkp 0 d.size d.buffer).set 0 v, size := d.size + 1 })
          (fun d => ⟨rfl, rfl, rfl⟩) (dar_insert_front dar v mem) rfl hf
        rcases hr : dar_insert_front dar v mem with ⟨st, d1, m1⟩
        rw [hr] at this hf
        simp only at hf
        subst hf
        simpa using this
      · rw [if_neg h0] at h ⊢
        by_cases h1 : i = dar.size
        · rw [if_pos h1] at h ⊢
          have hf : (dar_insert_back dar v mem).1 = DS_OK := by
            rcases hr : dar_insert_back dar v mem with ⟨st, d1, m1⟩
            rw [hr] at h
            by_cases hs : st = DS_OK
            · exact hs
            · simp [hs] at h
          have := key (fun d => { d with buffer := d.buffer.set d.size v, size := d.size + 1 })
            (fun d => ⟨rfl, rfl, rfl⟩) (dar_insert_back dar v mem) rfl hf
          rcases hr : dar_insert_back dar v mem with ⟨st, d1, m1⟩
          rw [hr] at this hf
          simp only at hf
          subst hf
          simpa using this
        · rw [if_neg h1] at h ⊢
          exact key (fun d => { d with
            buffer := (shift_up_loop mem.junkp i d.size d.buffer).set i v, size := d.size + 1 })
            (fun d => ⟨rfl, rfl, rfl⟩) _ rfl h

/-! ## Claim C11 -/

theorem dar_init_ok (mem0 mem1 : Mem) (dar0 : DynamicArray)
    (h : dar_init mem0 = (DS_OK, some dar0, mem1)) :
    dar0.size = 0 ∧ dar0.capacity = 8 ∧ dar0.growth_rate = 2 ∧
      dar0.buffer = List.replicate 8 none := by
  unfold dar_init at h
  rcases hr1 : mem0.request with ⟨ok1, m1⟩
  rw [hr1] at h
  cases ok1
  · simp at h
  · simp only at h
    rcases hr2 : m1.request with ⟨ok2, m2⟩
    rw [hr2] at h
    cases ok2
    · simp at h
    · simp only [Prod.mk.injEq, Option.some.injEq, true_and] at h
      obtain ⟨hd, _⟩ := h
      subst hd
      exact ⟨rfl, rfl, rfl, rfl⟩

theorem dar_insert_calls_inv :
    ∀ (calls : List DarInsert) (dar : DynamicArray) (mem : Mem) (dar' : DynamicArray)
      (mem' : Mem), dar.growth_rate = 2 → least_cap dar.capacity dar.size →
      dar_insert_calls calls dar mem = some (dar', mem') →
      dar'.growth_rate = 2 ∧ least_cap dar'.capacity dar'.size ∧
        dar'.size = dar.size + calls.length := by
  intro calls
  induction calls with
  | nil =>
    intro dar mem dar' mem' hg hc hrun
    simp only [dar_insert_calls, Option.some.injEq, Prod.mk.injEq] at hrun
    obtain ⟨rfl, _⟩ := hrun
    exact ⟨hg, hc, rfl⟩
  | cons c cs ih =>
    intro dar mem dar' mem' hg hc hrun
    unfold dar_insert_calls at hrun
    rcases hcall : c.call dar mem with ⟨st, d1, m1⟩
    rw [hcall] at hrun
    simp only at hrun
    by_cases hst : st = DS_OK
    · rw [if_pos hst] at hrun
      have hok := dar_insert_call_ok c dar mem (by rw [hcall]; exact hst)
      rw [hcall] at hok
      simp only at hok
      obtain ⟨h1, h2, h3⟩ := hok
      have hc1 : least_cap d1.capacity d1.size := by
        rw [h1, h3, hg]
        exact least_cap_succ dar.capacity dar.size hc
      obtain ⟨r1, r2, r3⟩ := ih d1 m1 dar' mem' (by rw [h2, hg]) hc1 hrun
      refine ⟨r1, r2, ?_⟩
      rw [r3, h1, List.length_cons]
      omega
    · rw [if_neg hst] at hrun
      exact absurd hrun (by simp)

/-- C11: growth invariant of the table. After any sequence of successful `dar_insert_front`,
`dar_insert_at` and `dar_insert_back` calls on a table fresh from `dar_init`, the size is the
number of calls and the capacity is the smallest value of the form `8 * 2^k` that is at least
the size. So with 8 elements the capacity is 8 and the table is exactly full, and with 9
elements the capacity is 16. -/
theorem dar_growth_invariant (calls : List DarInsert) (mem0 mem1 mem2 : Mem)
    (dar0 dar : DynamicArray) (hinit : dar_init mem0 = (DS_OK, some dar0, mem1))
    (hrun : dar_insert_calls calls dar0 mem1 = some (dar, mem2)) :
    dar.size = calls.length ∧ least_cap dar.capacity dar.size ∧
    (dar.size = 8 → dar.capacity = 8 ∧ dar_is_full dar = true) ∧
    (dar.size = 9 → dar.capacity = 16) := by
  obtain ⟨i1, i2, i3, _⟩ := dar_init_ok mem0 mem1 dar0 hinit
  obtain ⟨_, r2, r3⟩ := dar_insert_calls_inv calls dar0 mem1 dar mem2 i3
    (by rw [i1, i2]; exact least_cap_init 0 (by decide)) hrun
  refine ⟨by rw [r3, i1]; simp, r2, ?_, ?_⟩
  · intro h8
    rw [h8] at r2
    have := least_cap_eight dar.capacity r2
    exact ⟨this, by simp [dar_is_full, h8, this]⟩
  · intro h9
    rw [h9] at r2
    exact least_cap_nine dar.capacity r2

/-- C11 at eight insertions at the back followed by a ninth: after eight the table is
`dar_full` (size 8, capacity 8); the ninth grows the capacity to 16. -/
theorem dar_growth_invariant_witness :
    dar_init mem_ok = (DS_OK, some dar_empty, mem_ok) ∧
    dar_insert_calls eight_inserts dar_empty mem_ok = some (dar_full, mem_ok) ∧
    (dar_insert_calls (eight_inserts ++ [.back (prc_a 9)]) dar_empty mem_ok).map
      (fun r => (r.1.size, r.1.capacity)) = some (9, 16) ∧
    (dar_full.size = eight_inserts.length ∧ least_cap dar_full.capacity dar_full.size ∧
    (dar_full.size = 8 → dar_full.capacity = 8 ∧ dar_is_full dar_full = true) ∧
    (dar_full.size = 9 → dar_full.capacity = 16)) :=
  ⟨by rfl, by rfl, by rfl,
    dar_growth_invariant eight_inserts mem_ok mem_ok mem_ok dar_empty dar_full (by rfl) (by rfl)⟩

/-! ## Lemmas: capacity after an insertion into a String -/

theorem str_realloc_eq (s : CString) (mem : Mem) :
    (mem.request.1 = false ∧ (str_realloc s mem).1 = DS_ERR_ALLOC) ∨
    (mem.request.1 = true ∧
      str_realloc s mem =
        (DS_OK, ⟨(realloc_slots mem.junkc s.buffer (s.capacity * s.growth_rate)).set s.len 0,
          s.len, s.capacity * s.growth_rate, s.growth_rate⟩, mem.request.2)) := by
  unfold str_realloc
  rcases hr : mem.request with ⟨ok, m1⟩
  cases ok
  · left; simp
  · right; simp

theorem str_grown_eq (s : CString) (mem : Mem) :
    (str_buffer_full s = false ∧
      (if str_buffer_full s then str_realloc s mem else (DS_OK, s, mem)) = (DS_OK, s, mem)) ∨
    (str_buffer_full s = true ∧
      (if str_buffer_full s then str_realloc s mem else (DS_OK, s, mem)).1 = DS_ERR_ALLOC) ∨
    (str_buffer_full s = true ∧
      (if str_buffer_full s then str_realloc s mem else (DS_OK, s, mem)) =
        (DS_OK, ⟨(realloc_slots mem.junkc s.buffer (s.capacity * s.growth_rate)).set s.len 0,
          s.len, s.capacity * s.growth_rate, s.growth_rate⟩, mem.request.2)) := by
  cases hfull : str_buffer_full s with
  | false => left; simp
  | true =>
    right
    rcases str_realloc_eq s mem with ⟨_, h⟩ | ⟨_, h⟩
    · left; simp [h]
    · right; simp [h]

/-- What a successful single-character push does to length, growth rate and capacity. -/
theorem str_char_push_ok (s : CString) (mem : Mem) (body : CString → CString)
    (hbody : ∀ d, (body d).len = d.len + 1 ∧ (body d).growth_rate = d.growth_rate ∧
      (body d).capacity = d.capacity)
    (r : Status × CString × Mem)
    (hr : r = (match (if str_buffer_full s then str_realloc s mem else (DS_OK, s, mem)) with
      | (st, s1, mem1) => if st ≠ DS_OK then (st, s1, mem1) else (DS_OK, body s1, mem1)))
    (hok : r.1 = DS_OK) :
    r.2.1.len = s.len + 1 ∧ r.2.1.growth_rate = s.growth_rate ∧
    r.2.1.capacity =
      (if s.len + 1 ≥ s.capacity then s.capacity * s.growth_rate else s.capacity) := by
  have hfull_iff : str_buffer_full s = true ↔ s.len + 1 ≥ s.capacity := by
    simp [str_buffer_full]
  rcases str_grown_eq s mem with ⟨hf, he⟩ | ⟨hf, he⟩ | ⟨hf, he⟩
  · have hne : ¬ s.len + 1 ≥ s.capacity := by
      intro h; rw [hfull_iff.mpr h] at hf; exact absurd hf (by decide)
    rw [he] at hr
    simp only [ne_eq, not_true_eq_false, if_false] at hr
    subst hr
    obtain ⟨b1, b2, b3⟩ := hbody s
    exact ⟨b1, b2, by rw [if_neg hne]; exact b3⟩
  · exfalso
    rcases hg : (if str_buffer_full s then str_realloc s mem else (DS_OK, s, mem)) with
      ⟨st, d1, m1⟩
    rw [hg] at he hr
    simp only at he
    subst he
    simp only [ne_eq] at hr
    rw [if_pos (by decide)] at hr
    subst hr
    simp at hok
  · have heq : s.len + 1 ≥ s.capacity := hfull_iff.mp hf
    rw [he] at hr
    simp only [ne_eq, not_true_eq_false, if_false] at hr
    subst hr
    obtain ⟨b1, b2, b3⟩ := hbody
      ⟨(realloc_slots mem.junkc s.buffer (s.capacity * s.growth_rate)).set s.len 0,
        s.len, s.capacity * s.growth_rate, s.growth_rate⟩
    exact ⟨b1, b2, by rw [if_pos heq]; exact b3⟩

theorem str_push_char_front_ok (s : CString) (ch : CChar) (mem : Mem)
    (h : (str_push_char_front s ch mem).1 = DS_OK) :
    (str_push_char_front s ch mem).2.1.len = s.len + 1 ∧
    (str_push_char_front s ch mem).2.1.growth_rate = s.growth_rate ∧
    (str_push_char_front s ch mem).2.1.capacity =
      (if s.len + 1 ≥ s.capacity then s.capacity * s.growth_rate else s.capacity) :=
  str_char_push_ok s mem
    (fun d => ⟨(((shift_up_loop mem.junkc 0 d.len d.buffer).set 0 ch).set (d.len + 1) 0),
      d.len + 1, d.capacity, d.growth_rate⟩)
    (fun _ => ⟨rfl, rfl, rfl⟩) _ rfl h

theorem str_push_char_back_ok (s : CString) (ch : CChar) (mem : Mem)
    (h : (str_push_char_back s ch mem).1 = DS_OK) :
    (str_push_char_back s ch mem).2.1.len = s.len + 1 ∧
    (str_push_char_back s ch mem).2.1.growth_rate = s.growth_rate ∧
    (str_push_char_back s ch mem).2.1.capacity =
      (if s.len + 1 ≥ s.capacity then s.capacity * s.growth_rate else s.capacity) :=
  str_char_push_ok s mem
    (fun d => ⟨((d.buffer.set d.len ch).set (d.len + 1) 0), d.len + 1, d.capacity,
      d.growth_rate⟩)
    (fun _ => ⟨rfl, rfl, rfl⟩) _ rfl h

theorem str_push_char_at_ok (s : CString) (ch : CChar) (i : Nat) (mem : Mem)
    (h : (str_push_char_at s ch i mem).1 = DS_OK) :
    (str_push_char_at s ch i mem).2.1.len = s.len + 1 ∧
    (str_push_char_at s ch i mem).2.1.growth_rate = s.growth_rate ∧
    (str_push_char_at s ch i mem).2.1.capacity =
      (if s.len + 1 ≥ s.capacity then s.capacity * s.growth_rate else s.capacity) := by
  have hfront : (str_push_char_front s ch mem).1 = DS_OK →
      (match str_push_char_front s ch mem with
        | (st, str1, mem1) => if st ≠ DS_OK then (st, str1, mem1) else (DS_OK, str1, mem1)) =
      str_push_char_front s ch mem := by
    intro hf
    rcases hr : str_push_char_front s ch mem with ⟨st, d1, m1⟩
    rw [hr] at hf
    simp only at hf
    subst hf
    simp
  have hfront2 : (match str_push_char_front s ch mem with
        | (st, str1, mem1) => if st ≠ DS_OK then (st, str1, mem1) else (DS_OK, str1, mem1)).1 =
      DS_OK → (str_push_char_front s ch mem).1 = DS_OK := by
    intro hf
    rcases hr : str_push_char_front s ch mem with ⟨st, d1, m1⟩
    rw [hr] at hf
    by_cases hs : st = DS_OK
    · exact hs
    · simp [hs] at hf
  unfold str_push_char_at at h ⊢
  by_cases hgt : i > s.len
  · rw [if_pos hgt] at h
    simp at h
  · rw [if_neg hgt] at h ⊢
    by_cases h0 : i = 0
    · rw [if_pos h0] at h ⊢
      rw [hfront (hfront2 h)]
      exact str_push_char_front_ok s ch mem (hfront2 h)
    · rw [if_neg h0] at h ⊢
      by_cases h1 : i = s.len
      · rw [if_pos h1] at h ⊢
        rw [hfront (hfront2 h)]
        exact str_push_char_front_ok s ch mem (hfront2 h)
      · rw [if_neg h1] at h ⊢
        exact str_char_push_ok s mem
          (fun d => ⟨(((shift_up_loop mem.junkc i d.len d.buffer).set i ch).set (d.len + 1) 0),
            d.len + 1, d.capacity, d.growth_rate⟩)
          (fun _ => ⟨rfl, rfl, rfl⟩) _ rfl h

/-- What a successful run of the growth loop of the substring calls leaves. -/
theorem str_fit_loop_ok (k : Nat) :
    ∀ (fuel : Nat) (s : CString) (mem : Mem) (s1 : CString) (mem1 : Mem),
      s.growth_rate = 2 → str_fit_loop k fuel s mem = some (DS_OK, s1, mem1) →
      s1.len = s.len ∧ s1.growth_rate = 2 ∧ s1.len + k < s1.capacity ∧
      (cap_below s.capacity (s.len + k + 1) → cap_below s1.capacity (s.len + k + 1)) ∧
      ∃ j, s1.capacity = s.capacity * 2 ^ j ∧ ∀ j', j' < j → s.capacity * 2 ^ j' ≤ s.len + k := by
  intro fuel
  induction fuel with
  | zero =>
    intro s mem s1 mem1 _ h
    simp [str_fit_loop] at h
  | succ f ih =>
    intro s mem s1 mem1 hg h
    unfold str_fit_loop at h
    by_cases hfit : str_buffer_fits s k = true
    · simp only [hfit, Bool.not_true, Bool.false_eq_true, if_false, Option.some.injEq,
        Prod.mk.injEq, true_and] at h
      obtain ⟨rfl, _⟩ := h
      have : s.len + k < s.capacity := by simpa [str_buffer_fits] using hfit
      exact ⟨rfl, hg, this, fun hc => hc, 0, by simp, fun j' hj' => absurd hj' (Nat.not_lt_zero _)⟩
    · have hnf : ¬ s.len + k < s.capacity := by simpa [str_buffer_fits] using hfit
      simp only [hfit, Bool.not_false, if_true] at h
      rcases str_realloc_eq s mem with ⟨_, he⟩ | ⟨_, he⟩
      · exfalso
        rcases hr : str_realloc s mem with ⟨st, d1, m1⟩
        rw [hr] at he h
        simp only at he
        subst he
        simp at h
      · rw [he] at h
        simp only [ne_eq, not_true_eq_false, if_false] at h
        obtain ⟨r1, r2, r3, r4, j, r5, r6⟩ := ih _ _ s1 mem1 (by exact hg) h
        simp only at r1 r3 r4 r5 r6
        rw [hg] at r4 r5 r6
        refine ⟨r1, r2, r3, ?_, j + 1, ?_, ?_⟩
        · intro hc
          exact r4 (cap_below_double s.capacity _ hc (by omega))
        · rw [r5, pow_succ]; ring
        · intro j' hj'
          cases j' with
          | zero => simp; omega
          | succ j'' =>
            have := r6 j'' (by omega)
            rw [pow_succ]
            calc s.capacity * (2 ^ j'' * 2) = s.capacity * 2 * 2 ^ j'' := by ring
              _ ≤ s.len + k := this

theorem str_push_front_ok (fuel : Nat) (s : CString) (ch : List CChar) (mem : Mem)
    (s' : CString) (mem' : Mem) (hg : s.growth_rate = 2)
    (h : str_push_front fuel s ch mem = some (DS_OK, s', mem')) :
    s'.len = s.len + str_len ch ∧ s'.growth_rate = 2 ∧ s.len + str_len ch < s'.capacity ∧
    (cap_below s.capacity (s.len + str_len ch + 1) →
      cap_below s'.capacity (s.len + str_len ch + 1)) := by
  unfold str_push_front at h
  simp only at h
  by_cases hk : str_len ch = 0
  · rw [if_pos hk] at h
    simp at h
  · rw [if_neg hk] at h
    rcases hfit : str_fit_loop (str_len ch) fuel s mem with _ | ⟨st, s1, m1⟩
    · rw [hfit] at h
      simp at h
    · rw [hfit] at h
      simp only at h
      by_cases hst : st = DS_OK
      · subst hst
        simp only [ne_eq, not_true_eq_false, if_false, Option.some.injEq, Prod.mk.injEq,
          true_and] at h
        obtain ⟨rfl, _⟩ := h
        obtain ⟨r1, r2, r3, r4, _⟩ := str_fit_loop_ok _ fuel s mem s1 m1 hg hfit
        exact ⟨by simp only; rw [r1], r2, by simp only; omega, r4⟩
      · simp [hst] at h

theorem str_push_back_ok (fuel : Nat) (s : CString) (ch : List CChar) (mem : Mem)
    (s' : CString) (mem' : Mem) (hg : s.growth_rate = 2)
    (h : str_push_back fuel s ch mem = some (DS_OK, s', mem')) :
    s'.len = s.len + str_len ch ∧ s'.growth_rate = 2 ∧ s.len + str_len ch < s'.capacity ∧
    (cap_below s.capacity (s.len + str_len ch + 1) →
      cap_below s'.capacity (s.len + str_len ch + 1)) := by
  unfold str_push_back at h
  simp only at h
  by_cases hk : str_len ch = 0
  · rw [if_pos hk] at h
    simp at h
  · rw [if_neg hk] at h
    rcases hfit : str_fit_loop (str_len ch) fuel s mem with _ | ⟨st, s1, m1⟩
    · rw [hfit] at h
      simp at h
    · rw [hfit] at h
      simp only at h
      by_cases hst : st = DS_OK
      · subst hst
        simp only [ne_eq, not_true_eq_false, if_false, Option.some.injEq, Prod.mk.injEq,
          true_and] at h
        obtain ⟨rfl, _⟩ := h
        obtain ⟨r1, r2, r3, r4, _⟩ := str_fit_loop_ok _ fuel s mem s1 m1 hg hfit
        exact ⟨by simp only; rw [r1], r2, by simp only; omega, r4⟩
      · simp [hst] at h

theorem str_push_at_ok (fuel : Nat) (s : CString) (ch : List CChar) (i : Nat) (mem : Mem)
    (s' : CString) (mem' : Mem) (hg : s.growth_rate = 2)
    (h : str_push_at fuel s ch i mem = some (DS_OK, s', mem')) :
    s'.len = s.len + str_len ch ∧ s'.growth_rate = 2 ∧ s.len + str_len ch < s'.capacity ∧
    (cap_below s.capacity (s.len + str_len ch + 1) →
      cap_below s'.capacity (s.len + str_len ch + 1)) := by
  unfold str_push_at at h
  by_cases h0 : i = 0
  · rw [if_pos h0] at h
    rcases hf : str_push_front fuel s ch mem with _ | ⟨st, s1, m1⟩
    · rw [hf] at h; simp at h
    · rw [hf] at h
      simp only at h
      by_cases hst : st = DS_OK
      · subst hst
        simp only [ne_eq, not_true_eq_false, if_false, Option.some.injEq, Prod.mk.injEq,
          true_and] at h
        obtain ⟨rfl, rfl⟩ := h
        exact str_push_front_ok fuel s ch mem s1 m1 hg hf
      · simp [hst] at h
  · rw [if_neg h0] at h
    by_cases h1 : i = s.len
    · rw [if_pos h1] at h
      rcases hf : str_push_back fuel s ch mem with _ | ⟨st, s1, m1⟩
      · rw [hf] at h; simp at h
      · rw [hf] at h
        simp only at h
        by_cases hst : st = DS_OK
        · subst hst
          simp only [ne_eq, not_true_eq_false, if_false, Option.some.injEq, Prod.mk.injEq,
            true_and] at h
          obtain ⟨rfl, rfl⟩ := h
          exact str_push_back_ok fuel s ch mem s1 m1 hg hf
        · simp [hst] at h
    · rw [if_neg h1] at h
      simp only at h
      by_cases hk : str_len ch = 0
      · rw [if_pos hk] at h
        simp at h
      · rw [if_neg hk] at h
        rcases hfit : str_fit_loop (str_len ch) fuel s mem with _ | ⟨st, s1, m1⟩
        · rw [hfit] at h
          simp at h
        · rw [hfit] at h
          simp only at h
          by_cases hst : st = DS_OK
          · subst hst
            simp only [ne_eq, not_true_eq_false, if_false] at h
            rcases hmv : move_up_incl_loop mem.junkc (str_len ch) i s1.len s1.buffer with
              _ | buf
            · rw [hmv] at h; simp at h
            · rw [hmv] at h
              simp only [Option.some.injEq, Prod.mk.injEq, true_and] at h
              obtain ⟨rfl, _⟩ := h
              obtain ⟨r1, r2, r3, r4, _⟩ := str_fit_loop_ok _ fuel s mem s1 m1 hg hfit
              exact ⟨by simp only; rw [r1], r2, by simp only; omega, r4⟩
          · simp [hst] at h

/-! ## Claim C12 -/

theorem str_init_ok (mem0 mem1 : Mem) (s0 : CString)
    (h : str_init mem0 = (DS_OK, some s0, mem1)) :
    s0.len = 0 ∧ s0.capacity = 8 ∧ s0.growth_rate = 2 := by
  unfold str_init at h
  rcases hr1 : mem0.request with ⟨ok1, m1⟩
  rw [hr1] at h
  cases ok1
  · simp at h
  · simp only at h
    rcases hr2 : m1.request with ⟨ok2, m2⟩
    rw [hr2] at h
    cases ok2
    · simp at h
    · simp only [Prod.mk.injEq, Option.some.injEq, true_and] at h
      obtain ⟨hd, _⟩ := h
      subst hd
      exact ⟨rfl, rfl, rfl⟩

theorem str_sub_push_inv (s s' : CString) (k : Nat) (hc : least_cap s.capacity (s.len + 1))
    (h : s'.len = s.len + k ∧ s'.growth_rate = 2 ∧ s.len + k < s'.capacity ∧
      (cap_below s.capacity (s.len + k + 1) → cap_below s'.capacity (s.len + k + 1))) :
    s'.growth_rate = 2 ∧ least_cap s'.capacity (s'.len + 1) := by
  obtain ⟨h1, h2, h3, h4⟩ := h
  refine ⟨h2, ?_, ?_⟩
  · rw [h1]
    exact h4 (cap_below_mono _ _ _ hc.1 (by omega))
  · omega

theorem str_char_push_inv (s : CString) (r : Status × CString × Mem) (s' : CString)
    (mem' : Mem) (hg : s.growth_rate = 2) (hc : least_cap s.capacity (s.len + 1))
    (hr : r.1 = DS_OK → r.2.1.len = s.len + 1 ∧ r.2.1.growth_rate = s.growth_rate ∧
      r.2.1.capacity =
        (if s.len + 1 ≥ s.capacity then s.capacity * s.growth_rate else s.capacity))
    (he : some r = some (DS_OK, s', mem')) :
    s'.growth_rate = 2 ∧ least_cap s'.capacity (s'.len + 1) := by
  simp only [Option.some.injEq] at he
  subst he
  obtain ⟨r1, r2, r3⟩ := hr rfl
  simp only at r1 r2 r3
  refine ⟨by rw [r2, hg], ?_⟩
  rw [r1, r3, hg]
  have := least_cap_succ s.capacity (s.len + 1) hc
  have hle := hc.2
  by_cases hfull : s.len + 1 ≥ s.capacity
  · rw [if_pos hfull]
    rw [if_pos (by omega)] at this
    exact this
  · rw [if_neg hfull]
    rw [if_neg (by omega)] at this
    exact this

theorem str_insert_call_inv (fuel : Nat) (c : StrInsert) (s : CString) (mem : Mem)
    (s' : CString) (mem' : Mem) (hg : s.growth_rate = 2)
    (hc : least_cap s.capacity (s.len + 1))
    (h : c.call fuel s mem = some (DS_OK, s', mem')) :
    s'.growth_rate = 2 ∧ least_cap s'.capacity (s'.len + 1) := by
  cases c with
  | char_front ch =>
    exact str_char_push_inv s _ s' mem' hg hc (str_push_char_front_ok s ch mem) h
  | char_at ch i =>
    exact str_char_push_inv s _ s' mem' hg hc (str_push_char_at_ok s ch i mem) h
  | char_back ch =>
    exact str_char_push_inv s _ s' mem' hg hc (str_push_char_back_ok s ch mem) h
  | front ch =>
    exact str_sub_push_inv s s' _ hc (str_push_front_ok fuel s ch mem s' mem' hg h)
  | at_index ch i =>
    exact str_sub_push_inv s s' _ hc (str_push_at_ok fuel s ch i mem s' mem' hg h)
  | back ch =>
    exact str_sub_push_inv s s' _ hc (str_push_back_ok fuel s ch mem s' mem' hg h)

theorem str_insert_calls_inv (fuel : Nat) :
    ∀ (calls : List StrInsert) (s : CString) (mem : Mem) (s' : CString) (mem' : Mem),
      s.growth_rate = 2 → least_cap s.capacity (s.len + 1) →
      str_insert_calls fuel calls s mem = some (s', mem') →
      s'.growth_rate = 2 ∧ least_cap s'.capacity (s'.len + 1) := by
  intro calls
  induction calls with
  | nil =>
    intro s mem s' mem' hg hc hrun
    simp only [str_insert_calls, Option.some.injEq, Prod.mk.injEq] at hrun
    obtain ⟨rfl, _⟩ := hrun
    exact ⟨hg, hc⟩
  | cons c cs ih =>
    intro s mem s' mem' hg hc hrun
    unfold str_insert_calls at hrun
    by_cases hv : c.valid s = true
    · rw [if_pos hv] at hrun
      rcases hcall : c.call fuel s mem with _ | ⟨st, s1, m1⟩
      · rw [hcall] at hrun; simp at hrun
      · rw [hcall] at hrun
        simp only at hrun
        by_cases hst : st = DS_OK
        · subst hst
          rw [if_pos rfl] at hrun
          obtain ⟨g1, c1⟩ := str_insert_call_inv fuel c s mem s1 m1 hg hc hcall
          exact ih s1 m1 s' mem' g1 c1 hrun
        · rw [if_neg hst] at hrun
          simp at hrun
    · rw [if_neg hv] at hrun
      simp at hrun

/-- C12: growth invariant of the String. After any sequence of successful insertion calls
(`str_push_char_front`, `str_push_char_at`, `str_push_char_back`, `str_push_front`,
`str_push_at`, `str_push_back`, indices within `[0, len]`) on a String fresh from `str_init`,
the capacity is the smallest value of the form `8 * 2^k` that is strictly greater than the
length. -/
theorem str_growth_invariant (fuel : Nat) (calls : List StrInsert) (mem0 mem1 mem2 : Mem)
    (s0 s : CString) (hinit : str_init mem0 = (DS_OK, some s0, mem1))
    (hrun : str_insert_calls fuel calls s0 mem1 = some (s, mem2)) :
    least_cap s.capacity (s.len + 1) := by
  obtain ⟨i1, i2, i3⟩ := str_init_ok mem0 mem1 s0 hinit
  exact (str_insert_calls_inv fuel calls s0 mem1 s mem2 i3
    (by rw [i1, i2]; exact least_cap_init 1 (by decide)) hrun).2

/-- C12 at five calls on a fresh String: after "a" and "bcdefg" the length is 7 and the
capacity 8; after 'x' the length is 8 and the capacity 16; after ten more characters and one
more the length is 19 and the capacity 32. -/
theorem str_growth_invariant_witness :
    str_init mem_ok = (DS_OK, some str_fresh, mem_ok) ∧
    (str_insert_calls 5 (five_pushes.take 2) str_fresh mem_ok).map
      (fun r => (r.1.len, r.1.capacity)) = some (7, 8) ∧
    (str_insert_calls 5 (five_pushes.take 3) str_fresh mem_ok).map
      (fun r => (r.1.len, r.1.capacity)) = some (8, 16) ∧
    str_insert_calls 5 five_pushes str_fresh mem_ok = some (str_five_pushes, mem_ok) ∧
    least_cap str_five_pushes.capacity (str_five_pushes.len + 1) :=
  ⟨by rfl, by rfl, by rfl, by rfl,
    str_growth_invariant 5 five_pushes mem_ok mem_ok mem_ok str_fresh str_five_pushes (by rfl)
      (by rfl)⟩

/-! ## Lemmas: the loops of the substring insertions -/

theorem move_up_loop_length (junk : CChar) (k : Nat) :
    ∀ (n : Nat) (buf : List CChar), (move_up_loop junk k n buf).length = buf.length := by
  intro n
  induction n with
  | zero => intro buf; rfl
  | succ i ih =>
    intro buf
    unfold move_up_loop
    rw [ih, List.length_set]

theorem move_up_loop_getElem? (junk : CChar) (k : Nat) :
    ∀ (n : Nat) (buf : List CChar) (p : Nat), n + k ≤ buf.length →
      (move_up_loop junk k n buf)[p]? =
        if k ≤ p ∧ p < n + k then buf[p - k]? else buf[p]? := by
  intro n
  induction n with
  | zero =>
    intro buf p _
    have : ¬ (k ≤ p ∧ p < 0 + k) := by omega
    rw [if_neg this]
    rfl
  | succ i ih =>
    intro buf p hlen
    unfold move_up_loop
    rw [ih _ p (by rw [List.length_set]; omega)]
    have hidx : i + 1 + k - 1 = i + k := by omega
    rw [hidx]
    have hget : buf.getD i junk = buf[i] := by
      rw [List.getD_eq_getElem?_getD, List.getElem?_eq_getElem (by omega)]
      rfl
    by_cases h1 : k ≤ p ∧ p < i + k
    · have h2 : k ≤ p ∧ p < i + 1 + k := by omega
      rw [if_pos h1, if_pos h2, List.getElem?_set_ne (by omega)]
    · rw [if_neg h1]
      by_cases h3 : p = i + k
      · subst h3
        have h2 : k ≤ i + k ∧ i + k < i + 1 + k := by omega
        rw [if_pos h2, List.getElem?_set_self (by omega), hget]
        have : i + k - k = i := by omega
        rw [this, List.getElem?_eq_getElem (show i < buf.length by omega)]
      · have h2 : ¬ (k ≤ p ∧ p < i + 1 + k) := by omega
        rw [if_neg h2, List.getElem?_set_ne (by omega)]

theorem move_up_incl_loop_spec (junk : CChar) (k stop : Nat) (hstop : 0 < stop) :
    ∀ (n : Nat) (buf : List CChar), n + k < buf.length →
      ∃ buf', move_up_incl_loop junk k stop n buf = some buf' ∧ buf'.length = buf.length ∧
        ∀ p, buf'[p]? = if stop + k ≤ p ∧ p ≤ n + k then buf[p - k]? else buf[p]? := by
  intro n
  induction n with
  | zero =>
    intro buf _
    refine ⟨buf, ?_, rfl, ?_⟩
    · unfold move_up_incl_loop
      rw [if_neg (by omega)]
    · intro p
      have : ¬ (stop + k ≤ p ∧ p ≤ 0 + k) := by omega
      rw [if_neg this]
  | succ i ih =>
    intro buf hlen
    unfold move_up_incl_loop
    by_cases hs : i + 1 ≥ stop
    · rw [if_pos hs]
      obtain ⟨buf', he, hl, hp⟩ :=
        ih (buf.set (i + 1 + k) (buf.getD (i + 1) junk)) (by rw [List.length_set]; omega)
      refine ⟨buf', he, by rw [hl, List.length_set], ?_⟩
      intro p
      rw [hp p]
      have hget : buf.getD (i + 1) junk = buf[i + 1] := by
        rw [List.getD_eq_getElem?_getD, List.getElem?_eq_getElem (by omega)]
        rfl
      by_cases h1 : stop + k ≤ p ∧ p ≤ i + k
      · have h2 : stop + k ≤ p ∧ p ≤ i + 1 + k := by omega
        rw [if_pos h1, if_pos h2, List.getElem?_set_ne (by omega)]
      · rw [if_neg h1]
        by_cases h3 : p = i + 1 + k
        · subst h3
          have h2 : stop + k ≤ i + 1 + k ∧ i + 1 + k ≤ i + 1 + k := by omega
          rw [if_pos h2, List.getElem?_set_self (by omega), hget]
          have : i + 1 + k - k = i + 1 := by omega
          rw [this, List.getElem?_eq_getElem (show i + 1 < buf.length by omega)]
        · have h2 : ¬ (stop + k ≤ p ∧ p ≤ i + 1 + k) := by omega
          rw [if_neg h2, List.getElem?_set_ne (by omega)]
    · rw [if_neg hs]
      refine ⟨buf, rfl, rfl, ?_⟩
      intro p
      have : ¬ (stop + k ≤ p ∧ p ≤ i + 1 + k) := by omega
      rw [if_neg this]

theorem copy_loop_length (junk : CChar) (ch : List CChar) (stop : Nat) :
    ∀ (k i j : Nat) (buf : List CChar), (copy_loop junk ch stop k i j buf).length = buf.length := by
  intro k
  induction k with
  | zero => intro i j buf; rfl
  | succ k ih =>
    intro i j buf
    unfold copy_loop
    split
    · rw [ih, List.length_set]
    · rfl

theorem copy_loop_getElem? (junk : CChar) (ch : List CChar) (stop : Nat) :
    ∀ (k i j : Nat) (buf : List CChar) (p : Nat), stop ≤ i + k → stop ≤ buf.length →
      (copy_loop junk ch stop k i j buf)[p]? =
        if i ≤ p ∧ p < stop then some (ch.getD (j + (p - i)) junk) else buf[p]? := by
  intro k
  induction k with
  | zero =>
    intro i j buf p h _
    have : ¬ (i ≤ p ∧ p < stop) := by omega
    rw [if_neg this]
    rfl
  | succ k ih =>
    intro i j buf p h hlen
    unfold copy_loop
    by_cases hi : i < stop
    · rw [if_pos hi, ih _ _ _ p (by omega) (by rw [List.length_set]; exact hlen)]
      by_cases h1 : i + 1 ≤ p ∧ p < stop
      · have h2 : i ≤ p ∧ p < stop := by omega
        have h3 : j + 1 + (p - (i + 1)) = j + (p - i) := by omega
        rw [if_pos h1, if_pos h2, h3]
      · rw [if_neg h1]
        by_cases h3 : p = i
        · subst h3
          have h2 : p ≤ p ∧ p < stop := by omega
          rw [if_pos h2, List.getElem?_set_self (by omega)]
          simp
        · have h2 : ¬ (i ≤ p ∧ p < stop) := by omega
          rw [if_neg h2, List.getElem?_set_ne (by omega)]
    · rw [if_neg hi]
      have h2 : ¬ (i ≤ p ∧ p < stop) := by omega
      rw [if_neg h2]

theorem getD_takeWhile (junk : CChar) (f : CChar → Bool) :
    ∀ (ch : List CChar) (j : Nat), j < (ch.takeWhile f).length →
      some (ch.getD j junk) = (ch.takeWhile f)[j]? := by
  intro ch
  induction ch with
  | nil => intro j h; simp at h
  | cons c rest ih =>
    intro j h
    rw [List.takeWhile_cons] at h ⊢
    by_cases hc : f c = true
    · rw [if_pos hc] at h ⊢
      cases j with
      | zero => simp
      | succ j =>
        simp only [List.length_cons] at h
        have := ih j (by omega)
        simpa using this
    · rw [if_neg hc] at h
      simp at h

/-- A buffer whose first `n + k` slots hold `buf[0 .. idx)`, then `sub`, then `buf[idx .. n)`. -/
theorem splice_ext (L buf sub : List CChar) (n idx : Nat) (hidx : idx ≤ n)
    (hn : n ≤ buf.length)
    (h : ∀ p, p < n + sub.length →
      L[p]? = if p < idx then buf[p]? else if p < idx + sub.length then sub[p - idx]?
        else buf[p - sub.length]?) :
    L.take (n + sub.length) = (buf.take n).take idx ++ sub ++ (buf.take n).drop idx := by
  apply List.ext_getElem?
  intro p
  rw [List.getElem?_take]
  by_cases hp : p < n + sub.length
  · rw [if_pos hp, h p hp]
    have hl1 : ((buf.take n).take idx).length = idx := by
      rw [List.length_take, List.length_take]; omega
    by_cases h1 : p < idx
    · rw [if_pos h1, List.append_assoc, List.getElem?_append_left (by omega),
        List.getElem?_take, if_pos h1, List.getElem?_take, if_pos (by omega)]
    · rw [if_neg h1, List.append_assoc, List.getElem?_append_right (by omega), hl1]
      by_cases h2 : p < idx + sub.length
      · rw [if_pos h2, List.getElem?_append_left (by omega)]
      · rw [if_neg h2, List.getElem?_append_right (by omega), List.getElem?_drop,
          List.getElem?_take, if_pos (by omega)]
        congr 1
        omega
  · rw [if_neg hp]
    symm
    apply List.getElem?_eq_none
    simp only [List.length_append, List.length_take, List.length_drop]
    omega

/-! ## Lemmas: the substring insertions -/

theorem str_realloc_spec (s : CString) (mem : Mem) (hwf : s.WF) (hnf : mem.NeverFails) :
    ∃ s1 mem1, str_realloc s mem = (DS_OK, s1, mem1) ∧ s1.WF ∧ s1.len = s.len ∧
      s1.bytes = s.bytes ∧ s1.capacity = s.capacity * 2 ∧ mem1.NeverFails ∧
      mem1.junkc = mem.junkc := by
  obtain ⟨hcap, hroom, hmark, hrate⟩ := hwf
  have hrate2 : s.growth_rate = 2 := hrate
  obtain ⟨hreq, hnf1, hjc, _⟩ := Mem.request_of_neverFails mem hnf
  rcases str_realloc_eq s mem with ⟨hf, _⟩ | ⟨_, he⟩
  · rw [hreq] at hf; exact absurd hf (by decide)
  · have hlen : (realloc_slots mem.junkc s.buffer (s.capacity * s.growth_rate)).length =
        s.capacity * s.growth_rate :=
      realloc_slots_length _ _ _ (by rw [hcap, hrate2]; omega)
    refine ⟨_, _, he, ⟨?_, ?_, ?_, hrate⟩, rfl, ?_, by simp only; rw [hrate2], hnf1, hjc⟩
    · simp only [List.length_set]
      exact hlen
    · simp only
      rw [hrate2]; omega
    · simp only
      rw [List.getElem?_set_self (by rw [hlen, hrate2]; omega)]
    · unfold CString.bytes
      simp only
      rw [take_set_of_le _ _ _ _ (le_refl _),
        realloc_slots_take _ _ _ _ (by rw [hcap, hrate2]; omega) (by omega)]

/-- The growth loop with an allocator that never fails: a budget above the shortfall is
enough. -/
theorem str_fit_loop_spec (k : Nat) :
    ∀ (fuel : Nat) (s : CString) (mem : Mem), s.WF → mem.NeverFails →
      s.len + k + 1 - s.capacity < fuel →
      ∃ s1 mem1, str_fit_loop k fuel s mem = some (DS_OK, s1, mem1) ∧ s1.WF ∧
        s1.len = s.len ∧ s1.bytes = s.bytes ∧ mem1.NeverFails ∧ mem1.junkc = mem.junkc := by
  intro fuel
  induction fuel with
  | zero => intro s mem _ _ h; omega
  | succ f ih =>
    intro s mem hwf hnf hfuel
    unfold str_fit_loop
    by_cases hfit : str_buffer_fits s k = true
    · simp only [hfit, Bool.not_true, Bool.false_eq_true, if_false]
      exact ⟨s, mem, rfl, hwf, rfl, rfl, hnf, rfl⟩
    · have hnfit : ¬ s.len + k < s.capacity := by simpa [str_buffer_fits] using hfit
      have hroom := hwf.room
      obtain ⟨s1, mem1, he, hwf1, hl1, hb1, hc1, hnf1, hj1⟩ := str_realloc_spec s mem hwf hnf
      obtain ⟨s2, mem2, he2, hwf2, hl2, hb2, hnf2, hj2⟩ :=
        ih s1 mem1 hwf1 hnf1 (by rw [hl1, hc1]; omega)
      simp only [hfit, Bool.not_false, if_true, he, ne_eq, not_true_eq_false, if_false]
      exact ⟨s2, mem2, he2, hwf2, by rw [hl2, hl1], by rw [hb2, hb1], hnf2, by rw [hj2, hj1]⟩

/-- What the three substring insertions have in common once the buffer fits: the final
String, given the buffer `L` that the shift and copy loops leave. -/
theorem str_spliced (s1 : CString) (L sub : List CChar) (idx : Nat) (hwf : s1.WF)
    (hfit : s1.len + sub.length < s1.capacity) (hidx : idx ≤ s1.len)
    (hL : L.length = s1.buffer.length)
    (h : ∀ p, p < s1.len + sub.length →
      L[p]? = if p < idx then s1.buffer[p]? else if p < idx + sub.length then sub[p - idx]?
        else s1.buffer[p - sub.length]?) :
    let s' : CString := ⟨L.set (s1.len + sub.length) 0, s1.len + sub.length, s1.capacity,
      s1.growth_rate⟩
    s'.WF ∧ s'.bytes = s1.bytes.take idx ++ sub ++ s1.bytes.drop idx := by
  obtain ⟨hcap, hroom, hmark, hrate⟩ := hwf
  refine ⟨⟨?_, hfit, ?_, hrate⟩, ?_⟩
  · simp only [List.length_set]
    rw [hL, hcap]
  · simp only
    rw [List.getElem?_set_self (by rw [hL, hcap]; exact hfit)]
  · unfold CString.bytes
    simp only
    rw [take_set_of_le _ _ _ _ (le_refl _)]
    exact splice_ext L s1.buffer sub s1.len idx hidx (by omega) h

/-- The growth loop in front of a substring insertion, with an allocator that never fails. -/
theorem str_fit_for_push (k fuel : Nat) (s : CString) (mem : Mem) (hwf : s.WF)
    (hnf : mem.NeverFails) (hfuel : s.len + k + 1 - s.capacity < fuel) :
    ∃ s1 mem1, str_fit_loop k fuel s mem = some (DS_OK, s1, mem1) ∧ s1.WF ∧
      s1.len = s.len ∧ s1.bytes = s.bytes ∧ mem1.NeverFails ∧ s1.len + k < s1.capacity ∧
      ∃ j, s1.capacity = s.capacity * 2 ^ j ∧ ∀ j', j' < j → s.capacity * 2 ^ j' ≤ s.len + k := by
  obtain ⟨s1, mem1, he, hwf1, hl1, hb1, hnf1, _⟩ := str_fit_loop_spec k fuel s mem hwf hnf hfuel
  obtain ⟨_, _, r3, _, r5⟩ := str_fit_loop_ok k fuel s mem s1 mem1 hwf.rate he
  exact ⟨s1, mem1, he, hwf1, hl1, hb1, hnf1, r3, r5⟩

theorem str_push_front_spec (fuel : Nat) (s : CString) (ch : List CChar) (mem : Mem)
    (hwf : s.WF) (hnf : mem.NeverFails) (hk : str_len ch ≠ 0)
    (hfuel : s.len + str_len ch + 1 - s.capacity < fuel) :
    ∃ s' mem', str_push_front fuel s ch mem = some (DS_OK, s', mem') ∧ s'.WF ∧
      s'.len = s.len + str_len ch ∧
      s'.bytes = s.bytes.take 0 ++ ch.takeWhile (fun c => c ≠ 0) ++ s.bytes.drop 0 ∧
      s.len + str_len ch < s'.capacity ∧
      ∃ j, s'.capacity = s.capacity * 2 ^ j ∧
        ∀ j', j' < j → s.capacity * 2 ^ j' ≤ s.len + str_len ch := by
  obtain ⟨s1, mem1, he, hwf1, hl1, hb1, hnf1, hfit, hj⟩ :=
    str_fit_for_push (str_len ch) fuel s mem hwf hnf hfuel
  have hcap := hwf1.cap
  have hsp := str_spliced s1
    (copy_loop mem.junkc ch (str_len ch) (str_len ch) 0 0
      (move_up_loop mem.junkc (str_len ch) s1.len s1.buffer))
    (ch.takeWhile (fun c => c ≠ 0)) 0 hwf1 hfit (Nat.zero_le _)
    (by rw [copy_loop_length, move_up_loop_length])
    (by
      intro p hp
      rw [copy_loop_getElem? _ _ _ _ _ _ _ p (by omega)
        (by rw [move_up_loop_length]; unfold str_len at hfit ⊢; omega),
        move_up_loop_getElem? _ _ _ _ p (by omega)]
      have hsl : (ch.takeWhile (fun c => decide (c ≠ 0))).length = str_len ch := rfl
      by_cases h1 : p < str_len ch
      · rw [if_pos ⟨Nat.zero_le _, h1⟩, if_neg (Nat.not_lt_zero _), if_pos (by omega)]
        simpa using getD_takeWhile mem.junkc (fun c => decide (c ≠ 0)) ch p (by omega)
      · rw [if_neg (show ¬ (0 ≤ p ∧ p < str_len ch) by omega),
          if_pos (show str_len ch ≤ p ∧ p < s1.len + str_len ch by omega),
          if_neg (Nat.not_lt_zero _), if_neg (by omega), hsl])
  refine ⟨_, mem1, ?_, hsp.1, ?_, ?_, ?_, ?_⟩
  · unfold str_push_front
    simp only [if_neg hk, he, ne_eq, not_true_eq_false, if_false]
    rfl
  · simp only; rw [hl1]; rfl
  · rw [hsp.2, hb1]
  · simp only; rw [← hl1]; exact hfit
  · simp only; exact hj

theorem str_push_back_spec (fuel : Nat) (s : CString) (ch : List CChar) (mem : Mem)
    (hwf : s.WF) (hnf : mem.NeverFails) (hk : str_len ch ≠ 0)
    (hfuel : s.len + str_len ch + 1 - s.capacity < fuel) :
    ∃ s' mem', str_push_back fuel s ch mem = some (DS_OK, s', mem') ∧ s'.WF ∧
      s'.len = s.len + str_len ch ∧
      s'.bytes = s.bytes.take s.len ++ ch.takeWhile (fun c => c ≠ 0) ++ s.bytes.drop s.len ∧
      s.len + str_len ch < s'.capacity ∧
      ∃ j, s'.capacity = s.capacity * 2 ^ j ∧
        ∀ j', j' < j → s.capacity * 2 ^ j' ≤ s.len + str_len ch := by
  obtain ⟨s1, mem1, he, hwf1, hl1, hb1, hnf1, hfit, hj⟩ :=
    str_fit_for_push (str_len ch) fuel s mem hwf hnf hfuel
  have hcap := hwf1.cap
  have hsp := str_spliced s1
    (copy_loop mem.junkc ch (str_len ch + s1.len) (str_len ch) s1.len 0 s1.buffer)
    (ch.takeWhile (fun c => c ≠ 0)) s1.len hwf1 hfit (le_refl _)
    (by rw [copy_loop_length])
    (by
      intro p hp
      rw [copy_loop_getElem? _ _ _ _ _ _ _ p (by omega) (by omega)]
      have hsl : (ch.takeWhile (fun c => decide (c ≠ 0))).length = str_len ch := rfl
      by_cases h1 : p < s1.len
      · rw [if_neg (show ¬ (s1.len ≤ p ∧ p < str_len ch + s1.len) by omega), if_pos h1]
      · rw [if_pos (show s1.len ≤ p ∧ p < str_len ch + s1.len by omega), if_neg h1,
          if_pos (by omega)]
        simpa using getD_takeWhile mem.junkc (fun c => decide (c ≠ 0)) ch (p - s1.len)
          (by omega))
  refine ⟨_, mem1, ?_, hsp.1, ?_, ?_, ?_, ?_⟩
  · unfold str_push_back
    simp only [if_neg hk, he, ne_eq, not_true_eq_false, if_false]
    rfl
  · simp only; rw [hl1]; rfl
  · rw [hsp.2, hb1, hl1]
  · simp only; rw [← hl1]; exact hfit
  · simp only; exact hj

theorem str_push_middle_spec (fuel : Nat) (s : CString) (ch : List CChar) (i : Nat) (mem : Mem)
    (hwf : s.WF) (hnf : mem.NeverFails) (hk : str_len ch ≠ 0) (h0 : i ≠ 0) (hi : i < s.len)
    (hfuel : s.len + str_len ch + 1 - s.capacity < fuel) :
    ∃ s' mem', str_push_at fuel s ch i mem = some (DS_OK, s', mem') ∧ s'.WF ∧
      s'.len = s.len + str_len ch ∧
      s'.bytes = s.bytes.take i ++ ch.takeWhile (fun c => c ≠ 0) ++ s.bytes.drop i ∧
      s.len + str_len ch < s'.capacity ∧
      ∃ j, s'.capacity = s.capacity * 2 ^ j ∧
        ∀ j', j' < j → s.capacity * 2 ^ j' ≤ s.len + str_len ch := by
  obtain ⟨s1, mem1, he, hwf1, hl1, hb1, hnf1, hfit, hj⟩ :=
    str_fit_for_push (str_len ch) fuel s mem hwf hnf hfuel
  have hcap := hwf1.cap
  obtain ⟨M, hM, hMl, hMp⟩ := move_up_incl_loop_spec mem.junkc (str_len ch) i (by omega)
    s1.len s1.buffer (by omega)
  have hsp := str_spliced s1
    (copy_loop mem.junkc ch (i + str_len ch) (str_len ch) i 0 M)
    (ch.takeWhile (fun c => c ≠ 0)) i hwf1 hfit (by omega)
    (by rw [copy_loop_length, hMl])
    (by
      intro p hp
      rw [copy_loop_getElem? _ _ _ _ _ _ _ p (by omega) (by rw [hMl]; omega), hMp p]
      have hsl : (ch.takeWhile (fun c => decide (c ≠ 0))).length = str_len ch := rfl
      by_cases h1 : p < i
      · rw [if_neg (show ¬ (i ≤ p ∧ p < i + str_len ch) by omega),
          if_neg (show ¬ (i + str_len ch ≤ p ∧ p ≤ s1.len + str_len ch) by omega), if_pos h1]
      · by_cases h2 : p < i + str_len ch
        · rw [if_pos (show i ≤ p ∧ p < i + str_len ch by omega), if_neg h1,
            if_pos (by omega)]
          simpa using getD_takeWhile mem.junkc (fun c => decide (c ≠ 0)) ch (p - i)
            (by omega)
        · rw [if_neg (show ¬ (i ≤ p ∧ p < i + str_len ch) by omega),
            if_pos (show i + str_len ch ≤ p ∧ p ≤ s1.len + str_len ch by omega),
            if_neg h1, if_neg (by omega), hsl])
  refine ⟨_, mem1, ?_, hsp.1, ?_, ?_, ?_, ?_⟩
  · unfold str_push_at
    rw [if_neg h0, if_neg (by omega)]
    simp only [if_neg hk, he, ne_eq, not_true_eq_false, if_false, hM]
    rfl
  · simp only; rw [hl1]; rfl
  · rw [hsp.2, hb1]
  · simp only; rw [← hl1]; exact hfit
  · simp only; exact hj

/-! ## Claim C17 -/

theorem str_push_at_zero (fuel : Nat) (s : CString) (ch : List CChar) (mem : Mem) :
    str_push_at fuel s ch 0 mem = str_push_front fuel s ch mem := by
  unfold str_push_at
  rw [if_pos rfl]
  rcases str_push_front fuel s ch mem with _ | ⟨st, s1, m1⟩
  · rfl
  · by_cases hst : st = DS_OK
    · subst hst; simp
    · simp [hst]

theorem str_push_at_len (fuel : Nat) (s : CString) (ch : List CChar) (mem : Mem)
    (h : s.len ≠ 0) : str_push_at fuel s ch s.len mem = str_push_back fuel s ch mem := by
  unfold str_push_at
  rw [if_neg h, if_pos rfl]
  rcases str_push_back fuel s ch mem with _ | ⟨st, s1, m1⟩
  · rfl
  · by_cases hst : st = DS_OK
    · subst hst; simp
    · simp [hst]

/-- C17: substring insertion. For a well-formed String of length `n`, a text of `k > 0`
characters and an index `i ≤ n`, with an allocator that never fails (a budget of `n + k + 1`
iterations of the growth loop is enough), `str_push_at` returns `DS_OK` and leaves length
`n + k` with the bytes `[0, i)`, then the text, then the bytes `[i, n)`, and the end marker
behind them. The capacity has been multiplied by 2 as many times as needed, and no more, to
have `n + k < capacity`. At `i = 0` the call is `str_push_front`, at `i = n ≠ 0` it is
`str_push_back`. -/
theorem str_push_at_splice (fuel : Nat) (s : CString) (ch : List CChar) (i : Nat) (mem : Mem)
    (hwf : s.WF) (hnf : mem.NeverFails) (hk : 0 < str_len ch) (hi : i ≤ s.len)
    (hfuel : s.len + str_len ch + 1 ≤ fuel) :
    (∃ s' mem', str_push_at fuel s ch i mem = some (DS_OK, s', mem') ∧
      s'.len = s.len + str_len ch ∧
      s'.bytes = s.bytes.take i ++ ch.takeWhile (fun c => c ≠ 0) ++ s.bytes.drop i ∧
      s'.buffer[s'.len]? = some 0 ∧
      s.len + str_len ch < s'.capacity ∧
      ∃ j, s'.capacity = s.capacity * 2 ^ j ∧
        ∀ j', j' < j → s.capacity * 2 ^ j' ≤ s.len + str_len ch) ∧
    (i = 0 → str_push_at fuel s ch i mem = str_push_front fuel s ch mem) ∧
    (i = s.len → i ≠ 0 → str_push_at fuel s ch i mem = str_push_back fuel s ch mem) := by
  have hroom := hwf.room
  have hdef : s.len + str_len ch + 1 - s.capacity < fuel := by omega
  have hk' : str_len ch ≠ 0 := by omega
  refine ⟨?_, fun h0 => by rw [h0]; exact str_push_at_zero fuel s ch mem,
    fun h1 h0 => by rw [h1]; exact str_push_at_len fuel s ch mem (by omega)⟩
  by_cases h0 : i = 0
  · subst h0
    obtain ⟨s', mem', he, hwf', hl', hb', hc', hj'⟩ :=
      str_push_front_spec fuel s ch mem hwf hnf hk' hdef
    exact ⟨s', mem', by rw [str_push_at_zero]; exact he, hl', hb', hwf'.marker, hc', hj'⟩
  · by_cases h1 : i = s.len
    · subst h1
      obtain ⟨s', mem', he, hwf', hl', hb', hc', hj'⟩ :=
        str_push_back_spec fuel s ch mem hwf hnf hk' hdef
      exact ⟨s', mem', by rw [str_push_at_len fuel s ch mem h0]; exact he, hl', hb',
        hwf'.marker, hc', hj'⟩
    · obtain ⟨s', mem', he, hwf', hl', hb', hc', hj'⟩ :=
        str_push_middle_spec fuel s ch i mem hwf hnf hk' h0 (by omega) hdef
      exact ⟨s', mem', he, hl', hb', hwf'.marker, hc', hj'⟩

/-- C17 at "ab", the 20 characters "0123456789abcdefghij" and index 1: the result is
"a0123456789abcdefghijb" of length 22 in a buffer grown twice, from 8 to 32 slots. -/
theorem str_push_at_splice_witness :
    (str_push_at 23 str_ab (chars "0123456789abcdefghij".toList) 1 mem_ok).map
      (fun r => (r.1, r.2.1.bytes, r.2.1.capacity)) =
      some (DS_OK, chars "a0123456789abcdefghijb".toList, 32) ∧
    ∃ s' mem', str_push_at 23 str_ab (chars "0123456789abcdefghij".toList) 1 mem_ok =
        some (DS_OK, s', mem') ∧
      s'.len = str_ab.len + str_len (chars "0123456789abcdefghij".toList) ∧
      s'.bytes = str_ab.bytes.take 1 ++
        (chars "0123456789abcdefghij".toList).takeWhile (fun c => c ≠ 0) ++
        str_ab.bytes.drop 1 ∧
      s'.buffer[s'.len]? = some 0 ∧
      str_ab.len + str_len (chars "0123456789abcdefghij".toList) < s'.capacity ∧
      ∃ j, s'.capacity = str_ab.capacity * 2 ^ j ∧
        ∀ j', j' < j →
          str_ab.capacity * 2 ^ j' ≤ str_ab.len + str_len (chars "0123456789abcdefghij".toList) :=
  ⟨by rfl,
    (str_push_at_splice 23 str_ab (chars "0123456789abcdefghij".toList) 1 mem_ok
      ⟨rfl, by decide, rfl, rfl⟩ (fun b hb => absurd hb (List.not_mem_nil b)) (by decide)
      (by decide) (by decide)).1⟩

/-! ## Claim C19 -/

theorem c_copy_loop_spec (junk : CChar) :
    ∀ (pre rest : List CChar) (j : Nat) (dst : List CChar), (∀ c ∈ pre, c ≠ 0) →
      j + pre.length < dst.length →
      ∃ out, c_copy_loop junk (pre ++ 0 :: rest) j dst = some out ∧ out.length = dst.length ∧
        ∀ p, out[p]? = if j ≤ p ∧ p < j + pre.length then pre[p - j]?
          else if p = j + pre.length then some 0 else dst[p]? := by
  intro pre
  induction pre with
  | nil =>
    intro rest j dst _ hlen
    refine ⟨dst.set j 0, by simp [c_copy_loop], by simp, ?_⟩
    intro p
    simp only [List.length_nil, Nat.add_zero] at hlen ⊢
    rw [if_neg (by omega), List.getElem?_set]
    by_cases hp : j = p
    · subst hp
      simp [hlen]
    · rw [if_neg hp, if_neg (by omega)]
  | cons c pre ih =>
    intro rest j dst hnz hlen
    have hc : c ≠ 0 := hnz c (List.mem_cons_self _ _)
    simp only [List.length_cons] at hlen
    obtain ⟨out, he, hl, hp⟩ := ih rest (j + 1) (dst.set j c)
      (fun x hx => hnz x (List.mem_cons_of_mem _ hx)) (by rw [List.length_set]; omega)
    refine ⟨out, ?_, by rw [hl, List.length_set], ?_⟩
    · rw [List.cons_append, c_copy_loop, if_neg hc]
      exact he
    · intro p
      rw [hp p]
      simp only [List.length_cons]
      by_cases h1 : j + 1 ≤ p ∧ p < j + 1 + pre.length
      · rw [if_pos h1, if_pos (by omega)]
        have : p - j = (p - (j + 1)) + 1 := by omega
        rw [this, List.getElem?_cons_succ]
      · rw [if_neg h1]
        by_cases h2 : p = j + 1 + pre.length
        · rw [if_pos h2, if_neg (by omega), if_pos (by omega)]
        · rw [if_neg h2]
          by_cases h3 : p = j
          · subst h3
            rw [if_pos (by omega), List.getElem?_set_self (by omega)]
            simp
          · rw [if_neg (by omega), if_neg (by omega), List.getElem?_set_ne (by omega)]

theorem CString.buffer_split (s : CString) (hwf : s.WF) :
    s.buffer = s.bytes ++ 0 :: s.buffer.drop (s.len + 1) := by
  obtain ⟨hcap, hroom, hmark, _⟩ := hwf
  unfold CString.bytes
  have h1 : s.buffer.drop s.len = 0 :: s.buffer.drop (s.len + 1) := by
    rw [List.drop_eq_getElem_cons (by omega)]
    congr 1
    have := List.getElem?_eq_getElem (show s.len < s.buffer.length by omega)
    rw [hmark] at this
    exact (Option.some.inj this).symm
  rw [← h1, List.take_append_drop]

theorem str_equals_of_bytes (a b : CString) (mem : Mem) (ha : a.len ≤ a.buffer.length)
    (hb : b.len ≤ b.buffer.length) (hl : a.len = b.len) (hbytes : a.bytes = b.bytes) :
    str_equals a b mem = true := by
  rw [str_equals_true_iff]
  refine ⟨hl, fun j hj => ?_⟩
  rw [getD_eq_iff_getElem? _ _ _ _ (by omega) (by omega)]
  have := congrArg (fun l => l[j]?) hbytes
  simp only [CString.bytes, List.getElem?_take] at this
  rw [if_pos hj, if_pos (by omega)] at this
  exact this

/-- The copy of a well-formed String without `'\0'` among its bytes. -/
theorem str_copy_spec (fuel : Nat) (s : CString) (mem : Mem) (hwf : s.WF)
    (hnz : ∀ c ∈ s.bytes, c ≠ 0) (hnf : mem.NeverFails) (hfuel : s.len + 1 ≤ fuel) :
    ∃ r mem', str_copy fuel s mem = some (DS_OK, some r, mem') ∧ r.WF ∧ r.len = s.len ∧
      r.bytes = s.bytes ∧ least_cap r.capacity (s.len + 1) := by
  obtain ⟨r0, mem1, h0, w0, b0, l0, nf1, _, _⟩ := str_init_spec mem hnf
  obtain ⟨_, c0, g0⟩ := str_init_ok mem mem1 r0 h0
  obtain ⟨r1, mem2, h1, w1, l1, b1, nf2, _⟩ :=
    str_fit_loop_spec s.len fuel r0 mem1 w0 nf1 (by rw [l0, c0]; omega)
  obtain ⟨_, _, f3, f4, _⟩ := str_fit_loop_ok s.len fuel r0 mem1 r1 mem2 g0 h1
  rw [l0] at l1
  rw [l1] at f3
  rw [l0, c0] at f4
  have hcapb : cap_below r1.capacity (s.len + 1) := by
    have := f4 (cap_below_mono 8 1 _ (least_cap_init 1 (by decide)).1 (by omega))
    simpa using this
  have hlen_s : s.bytes.length = s.len :=
    CString.bytes_length s (by rw [hwf.cap]; exact le_of_lt hwf.room)
  obtain ⟨out, hc, hol, hop⟩ := c_copy_loop_spec mem.junkc s.bytes (s.buffer.drop (s.len + 1)) 0
    r1.buffer hnz (by rw [hlen_s, w1.cap]; omega)
  rw [← CString.buffer_split s hwf] at hc
  refine ⟨⟨out, s.len, r1.capacity, r1.growth_rate⟩, mem2, ?_, ⟨?_, ?_, ?_, w1.rate⟩, rfl, ?_,
    ⟨hcapb, ?_⟩⟩
  · unfold str_copy
    simp only [h0, ne_eq, not_true_eq_false, if_false, h1, hc]
  · simp only; rw [hol, w1.cap]
  · simp only; omega
  · simp only
    rw [hop s.len, hlen_s, if_neg (by omega), if_pos (by omega)]
  · apply List.ext_getElem?
    intro p
    unfold CString.bytes
    simp only
    rw [List.getElem?_take, hop p, hlen_s]
    by_cases hp : p < s.len
    · rw [if_pos hp, if_pos (by omega), Nat.sub_zero]
      rfl
    · rw [if_neg hp]
      symm
      apply List.getElem?_eq_none
      rw [List.length_take]
      omega
  · show s.len + 1 ≤ r1.capacity
    omega

/-- C19, counterexample. Two Strings built by push and pop calls on the String of `str_init`
whose copy is not the clone of the claim, with an allocator that never fails. (1) "ab" in 16
slots, left by eight `str_push_char_back` and six `str_pop_char_back`: `str_copy` returns
`DS_OK` with a copy of capacity 8, smaller than the 16 of the source. (2) The bytes `'a'`,
`'\0'`, `'b'` left by three `str_push_char_back`: `str_copy` returns `DS_OK` with a copy of
length 3 whose byte 2 is `'\0'` and not `'b'`, and `str_equals` of the source and the copy is
false. -/
theorem str_copy_not_clone :
    str_init mem_ok = (DS_OK, some str_fresh, mem_ok) ∧
    str_insert_calls 0 eight_char_pushes str_fresh mem_ok = some (str_abcdefgh, mem_ok) ∧
    (fun s => (str_pop_char_back s).2)^[6] str_abcdefgh = str_ab_popped ∧
    str_copy 10 str_ab_popped mem_ok = some (DS_OK, some str_ab, mem_ok) ∧
    ¬ (str_ab.capacity ≥ str_ab_popped.capacity) ∧
    str_insert_calls 0 [.char_back 97, .char_back 0, .char_back 98] str_fresh mem_ok =
      some (str_a_nul_b, mem_ok) ∧
    str_copy 10 str_a_nul_b mem_ok = some (DS_OK, some str_a_nul_b_copy, mem_ok) ∧
    str_a_nul_b_copy.len = str_a_nul_b.len ∧
    str_a_nul_b.buffer[2]? = some 98 ∧ str_a_nul_b_copy.buffer[2]? = some 0 ∧
    str_equals str_a_nul_b str_a_nul_b_copy mem_ok = false :=
  ⟨by rfl, by rfl, by rfl, by rfl, by decide, by rfl, by rfl, by rfl, by rfl, by rfl, by rfl⟩

/-- C19, amended: clone. For a well-formed String `s` whose `len` stored bytes contain no
`'\0'`, with an allocator that never fails (a budget of `len + 1` iterations of the growth
loop is enough), `str_copy` returns `DS_OK` and a well-formed String `r` with
`r.len = s.len` and `r.buffer[i] = s.buffer[i]` for every `i < s.len`, so that `str_equals`
of `s` and `r` holds. The capacity of `r` is the smallest `8 * 2^k` greater than `len`; it is
at most the capacity of `s` whenever that one has the form `8 * 2^k`, and it can be
smaller. -/
theorem str_copy_clone (fuel : Nat) (s : CString) (mem : Mem) (hwf : s.WF)
    (hnz : ∀ c ∈ s.bytes, c ≠ 0) (hnf : mem.NeverFails) (hfuel : s.len + 1 ≤ fuel) :
    ∃ r mem', str_copy fuel s mem = some (DS_OK, some r, mem') ∧ r.WF ∧ r.len = s.len ∧
      (∀ i, i < s.len → r.buffer[i]? = s.buffer[i]?) ∧
      (∀ m, str_equals s r m = true) ∧
      least_cap r.capacity (s.len + 1) ∧
      ((∃ k, s.capacity = 8 * 2 ^ k) → r.capacity ≤ s.capacity) := by
  obtain ⟨r, mem', h, wr, hl, hb, hc⟩ := str_copy_spec fuel s mem hwf hnz hnf hfuel
  have hs : s.len ≤ s.buffer.length := by rw [hwf.cap]; exact le_of_lt hwf.room
  have hr : r.len ≤ r.buffer.length := by rw [wr.cap]; exact le_of_lt wr.room
  refine ⟨r, mem', h, wr, hl, ?_, ?_, hc, ?_⟩
  · intro i hi
    have := congrArg (fun l => l[i]?) hb
    simp only [CString.bytes, List.getElem?_take] at this
    rw [if_pos (by omega), if_pos hi] at this
    exact this
  · intro m
    exact str_equals_of_bytes s r m hs hr hl.symm hb.symm
  · rintro ⟨k, hk⟩
    have := hc.1.2 k (by rw [← hk]; exact hwf.room)
    omega

/-- C19 (amended) at "alpha": the copy is "alpha" again, in 8 slots. -/
theorem str_copy_clone_witness :
    str_copy 6 str_alpha mem_ok = some (DS_OK, some str_alpha, mem_ok) ∧
    ∃ r mem', str_copy 6 str_alpha mem_ok = some (DS_OK, some r, mem') ∧ r.WF ∧
      r.len = str_alpha.len ∧
      (∀ i, i < str_alpha.len → r.buffer[i]? = str_alpha.buffer[i]?) ∧
      (∀ m, str_equals str_alpha r m = true) ∧
      least_cap r.capacity (str_alpha.len + 1) ∧
      ((∃ k, str_alpha.capacity = 8 * 2 ^ k) → r.capacity ≤ str_alpha.capacity) :=
  ⟨by rfl,
    str_copy_clone 6 str_alpha mem_ok ⟨rfl, by decide, rfl, rfl⟩ (by decide)
      (fun b hb => absurd hb (List.not_mem_nil b)) (by decide)⟩

/-! ## Claim C28 -/

theorem dar_find_max_loop_eq (dar : DynamicArray) (mem : Mem) :
    ∀ (k i p : Nat),
      dar_find_max_loop dar mem k i (dar.buffer.getD p mem.junkp) =
        dar.buffer.getD (dar_find_max_pos_loop dar mem k i p) mem.junkp := by
  intro k
  induction k with
  | zero => intro i p; rfl
  | succ k ih =>
    intro i p
    unfold dar_find_max_loop dar_find_max_pos_loop
    by_cases hi : i < dar.size
    · rw [if_pos hi, if_pos hi]
      by_cases hc : prc_compare (dar.buffer.getD i mem.junkp) (dar.buffer.getD p mem.junkp) > 0
      · rw [if_pos hc, if_pos hc]
        exact ih (i + 1) i
      · rw [if_neg hc, if_neg hc]
        exact ih (i + 1) p
    · rw [if_neg hi, if_neg hi]

theorem dar_find_min_loop_eq (dar : DynamicArray) (mem : Mem) :
    ∀ (k i p : Nat),
      dar_find_min_loop dar mem k i (dar.buffer.getD p mem.junkp) =
        dar.buffer.getD (dar_find_min_pos_loop dar mem k i p) mem.junkp := by
  intro k
  induction k with
  | zero => intro i p; rfl
  | succ k ih =>
    intro i p
    unfold dar_find_min_loop dar_find_min_pos_loop
    by_cases hi : i < dar.size
    · rw [if_pos hi, if_pos hi]
      by_cases hc : prc_compare (dar.buffer.getD i mem.junkp) (dar.buffer.getD p mem.junkp) < 0
      · rw [if_pos hc, if_pos hc]
        exact ih (i + 1) i
      · rw [if_neg hc, if_neg hc]
        exact ih (i + 1) p
    · rw [if_neg hi, if_neg hi]

theorem dar_find_max_pos_loop_lt (dar : DynamicArray) (mem : Mem) :
    ∀ (k i p : Nat), p < dar.size → dar_find_max_pos_loop dar mem k i p < dar.size := by
  intro k
  induction k with
  | zero => intro i p hp; exact hp
  | succ k ih =>
    intro i p hp
    unfold dar_find_max_pos_loop
    by_cases hi : i < dar.size
    · rw [if_pos hi]
      split
      · exact ih (i + 1) i hi
      · exact ih (i + 1) p hp
    · rw [if_neg hi]; exact hp

theorem dar_find_min_pos_loop_lt (dar : DynamicArray) (mem : Mem) :
    ∀ (k i p : Nat), p < dar.size → dar_find_min_pos_loop dar mem k i p < dar.size := by
  intro k
  induction k with
  | zero => intro i p hp; exact hp
  | succ k ih =>
    intro i p hp
    unfold dar_find_min_pos_loop
    by_cases hi : i < dar.size
    · rw [if_pos hi]
      split
      · exact ih (i + 1) i hi
      · exact ih (i + 1) p hp
    · rw [if_neg hi]; exact hp

/-- C28: the value scans and the position scans agree. On a non-empty table whose live
elements fit its buffer, `dar_find_max` and `dar_find_max_pos` both return `DS_OK` and the
element that `dar_find_max` returns is the one stored at the index that `dar_find_max_pos`
returns; the same holds for `dar_find_min` and `dar_find_min_pos`. -/
theorem dar_find_value_at_pos (dar : DynamicArray) (mem : Mem) (hne : 0 < dar.size)
    (hcap : dar.buffer.length = dar.capacity) (hfits : dar.size ≤ dar.capacity) :
    ∃ imax imin emax emin,
      dar_find_max_pos dar mem = (DS_OK, imax) ∧ dar_find_max dar mem = (DS_OK, emax) ∧
      dar_find_min_pos dar mem = (DS_OK, imin) ∧ dar_find_min dar mem = (DS_OK, emin) ∧
      imax < dar.size ∧ imin < dar.size ∧
      dar.live[imax]? = some emax ∧ dar.live[imin]? = some emin := by
  have hempty : dar_is_empty dar = false := by
    simp [dar_is_empty]; omega
  have h1 := dar_find_max_pos_loop_lt dar mem dar.size 0 0 hne
  have h2 := dar_find_min_pos_loop_lt dar mem dar.size 0 0 hne
  refine ⟨dar_find_max_pos_loop dar mem dar.size 0 0, dar_find_min_pos_loop dar mem dar.size 0 0,
    dar.buffer.getD (dar_find_max_pos_loop dar mem dar.size 0 0) mem.junkp,
    dar.buffer.getD (dar_find_min_pos_loop dar mem dar.size 0 0) mem.junkp,
    ?_, ?_, ?_, ?_, h1, h2, ?_, ?_⟩
  · simp [dar_find_max_pos, hempty]
  · unfold dar_find_max
    rw [hempty, dar_find_max_loop_eq]
    rfl
  · simp [dar_find_min_pos, hempty]
  · unfold dar_find_min
    rw [hempty, dar_find_min_loop_eq]
    rfl
  · rw [DynamicArray.live_getElem? dar _ h1, List.getD_eq_getElem?_getD,
      List.getElem?_eq_getElem (by omega)]
    rfl
  · rw [DynamicArray.live_getElem? dar _ h2, List.getD_eq_getElem?_getD,
      List.getElem?_eq_getElem (by omega)]
    rfl

/-- C28 at a table with pids 3, 9, 9, 3 whose records differ in their other fields: the
maximum is the record at index 1 (the first 9, not the one at index 2) and the minimum the
record at index 0 (the first 3, not the one at index 3). -/
theorem dar_find_value_at_pos_witness :
    dar_find_max_pos dar_ties mem_ok = (DS_OK, 1) ∧
    dar_find_max dar_ties mem_ok =
      (DS_OK, some { name := some str_beta, pid := 9, cpu := 2, io := 0, pri := 0 }) ∧
    dar_find_min_pos dar_ties mem_ok = (DS_OK, 0) ∧
    dar_find_min dar_ties mem_ok =
      (DS_OK, some { name := some str_alpha, pid := 3, cpu := 1, io := 0, pri := 0 }) ∧
    ∃ imax imin emax emin,
      dar_find_max_pos dar_ties mem_ok = (DS_OK, imax) ∧
      dar_find_max dar_ties mem_ok = (DS_OK, emax) ∧
      dar_find_min_pos dar_ties mem_ok = (DS_OK, imin) ∧
      dar_find_min dar_ties mem_ok = (DS_OK, emin) ∧
      imax < dar_ties.size ∧ imin < dar_ties.size ∧
      dar_ties.live[imax]? = some emax ∧ dar_ties.live[imin]? = some emin :=
  ⟨by rfl, by rfl, by rfl, by rfl,
    dar_find_value_at_pos dar_ties mem_ok (by decide) rfl (by decide)⟩

/-! ## Claim C26 -/

theorem qua_dequeue_length (qua : QueueArray) (mem : Mem) :
    (qua_dequeue qua mem).2.1.length = qua.length := by
  unfold qua_dequeue
  split <;> rfl

theorem qua_dequeue_status (qua : QueueArray) (mem : Mem) (h : qua_is_empty qua = false) :
    (qua_dequeue qua mem).1 = DS_OK := by
  unfold qua_dequeue
  rw [h]
  rfl

theorem qua_dequeue_iterate_length (mem : Mem) :
    ∀ (k : Nat) (qua : QueueArray),
      ((fun q => (qua_dequeue q mem).2.1)^[k] qua).length = qua.length := by
  intro k
  induction k with
  | zero => intro qua; rfl
  | succ k ih =>
    intro qua
    rw [Function.iterate_succ_apply, ih, qua_dequeue_length]

/-- C26: `qua_dequeue` does not decrement the length. On a queue with `n > 0` live elements
that fit its buffer, `qua_dequeue` returns `DS_OK`, stores the front element in `*value`,
leaves in the slots `[0, n - 1)` the elements that were in `[1, n)` (slot `n - 1` keeps its
element) and leaves the length at `n`. So after any number `k` of dequeues the length is still
`n`, `qua_is_empty` is false and every further dequeue returns `DS_OK`; for `k ≥ 1` the length
differs from the `n - k` elements not yet dequeued. -/
theorem qua_dequeue_keeps_length (qua : QueueArray) (mem : Mem) (hne : 0 < qua.length)
    (hfits : qua.length ≤ qua.buffer.length) :
    (∃ q' v, qua_dequeue qua mem = (DS_OK, q', v) ∧ qua.buffer[0]? = some v ∧
      (∀ i, i + 1 < qua.length → q'.buffer[i]? = qua.buffer[i + 1]?) ∧
      q'.buffer[qua.length - 1]? = qua.buffer[qua.length - 1]? ∧
      q'.length = qua.length ∧ q'.capacity = qua.capacity) ∧
    ∀ k, ((fun q => (qua_dequeue q mem).2.1)^[k] qua).length = qua.length ∧
      qua_is_empty ((fun q => (qua_dequeue q mem).2.1)^[k] qua) = false ∧
      (qua_dequeue ((fun q => (qua_dequeue q mem).2.1)^[k] qua) mem).1 = DS_OK ∧
      (1 ≤ k → ((fun q => (qua_dequeue q mem).2.1)^[k] qua).length ≠ qua.length - k) := by
  have hempty : ∀ q : QueueArray, q.length = qua.length → qua_is_empty q = false := by
    intro q hq
    simp [qua_is_empty]; omega
  constructor
  · refine ⟨⟨shift_down_loop mem.junkp (qua.length - 1) (qua.length - 1) 0 qua.buffer,
      qua.length, qua.capacity, qua.growth_rate⟩, qua.buffer.getD 0 mem.junkp,
      by unfold qua_dequeue; rw [hempty qua rfl]; rfl, ?_, ?_, ?_, rfl, rfl⟩
    · rw [List.getD_eq_getElem?_getD, List.getElem?_eq_getElem (by omega)]
      rfl
    · intro i hi
      simp only
      rw [shift_down_loop_getElem? mem.junkp (qua.length - 1) (qua.length - 1) 0 qua.buffer i
        (by omega) (by omega), if_pos ⟨Nat.zero_le _, by omega⟩,
        List.getD_eq_getElem?_getD, List.getElem?_eq_getElem (show i + 1 < qua.buffer.length by omega)]
      rfl
    · simp only
      rw [shift_down_loop_getElem? mem.junkp (qua.length - 1) (qua.length - 1) 0 qua.buffer
        (qua.length - 1) (by omega) (by omega), if_neg (by omega)]
  · intro k
    have hl := qua_dequeue_iterate_length mem k qua
    exact ⟨hl, hempty _ hl, qua_dequeue_status _ mem (hempty _ hl), fun hk => by rw [hl]; omega⟩

/-- C26 at the queue with pids 1, 2, 3: one dequeue returns the record with pid 1 and leaves
the slots 2, 3, 3 with length 3; after four dequeues the length is still 3. -/
theorem qua_dequeue_keeps_length_witness :
    qua_dequeue qua_123 mem_ok =
      (DS_OK, { buffer := [prc_a 2, prc_a 3, prc_a 3, none, none, none, none, none],
                length := 3, capacity := 8, growth_rate := 2 }, prc_a 1) ∧
    ((fun q => (qua_dequeue q mem_ok).2.1)^[4] qua_123).length = 3 ∧
    ((∃ q' v, qua_dequeue qua_123 mem_ok = (DS_OK, q', v) ∧ qua_123.buffer[0]? = some v ∧
      (∀ i, i + 1 < qua_123.length → q'.buffer[i]? = qua_123.buffer[i + 1]?) ∧
      q'.buffer[qua_123.length - 1]? = qua_123.buffer[qua_123.length - 1]? ∧
      q'.length = qua_123.length ∧ q'.capacity = qua_123.capacity) ∧
    ∀ k, ((fun q => (qua_dequeue q mem_ok).2.1)^[k] qua_123).length = qua_123.length ∧
      qua_is_empty ((fun q => (qua_dequeue q mem_ok).2.1)^[k] qua_123) = false ∧
      (qua_dequeue ((fun q => (qua_dequeue q mem_ok).2.1)^[k] qua_123) mem_ok).1 = DS_OK ∧
      (1 ≤ k →
        ((fun q => (qua_dequeue q mem_ok).2.1)^[k] qua_123).length ≠ qua_123.length - k)) :=
  ⟨by rfl, by rfl, qua_dequeue_keeps_length qua_123 mem_ok (by decide) (by decide)⟩

/-! ## Claim C23 -/

/-- C23, the code at a full table. On the table of eight records in eight slots
(`size = capacity = 8`) the shift loop of `dar_remove_front` reads the slots 1 to 8 and the
one of `dar_remove_at` at index 3 reads the slots 4 to 8: slot 8 is not below `size` and lies
outside the buffer, and what is found there is stored in slot 7. On a table that is not full
(five records in eight slots) the loops read slot 5, which is not below `size` either. -/
theorem dar_remove_reads_slot_size :
    dar_full.size = 8 ∧ dar_full.capacity = 8 ∧ dar_full.buffer.length = 8 ∧
    dar_remove_front_reads dar_full = [0, 1, 2, 3, 4, 5, 6, 7, 8] ∧
    dar_remove_at_reads dar_full 3 = [3, 4, 5, 6, 7, 8] ∧
    (dar_remove_front dar_full none mem_junk).1 = DS_OK ∧
    (dar_remove_front dar_full none mem_junk).2.1.buffer[7]? = some mem_junk.junkp ∧
    (dar_remove_at dar_full 3 none mem_junk).1 = DS_OK ∧
    (dar_remove_at dar_full 3 none mem_junk).2.1.buffer[7]? = some mem_junk.junkp ∧
    dar_77172.size = 5 ∧
    dar_remove_front_reads dar_77172 = [0, 1, 2, 3, 4, 5] ∧
    dar_remove_at_reads dar_77172 2 = [2, 3, 4, 5] :=
  ⟨rfl, rfl, rfl, by rfl, by rfl, by rfl, by rfl, by rfl, by rfl, rfl, by rfl, by rfl⟩

/-! ## Claim C25 -/

/-- C25, the code when scratch-buffer initialisations fail. `file_load` reads the file
"a,1,2,3,4\n", which takes three allocations (two of `str_init` for the text, one
`str_realloc`). When the next allocation is refused, only the `str_init` of `name` fails and
`file_load` returns `DS_ERR_ALLOC` (5). When the next two are refused, the `str_init` calls
of `name` and `pid_s` fail, each with `DS_ERR_ALLOC`, and `file_load` returns their sum 10,
which is `DS_ERR_INVALID_ARGUMENT`; when the next three are refused it returns 15, which is
none of the status codes. -/
theorem file_load_adds_init_statuses :
    (str_init (mem_refusing 0 1)).1 = DS_ERR_ALLOC ∧
    (file_load 20 (some (chars "a,1,2,3,4\n".toList)) dar_empty vars_zero
      (mem_refusing 3 1)).map (fun r => r.1) = some DS_ERR_ALLOC ∧
    (file_load 20 (some (chars "a,1,2,3,4\n".toList)) dar_empty vars_zero
      (mem_refusing 3 2)).map (fun r => r.1) = some DS_ERR_INVALID_ARGUMENT ∧
    DS_ERR_INVALID_ARGUMENT ≠ DS_ERR_ALLOC ∧
    (file_load 20 (some (chars "a,1,2,3,4\n".toList)) dar_empty vars_zero
      (mem_refusing 3 3)).map (fun r => r.1) = some 15 ∧
    (file_load 20 (some (chars "a,1,2,3,4\n".toList)) dar_empty vars_zero
      (mem_refusing 3 0)).map (fun r => (r.1, r.2.1.records)) =
      some (DS_OK, [some (chars "a".toList, 1, 2, 3, 4)]) :=
  ⟨by rfl, by rfl, by rfl, by decide, by rfl, by rfl⟩

/-! ## Claim C27 -/

theorem str_init_status (mem : Mem) :
    (∃ s mem', str_init mem = (DS_OK, some s, mem') ∧ s.WF ∧ s.len = 0) ∨
    (∃ r mem', str_init mem = (DS_ERR_ALLOC, r, mem')) := by
  unfold str_init
  rcases mem.request with ⟨ok1, m1⟩
  cases ok1
  · exact Or.inr ⟨_, _, rfl⟩
  · simp only
    rcases m1.request with ⟨ok2, m2⟩
    cases ok2
    · exact Or.inr ⟨_, _, rfl⟩
    · refine Or.inl ⟨_, _, rfl, ⟨?_, ?_, ?_, rfl⟩, rfl⟩
      · simp
      · show 0 < 8
        omega
      · simp

theorem str_init_ok_some (mem : Mem) (st : Status) (r : Option CString) (mem' : Mem)
    (h : str_init mem = (st, r, mem')) (hst : st = DS_OK) : ∃ s, r = some s := by
  rcases str_init_status mem with ⟨s, m, hs, _⟩ | ⟨r2, m, hs⟩
  · rw [hs] at h
    simp only [Prod.mk.injEq] at h
    exact ⟨s, h.2.1.symm⟩
  · rw [hs] at h
    simp only [Prod.mk.injEq] at h
    rw [hst] at h
    exact absurd h.1 (by decide)

theorem file_load_field_total (delim : CChar) :
    ∀ (fuel : Nat) (text field : CString) (mem : Mem), text.len < fuel →
      ∃ st text1 field1 mem1,
        file_load_field delim fuel text field mem = some (st, text1, field1, mem1) ∧
        text1.len ≤ text.len ∧ (st = DS_OK → text1.len + 1 ≤ text.len) := by
  intro fuel
  induction fuel with
  | zero => intro text field mem h; omega
  | succ f ih =>
    intro text field mem hf
    rw [file_load_field]
    by_cases h0 : text.len = 0
    · rw [str_pop_char_front_empty text mem h0]
      exact ⟨_, _, _, _, rfl, le_refl _, fun h => absurd h (by decide)⟩
    · rw [str_pop_char_front_nonempty text mem h0]
      simp only [ne_eq, not_true_eq_false, if_false]
      by_cases hc : text.buffer.getD 0 mem.junkc = delim
      · rw [if_pos hc]
        exact ⟨_, _, _, _, rfl, by simp, fun _ => by simp only; omega⟩
      · rw [if_neg hc]
        rcases hp : str_push_char_back field (text.buffer.getD 0 mem.junkc) mem with
          ⟨st2, field1, mem1⟩
        simp only
        by_cases h2 : st2 = DS_OK
        · rw [if_neg (by simpa using h2)]
          obtain ⟨st, t1, f1, m1, he, hle, hlt⟩ :=
            ih ⟨(shift_down_loop mem.junkc text.len text.len 0 text.buffer).set (text.len - 1) 0,
              text.len - 1, text.capacity, text.growth_rate⟩ field1 mem1 (by simp only; omega)
          simp only at hle hlt
          exact ⟨st, t1, f1, m1, he, by omega, fun h => by have := hlt h; omega⟩
        · rw [if_pos h2]
          exact ⟨_, _, _, _, rfl, by simp, fun h => absurd h h2⟩

theorem file_load_records_total :
    ∀ (fuel : Nat) (st : Status) (text : CString) (table : DynamicArray) (vars : Fields)
      (mem : Mem), text.len + 2 ≤ fuel →
      ∃ r, file_load_records fuel st text table vars mem = some r := by
  intro fuel
  induction fuel with
  | zero => intro st text table vars mem h; omega
  | succ f ih =>
    intro st text table vars mem hf
    rw [file_load_records]
    by_cases hgt : text.len > 1
    swap
    · rw [if_neg hgt]; exact ⟨_, rfl⟩
    rw [if_pos hgt]
    rcases h1 : str_init mem with ⟨s1, name, mem1⟩
    simp only
    rcases h2 : str_init mem1 with ⟨s2, pid_s, mem2⟩
    simp only
    rcases h3 : str_init mem2 with ⟨s3, cpu_s, mem3⟩
    simp only
    rcases h4 : str_init mem3 with ⟨s4, io_s, mem4⟩
    simp only
    rcases h5 : str_init mem4 with ⟨s5, pri_s, mem5⟩
    simp only
    by_cases hs : st + s1 + s2 + s3 + s4 + s5 = DS_OK
    swap
    · rw [if_pos hs]; exact ⟨_, rfl⟩
    rw [if_neg (not_not.mpr hs)]
    have hs0 : @Eq Nat (st + s1 + s2 + s3 + s4 + s5) 0 := hs
    have z1 : @Eq Nat s1 0 := by omega
    have z2 : @Eq Nat s2 0 := by omega
    have z3 : @Eq Nat s3 0 := by omega
    have z4 : @Eq Nat s4 0 := by omega
    have z5 : @Eq Nat s5 0 := by omega
    obtain ⟨n1, rfl⟩ := str_init_ok_some mem s1 name mem1 h1 z1
    obtain ⟨n2, rfl⟩ := str_init_ok_some mem1 s2 pid_s mem2 h2 z2
    obtain ⟨n3, rfl⟩ := str_init_ok_some mem2 s3 cpu_s mem3 h3 z3
    obtain ⟨n4, rfl⟩ := str_init_ok_some mem3 s4 io_s mem4 h4 z4
    obtain ⟨n5, rfl⟩ := str_init_ok_some mem4 s5 pri_s mem5 h5 z5
    simp only
    obtain ⟨c1, t1, f1, m1, e1, _, k1⟩ := file_load_field_total 44 f text n1 mem5 (by omega)
    rw [e1]
    simp only
    by_cases d1 : c1 = DS_OK
    swap
    · rw [if_pos d1]; exact ⟨_, rfl⟩
    rw [if_neg (not_not.mpr d1)]
    have q1 := k1 d1
    obtain ⟨c2, t2, f2, m2, e2, _, k2⟩ := file_load_field_total 44 f t1 n2 m1 (by omega)
    rw [e2]
    simp only
    by_cases d2 : c2 = DS_OK
    swap
    · rw [if_pos d2]; exact ⟨_, rfl⟩
    rw [if_neg (not_not.mpr d2)]
    have q2 := k2 d2
    obtain ⟨c3, t3, f3, m3, e3, _, k3⟩ := file_load_field_total 44 f t2 n3 m2 (by omega)
    rw [e3]
    simp only
    by_cases d3 : c3 = DS_OK
    swap
    · rw [if_pos d3]; exact ⟨_, rfl⟩
    rw [if_neg (not_not.mpr d3)]
    have q3 := k3 d3
    obtain ⟨c4, t4, f4, m4, e4, _, k4⟩ := file_load_field_total 44 f t3 n4 m3 (by omega)
    rw [e4]
    simp only
    by_cases d4 : c4 = DS_OK
    swap
    · rw [if_pos d4]; exact ⟨_, rfl⟩
    rw [if_neg (not_not.mpr d4)]
    have q4 := k4 d4
    obtain ⟨c5, t5, f5, m5, e5, _, k5⟩ := file_load_field_total 10 f t4 n5 m4 (by omega)
    rw [e5]
    simp only
    by_cases d5 : c5 = DS_OK
    swap
    · rw [if_pos d5]; exact ⟨_, rfl⟩
    rw [if_neg (not_not.mpr d5)]
    have q5 := k5 d5
    rcases hp : prc_init (some f1) ((sscanf_zu f2.buffer).getD vars.pid)
      ((sscanf_zu f3.buffer).getD vars.cpu) ((sscanf_zu f4.buffer).getD vars.io)
      ((sscanf_zu f5.buffer).getD vars.pri) m5 with ⟨cp, process, mp⟩
    simp only
    by_cases dp : cp = DS_OK
    swap
    · rw [if_pos dp]; exact ⟨_, rfl⟩
    rw [if_neg (not_not.mpr dp)]
    rcases hd : dar_insert_back table process mp with ⟨cd, table1, md⟩
    simp only
    by_cases dd : cd = DS_OK
    swap
    · rw [if_pos dd]; exact ⟨_, rfl⟩
    rw [if_neg (not_not.mpr dd)]
    exact ih _ _ _ _ _ (by omega)

theorem str_push_char_back_len_le (s : CString) (c : CChar) (mem : Mem) :
    (str_push_char_back s c mem).2.1.len ≤ s.len + 1 := by
  unfold str_push_char_back
  by_cases hfull : str_buffer_full s = true
  · rw [if_pos hfull]
    unfold str_realloc
    rcases mem.request with ⟨ok, m1⟩
    cases ok
    · simp
    · simp
  · rw [if_neg hfull]
    simp

theorem file_load_fill_len_le :
    ∀ (content : List CChar) (text : CString) (mem : Mem),
      (file_load_fill content text mem).2.1.len ≤ text.len + content.length := by
  intro content
  induction content with
  | nil => intro text mem; simp [file_load_fill]
  | cons c rest ih =>
    intro text mem
    rw [file_load_fill]
    by_cases hc : c = EOF
    · rw [if_pos hc]
      simp only [List.length_cons]
      omega
    rw [if_neg hc]
    have hp := str_push_char_back_len_le text c mem
    rcases hq : str_push_char_back text c mem with ⟨st, text1, mem1⟩
    rw [hq] at hp
    simp only at hp ⊢
    by_cases h : st = DS_OK
    · rw [if_neg (not_not.mpr h)]
      have := ih text1 mem1
      simp only [List.length_cons]
      omega
    · rw [if_pos h]
      simp only [List.length_cons]
      omega

theorem file_load_total (fuel : Nat) (file : Option (List CChar)) (table : DynamicArray)
    (vars : Fields) (mem : Mem) (hfuel : ∀ content, file = some content → content.length + 2 ≤ fuel) :
    ∃ r, file_load fuel file table vars mem = some r := by
  unfold file_load
  rcases h1 : str_init mem with ⟨st, text, mem1⟩
  simp only
  by_cases hs : st = DS_OK
  swap
  · rw [if_pos hs]; exact ⟨_, rfl⟩
  rw [if_neg (not_not.mpr hs)]
  obtain ⟨t0, rfl⟩ := str_init_ok_some mem st text mem1 h1 hs
  cases file with
  | none => exact ⟨_, rfl⟩
  | some content =>
    simp only
    have hl := file_load_fill_len_le content t0 mem1
    have ht0 : t0.len = 0 := by
      rcases str_init_status mem with ⟨s, m, he, _, hz⟩ | ⟨r2, m, he⟩
      · rw [he] at h1
        simp only [Prod.mk.injEq, Option.some.injEq] at h1
        rw [← h1.2.1]; exact hz
      · rw [he] at h1
        simp only [Prod.mk.injEq] at h1
        rw [hs] at h1
        exact absurd h1.1 (by decide)
    rcases hq : file_load_fill content t0 mem1 with ⟨st2, text2, mem2⟩
    rw [hq] at hl
    simp only at hl ⊢
    by_cases h2 : st2 = DS_OK
    swap
    · rw [if_pos h2]; exact ⟨_, rfl⟩
    rw [if_neg (not_not.mpr h2)]
    by_cases h3 : text2.len = 0
    · rw [if_pos h3]; exact ⟨_, rfl⟩
    · rw [if_neg h3]
      have := hfuel content rfl
      exact file_load_records_total fuel st2 text2 table vars mem2 (by omega)

/-- C27: the parser terminates on every input. A call of `str_pop_char_front` either finds
the text empty and returns `DS_ERR_INVALID_OPERATION`, or returns `DS_OK` with the length one
less. Each field loop returns after at most `len + 1` iterations, never with a longer text
(so it has popped at most `len` characters), and with a shorter one when it returns `DS_OK`.
The record loop returns a status with a budget of `len + 2` iterations, whatever the text,
the table and the outcomes of the allocations, and so does `file_load` for every file content
and for a file that cannot be opened. -/
theorem file_load_terminates (fuel : Nat) (text : CString) (hfuel : text.len + 2 ≤ fuel) :
    (∀ mem, (text.len = 0 ∧ str_pop_char_front text mem = (DS_ERR_INVALID_OPERATION, text)) ∨
      ((str_pop_char_front text mem).1 = DS_OK ∧
        (str_pop_char_front text mem).2.len + 1 = text.len)) ∧
    (∀ delim field mem, ∃ st text1 field1 mem1,
      file_load_field delim (text.len + 1) text field mem = some (st, text1, field1, mem1) ∧
      text1.len ≤ text.len ∧ (st = DS_OK → text1.len + 1 ≤ text.len)) ∧
    (∀ st table vars mem, ∃ r, file_load_records fuel st text table vars mem = some r) ∧
    (∀ content table vars mem, content.length + 2 ≤ fuel →
      ∃ r, file_load fuel (some content) table vars mem = some r) ∧
    (∀ table vars mem, ∃ r, file_load fuel none table vars mem = some r) := by
  refine ⟨?_, ?_, ?_, ?_, ?_⟩
  · intro mem
    by_cases h0 : text.len = 0
    · exact Or.inl ⟨h0, str_pop_char_front_empty text mem h0⟩
    · refine Or.inr ?_
      rw [str_pop_char_front_nonempty text mem h0]
      exact ⟨rfl, by simp only; omega⟩
  · intro delim field mem
    exact file_load_field_total delim (text.len + 1) text field mem (by omega)
  · intro st table vars mem
    exact file_load_records_total fuel st text table vars mem hfuel
  · intro content table vars mem hc
    exact file_load_total fuel (some content) table vars mem
      (fun c hc2 => by rw [← Option.some.inj hc2]; exact hc)
  · intro table vars mem
    exact file_load_total fuel none table vars mem (fun c hc2 => by simp at hc2)

/-- C27 at the text "alpha", which holds no delimiter: with a budget of 7 iterations the
record loop returns `DS_ERR_INVALID_OPERATION` (the name loop pops the five characters and
then finds the text empty). -/
theorem file_load_terminates_witness :
    str_alpha.len + 2 ≤ 7 ∧
    (file_load_records 7 DS_OK str_alpha dar_empty vars_zero mem_ok).map (fun r => r.1) =
      some DS_ERR_INVALID_OPERATION ∧
    ((∀ mem, (str_alpha.len = 0 ∧
        str_pop_char_front str_alpha mem = (DS_ERR_INVALID_OPERATION, str_alpha)) ∨
      ((str_pop_char_front str_alpha mem).1 = DS_OK ∧
        (str_pop_char_front str_alpha mem).2.len + 1 = str_alpha.len)) ∧
    (∀ delim field mem, ∃ st text1 field1 mem1,
      file_load_field delim (str_alpha.len + 1) str_alpha field mem =
        some (st, text1, field1, mem1) ∧
      text1.len ≤ str_alpha.len ∧ (st = DS_OK → text1.len + 1 ≤ str_alpha.len)) ∧
    (∀ st table vars mem, ∃ r, file_load_records 7 st str_alpha table vars mem = some r) ∧
    (∀ content table vars mem, content.length + 2 ≤ 7 →
      ∃ r, file_load 7 (some content) table vars mem = some r) ∧
    (∀ table vars mem, ∃ r, file_load 7 none table vars mem = some r)) :=
  ⟨by decide, by rfl, file_load_terminates 7 str_alpha (by decide)⟩

/-! ## Claim C24 -/

/-- C24: the delimiters and the field states, with an allocator that never fails. For every
text `name,id,cpu,io,pri\n` whose name holds no `','` (it may hold `'\n'`) and whose numbers
are `size_t` values, the record loop of `file_load`, run on a well-formed text that holds it,
returns `DS_OK` and appends exactly one record to the table, with the whole name text as its
name; so does `file_load` as a whole on a file with these bytes when the name holds no byte
0xFF, at which its read loop stops. And the priority loop, on a text that starts with `pre`
followed by `'\n'`, `pre` free of `'\n'` (it may hold `','`), returns `DS_OK` having appended
all of `pre`, its `','` characters included, to the scratch buffer and leaves the text behind
the `'\n'`. -/
theorem file_load_delimiter_states (r : List CChar × Nat × Nat × Nat × Nat)
    (dst : DynamicArray) (vars : Fields) (mem : Mem) (fuel : Nat) (hname : (44 : Int) ∉ r.1)
    (hfit : fields_fit r) (hdst : dst.WF) (hnf : mem.NeverFails)
    (hfuel : (record_text r).length + 2 ≤ fuel) :
    (∀ text : CString, text.WF → text.bytes = record_text r ++ [10] →
      ∃ dst' mem', file_load_records fuel DS_OK text dst vars mem =
          some (DS_OK, dst', mem') ∧
        dst'.size = dst.size + 1 ∧ dst'.records = dst.records ++ [some r]) ∧
    (EOF ∉ r.1 →
      ∃ dst' mem', file_load fuel (some (record_text r ++ [10])) dst vars mem =
          some (DS_OK, dst', mem') ∧
        dst'.size = dst.size + 1 ∧ dst'.records = dst.records ++ [some r]) ∧
    (∀ (pre rest : List CChar) (text field : CString), text.WF → field.WF →
      text.bytes = pre ++ 10 :: rest → (10 : Int) ∉ pre →
      ∃ text' field' mem', file_load_field 10 (pre.length + 1) text field mem =
          some (DS_OK, text', field', mem') ∧
        text'.bytes = rest ∧ field'.bytes = field.bytes ++ pre) := by
  have htext : records_text [r] ++ [] = record_text r ++ [10] := by simp [records_text]
  have hrs : ∀ x ∈ [r], (44 : Int) ∉ x.1 ∧ fields_fit x :=
    fun x hx => by rw [List.mem_singleton.mp hx]; exact ⟨hname, hfit⟩
  refine ⟨?_, ?_, ?_⟩
  · intro text wt bt
    have hl := CString.len_of_bytes text wt _ bt
    rw [List.length_append] at hl
    exact file_load_records_complete [r] [] fuel text dst vars mem wt hdst hnf
      (by rw [bt, htext]) (by simp) hrs (by simp only [List.length_singleton] at hl; omega)
  · intro heof
    have h := file_load_complete [r] [] fuel dst vars mem hdst hnf (by simp) hrs
      (fun x hx => by rw [List.mem_singleton.mp hx]; exact heof)
      (by rw [htext, List.length_append]; simp only [List.length_singleton]; omega)
    rw [htext] at h
    exact h
  · intro pre rest text field wt wf hb hpre
    obtain ⟨text', field', mem', he, _, bt', _, bf', _⟩ :=
      file_load_field_found 10 pre rest (pre.length + 1) text field mem wt wf hnf hb hpre
        (le_refl _)
    exact ⟨text', field', mem', he, bt', bf'⟩

/-- C24 at the inputs "a\nb,1,2,3,4\n" (one record named "a\nb") and "a,1,2,3,4,5\n" (one
record, the `','` behind the 4 did not close a field), and at the priority loop on the text
"4,5\n" from an empty scratch buffer, which leaves the scratch text "4,5". -/
theorem file_load_delimiter_states_witness :
    (file_load 20 (some (chars "a\nb,1,2,3,4\n".toList)) dar_empty vars_zero mem_ok).map
      (fun x => (x.1, x.2.1.records)) = some (DS_OK, [some (chars "a\nb".toList, 1, 2, 3, 4)]) ∧
    (file_load 20 (some (chars "a,1,2,3,4,5\n".toList)) dar_empty vars_zero mem_ok).map
      (fun x => (x.1, x.2.1.records)) = some (DS_OK, [some (chars "a".toList, 1, 2, 3, 4)]) ∧
    (file_load_field 10 4
      { buffer := chars "4,5\n".toList ++ [0, 0, 0, 0], len := 4, capacity := 8,
        growth_rate := 2 } str_fresh mem_ok).map (fun x => (x.1, x.2.2.1.bytes)) =
      some (DS_OK, chars "4,5".toList) ∧
    EOF ∉ chars "a\nb".toList ∧
    ((∀ text : CString, text.WF →
      text.bytes = record_text (chars "a\nb".toList, 1, 2, 3, 4) ++ [10] →
      ∃ dst' mem', file_load_records 20 DS_OK text dar_empty vars_zero mem_ok =
          some (DS_OK, dst', mem') ∧
        dst'.size = dar_empty.size + 1 ∧
        dst'.records = dar_empty.records ++ [some (chars "a\nb".toList, 1, 2, 3, 4)]) ∧
    (EOF ∉ (((chars "a\nb".toList, 1, 2, 3, 4) : List CChar × Nat × Nat × Nat × Nat)).1 →
      ∃ dst' mem', file_load 20
          (some (record_text (chars "a\nb".toList, 1, 2, 3, 4) ++ [10])) dar_empty vars_zero
          mem_ok = some (DS_OK, dst', mem') ∧
      dst'.size = dar_empty.size + 1 ∧
      dst'.records = dar_empty.records ++ [some (chars "a\nb".toList, 1, 2, 3, 4)]) ∧
    (∀ (pre rest : List CChar) (text field : CString), text.WF → field.WF →
      text.bytes = pre ++ 10 :: rest → (10 : Int) ∉ pre →
      ∃ text' field' mem', file_load_field 10 (pre.length + 1) text field mem_ok =
          some (DS_OK, text', field', mem') ∧
        text'.bytes = rest ∧ field'.bytes = field.bytes ++ pre)) :=
  ⟨by rfl, by rfl, by rfl, by decide,
    file_load_delimiter_states (chars "a\nb".toList, 1, 2, 3, 4) dar_empty vars_zero mem_ok 20
      (by decide) ⟨by decide, by decide, by decide, by decide⟩
      ⟨rfl, by decide, by decide, rfl⟩
      (fun b hb => absurd hb (List.not_mem_nil b)) (by decide)⟩

/-! ## Claim C29 -/

theorem prc_compare_eq_zero_has_pid (e : Option Process) (v : Process) (he : e ≠ none) :
    prc_compare e (some v) = 0 ↔ has_pid v.pid e = true := by
  cases e with
  | none => exact absurd rfl he
  | some p =>
    rw [prc_compare_eq_zero_iff]
    simp [has_pid]

theorem dar_exists_loop_any (dar : DynamicArray) (v : Process) (mem : Mem)
    (hlen : dar.size ≤ dar.buffer.length) (hrec : ∀ e ∈ dar.live, e ≠ none) :
    ∀ (k i : Nat), i + k = dar.size →
      dar_exists_loop dar (some v) mem k i = (dar.live.drop i).any (has_pid v.pid) := by
  have hll := DynamicArray.live_length dar hlen
  intro k
  induction k with
  | zero =>
    intro i hi
    rw [List.drop_eq_nil_of_le (by omega)]
    rfl
  | succ k ih =>
    intro i hi
    have hilt : i < dar.size := by omega
    have hb : i < dar.live.length := by omega
    have hget : dar.buffer.getD i mem.junkp = dar.live[i] := by
      have h1 := DynamicArray.live_getElem? dar i hilt
      rw [List.getElem?_eq_getElem (show i < dar.live.length by omega)] at h1
      rw [List.getD_eq_getElem?_getD, ← h1]
      rfl
    have hne : dar.live[i] ≠ none := hrec _ (List.getElem_mem _)
    rw [List.drop_eq_getElem_cons (show i < dar.live.length by omega), List.any_cons]
    unfold dar_exists_loop
    rw [if_pos hilt, hget, ih (i + 1) (by omega)]
    by_cases hc : prc_compare dar.live[i] (some v) = 0
    · rw [if_pos hc, (prc_compare_eq_zero_has_pid _ v hne).mp hc]
      rfl
    · rw [if_neg hc]
      have : has_pid v.pid (dar.live[i]) = false := by
        cases hh : has_pid v.pid (dar.live[i]) with
        | false => rfl
        | true => exact absurd ((prc_compare_eq_zero_has_pid _ v hne).mpr hh) hc
      rw [this]
      rfl

theorem dar_exists_any (dar : DynamicArray) (v : Process) (mem : Mem)
    (hlen : dar.size ≤ dar.buffer.length) (hrec : ∀ e ∈ dar.live, e ≠ none) :
    dar_exists dar (some v) mem = dar.live.any (has_pid v.pid) := by
  unfold dar_exists dar_is_empty
  by_cases h0 : dar.size = 0
  · have hl : dar.live = [] := by
      apply List.eq_nil_of_length_eq_zero
      rw [DynamicArray.live_length dar hlen, h0]
    simp [h0, hl]
  · rw [if_neg (by simpa using h0), dar_exists_loop_any dar v mem hlen hrec dar.size 0 (by omega),
      List.drop_zero]

/-- C29: `dar_exists` is membership by pid and `dar_remove_keys` establishes its negation. On
a table whose live elements fit its buffer and are not `NULL`, `dar_exists` of a record `v` is
true exactly when some live element has the pid of `v`, and false on the empty table. On a
non-empty table of records owning their name, `dar_remove_keys` with `v` returns `DS_OK` (a
budget of `size + 1` loop iterations is enough); afterwards `dar_exists` of `v` is false and
`dar_exists` of every record `w` with another pid is what it was before. -/
theorem dar_exists_membership (dar : DynamicArray) (v : Process) (mem : Mem)
    (hcap : dar.buffer.length = dar.capacity) (hfits : dar.size ≤ dar.capacity)
    (hsz : dar.size < SIZE_MOD) (hrec : ∀ e ∈ dar.live, e ≠ none) :
    (dar_exists dar (some v) mem = true ↔ ∃ e ∈ dar.live, has_pid v.pid e = true) ∧
    (dar.size = 0 → dar_exists dar (some v) mem = false) ∧
    ((∀ e ∈ dar.live, is_record e = true) → 0 < dar.size → ∀ fuel, dar.size + 1 ≤ fuel →
      ∃ dar', dar_remove_keys fuel dar (some v) mem = some (DS_OK, dar') ∧
        dar_exists dar' (some v) mem = false ∧
        ∀ w : Process, w.pid ≠ v.pid →
          dar_exists dar' (some w) mem = dar_exists dar (some w) mem) := by
  have hlen : dar.size ≤ dar.buffer.length := by omega
  refine ⟨?_, ?_, ?_⟩
  · rw [dar_exists_any dar v mem hlen hrec, List.any_eq_true]
  · intro h0
    simp [dar_exists, dar_is_empty, h0]
  · intro hown hne fuel hfuel
    obtain ⟨dar', he, hl, hb, _, _⟩ :=
      dar_remove_keys_loop_spec v mem dar.size fuel 0 dar mem.junkp hlen hsz
        (Nat.zero_le _) rfl hfuel hown
    rw [List.take_zero, List.nil_append, List.drop_zero] at hl
    have hrec' : ∀ e ∈ dar'.live, e ≠ none := by
      intro e hm
      rw [hl] at hm
      exact hrec e (List.mem_filter.mp hm).1
    have hempty : dar_is_empty dar = false := by
      simp [dar_is_empty]; omega
    refine ⟨dar', by unfold dar_remove_keys; rw [hempty]; exact he, ?_, ?_⟩
    · rw [dar_exists_any dar' v mem hb hrec', hl, Bool.eq_false_iff]
      intro h
      obtain ⟨e, hm, hp⟩ := List.any_eq_true.mp h
      have := (List.mem_filter.mp hm).2
      rw [hp] at this
      exact absurd this (by decide)
    · intro w hw
      rw [dar_exists_any dar' w mem hb hrec', dar_exists_any dar w mem hlen hrec, hl]
      apply Bool.eq_iff_iff.mpr
      rw [List.any_eq_true, List.any_eq_true]
      constructor
      · rintro ⟨e, hm, hp⟩
        exact ⟨e, (List.mem_filter.mp hm).1, hp⟩
      · rintro ⟨e, hm, hp⟩
        refine ⟨e, List.mem_filter.mpr ⟨hm, ?_⟩, hp⟩
        cases e with
        | none => simp [has_pid] at hp
        | some p =>
          simp only [has_pid, decide_eq_true_eq] at hp
          simp only [has_pid, Bool.not_eq_true', decide_eq_false_iff_not]
          omega

/-- C29 at the table with pids 7, 7, 1, 7, 2: a record with pid 7 exists, one with pid 3 does
not; after `dar_remove_keys` with pid 7 no record with pid 7 exists and one with pid 2 still
does. -/
theorem dar_exists_membership_witness :
    dar_exists dar_77172 (prc_a 7) mem_ok = true ∧
    dar_exists dar_77172 (prc_a 3) mem_ok = false ∧
    (dar_remove_keys 6 dar_77172 (prc_a 7) mem_ok).map
      (fun r => (r.1, dar_exists r.2 (prc_a 7) mem_ok, dar_exists r.2 (prc_a 2) mem_ok)) =
      some (DS_OK, false, true) ∧
    ((dar_exists dar_77172 (prc_a 7) mem_ok = true ↔
      ∃ e ∈ dar_77172.live, has_pid 7 e = true) ∧
    (dar_77172.size = 0 → dar_exists dar_77172 (prc_a 7) mem_ok = false) ∧
    ((∀ e ∈ dar_77172.live, is_record e = true) → 0 < dar_77172.size →
      ∀ fuel, dar_77172.size + 1 ≤ fuel →
      ∃ dar', dar_remove_keys fuel dar_77172 (prc_a 7) mem_ok = some (DS_OK, dar') ∧
        dar_exists dar' (prc_a 7) mem_ok = false ∧
        ∀ w : Process, w.pid ≠ 7 →
          dar_exists dar' (some w) mem_ok = dar_exists dar_77172 (some w) mem_ok)) :=
  ⟨by rfl, by rfl, by rfl,
    dar_exists_membership dar_77172 { name := some str_a, pid := 7, cpu := 0, io := 0, pri := 0 }
      mem_ok rfl (by decide) (by decide) (by decide)⟩

/-! ## Claim C22 -/

theorem dar_realloc_inv (dar : DynamicArray) (mem : Mem) (h : dar.Inv) :
    (dar_realloc dar mem).2.1.Inv ∧ (dar_realloc dar mem).2.1.size = dar.size ∧
    dar.capacity ≤ (dar_realloc dar mem).2.1.capacity ∧
    ((dar_realloc dar mem).1 = DS_OK → (dar_realloc dar mem).2.1.capacity = dar.capacity * 2) := by
  obtain ⟨hs, ⟨k, hk⟩, hr⟩ := h
  have hr2 : dar.growth_rate = 2 := hr
  unfold dar_realloc
  rcases mem.request with ⟨ok, m1⟩
  cases ok
  · simp only
    have hc : dar.capacity * dar.growth_rate / dar.growth_rate = dar.capacity := by
      rw [hr2]; omega
    refine ⟨⟨?_, ⟨k, ?_⟩, hr⟩, trivial, ?_, fun h => absurd h (by decide)⟩
    · show dar.size ≤ dar.capacity * dar.growth_rate / dar.growth_rate
      omega
    · show dar.capacity * dar.growth_rate / dar.growth_rate = 8 * 2 ^ k
      omega
    · show dar.capacity ≤ dar.capacity * dar.growth_rate / dar.growth_rate
      omega
  · simp only
    refine ⟨⟨?_, ⟨k + 1, ?_⟩, hr⟩, trivial, ?_, fun _ => ?_⟩
    · show dar.size ≤ dar.capacity * dar.growth_rate
      rw [hr2]; omega
    · show dar.capacity * dar.growth_rate = 8 * 2 ^ (k + 1)
      rw [hr2, hk, pow_succ]; ring
    · show dar.capacity ≤ dar.capacity * dar.growth_rate
      rw [hr2]; omega
    · show dar.capacity * dar.growth_rate = dar.capacity * 2
      rw [hr2]

theorem dar_grown_inv (dar : DynamicArray) (mem : Mem) (h : dar.Inv) (st : Status)
    (dar1 : DynamicArray) (mem1 : Mem)
    (hg : (if dar_is_full dar then dar_realloc dar mem else (DS_OK, dar, mem)) =
      (st, dar1, mem1)) :
    dar1.Inv ∧ dar1.size = dar.size ∧ dar.capacity ≤ dar1.capacity ∧
    (st = DS_OK → dar1.size < dar1.capacity) := by
  by_cases hfull : dar_is_full dar = true
  · rw [if_pos hfull] at hg
    obtain ⟨hi, hsz, hle, hok⟩ := dar_realloc_inv dar mem h
    rw [hg] at hi hsz hle hok
    simp only at hi hsz hle hok
    refine ⟨hi, hsz, hle, fun hst => ?_⟩
    have := hok hst
    obtain ⟨hs, ⟨k, hk⟩, _⟩ := h
    have hpos : 0 < 2 ^ k := pow_pos (by decide) k
    omega
  · rw [if_neg hfull] at hg
    simp only [Prod.mk.injEq] at hg
    obtain ⟨_, rfl, _⟩ := hg
    have hne : dar.size ≠ dar.capacity := by simpa [dar_is_full] using hfull
    exact ⟨h, rfl, le_refl _, fun _ => by have := h.1; omega⟩

theorem dar_stored_inv (dar : DynamicArray) (mem : Mem) (h : dar.Inv)
    (f : DynamicArray → List (Option Process)) (r : Status × DynamicArray × Mem)
    (hr : r = (match (if dar_is_full dar then dar_realloc dar mem else (DS_OK, dar, mem)) with
      | (st, dar1, mem1) =>
        if st ≠ DS_OK then (st, dar1, mem1)
        else (DS_OK, { dar1 with buffer := f dar1, size := dar1.size + 1 }, mem1))) :
    r.2.1.Inv ∧ dar.capacity ≤ r.2.1.capacity := by
  rcases hg : (if dar_is_full dar then dar_realloc dar mem else (DS_OK, dar, mem)) with
    ⟨st, dar1, mem1⟩
  obtain ⟨hi, hsz, hle, hok⟩ := dar_grown_inv dar mem h st dar1 mem1 hg
  rw [hg] at hr
  simp only at hr
  by_cases hst : st = DS_OK
  · rw [if_neg (not_not.mpr hst)] at hr
    rw [hr]
    have := hok hst
    exact ⟨⟨by simp only; omega, hi.2.1, hi.2.2⟩, hle⟩
  · rw [if_pos hst] at hr
    rw [hr]
    exact ⟨hi, hle⟩

theorem dar_insert_front_inv (dar : DynamicArray) (v : Option Process) (mem : Mem)
    (h : dar.Inv) :
    (dar_insert_front dar v mem).2.1.Inv ∧
      dar.capacity ≤ (dar_insert_front dar v mem).2.1.capacity :=
  dar_stored_inv dar mem h
    (fun dar1 => (shift_up_loop mem.junkp 0 dar1.size dar1.buffer).set 0 v) _ rfl

theorem dar_insert_back_inv (dar : DynamicArray) (v : Option Process) (mem : Mem)
    (h : dar.Inv) :
    (dar_insert_back dar v mem).2.1.Inv ∧
      dar.capacity ≤ (dar_insert_back dar v mem).2.1.capacity :=
  dar_stored_inv dar mem h (fun dar1 => dar1.buffer.set dar1.size v) _ rfl

theorem dar_insert_at_inv (dar : DynamicArray) (v : Option Process) (i : Nat) (mem : Mem)
    (h : dar.Inv) :
    (dar_insert_at dar v i mem).2.1.Inv ∧
      dar.capacity ≤ (dar_insert_at dar v i mem).2.1.capacity := by
  unfold dar_insert_at
  by_cases hgt : i > dar.size
  · rw [if_pos hgt]
    exact ⟨h, le_refl _⟩
  rw [if_neg hgt]
  by_cases h0 : i = 0
  · rw [if_pos h0]
    have := dar_insert_front_inv dar v mem h
    rcases hq : dar_insert_front dar v mem with ⟨st, d1, m1⟩
    rw [hq] at this
    simp only at this ⊢
    split <;> exact this
  rw [if_neg h0]
  by_cases h1 : i = dar.size
  · rw [if_pos h1]
    have := dar_insert_back_inv dar v mem h
    rcases hq : dar_insert_back dar v mem with ⟨st, d1, m1⟩
    rw [hq] at this
    simp only at this ⊢
    split <;> exact this
  rw [if_neg h1]
  exact dar_stored_inv dar mem h
    (fun dar1 => (shift_up_loop mem.junkp i dar1.size dar1.buffer).set i v) _ rfl

theorem dar_remove_front_inv (dar : DynamicArray) (r : Option Process) (mem : Mem)
    (h : dar.Inv) :
    (dar_remove_front dar r mem).2.1.Inv ∧
      (dar_remove_front dar r mem).2.1.capacity = dar.capacity := by
  unfold dar_remove_front
  split
  · exact ⟨h, rfl⟩
  · exact ⟨⟨by simp only; have := h.1; omega, h.2.1, h.2.2⟩, rfl⟩

theorem dar_remove_back_inv (dar : DynamicArray) (r : Option Process) (mem : Mem)
    (h : dar.Inv) :
    (dar_remove_back dar r mem).2.1.Inv ∧
      (dar_remove_back dar r mem).2.1.capacity = dar.capacity := by
  unfold dar_remove_back
  split
  · exact ⟨h, rfl⟩
  · exact ⟨⟨by simp only; have := h.1; omega, h.2.1, h.2.2⟩, rfl⟩

theorem dar_remove_at_inv (dar : DynamicArray) (i : Nat) (r : Option Process) (mem : Mem)
    (h : dar.Inv) :
    (dar_remove_at dar i r mem).2.1.Inv ∧
      (dar_remove_at dar i r mem).2.1.capacity = dar.capacity := by
  unfold dar_remove_at
  split
  · exact ⟨h, rfl⟩
  split
  · exact ⟨h, rfl⟩
  split
  · have := dar_remove_front_inv dar r mem h
    rcases hq : dar_remove_front dar r mem with ⟨st, d1, r1⟩
    rw [hq] at this
    simp only at this ⊢
    split <;> exact this
  split
  · have := dar_remove_back_inv dar r mem h
    rcases hq : dar_remove_back dar r mem with ⟨st, d1, r1⟩
    rw [hq] at this
    simp only at this ⊢
    split <;> exact this
  · exact ⟨⟨by simp only; have := h.1; omega, h.2.1, h.2.2⟩, rfl⟩

theorem dar_remove_keys_loop_inv (value : Option Process) (mem : Mem) :
    ∀ (fuel i : Nat) (dar : DynamicArray) (r : Option Process) (st : Status)
      (dar1 : DynamicArray), dar.Inv →
      dar_remove_keys_loop value mem fuel i dar r = some (st, dar1) →
      dar1.Inv ∧ dar1.capacity = dar.capacity := by
  intro fuel
  induction fuel with
  | zero =>
    intro i dar r st dar1 _ h
    simp [dar_remove_keys_loop] at h
  | succ f ih =>
    intro i dar r st dar1 hinv h
    rw [dar_remove_keys_loop] at h
    by_cases hi : i < dar.size
    swap
    · rw [if_neg hi] at h
      simp only [Option.some.injEq, Prod.mk.injEq] at h
      rw [← h.2]
      exact ⟨hinv, rfl⟩
    rw [if_pos hi] at h
    by_cases hc : prc_compare (dar.buffer.getD i mem.junkp) value = 0
    swap
    · rw [if_neg hc] at h
      exact ih _ dar r st dar1 hinv h
    rw [if_pos hc] at h
    have hra := dar_remove_at_inv dar i r mem hinv
    rcases hq : dar_remove_at dar i r mem with ⟨s1, d1, r1⟩
    rw [hq] at h hra
    simp only at h hra
    by_cases hs1 : s1 = DS_OK
    swap
    · rw [if_pos hs1] at h
      simp only [Option.some.injEq, Prod.mk.injEq] at h
      rw [← h.2]
      exact hra
    rw [if_neg (not_not.mpr hs1)] at h
    rcases hp : prc_delete r1 with ⟨s2, r2⟩
    rw [hp] at h
    simp only at h
    by_cases hs2 : s2 = DS_OK
    swap
    · rw [if_pos hs2] at h
      simp only [Option.some.injEq, Prod.mk.injEq] at h
      rw [← h.2]
      exact hra
    rw [if_neg (not_not.mpr hs2)] at h
    have := ih _ d1 r2 st dar1 hra.1 h
    exact ⟨this.1, by rw [this.2, hra.2]⟩

theorem dar_call_inv (fuel : Nat) (c : DarCall) (dar : DynamicArray) (mem : Mem) (st : Status)
    (dar1 : DynamicArray) (mem1 : Mem) (h : dar.Inv)
    (hrun : c.run fuel dar mem = some (st, dar1, mem1)) :
    dar1.Inv ∧ dar.capacity ≤ dar1.capacity := by
  cases c with
  | insert_front v =>
    simp only [DarCall.run, Option.some.injEq] at hrun
    have := dar_insert_front_inv dar v mem h
    rw [hrun] at this
    exact this
  | insert_at v i =>
    simp only [DarCall.run, Option.some.injEq] at hrun
    have := dar_insert_at_inv dar v i mem h
    rw [hrun] at this
    exact this
  | insert_back v =>
    simp only [DarCall.run, Option.some.injEq] at hrun
    have := dar_insert_back_inv dar v mem h
    rw [hrun] at this
    exact this
  | remove_front r =>
    have := dar_remove_front_inv dar r mem h
    rcases hq : dar_remove_front dar r mem with ⟨s, d, r1⟩
    rw [hq] at this
    simp only [DarCall.run, hq, Option.some.injEq, Prod.mk.injEq] at hrun
    rw [← hrun.2.1]
    exact ⟨this.1, le_of_eq this.2.symm⟩
  | remove_at i r =>
    have := dar_remove_at_inv dar i r mem h
    rcases hq : dar_remove_at dar i r mem with ⟨s, d, r1⟩
    rw [hq] at this
    simp only [DarCall.run, hq, Option.some.injEq, Prod.mk.injEq] at hrun
    rw [← hrun.2.1]
    exact ⟨this.1, le_of_eq this.2.symm⟩
  | remove_back r =>
    have := dar_remove_back_inv dar r mem h
    rcases hq : dar_remove_back dar r mem with ⟨s, d, r1⟩
    rw [hq] at this
    simp only [DarCall.run, hq, Option.some.injEq, Prod.mk.injEq] at hrun
    rw [← hrun.2.1]
    exact ⟨this.1, le_of_eq this.2.symm⟩
  | remove_keys v =>
    simp only [DarCall.run] at hrun
    cases hq : dar_remove_keys fuel dar v mem with
    | none => rw [hq] at hrun; simp at hrun
    | some p =>
      obtain ⟨s, d⟩ := p
      rw [hq] at hrun
      simp only [Option.some.injEq, Prod.mk.injEq] at hrun
      rw [← hrun.2.1]
      unfold dar_remove_keys at hq
      by_cases he : dar_is_empty dar = true
      · rw [if_pos he] at hq
        simp only [Option.some.injEq, Prod.mk.injEq] at hq
        rw [← hq.2]
        exact ⟨h, le_refl _⟩
      · rw [if_neg he] at hq
        have := dar_remove_keys_loop_inv v mem fuel 0 dar mem.junkp s d h hq
        exact ⟨this.1, le_of_eq this.2.symm⟩
  | realloc =>
    simp only [DarCall.run, Option.some.injEq] at hrun
    have := dar_realloc_inv dar mem h
    rw [hrun] at this
    exact ⟨this.1, this.2.2.1⟩

theorem dar_calls_inv (fuel : Nat) :
    ∀ (calls : List DarCall) (dar : DynamicArray) (mem : Mem) (dar1 : DynamicArray)
      (mem1 : Mem), dar.Inv → dar_calls fuel calls dar mem = some (dar1, mem1) →
      dar1.Inv ∧ dar.capacity ≤ dar1.capacity := by
  intro calls
  induction calls with
  | nil =>
    intro dar mem dar1 mem1 h hrun
    simp only [dar_calls, Option.some.injEq, Prod.mk.injEq] at hrun
    rw [← hrun.1]
    exact ⟨h, le_refl _⟩
  | cons c cs ih =>
    intro dar mem dar1 mem1 h hrun
    rw [dar_calls] at hrun
    cases hq : c.run fuel dar mem with
    | none => rw [hq] at hrun; simp at hrun
    | some p =>
      obtain ⟨s, d, m⟩ := p
      rw [hq] at hrun
      simp only at hrun
      have h1 := dar_call_inv fuel c dar mem s d m h hq
      have h2 := ih d m dar1 mem1 h1.1 hrun
      exact ⟨h2.1, le_trans h1.2 h2.2⟩

theorem dar_remove_at_size (dar : DynamicArray) (i : Nat) (r : Option Process) (mem : Mem)
    (h : (dar_remove_at dar i r mem).1 = DS_OK) :
    (dar_remove_at dar i r mem).2.1.size + 1 = dar.size ∧ i < dar.size := by
  unfold dar_remove_at at h ⊢
  by_cases he : dar_is_empty dar = true
  · rw [if_pos he] at h
    simp at h
  rw [if_neg he] at h ⊢
  have hne : dar.size ≠ 0 := by simpa [dar_is_empty] using he
  by_cases hge : i ≥ dar.size
  · rw [if_pos hge] at h
    simp at h
  rw [if_neg hge]
  refine ⟨?_, by omega⟩
  by_cases h0 : i = 0
  · rw [if_pos h0]
    simp only [dar_remove_front, he, Bool.false_eq_true, if_false, ne_eq, not_true_eq_false]
    omega
  rw [if_neg h0]
  by_cases h1 : i = dar.size - 1
  · rw [if_pos h1]
    simp only [dar_remove_back, he, Bool.false_eq_true, if_false, ne_eq, not_true_eq_false]
    omega
  rw [if_neg h1]
  simp only
  omega

theorem dar_remove_keys_loop_total (value : Option Process) (mem : Mem) :
    ∀ (fuel i : Nat) (dar : DynamicArray) (r : Option Process), i ≤ dar.size →
      dar.size < SIZE_MOD → 2 * dar.size + 1 ≤ fuel + i →
      ∃ res, dar_remove_keys_loop value mem fuel i dar r = some res := by
  intro fuel
  induction fuel with
  | zero => intro i dar r hi _ hf; omega
  | succ f ih =>
    intro i dar r hi hsz hf
    rw [dar_remove_keys_loop]
    by_cases hlt : i < dar.size
    swap
    · rw [if_neg hlt]; exact ⟨_, rfl⟩
    rw [if_pos hlt]
    by_cases hc : prc_compare (dar.buffer.getD i mem.junkp) value = 0
    swap
    · rw [if_neg hc, size_t_inc i (by omega)]
      exact ih (i + 1) dar r (by omega) hsz (by omega)
    rw [if_pos hc]
    have hra := dar_remove_at_size dar i r mem
    rcases hq : dar_remove_at dar i r mem with ⟨s1, d1, r1⟩
    rw [hq] at hra
    simp only at hra ⊢
    by_cases hs1 : s1 = DS_OK
    swap
    · rw [if_pos hs1]; exact ⟨_, rfl⟩
    rw [if_neg (not_not.mpr hs1)]
    obtain ⟨hsize, _⟩ := hra hs1
    rcases hp : prc_delete r1 with ⟨s2, r2⟩
    simp only
    by_cases hs2 : s2 = DS_OK
    swap
    · rw [if_pos hs2]; exact ⟨_, rfl⟩
    rw [if_neg (not_not.mpr hs2), size_t_dec_inc i (by omega)]
    exact ih i d1 r2 (by omega) (by omega) (by omega)

theorem dar_call_total (fuel : Nat) (c : DarCall) (dar : DynamicArray) (mem : Mem)
    (hsz : dar.size < SIZE_MOD) (hfuel : 2 * dar.size + 1 ≤ fuel) :
    ∃ r, c.run fuel dar mem = some r := by
  cases c with
  | insert_front v => exact ⟨_, rfl⟩
  | insert_at v i => exact ⟨_, rfl⟩
  | insert_back v => exact ⟨_, rfl⟩
  | remove_front r => exact ⟨_, rfl⟩
  | remove_at i r => exact ⟨_, rfl⟩
  | remove_back r => exact ⟨_, rfl⟩
  | remove_keys v =>
    simp only [DarCall.run, dar_remove_keys]
    by_cases he : dar_is_empty dar = true
    · rw [if_pos he]
      exact ⟨_, rfl⟩
    · rw [if_neg he]
      obtain ⟨res, hres⟩ :=
        dar_remove_keys_loop_total v mem fuel 0 dar mem.junkp (Nat.zero_le _) hsz (by omega)
      rw [hres]
      exact ⟨_, rfl⟩
  | realloc => exact ⟨_, rfl⟩

/-- C22: length/capacity invariant of the table. Every table reached from `dar_init` by a
sequence of `dar_insert_front`, `dar_insert_at`, `dar_insert_back`, `dar_remove_front`,
`dar_remove_at`, `dar_remove_back`, `dar_remove_keys` and `dar_realloc` calls, whatever status
each call returns, has `size ≤ capacity`, a capacity of the form `8 * 2^k` and growth rate 2;
and the capacity of a table reached later from it is not smaller. Every further call on such
a table returns a status when the budget is at least `2 * size + 1`. -/
theorem dar_length_capacity_invariant (fuel : Nat) (calls1 calls2 : List DarCall)
    (mem0 mem1 mem2 mem3 : Mem) (dar0 dar1 dar2 : DynamicArray)
    (hinit : dar_init mem0 = (DS_OK, some dar0, mem1))
    (hrun1 : dar_calls fuel calls1 dar0 mem1 = some (dar1, mem2))
    (hrun2 : dar_calls fuel calls2 dar1 mem2 = some (dar2, mem3)) :
    dar1.size ≤ dar1.capacity ∧ (∃ k, dar1.capacity = 8 * 2 ^ k) ∧ dar1.growth_rate = 2 ∧
    dar1.capacity ≤ dar2.capacity ∧
    ∀ (c : DarCall) (mem : Mem), dar1.size < SIZE_MOD → 2 * dar1.size + 1 ≤ fuel →
      ∃ r, c.run fuel dar1 mem = some r := by
  obtain ⟨h0, h1, h2, _⟩ := dar_init_ok mem0 mem1 dar0 hinit
  have hinv0 : dar0.Inv := ⟨by omega, ⟨0, by omega⟩, h2⟩
  obtain ⟨hinv1, _⟩ := dar_calls_inv fuel calls1 dar0 mem1 dar1 mem2 hinv0 hrun1
  obtain ⟨_, hle⟩ := dar_calls_inv fuel calls2 dar1 mem2 dar2 mem3 hinv1 hrun2
  exact ⟨hinv1.1, hinv1.2.1, hinv1.2.2, hle,
    fun c mem hsz hfuel => dar_call_total fuel c dar1 mem hsz hfuel⟩

/-- C22 at a fresh table on which `nine_calls` are made, the first `dar_realloc` being
refused, and then `four_calls`, two of which fail on the emptied table. -/
theorem dar_length_capacity_invariant_witness :
    dar_init (mem_refusing 2 1) = (DS_OK, some dar_empty, mem_refusing 0 1) ∧
    dar_calls 4 nine_calls dar_empty (mem_refusing 0 1) = some (dar_nine_calls, mem_ok) ∧
    dar_calls 4 four_calls dar_nine_calls mem_ok = some (dar_four_calls, mem_ok) ∧
    (DarCall.run 4 .realloc dar_empty (mem_refusing 0 1)).map (fun r => r.1) =
      some DS_ERR_ALLOC ∧
    dar_nine_calls.size ≤ dar_nine_calls.capacity ∧
    (∃ k, dar_nine_calls.capacity = 8 * 2 ^ k) ∧ dar_nine_calls.growth_rate = 2 ∧
    dar_nine_calls.capacity ≤ dar_four_calls.capacity ∧
    ∀ (c : DarCall) (mem : Mem), dar_nine_calls.size < SIZE_MOD →
      2 * dar_nine_calls.size + 1 ≤ 4 → ∃ r, c.run 4 dar_nine_calls mem = some r :=
  ⟨by rfl, by rfl, by rfl, by rfl,
    dar_length_capacity_invariant 4 nine_calls four_calls (mem_refusing 2 1) (mem_refusing 0 1)
      mem_ok mem_ok dar_empty dar_nine_calls dar_four_calls (by rfl) (by rfl) (by rfl)⟩

/-! ## Claim C30 -/

theorem cons_set_perm {α : Type} (junk : α) :
    ∀ (t : List α) (m : Nat) (x : α), m < t.length →
      (t.getD m junk :: t.set m x).Perm (x :: t) := by
  intro t
  induction t with
  | nil => intro m x h; simp at h
  | cons y t ih =>
    intro m x h
    cases m with
    | zero => exact List.Perm.swap x y t
    | succ m =>
      have h1 : m < t.length := by simpa using h
      have := ih m x h1
      simp only [List.getD_cons_succ, List.set_cons_succ]
      exact ((List.Perm.swap y (t.getD m junk) (t.set m x)).trans (this.cons y)).trans
        (List.Perm.swap x y t)

theorem swap_perm {α : Type} (junk : α) :
    ∀ (l : List α) (i m : Nat), i ≤ m → m < l.length →
      ((l.set m (l.getD i junk)).set i (l.getD m junk)).Perm l := by
  intro l
  induction l with
  | nil => intro i m _ h; simp at h
  | cons x t ih =>
    intro i m him hm
    cases i with
    | zero =>
      cases m with
      | zero => simp
      | succ m =>
        have h1 : m < t.length := by simpa using hm
        simp only [List.getD_cons_zero, List.getD_cons_succ, List.set_cons_succ,
          List.set_cons_zero]
        exact cons_set_perm junk t m x h1
    | succ i =>
      cases m with
      | zero => omega
      | succ m =>
        have h1 : m < t.length := by simpa using hm
        simp only [List.getD_cons_succ, List.set_cons_succ]
        exact (ih i m (by omega) h1).cons x

theorem swap_getD {α : Type} (junk : α) (l : List α) (i m t : Nat) (hi : i < l.length)
    (hm : m < l.length) :
    ((l.set m (l.getD i junk)).set i (l.getD m junk)).getD t junk =
      if t = i then l.getD m junk else if t = m then l.getD i junk else l.getD t junk := by
  by_cases h1 : t = i
  · subst h1
    rw [if_pos rfl, List.getD_eq_getElem?_getD,
      List.getElem?_set_self (by rw [List.length_set]; exact hi)]
    rfl
  · rw [if_neg h1, List.getD_eq_getElem?_getD, List.getElem?_set_ne (fun h => h1 h.symm)]
    by_cases h2 : t = m
    · subst h2
      rw [if_pos rfl, List.getElem?_set_self hm]
      rfl
    · rw [if_neg h2, List.getElem?_set_ne (fun h => h2 h.symm), ← List.getD_eq_getElem?_getD]

theorem sort_selection_inner_spec (junk : Option Process) (a : List (Option Process))
    (n i : Nat) (hrec : ∀ t, t < n → ∃ p, a.getD t junk = some p) :
    ∀ (k j m : Nat), j + k = n → i ≤ m → m < j →
      (∀ t, i ≤ t → t < j → slot_pid (a.getD t junk) ≤ slot_pid (a.getD m junk)) →
      i ≤ sort_selection_inner junk a n k j m ∧ sort_selection_inner junk a n k j m < n ∧
      ∀ t, i ≤ t → t < n →
        slot_pid (a.getD t junk) ≤
          slot_pid (a.getD (sort_selection_inner junk a n k j m) junk) := by
  intro k
  induction k with
  | zero =>
    intro j m hj him hmj hmax
    have : j = n := by omega
    subst this
    exact ⟨him, hmj, hmax⟩
  | succ k ih =>
    intro j m hj him hmj hmax
    have hjn : j < n := by omega
    obtain ⟨pj, hpj⟩ := hrec j hjn
    obtain ⟨pm, hpm⟩ := hrec m (by omega)
    unfold sort_selection_inner
    rw [if_pos hjn, hpj, hpm]
    by_cases hc : prc_compare (some pj) (some pm) > 0
    · rw [if_pos hc]
      have hgt := (prc_compare_pos_iff pj pm).mp hc
      refine ih (j + 1) j (by omega) (by omega) (by omega) ?_
      intro t hit htj
      rw [hpj]
      by_cases htj2 : t = j
      · rw [htj2, hpj]
      · have := hmax t hit (by omega)
        rw [hpm] at this
        simp only [slot_pid] at this ⊢
        omega
    · rw [if_neg hc]
      have hle : ¬ pj.pid > pm.pid := fun h => hc ((prc_compare_pos_iff pj pm).mpr h)
      refine ih (j + 1) m (by omega) him (by omega) ?_
      intro t hit htj
      by_cases htj2 : t = j
      · rw [htj2, hpj, hpm]
        simp only [slot_pid]
        omega
      · exact hmax t hit (by omega)

theorem sort_selection_outer_spec (junk : Option Process) (n : Nat)
    (input : List (Option Process)) (hin : ∀ e ∈ input, e ≠ none) :
    ∀ (k i : Nat) (a : List (Option Process)), i + k = n - 1 → a.length = n → a.Perm input →
      (∀ s t, s < i → s < t → t < n →
        slot_pid (a.getD t junk) ≤ slot_pid (a.getD s junk)) →
      (sort_selection_outer junk n k i a).Perm input ∧
      ∀ s t, s < n - 1 → s < t → t < n →
        slot_pid ((sort_selection_outer junk n k i a).getD t junk) ≤
          slot_pid ((sort_selection_outer junk n k i a).getD s junk) := by
  intro k
  induction k with
  | zero =>
    intro i a hi hlen hperm hsorted
    have : i = n - 1 := by omega
    subst this
    exact ⟨hperm, hsorted⟩
  | succ k ih =>
    intro i a hi hlen hperm hsorted
    have hin1 : i < n - 1 := by omega
    have hrec : ∀ t, t < n → ∃ p, a.getD t junk = some p := by
      intro t ht
      have hmem : a.getD t junk ∈ a := by
        rw [List.getD_eq_getElem?_getD, List.getElem?_eq_getElem (by omega)]
        exact List.getElem_mem _
      have hne := hin _ (hperm.subset hmem)
      cases h : a.getD t junk with
      | none => exact absurd h hne
      | some p => exact ⟨p, rfl⟩
    obtain ⟨hm1, hm2, hm3⟩ :=
      sort_selection_inner_spec junk a n i hrec (n - (i + 1)) (i + 1) i (by omega) (le_refl _)
        (by omega) (fun t h1 h2 => by have : t = i := by omega
                                      rw [this])
    unfold sort_selection_outer
    rw [if_pos hin1]
    simp only
    obtain ⟨m, hm⟩ : ∃ m, m = sort_selection_inner junk a n (n - (i + 1)) (i + 1) i := ⟨_, rfl⟩
    rw [← hm] at hm1 hm2 hm3 ⊢
    have hi_lt : i < a.length := by omega
    have hm_lt : m < a.length := by omega
    refine ih (i + 1) _ (by omega) (by simp [hlen]) ((swap_perm junk a i m hm1 hm_lt).trans hperm)
      ?_
    intro s t hs hst htn
    rw [swap_getD junk a i m t hi_lt hm_lt, swap_getD junk a i m s hi_lt hm_lt]
    by_cases hsi : s = i
    · rw [if_pos hsi, if_neg (show ¬ t = i by omega)]
      split
      · exact hm3 i (le_refl _) (by omega)
      · exact hm3 t (by omega) htn
    · have hs2 : s < i := by omega
      rw [if_neg hsi, if_neg (show ¬ s = m by omega)]
      by_cases hti : t = i
      · rw [if_pos hti]
        exact hsorted s m hs2 (by omega) hm2
      · rw [if_neg hti]
        split
        · exact hsorted s i hs2 (by omega) (by omega)
        · exact hsorted s t hs2 hst htn

/-- C30: `sort_selection_array_dar` sorts in descending order of pid. With `arr_size < 2` it
returns `DS_ERR_INVALID_SIZE` and leaves the array as it was. On an array of
`arr_size ≥ 2` records (no `NULL` element) it returns `DS_OK` and leaves a permutation of the
input in which every element has a pid greater than or equal to the pid of its successor. -/
theorem sort_selection_descending (array : List (Option Process)) (arr_size : Nat) (mem : Mem)
    (hlen : array.length = arr_size) (hrec : ∀ e ∈ array, e ≠ none) :
    (arr_size < 2 → sort_selection_array_dar array arr_size mem = (DS_ERR_INVALID_SIZE, array)) ∧
    (2 ≤ arr_size → ∃ out, sort_selection_array_dar array arr_size mem = (DS_OK, out) ∧
      out.Perm array ∧ out.length = arr_size ∧ (∀ e ∈ out, e ≠ none) ∧
      ∀ i p q, out[i]? = some (some p) → out[i + 1]? = some (some q) → p.pid ≥ q.pid) := by
  constructor
  · intro h
    unfold sort_selection_array_dar
    rw [if_pos h]
  · intro h
    obtain ⟨hperm, hsorted⟩ :=
      sort_selection_outer_spec mem.junkp arr_size array hrec (arr_size - 1) 0 array (by omega)
        hlen (List.Perm.refl _) (fun s t hs => by omega)
    refine ⟨sort_selection_outer mem.junkp arr_size (arr_size - 1) 0 array, ?_, hperm,
      by rw [hperm.length_eq, hlen], fun e he => hrec e (hperm.subset he), ?_⟩
    · unfold sort_selection_array_dar
      rw [if_neg (by omega)]
    · intro i p q hp hq
      have hlt : i + 1 < (sort_selection_outer mem.junkp arr_size (arr_size - 1) 0 array).length := by
        by_contra hge
        rw [List.getElem?_eq_none (by omega)] at hq
        exact absurd hq (by simp)
      rw [hperm.length_eq, hlen] at hlt
      have := hsorted i (i + 1) (by omega) (by omega) hlt
      rw [List.getD_eq_getElem?_getD, List.getD_eq_getElem?_getD, hp, hq] at this
      exact this

/-- C30 at the array of the records with pids 1, 3, 2, 3: the result holds the pids
3, 3, 2, 1, in descending order. -/
theorem sort_selection_descending_witness :
    sort_selection_array_dar [prc_a 1, prc_a 3, prc_a 2, prc_a 3] 4 mem_ok =
      (DS_OK, [prc_a 3, prc_a 3, prc_a 2, prc_a 1]) ∧
    sort_selection_array_dar [prc_a 1] 1 mem_ok = (DS_ERR_INVALID_SIZE, [prc_a 1]) ∧
    (4 < 2 → sort_selection_array_dar [prc_a 1, prc_a 3, prc_a 2, prc_a 3] 4 mem_ok =
      (DS_ERR_INVALID_SIZE, [prc_a 1, prc_a 3, prc_a 2, prc_a 3])) ∧
    (2 ≤ 4 → ∃ out, sort_selection_array_dar [prc_a 1, prc_a 3, prc_a 2, prc_a 3] 4 mem_ok =
        (DS_OK, out) ∧
      out.Perm [prc_a 1, prc_a 3, prc_a 2, prc_a 3] ∧ out.length = 4 ∧ (∀ e ∈ out, e ≠ none) ∧
      ∀ i p q, out[i]? = some (some p) → out[i + 1]? = some (some q) → p.pid ≥ q.pid) :=
  ⟨by rfl, by rfl,
    sort_selection_descending [prc_a 1, prc_a 3, prc_a 2, prc_a 3] 4 mem_ok rfl (by decide)⟩

/-! ## Claim C21 -/

theorem str_stored_wf (s : CString) (B : List CChar) (len1 : Nat) (hwf : s.WF)
    (hB : B.length = s.buffer.length) (hlen : len1 < s.capacity) :
    CString.WF ⟨B.set len1 0, len1, s.capacity, s.growth_rate⟩ := by
  refine ⟨?_, hlen, ?_, hwf.rate⟩
  · simp only [List.length_set]
    rw [hB]
    exact hwf.cap
  · simp only
    rw [List.getElem?_set_self (by rw [hB, hwf.cap]; exact hlen)]

theorem str_realloc_wf (s : CString) (mem : Mem) (hwf : s.WF) :
    (str_realloc s mem).2.1.WF ∧ (str_realloc s mem).2.1.len = s.len ∧
    ((str_realloc s mem).1 = DS_OK → (str_realloc s mem).2.1.capacity = s.capacity * 2) := by
  obtain ⟨hcap, hroom, hmark, hrate⟩ := hwf
  have hr2 : s.growth_rate = 2 := hrate
  unfold str_realloc
  rcases mem.request with ⟨ok, m1⟩
  cases ok
  · refine ⟨⟨?_, ?_, hmark, hrate⟩, rfl, fun h => by simp at h⟩
    · show s.buffer.length = s.capacity * s.growth_rate / s.growth_rate
      rw [hr2]; omega
    · show s.len < s.capacity * s.growth_rate / s.growth_rate
      rw [hr2]; omega
  · have hl : (realloc_slots mem.junkc s.buffer (s.capacity * s.growth_rate)).length =
        s.capacity * s.growth_rate :=
      realloc_slots_length _ _ _ (by rw [hcap, hr2]; omega)
    refine ⟨⟨?_, ?_, ?_, hrate⟩, rfl, fun _ => ?_⟩
    · show ((realloc_slots mem.junkc s.buffer (s.capacity * s.growth_rate)).set s.len 0).length =
        s.capacity * s.growth_rate
      rw [List.length_set, hl]
    · show s.len < s.capacity * s.growth_rate
      rw [hr2]; omega
    · show ((realloc_slots mem.junkc s.buffer (s.capacity * s.growth_rate)).set s.len 0)[s.len]? =
        some 0
      rw [List.getElem?_set_self (by rw [hl, hr2]; omega)]
    · show s.capacity * s.growth_rate = s.capacity * 2
      rw [hr2]

theorem str_grown_wf (s : CString) (mem : Mem) (hwf : s.WF) (st : Status) (s1 : CString)
    (mem1 : Mem)
    (hg : (if str_buffer_full s then str_realloc s mem else (DS_OK, s, mem)) = (st, s1, mem1)) :
    s1.WF ∧ s1.len = s.len ∧ (st = DS_OK → s1.len + 1 < s1.capacity) := by
  by_cases hfull : str_buffer_full s = true
  · rw [if_pos hfull] at hg
    obtain ⟨hw, hl, hok⟩ := str_realloc_wf s mem hwf
    rw [hg] at hw hl hok
    simp only at hw hl hok
    refine ⟨hw, hl, fun hst => ?_⟩
    have := hok hst
    have := hwf.room
    omega
  · rw [if_neg hfull] at hg
    simp only [Prod.mk.injEq] at hg
    obtain ⟨_, rfl, _⟩ := hg
    have : ¬ (s.len + 1 ≥ s.capacity) := by simpa [str_buffer_full] using hfull
    exact ⟨hwf, rfl, fun _ => by omega⟩

theorem str_char_stored_wf (s : CString) (mem : Mem) (hwf : s.WF)
    (f : CString → List CChar) (hf : ∀ s1, (f s1).length = s1.buffer.length)
    (r : Status × CString × Mem)
    (hr : r = (match (if str_buffer_full s then str_realloc s mem else (DS_OK, s, mem)) with
      | (st, s1, mem1) =>
        if st ≠ DS_OK then (st, s1, mem1)
        else (DS_OK, { s1 with buffer := (f s1).set (s1.len + 1) 0, len := s1.len + 1 }, mem1))) :
    r.2.1.WF := by
  rcases hg : (if str_buffer_full s then str_realloc s mem else (DS_OK, s, mem)) with
    ⟨st, s1, mem1⟩
  obtain ⟨hw, hl, hok⟩ := str_grown_wf s mem hwf st s1 mem1 hg
  rw [hg] at hr
  simp only at hr
  by_cases hst : st = DS_OK
  · rw [if_neg (not_not.mpr hst)] at hr
    rw [hr]
    exact str_stored_wf s1 (f s1) (s1.len + 1) hw (hf s1) (hok hst)
  · rw [if_pos hst] at hr
    rw [hr]
    exact hw

theorem str_push_char_front_wf (s : CString) (ch : CChar) (mem : Mem) (hwf : s.WF) :
    (str_push_char_front s ch mem).2.1.WF :=
  str_char_stored_wf s mem hwf (fun s1 => (shift_up_loop mem.junkc 0 s1.len s1.buffer).set 0 ch)
    (fun s1 => by rw [List.length_set, shift_up_loop_length]) _ rfl

theorem str_push_char_back_wf (s : CString) (ch : CChar) (mem : Mem) (hwf : s.WF) :
    (str_push_char_back s ch mem).2.1.WF :=
  str_char_stored_wf s mem hwf (fun s1 => s1.buffer.set s1.len ch)
    (fun s1 => by rw [List.length_set]) _ rfl

theorem str_push_char_at_wf (s : CString) (ch : CChar) (i : Nat) (mem : Mem) (hwf : s.WF) :
    (str_push_char_at s ch i mem).2.1.WF := by
  unfold str_push_char_at
  by_cases hgt : i > s.len
  · rw [if_pos hgt]
    exact hwf
  rw [if_neg hgt]
  by_cases h0 : i = 0
  · rw [if_pos h0]
    have := str_push_char_front_wf s ch mem hwf
    rcases hq : str_push_char_front s ch mem with ⟨st, s1, m1⟩
    rw [hq] at this
    simp only at this ⊢
    split <;> exact this
  rw [if_neg h0]
  by_cases h1 : i = s.len
  · rw [if_pos h1]
    have := str_push_char_front_wf s ch mem hwf
    rcases hq : str_push_char_front s ch mem with ⟨st, s1, m1⟩
    rw [hq] at this
    simp only at this ⊢
    split <;> exact this
  rw [if_neg h1]
  exact str_char_stored_wf s mem hwf
    (fun s1 => (shift_up_loop mem.junkc i s1.len s1.buffer).set i ch)
    (fun s1 => by rw [List.length_set, shift_up_loop_length]) _ rfl

theorem str_fit_loop_wf (k : Nat) :
    ∀ (fuel : Nat) (s : CString) (mem : Mem) (st : Status) (s1 : CString) (mem1 : Mem),
      s.WF → str_fit_loop k fuel s mem = some (st, s1, mem1) →
      s1.WF ∧ s1.len = s.len ∧ (st = DS_OK → s1.len + k < s1.capacity) := by
  intro fuel
  induction fuel with
  | zero =>
    intro s mem st s1 mem1 _ h
    simp [str_fit_loop] at h
  | succ f ih =>
    intro s mem st s1 mem1 hwf h
    rw [str_fit_loop] at h
    by_cases hfit : str_buffer_fits s k = true
    · rw [hfit] at h
      simp only [Bool.not_true, Bool.false_eq_true, if_false, Option.some.injEq,
        Prod.mk.injEq] at h
      obtain ⟨rfl, rfl, _⟩ := h
      have : s.len + k < s.capacity := by simpa [str_buffer_fits] using hfit
      exact ⟨hwf, rfl, fun _ => this⟩
    · have hfit2 : str_buffer_fits s k = false := by simpa using hfit
      rw [hfit2] at h
      simp only [Bool.not_false, if_true] at h
      obtain ⟨hw, hl, _⟩ := str_realloc_wf s mem hwf
      rcases hq : str_realloc s mem with ⟨st2, s2, m2⟩
      rw [hq] at h hw hl
      simp only at h hw hl
      by_cases hst : st2 = DS_OK
      · rw [if_neg (not_not.mpr hst)] at h
        obtain ⟨a, b, c⟩ := ih s2 m2 st s1 mem1 hw h
        exact ⟨a, by rw [b, hl], c⟩
      · rw [if_pos hst] at h
        simp only [Option.some.injEq, Prod.mk.injEq] at h
        obtain ⟨rfl, rfl, _⟩ := h
        exact ⟨hw, hl, fun h => absurd h hst⟩

theorem str_fitted_wf (k fuel : Nat) (s : CString) (mem : Mem) (hwf : s.WF)
    (f : CString → Option (List CChar))
    (hf : ∀ s1 B, f s1 = some B → B.length = s1.buffer.length)
    (r : Status × CString × Mem)
    (hr : (match str_fit_loop k fuel s mem with
      | none => none
      | some (st, s1, mem1) =>
        if st ≠ DS_OK then some (st, s1, mem1)
        else
          match f s1 with
          | none => none
          | some B =>
            some (DS_OK, { s1 with buffer := B.set (s1.len + k) 0, len := s1.len + k }, mem1)) =
      some r) :
    r.2.1.WF := by
  cases hq : str_fit_loop k fuel s mem with
  | none => rw [hq] at hr; simp at hr
  | some p =>
    obtain ⟨st, s1, mem1⟩ := p
    obtain ⟨hw, _, hok⟩ := str_fit_loop_wf k fuel s mem st s1 mem1 hwf hq
    rw [hq] at hr
    simp only at hr
    by_cases hst : st = DS_OK
    · rw [if_neg (not_not.mpr hst)] at hr
      cases hB : f s1 with
      | none => rw [hB] at hr; simp at hr
      | some B =>
        rw [hB] at hr
        simp only [Option.some.injEq] at hr
        rw [← hr]
        exact str_stored_wf s1 B (s1.len + k) hw (hf s1 B hB) (hok hst)
    · rw [if_pos hst] at hr
      simp only [Option.some.injEq] at hr
      rw [← hr]
      exact hw

theorem move_up_incl_loop_length (junk : CChar) (k stop : Nat) :
    ∀ (n : Nat) (buf buf1 : List CChar), move_up_incl_loop junk k stop n buf = some buf1 →
      buf1.length = buf.length := by
  intro n
  induction n with
  | zero =>
    intro buf buf1 h
    unfold move_up_incl_loop at h
    split at h
    · simp at h
    · simp only [Option.some.injEq] at h
      rw [← h]
  | succ n ih =>
    intro buf buf1 h
    unfold move_up_incl_loop at h
    split at h
    · rw [ih _ _ h, List.length_set]
    · simp only [Option.some.injEq] at h
      rw [← h]

theorem str_push_front_wf (fuel : Nat) (s : CString) (ch : List CChar) (mem : Mem)
    (r : Status × CString × Mem) (hwf : s.WF) (h : str_push_front fuel s ch mem = some r) :
    r.2.1.WF := by
  unfold str_push_front at h
  simp only at h
  by_cases h0 : str_len ch = 0
  · rw [if_pos h0] at h
    simp only [Option.some.injEq] at h
    rw [← h]
    exact hwf
  · rw [if_neg h0] at h
    exact str_fitted_wf (str_len ch) fuel s mem hwf
      (fun s1 => some (copy_loop mem.junkc ch (str_len ch) (str_len ch) 0 0
        (move_up_loop mem.junkc (str_len ch) s1.len s1.buffer)))
      (fun s1 B hB => by
        simp only [Option.some.injEq] at hB
        rw [← hB, copy_loop_length, move_up_loop_length]) r h

theorem str_push_back_wf (fuel : Nat) (s : CString) (ch : List CChar) (mem : Mem)
    (r : Status × CString × Mem) (hwf : s.WF) (h : str_push_back fuel s ch mem = some r) :
    r.2.1.WF := by
  unfold str_push_back at h
  simp only at h
  by_cases h0 : str_len ch = 0
  · rw [if_pos h0] at h
    simp only [Option.some.injEq] at h
    rw [← h]
    exact hwf
  · rw [if_neg h0] at h
    exact str_fitted_wf (str_len ch) fuel s mem hwf
      (fun s1 => some (copy_loop mem.junkc ch (str_len ch + s1.len) (str_len ch) s1.len 0
        s1.buffer))
      (fun s1 B hB => by
        simp only [Option.some.injEq] at hB
        rw [← hB, copy_loop_length]) r h

theorem str_passed_wf (r : Status × CString × Mem)
    (call : Option (Status × CString × Mem))
    (h : (match call with
      | none => none
      | some (st, str1, mem1) =>
        if st ≠ DS_OK then some (st, str1, mem1) else some (DS_OK, str1, mem1)) = some r)
    (hcall : ∀ p, call = some p → p.2.1.WF) :
    r.2.1.WF := by
  cases hq : call with
  | none => rw [hq] at h; simp at h
  | some p =>
    obtain ⟨st, s1, m1⟩ := p
    have := hcall _ hq
    rw [hq] at h
    simp only at h
    split at h <;>
    · simp only [Option.some.injEq] at h
      rw [← h]
      exact this

theorem str_push_at_wf (fuel : Nat) (s : CString) (ch : List CChar) (i : Nat) (mem : Mem)
    (r : Status × CString × Mem) (hwf : s.WF) (h : str_push_at fuel s ch i mem = some r) :
    r.2.1.WF := by
  unfold str_push_at at h
  by_cases hi0 : i = 0
  · rw [if_pos hi0] at h
    exact str_passed_wf r _ h (fun p hp => str_push_front_wf fuel s ch mem p hwf hp)
  rw [if_neg hi0] at h
  by_cases hi1 : i = s.len
  · rw [if_pos hi1] at h
    exact str_passed_wf r _ h (fun p hp => str_push_back_wf fuel s ch mem p hwf hp)
  rw [if_neg hi1] at h
  simp only at h
  by_cases h0 : str_len ch = 0
  · rw [if_pos h0] at h
    simp only [Option.some.injEq] at h
    rw [← h]
    exact hwf
  · rw [if_neg h0] at h
    exact str_fitted_wf (str_len ch) fuel s mem hwf
      (fun s1 => (move_up_incl_loop mem.junkc (str_len ch) i s1.len s1.buffer).map
        (fun buffer => copy_loop mem.junkc ch (i + str_len ch) (str_len ch) i 0 buffer))
      (fun s1 B hB => by
        have hB : (move_up_incl_loop mem.junkc (str_len ch) i s1.len s1.buffer).map
            (fun buffer => copy_loop mem.junkc ch (i + str_len ch) (str_len ch) i 0 buffer) =
            some B := hB
        cases hm : move_up_incl_loop mem.junkc (str_len ch) i s1.len s1.buffer with
        | none => rw [hm] at hB; simp at hB
        | some b =>
          rw [hm] at hB
          simp only [Option.map_some', Option.some.injEq] at hB
          rw [← hB, copy_loop_length, move_up_incl_loop_length _ _ _ _ _ _ hm]) r
      (by
        rw [← h]
        cases str_fit_loop (str_len ch) fuel s mem with
        | none => rfl
        | some p =>
          obtain ⟨st, s1, m1⟩ := p
          simp only
          split
          · rfl
          · cases move_up_incl_loop mem.junkc (str_len ch) i s1.len s1.buffer <;> rfl)

theorem str_prepend_wf (fuel : Nat) (s s2 : CString) (mem : Mem)
    (r : Status × CString × Mem) (hwf : s.WF) (h : str_prepend fuel s s2 mem = some r) :
    r.2.1.WF := by
  unfold str_prepend at h
  by_cases h0 : str_buffer_empty s2 = true
  · rw [if_pos h0] at h
    simp only [Option.some.injEq] at h
    rw [← h]
    exact hwf
  · rw [if_neg h0] at h
    exact str_fitted_wf s2.len fuel s mem hwf
      (fun s1 => some (copy_loop mem.junkc s2.buffer s2.len s2.len 0 0
        (move_up_loop mem.junkc s2.len s1.len s1.buffer)))
      (fun s1 B hB => by
        simp only [Option.some.injEq] at hB
        rw [← hB, copy_loop_length, move_up_loop_length]) r h

theorem str_append_wf (fuel : Nat) (s s2 : CString) (mem : Mem)
    (r : Status × CString × Mem) (hwf : s.WF) (h : str_append fuel s s2 mem = some r) :
    r.2.1.WF := by
  unfold str_append at h
  by_cases h0 : str_buffer_empty s2 = true
  · rw [if_pos h0] at h
    simp only [Option.some.injEq] at h
    rw [← h]
    exact hwf
  · rw [if_neg h0] at h
    exact str_fitted_wf s2.len fuel s mem hwf
      (fun s1 => some (copy_loop mem.junkc s2.buffer (s1.len + s2.len) s2.len s1.len 0
        s1.buffer))
      (fun s1 B hB => by
        simp only [Option.some.injEq] at hB
        rw [← hB, copy_loop_length]) r h

theorem str_add_wf (fuel : Nat) (s s2 : CString) (i : Nat) (mem : Mem)
    (r : Status × CString × Mem) (hwf : s.WF) (h : str_add fuel s s2 i mem = some r) :
    r.2.1.WF := by
  unfold str_add at h
  by_cases hi0 : i = 0
  · rw [if_pos hi0] at h
    exact str_passed_wf r _ h (fun p hp => str_prepend_wf fuel s s2 mem p hwf hp)
  rw [if_neg hi0] at h
  by_cases hi1 : i = s.len
  · rw [if_pos hi1] at h
    exact str_passed_wf r _ h (fun p hp => str_append_wf fuel s s2 mem p hwf hp)
  rw [if_neg hi1] at h
  exact str_fitted_wf s2.len fuel s mem hwf
    (fun s1 => (move_up_incl_loop mem.junkc s2.len i s1.len s1.buffer).map
      (fun buffer => copy_loop mem.junkc s2.buffer (i + s2.len) s2.len i 0 buffer))
    (fun s1 B hB => by
      have hB : (move_up_incl_loop mem.junkc s2.len i s1.len s1.buffer).map
          (fun buffer => copy_loop mem.junkc s2.buffer (i + s2.len) s2.len i 0 buffer) =
          some B := hB
      cases hm : move_up_incl_loop mem.junkc s2.len i s1.len s1.buffer with
      | none => rw [hm] at hB; simp at hB
      | some b =>
        rw [hm] at hB
        simp only [Option.map_some', Option.some.injEq] at hB
        rw [← hB, copy_loop_length, move_up_incl_loop_length _ _ _ _ _ _ hm]) r
    (by
      rw [← h]
      cases str_fit_loop s2.len fuel s mem with
      | none => rfl
      | some p =>
        obtain ⟨st, s1, m1⟩ := p
        simp only
        split
        · rfl
        · cases move_up_incl_loop mem.junkc s2.len i s1.len s1.buffer <;> rfl)

theorem str_pop_char_front_wf (s : CString) (mem : Mem) (hwf : s.WF) :
    (str_pop_char_front s mem).2.WF := by
  by_cases h0 : s.len = 0
  · rw [str_pop_char_front_empty s mem h0]
    exact hwf
  · rw [str_pop_char_front_nonempty s mem h0]
    exact str_stored_wf s _ (s.len - 1) hwf (shift_down_loop_length _ _ _ _ _)
      (by have := hwf.room; omega)

theorem str_pop_char_back_wf (s : CString) (hwf : s.WF) : (str_pop_char_back s).2.WF := by
  by_cases h0 : s.len = 0
  · have : str_pop_char_back s = (DS_ERR_INVALID_OPERATION, s) := by
      simp [str_pop_char_back, str_buffer_empty, h0]
    rw [this]
    exact hwf
  · rw [str_pop_char_back_nonempty s h0]
    exact str_stored_wf s _ (s.len - 1) hwf rfl (by have := hwf.room; omega)

theorem str_pop_char_at_wf (s : CString) (i : Nat) (mem : Mem) (hwf : s.WF) :
    (str_pop_char_at s i mem).2.WF := by
  unfold str_pop_char_at
  split
  · exact hwf
  split
  · exact hwf
  split
  · have := str_pop_char_front_wf s mem hwf
    rcases hq : str_pop_char_front s mem with ⟨st, s1⟩
    rw [hq] at this
    simp only at this ⊢
    split <;> exact this
  split
  · have := str_pop_char_back_wf s hwf
    rcases hq : str_pop_char_back s with ⟨st, s1⟩
    rw [hq] at this
    simp only at this ⊢
    split <;> exact this
  · exact str_stored_wf s _ (s.len - 1) hwf (shift_down_loop_length _ _ _ _ _)
      (by have := hwf.room; omega)

theorem str_clear_wf (s : CString) (hwf : s.WF) : (str_clear s).2.WF :=
  str_stored_wf s s.buffer 0 hwf rfl (by have := hwf.room; omega)

theorem str_call_wf (fuel : Nat) (c : StrCall) (s : CString) (mem : Mem)
    (r : Status × CString × Mem) (hwf : s.WF) (hrun : c.run fuel s mem = some r) :
    r.2.1.WF := by
  cases c with
  | push_char_front ch =>
    simp only [StrCall.run, Option.some.injEq] at hrun
    rw [← hrun]
    exact str_push_char_front_wf s ch mem hwf
  | push_char_at ch i =>
    simp only [StrCall.run, Option.some.injEq] at hrun
    rw [← hrun]
    exact str_push_char_at_wf s ch i mem hwf
  | push_char_back ch =>
    simp only [StrCall.run, Option.some.injEq] at hrun
    rw [← hrun]
    exact str_push_char_back_wf s ch mem hwf
  | push_front ch => exact str_push_front_wf fuel s ch mem r hwf hrun
  | push_at ch i => exact str_push_at_wf fuel s ch i mem r hwf hrun
  | push_back ch => exact str_push_back_wf fuel s ch mem r hwf hrun
  | prepend s2 => exact str_prepend_wf fuel s s2 mem r hwf hrun
  | add s2 i => exact str_add_wf fuel s s2 i mem r hwf hrun
  | append s2 => exact str_append_wf fuel s s2 mem r hwf hrun
  | pop_char_front =>
    simp only [StrCall.run, Option.some.injEq] at hrun
    rw [← hrun]
    exact str_pop_char_front_wf s mem hwf
  | pop_char_at i =>
    simp only [StrCall.run, Option.some.injEq] at hrun
    rw [← hrun]
    exact str_pop_char_at_wf s i mem hwf
  | pop_char_back =>
    simp only [StrCall.run, Option.some.injEq] at hrun
    rw [← hrun]
    exact str_pop_char_back_wf s hwf
  | clear =>
    simp only [StrCall.run, Option.some.injEq] at hrun
    rw [← hrun]
    exact str_clear_wf s hwf
  | realloc =>
    simp only [StrCall.run, Option.some.injEq] at hrun
    rw [← hrun]
    exact (str_realloc_wf s mem hwf).1

theorem str_calls_wf (fuel : Nat) :
    ∀ (calls : List StrCall) (s : CString) (mem : Mem) (s1 : CString) (mem1 : Mem),
      s.WF → str_calls fuel calls s mem = some (s1, mem1) → s1.WF := by
  intro calls
  induction calls with
  | nil =>
    intro s mem s1 mem1 hwf hrun
    simp only [str_calls, Option.some.injEq, Prod.mk.injEq] at hrun
    rw [← hrun.1]
    exact hwf
  | cons c cs ih =>
    intro s mem s1 mem1 hwf hrun
    rw [str_calls] at hrun
    by_cases hv : c.valid s = true
    · rw [if_pos hv] at hrun
      cases hq : c.run fuel s mem with
      | none => rw [hq] at hrun; simp at hrun
      | some p =>
        obtain ⟨st, s2, m2⟩ := p
        rw [hq] at hrun
        simp only at hrun
        exact ih s2 m2 s1 mem1 (str_call_wf fuel c s mem _ hwf hq) hrun
    · rw [if_neg hv] at hrun
      simp at hrun

theorem str_make_capacity_spec (length : Nat) :
    ∀ (fuel c r : Nat), str_make_capacity length fuel c = some r → length < r ∧ c ≤ r := by
  intro fuel
  induction fuel with
  | zero =>
    intro c r h
    simp [str_make_capacity] at h
  | succ f ih =>
    intro c r h
    rw [str_make_capacity] at h
    by_cases hc : c ≤ length
    · rw [if_pos hc] at h
      have := ih _ r h
      have h2 : c * STRING_GROW_RATE = c * 2 := rfl
      omega
    · rw [if_neg hc] at h
      simp only [Option.some.injEq] at h
      omega

theorem str_make_wf (fuel : Nat) (text : List CChar) (mem mem1 : Mem) (s : CString)
    (h : str_make fuel text mem = some (DS_OK, some s, mem1)) : s.WF := by
  unfold str_make at h
  simp only at h
  by_cases h0 : str_len text = 0
  · rw [if_pos h0] at h
    simp at h
  rw [if_neg h0] at h
  rcases str_init_status mem with ⟨s0, m0, hi, hw0, hl0⟩ | ⟨r0, m0, hi⟩
  swap
  · rw [hi] at h
    simp at h
  rw [hi] at h
  simp only [ne_eq, not_true_eq_false, if_false] at h
  by_cases hc : s0.capacity ≤ str_len text
  · rw [if_pos hc] at h
    cases hq : str_make_capacity (str_len text) fuel STRING_INIT_SIZE with
    | none => rw [hq] at h; simp at h
    | some nc =>
      obtain ⟨hnc1, hnc2⟩ := str_make_capacity_spec _ _ _ _ hq
      rw [hq] at h
      simp only at h
      rcases hr : m0.request with ⟨ok, m2⟩
      rw [hr] at h
      cases ok
      · simp at h
      · simp only [ne_eq, not_true_eq_false, if_false, Option.some.injEq, Prod.mk.injEq,
          true_and] at h
        rw [← h.1]
        have hlen : (realloc_slots mem.junkc s0.buffer nc).length = nc :=
          realloc_slots_length _ _ _ (by
            have h8 : s0.buffer.length = s0.capacity := hw0.cap
            have : s0.capacity ≤ nc := by omega
            omega)
        refine ⟨?_, hnc1, ?_, hw0.rate⟩
        · simp only [List.length_set, copy_loop_length]
          exact hlen
        · simp only
          rw [List.getElem?_set_self (by rw [copy_loop_length, hlen]; exact hnc1)]
  · rw [if_neg hc] at h
    simp only [ne_eq, not_true_eq_false, if_false, Option.some.injEq, Prod.mk.injEq,
      true_and] at h
    rw [← h.1]
    exact str_stored_wf s0 _ (str_len text) hw0 (copy_loop_length _ _ _ _ _ _ _) (by omega)

theorem str_fit_loop_total (k : Nat) :
    ∀ (fuel : Nat) (s : CString) (mem : Mem), s.WF → s.len + k + 1 - s.capacity < fuel →
      ∃ r, str_fit_loop k fuel s mem = some r := by
  intro fuel
  induction fuel with
  | zero => intro s mem _ h; omega
  | succ f ih =>
    intro s mem hwf hf
    rw [str_fit_loop]
    by_cases hfit : str_buffer_fits s k = true
    · rw [hfit]
      exact ⟨_, rfl⟩
    · have hfit2 : str_buffer_fits s k = false := by simpa using hfit
      have hlt : ¬ (s.len + k < s.capacity) := by simpa [str_buffer_fits] using hfit
      rw [hfit2]
      simp only [Bool.not_false, if_true]
      obtain ⟨hw, hl, hok⟩ := str_realloc_wf s mem hwf
      rcases hq : str_realloc s mem with ⟨st2, s2, m2⟩
      rw [hq] at hw hl hok
      simp only at hw hl hok ⊢
      by_cases hst : st2 = DS_OK
      · rw [if_neg (not_not.mpr hst)]
        have := hok hst
        have := hwf.room
        exact ih s2 m2 hw (by omega)
      · rw [if_pos hst]
        exact ⟨_, rfl⟩

theorem move_up_incl_loop_total (junk : CChar) (k stop : Nat) (hstop : 0 < stop) :
    ∀ (n : Nat) (buf : List CChar), ∃ b, move_up_incl_loop junk k stop n buf = some b := by
  intro n
  induction n with
  | zero =>
    intro buf
    unfold move_up_incl_loop
    rw [if_neg (by omega)]
    exact ⟨_, rfl⟩
  | succ n ih =>
    intro buf
    unfold move_up_incl_loop
    split
    · exact ih _
    · exact ⟨_, rfl⟩

theorem str_fitted_total (k fuel : Nat) (s : CString) (mem : Mem) (hwf : s.WF)
    (hfuel : s.len + k + 1 ≤ fuel) (f : CString → Option (List CChar))
    (hf : ∀ s1, ∃ B, f s1 = some B) :
    ∃ r, (match str_fit_loop k fuel s mem with
      | none => none
      | some (st, s1, mem1) =>
        if st ≠ DS_OK then some (st, s1, mem1)
        else
          match f s1 with
          | none => none
          | some B =>
            some (DS_OK, { s1 with buffer := B.set (s1.len + k) 0, len := s1.len + k }, mem1)) =
      some r := by
  have hroom := hwf.room
  obtain ⟨p, hp⟩ := str_fit_loop_total k fuel s mem hwf (by omega)
  obtain ⟨st, s1, mem1⟩ := p
  rw [hp]
  simp only
  split
  · exact ⟨_, rfl⟩
  · obtain ⟨B, hB⟩ := hf s1
    rw [hB]
    exact ⟨_, rfl⟩

theorem str_passed_total (call : Option (Status × CString × Mem)) (h : ∃ p, call = some p) :
    ∃ r, (match call with
      | none => none
      | some (st, str1, mem1) =>
        if st ≠ DS_OK then some (st, str1, mem1) else some (DS_OK, str1, mem1)) = some r := by
  obtain ⟨p, hp⟩ := h
  obtain ⟨st, s1, m1⟩ := p
  rw [hp]
  simp only
  split <;> exact ⟨_, rfl⟩

theorem str_push_front_total (fuel : Nat) (s : CString) (ch : List CChar) (mem : Mem)
    (hwf : s.WF) (hfuel : s.len + str_len ch + 1 ≤ fuel) :
    ∃ r, str_push_front fuel s ch mem = some r := by
  unfold str_push_front
  simp only
  by_cases h0 : str_len ch = 0
  · rw [if_pos h0]
    exact ⟨_, rfl⟩
  · rw [if_neg h0]
    exact str_fitted_total (str_len ch) fuel s mem hwf hfuel
      (fun s1 => some (copy_loop mem.junkc ch (str_len ch) (str_len ch) 0 0
        (move_up_loop mem.junkc (str_len ch) s1.len s1.buffer))) (fun s1 => ⟨_, rfl⟩)

theorem str_push_back_total (fuel : Nat) (s : CString) (ch : List CChar) (mem : Mem)
    (hwf : s.WF) (hfuel : s.len + str_len ch + 1 ≤ fuel) :
    ∃ r, str_push_back fuel s ch mem = some r := by
  unfold str_push_back
  simp only
  by_cases h0 : str_len ch = 0
  · rw [if_pos h0]
    exact ⟨_, rfl⟩
  · rw [if_neg h0]
    exact str_fitted_total (str_len ch) fuel s mem hwf hfuel
      (fun s1 => some (copy_loop mem.junkc ch (str_len ch + s1.len) (str_len ch) s1.len 0
        s1.buffer)) (fun s1 => ⟨_, rfl⟩)

theorem str_push_at_total (fuel : Nat) (s : CString) (ch : List CChar) (i : Nat) (mem : Mem)
    (hwf : s.WF) (hfuel : s.len + str_len ch + 1 ≤ fuel) :
    ∃ r, str_push_at fuel s ch i mem = some r := by
  unfold str_push_at
  by_cases hi0 : i = 0
  · rw [if_pos hi0]
    exact str_passed_total _ (str_push_front_total fuel s ch mem hwf hfuel)
  rw [if_neg hi0]
  by_cases hi1 : i = s.len
  · rw [if_pos hi1]
    exact str_passed_total _ (str_push_back_total fuel s ch mem hwf hfuel)
  rw [if_neg hi1]
  simp only
  by_cases h0 : str_len ch = 0
  · rw [if_pos h0]
    exact ⟨_, rfl⟩
  · rw [if_neg h0]
    obtain ⟨r, hr⟩ := str_fitted_total (str_len ch) fuel s mem hwf hfuel
      (fun s1 => (move_up_incl_loop mem.junkc (str_len ch) i s1.len s1.buffer).map
        (fun buffer => copy_loop mem.junkc ch (i + str_len ch) (str_len ch) i 0 buffer))
      (fun s1 => by
        obtain ⟨b, hb⟩ := move_up_incl_loop_total mem.junkc (str_len ch) i (by omega) s1.len
          s1.buffer
        exact ⟨copy_loop mem.junkc ch (i + str_len ch) (str_len ch) i 0 b,
          by simp only [hb, Option.map_some']⟩)
    refine ⟨r, ?_⟩
    rw [← hr]
    cases str_fit_loop (str_len ch) fuel s mem with
    | none => rfl
    | some p =>
      obtain ⟨st, s1, m1⟩ := p
      simp only
      split
      · rfl
      · cases move_up_incl_loop mem.junkc (str_len ch) i s1.len s1.buffer <;> rfl

theorem str_prepend_total (fuel : Nat) (s s2 : CString) (mem : Mem)
    (hwf : s.WF) (hfuel : s.len + s2.len + 1 ≤ fuel) :
    ∃ r, str_prepend fuel s s2 mem = some r := by
  unfold str_prepend
  by_cases h0 : str_buffer_empty s2 = true
  · rw [if_pos h0]
    exact ⟨_, rfl⟩
  · rw [if_neg h0]
    exact str_fitted_total s2.len fuel s mem hwf hfuel
      (fun s1 => some (copy_loop mem.junkc s2.buffer s2.len s2.len 0 0
        (move_up_loop mem.junkc s2.len s1.len s1.buffer))) (fun s1 => ⟨_, rfl⟩)

theorem str_append_total (fuel : Nat) (s s2 : CString) (mem : Mem)
    (hwf : s.WF) (hfuel : s.len + s2.len + 1 ≤ fuel) :
    ∃ r, str_append fuel s s2 mem = some r := by
  unfold str_append
  by_cases h0 : str_buffer_empty s2 = true
  · rw [if_pos h0]
    exact ⟨_, rfl⟩
  · rw [if_neg h0]
    exact str_fitted_total s2.len fuel s mem hwf hfuel
      (fun s1 => some (copy_loop mem.junkc s2.buffer (s1.len + s2.len) s2.len s1.len 0
        s1.buffer)) (fun s1 => ⟨_, rfl⟩)

theorem str_add_total (fuel : Nat) (s s2 : CString) (i : Nat) (mem : Mem)
    (hwf : s.WF) (hfuel : s.len + s2.len + 1 ≤ fuel) :
    ∃ r, str_add fuel s s2 i mem = some r := by
  unfold str_add
  by_cases hi0 : i = 0
  · rw [if_pos hi0]
    exact str_passed_total _ (str_prepend_total fuel s s2 mem hwf hfuel)
  rw [if_neg hi0]
  by_cases hi1 : i = s.len
  · rw [if_pos hi1]
    exact str_passed_total _ (str_append_total fuel s s2 mem hwf hfuel)
  rw [if_neg hi1]
  obtain ⟨r, hr⟩ := str_fitted_total s2.len fuel s mem hwf hfuel
    (fun s1 => (move_up_incl_loop mem.junkc s2.len i s1.len s1.buffer).map
      (fun buffer => copy_loop mem.junkc s2.buffer (i + s2.len) s2.len i 0 buffer))
    (fun s1 => by
      obtain ⟨b, hb⟩ := move_up_incl_loop_total mem.junkc s2.len i (by omega) s1.len s1.buffer
      exact ⟨copy_loop mem.junkc s2.buffer (i + s2.len) s2.len i 0 b,
        by simp only [hb, Option.map_some']⟩)
  refine ⟨r, ?_⟩
  rw [← hr]
  cases str_fit_loop s2.len fuel s mem with
  | none => rfl
  | some p =>
    obtain ⟨st, s1, m1⟩ := p
    simp only
    split
    · rfl
    · cases move_up_incl_loop mem.junkc s2.len i s1.len s1.buffer <;> rfl

theorem str_call_total (fuel : Nat) (c : StrCall) (s : CString) (mem : Mem) (hwf : s.WF)
    (hfuel : s.len + c.extent + 1 ≤ fuel) : ∃ r, c.run fuel s mem = some r := by
  cases c with
  | push_char_front ch => exact ⟨_, rfl⟩
  | push_char_at ch i => exact ⟨_, rfl⟩
  | push_char_back ch => exact ⟨_, rfl⟩
  | push_front ch => exact str_push_front_total fuel s ch mem hwf hfuel
  | push_at ch i => exact str_push_at_total fuel s ch i mem hwf hfuel
  | push_back ch => exact str_push_back_total fuel s ch mem hwf hfuel
  | prepend s2 => exact str_prepend_total fuel s s2 mem hwf hfuel
  | add s2 i => exact str_add_total fuel s s2 i mem hwf hfuel
  | append s2 => exact str_append_total fuel s s2 mem hwf hfuel
  | pop_char_front => exact ⟨_, rfl⟩
  | pop_char_at i => exact ⟨_, rfl⟩
  | pop_char_back => exact ⟨_, rfl⟩
  | clear => exact ⟨_, rfl⟩
  | realloc => exact ⟨_, rfl⟩

theorem str_make_capacity_total (length : Nat) :
    ∀ (fuel c : Nat), 0 < c → length + 1 - c < fuel →
      ∃ r, str_make_capacity length fuel c = some r := by
  intro fuel
  induction fuel with
  | zero => intro c _ h; omega
  | succ f ih =>
    intro c hc hf
    rw [str_make_capacity]
    by_cases hle : c ≤ length
    · rw [if_pos hle]
      have h2 : c * STRING_GROW_RATE = c * 2 := rfl
      exact ih _ (by omega) (by omega)
    · rw [if_neg hle]
      exact ⟨_, rfl⟩

theorem str_make_total (fuel : Nat) (text : List CChar) (mem : Mem)
    (hfuel : str_len text + 1 ≤ fuel) : ∃ r, str_make fuel text mem = some r := by
  unfold str_make
  simp only
  by_cases h0 : str_len text = 0
  · rw [if_pos h0]
    exact ⟨_, rfl⟩
  rw [if_neg h0]
  rcases str_init_status mem with ⟨s0, m0, hi, hw0, hl0⟩ | ⟨r0, m0, hi⟩
  swap
  · rw [hi]
    exact ⟨_, rfl⟩
  rw [hi]
  simp only [ne_eq, not_true_eq_false, if_false]
  by_cases hc : s0.capacity ≤ str_len text
  · rw [if_pos hc]
    obtain ⟨nc, hnc⟩ := str_make_capacity_total (str_len text) fuel STRING_INIT_SIZE
      (by decide) (show str_len text + 1 - 8 < fuel by omega)
    rw [hnc]
    simp only
    rcases m0.request with ⟨ok, m2⟩
    cases ok <;> exact ⟨_, rfl⟩
  · rw [if_neg hc]
    exact ⟨_, rfl⟩

/-- C21: end-marker invariant. Every String reached from `str_init` or `str_make` by a
sequence of calls of `str_push_char_front/at/back`, `str_push_front/at/back`, `str_prepend`,
`str_add`, `str_append` (indices within `[0, len]`), `str_pop_char_front/at/back`,
`str_clear` and `str_realloc`, whatever status each call returns, has `len + 1 ≤ capacity`
and `buffer[len] = '\0'`; the buffer has `capacity` slots. Every further call on such a String
returns a status when the budget of its growth loop is at least `len + 1` plus the number of
characters to insert, and `str_make` does with a budget above the length of its text. -/
theorem str_end_marker_invariant (fuel : Nat) (calls : List StrCall) (mem0 mem1 mem2 : Mem)
    (s0 s : CString)
    (hstart : str_init mem0 = (DS_OK, some s0, mem1) ∨
      ∃ text, str_make fuel text mem0 = some (DS_OK, some s0, mem1))
    (hrun : str_calls fuel calls s0 mem1 = some (s, mem2)) :
    s.len + 1 ≤ s.capacity ∧ s.buffer[s.len]? = some 0 ∧ s.buffer.length = s.capacity ∧
    (∀ (c : StrCall) (mem : Mem), s.len + c.extent + 1 ≤ fuel →
      ∃ r, c.run fuel s mem = some r) ∧
    (∀ (text : List CChar) (mem : Mem), str_len text + 1 ≤ fuel →
      ∃ r, str_make fuel text mem = some r) := by
  have hw0 : s0.WF := by
    rcases hstart with hi | ⟨text, hm⟩
    · rcases str_init_status mem0 with ⟨s1, m1, hi1, hw1, _⟩ | ⟨r1, m1, hi1⟩
      · rw [hi1] at hi
        simp only [Prod.mk.injEq, Option.some.injEq, true_and] at hi
        rw [← hi.1]
        exact hw1
      · rw [hi1] at hi
        simp at hi
    · exact str_make_wf fuel text mem0 mem1 s0 hm
  have hw := str_calls_wf fuel calls s0 mem1 s mem2 hw0 hrun
  exact ⟨hw.room, hw.marker, hw.cap, fun c mem hf => str_call_total fuel c s mem hw hf,
    fun text mem hf => str_make_total fuel text mem hf⟩

/-- C21 at the String that `str_make` builds from "hello world!", on which `eight_calls` are
made; the third call, a `str_prepend`, returns `DS_ERR_ALLOC`. -/
theorem str_end_marker_invariant_witness :
    str_make 5 (chars "hello world!".toList) (mem_refusing 3 1) =
      some (DS_OK, some str_hello, mem_refusing 0 1) ∧
    str_calls 5 eight_calls str_hello (mem_refusing 0 1) = some (str_eight_calls, mem_ok) ∧
    (StrCall.run 5 (.prepend str_ab)
      { buffer := chars "xhello world!ab".toList ++ [0], len := 15, capacity := 16,
        growth_rate := 2 } (mem_refusing 0 1)).map (fun r => r.1) = some DS_ERR_ALLOC ∧
    str_eight_calls.len + 1 ≤ str_eight_calls.capacity ∧
    str_eight_calls.buffer[str_eight_calls.len]? = some 0 ∧
    str_eight_calls.buffer.length = str_eight_calls.capacity ∧
    (∀ (c : StrCall) (mem : Mem), str_eight_calls.len + c.extent + 1 ≤ 5 →
      ∃ r, c.run 5 str_eight_calls mem = some r) ∧
    (∀ (text : List CChar) (mem : Mem), str_len text + 1 ≤ 5 →
      ∃ r, str_make 5 text mem = some r) :=
  ⟨by rfl, by rfl, by rfl,
    str_end_marker_invariant 5 eight_calls (mem_refusing 3 1) (mem_refusing 0 1) mem_ok
      str_hello str_eight_calls (Or.inr ⟨chars "hello world!".toList, by rfl⟩) (by rfl)⟩

end ProcessScheduling
